import Mathlib

/-!
# Hierarchical state machine engine (`hsp::HsmBase`, `hsp::Hsm`)

A shallow embedding of `include/hsm_state.h`, `include/hsm.h` and `src/hsm.cpp`.

* A state object is identified by the chain of super states it was constructed with
  (`HsmStateBase(HsmStateBase *const superState)`): `superState` is a `const` pointer, so the
  chain of a state never changes.  Several roots may exist; the states below one root form one
  tree.  The mutable field `historySubstate` of every state object is kept in the machine
  record as a map from states to optional states.
* User code is a parameter of the model.  The virtual `onEnter`/`onExit` only leave an entry in
  the callback trace (they do not call the engine).  `onInit` and the event handlers may call
  the protected engine operations (`transition`, `externalTransition`, `initialTransition`,
  `initialHistoryTransition`); they are given by the list of such calls they make, in order
  (and, for handlers, the returned `bool`).  An event of `Hsm::onEvent` is a callable applied to
  the visited state, so an `Event` is a function from states to reactions; `onInit` is a
  function from states to lists of calls.
* Every engine operation returns a `Run`: the callbacks it invoked, the machine it leaves, and
  either a value or the fault at which execution stopped (failed `assert`, null pointer
  dereference, write past `entry_path`).  Assertions are enabled.  The settling loop
  `while (true)` takes a fuel argument.
* The counter `to_lca` of `levelsToLCA` is a natural number: it is bounded by the length of a
  chain of state objects, far below the range of `unsigned`.
-/

namespace hsp

/-- A state object of the hierarchy: `root` is constructed with `nullptr` as super state,
`sub` with the address of its super state. -/
inductive HsmStateBase where
  | root (id : Nat)
  | sub (id : Nat) (superState : HsmStateBase)
  deriving DecidableEq, Repr

/-- The field `HsmStateBase *const superState`. -/
def HsmStateBase.superState : HsmStateBase → Option HsmStateBase
  | .root _ => none
  | .sub _ p => some p

/-- The callbacks the engine invokes on state objects; `onEvent` is the event handler
`HsmState<CONTEXT>::onEvent`. -/
inductive Callback where
  | onEnter (state : HsmStateBase)
  | onExit (state : HsmStateBase)
  | onInit (state : HsmStateBase)
  | onEvent (state : HsmStateBase)
  deriving DecidableEq, Repr

/-- The protected operations of `HsmBase` that user code (handlers, `onInit`) may call. -/
inductive Request where
  | transition (target : HsmStateBase)
  | externalTransition (target : HsmStateBase)
  | initialTransition (subState : HsmStateBase)
  | initialHistoryTransition (subState : HsmStateBase)
  deriving DecidableEq, Repr

/-- What one event handler does: the engine operations it calls, then the `bool` it returns. -/
structure Reaction where
  requests : List Request
  handled : Bool
  deriving DecidableEq, Repr

/-- An event: the callable that `Hsm::onEvent` applies to each visited state. -/
abbrev Event := HsmStateBase → Reaction

/-- The ways an engine operation stops without returning. `outOfFuel` is the only one that is
not a behaviour of the program: it marks a settling loop cut off by the fuel argument. -/
inductive Fault where
  | nullDereference
  | assertion
  | bufferOverflow
  | outOfFuel
  deriving DecidableEq, Repr

deriving instance DecidableEq for Except

/-- The data members of `HsmBase`, together with the `historySubstate` field of every state. -/
structure HsmBase where
  topState : HsmStateBase
  currentState : Option HsmStateBase
  nextState : Option HsmStateBase
  sourceState : Option HsmStateBase
  historySubstate : HsmStateBase → Option HsmStateBase

/-- The result of running an engine operation. -/
structure Run (α : Type) where
  trace : List Callback
  hsm : HsmBase
  result : Except Fault α

/-- Return normally without invoking a callback. -/
def Run.pure {α : Type} (a : α) (m : HsmBase) : Run α :=
  ⟨[], m, .ok a⟩

/-- Stop at a fault. -/
def Run.fail {α : Type} (f : Fault) (m : HsmBase) : Run α :=
  ⟨[], m, .error f⟩

/-- Callbacks invoked before the run `r`. -/
def Run.after {α : Type} (cbs : List Callback) (r : Run α) : Run α :=
  ⟨cbs ++ r.trace, r.hsm, r.result⟩

/-- Sequential composition: the continuation runs only when the first part returned. -/
def Run.bind {α β : Type} (r : Run α) (f : α → HsmBase → Run β) : Run β :=
  match r.result with
  | .ok a => Run.after r.trace (f a r.hsm)
  | .error e => ⟨r.trace, r.hsm, .error e⟩

/-- The statement `state->superState->historySubstate = state` for a state with super state
`p`. -/
def HsmBase.remember (m : HsmBase) (p state : HsmStateBase) : HsmBase :=
  { m with historySubstate := Function.update m.historySubstate p (some state) }

/-- A freshly constructed machine on freshly constructed states. -/
def HsmBase.new (topHsmState : HsmStateBase) : HsmBase :=
  ⟨topHsmState, none, none, none, fun _ => none⟩

/-- The inner loop of `levelsToLCA`: whether `state` is met walking from `stateTarget` up the
super states. -/
def onTargetChain (state : HsmStateBase) : HsmStateBase → Bool
  | .root i => state = .root i
  | .sub i p => state = .sub i p || onTargetChain state p

/-- The outer loop of `levelsToLCA`, entered at `state` with counter `to_lca`; the fall-through
`return 0` is the `root` case. -/
def levelsFrom (target : HsmStateBase) : HsmStateBase → Nat → Nat
  | .root i, to_lca => if onTargetChain (.root i) target then to_lca else 0
  | .sub i p, to_lca =>
    if onTargetChain (.sub i p) target then to_lca else levelsFrom target p (to_lca + 1)

/-- Function `HsmBase::levelsToLCA`. -/
def HsmBase.levelsToLCA (m : HsmBase) (target : HsmStateBase) : Nat :=
  match m.sourceState with
  | none => 0
  | some source => if source = target then 1 else levelsFrom target source 0

/-- The first loop of `exitUpToLCA`, `while (state != sourceState)`, entered at `state`. -/
def HsmBase.exitUpToSource (m : HsmBase) (state : HsmStateBase) : Run HsmStateBase :=
  if m.sourceState = some state then Run.pure state m
  else
    match state with
    | .root _ => Run.after [.onExit state] (Run.fail .nullDereference m)
    | .sub _ p => Run.after [.onExit state] (HsmBase.exitUpToSource (m.remember p state) p)

/-- The second loop of `exitUpToLCA`, `for (toLca = ...; toLca != 0; toLca--)`. -/
def HsmBase.exitLevels (m : HsmBase) : Nat → HsmStateBase → Run HsmStateBase
  | 0, state => Run.pure state m
  | toLca + 1, state =>
    match state with
    | .root _ => Run.after [.onExit state] (Run.fail .nullDereference m)
    | .sub _ p => Run.after [.onExit state] (HsmBase.exitLevels (m.remember p state) toLca p)

/-- Function `HsmBase::exitUpToLCA`. -/
def HsmBase.exitUpToLCA (m : HsmBase) (target : HsmStateBase) : Run Unit :=
  match m.currentState with
  | none =>
    if m.sourceState = none then Run.pure () m else Run.fail .nullDereference m
  | some current =>
    (m.exitUpToSource current).bind fun state m1 =>
      (m1.exitLevels (m1.levelsToLCA target) state).bind fun lca m2 =>
        Run.pure () { m2 with currentState := some lca }

/-- Function `HsmBase::transition`. -/
def HsmBase.transition (m : HsmBase) (targetState : HsmStateBase) : Run Unit :=
  if m.currentState = none then Run.fail .assertion m
  else
    (m.exitUpToLCA targetState).bind fun _ m1 =>
      Run.pure () { m1 with nextState := some targetState }

/-- Function `HsmBase::externalTransition`. -/
def HsmBase.externalTransition (m : HsmBase) (targetState : HsmStateBase) : Run Unit :=
  if m.currentState = none then Run.fail .assertion m
  else
    (m.exitUpToLCA targetState).bind fun _ m1 =>
      match m1.currentState with
      | none => Run.fail .nullDereference m1
      | some own =>
        Run.after [.onExit own, .onEnter own]
          (Run.pure () { m1 with nextState := some targetState })

/-- Function `HsmBase::initialTransition`. -/
def HsmBase.initialTransition (m : HsmBase) (subState : HsmStateBase) : Run Unit :=
  Run.pure () { m with nextState := some subState }

/-- Function `HsmBase::initialHistoryTransition`. -/
def HsmBase.initialHistoryTransition (m : HsmBase) (subState : HsmStateBase) : Run Unit :=
  match m.currentState with
  | none => Run.fail .nullDereference m
  | some current =>
    match m.historySubstate current with
    | some history => m.initialTransition history
    | none => m.initialTransition subState

/-- One call from user code into the engine. -/
def HsmBase.call (m : HsmBase) : Request → Run Unit
  | .transition t => m.transition t
  | .externalTransition t => m.externalTransition t
  | .initialTransition s => m.initialTransition s
  | .initialHistoryTransition s => m.initialHistoryTransition s

/-- The calls a callback makes, in order. -/
def HsmBase.calls (m : HsmBase) : List Request → Run Unit
  | [] => Run.pure () m
  | r :: rs => (m.call r).bind fun _ m1 => HsmBase.calls m1 rs

/-- The constant `MAX_STATE_NESTING` of `enterNextState`. -/
def MAX_STATE_NESTING : Nat := 7

/-- The first loop of `enterNextState`, `for (state = nextState; state != currentState; ...)`,
entered at a non-null `state`; `entry_path` lists the slots `1..` written so far, last written
first (slot `0` holds the null sentinel). -/
def tracePath (currentState : Option HsmStateBase) :
    HsmStateBase → List HsmStateBase → Except Fault (List HsmStateBase)
  | state, entry_path =>
    if currentState = some state then .ok entry_path
    else if MAX_STATE_NESTING ≤ entry_path.length + 1 then .error .bufferOverflow
    else
      match state with
      | .root _ =>
        if currentState = none then .ok (state :: entry_path)
        else if MAX_STATE_NESTING ≤ entry_path.length + 2 then .error .bufferOverflow
        else .error .nullDereference
      | .sub _ p => tracePath currentState p (state :: entry_path)

/-- Function `HsmBase::enterNextState`. -/
def HsmBase.enterNextState (m : HsmBase) : Run Unit :=
  match m.nextState with
  | none => if m.currentState = none then Run.pure () m else Run.fail .nullDereference m
  | some next =>
    match tracePath m.currentState next [] with
    | .ok entry_path => Run.after (entry_path.map .onEnter) (Run.pure () m)
    | .error f => Run.fail f m

/-- Function `HsmBase::initCurrentState`; `fuel` bounds the number of `onInit` calls. -/
def HsmBase.initCurrentState (onInit : HsmStateBase → List Request) :
    Nat → HsmBase → Run Unit
  | 0, m => Run.fail .outOfFuel m
  | fuel + 1, m =>
    match m.currentState with
    | none => Run.fail .nullDereference m
    | some current =>
      Run.after [.onInit current] ((m.calls (onInit current)).bind fun _ m1 =>
        match m1.nextState with
        | none => Run.pure () m1
        | some next =>
          if next.superState = m1.currentState then
            m1.enterNextState.bind fun _ m2 =>
              HsmBase.initCurrentState onInit fuel
                { m2 with currentState := m2.nextState, nextState := none }
          else Run.fail .assertion m1)

/-- Function `HsmBase::enterAndInitNextState`. -/
def HsmBase.enterAndInitNextState (onInit : HsmStateBase → List Request) (fuel : Nat)
    (m : HsmBase) : Run Unit :=
  m.enterNextState.bind fun _ m1 =>
    HsmBase.initCurrentState onInit fuel { m1 with currentState := m1.nextState, nextState := none }

/-- Function `HsmBase::onStart`. -/
def HsmBase.onStart (onInit : HsmStateBase → List Request) (fuel : Nat) (m : HsmBase) :
    Run Unit :=
  if m.topState.superState ≠ none then Run.fail .assertion m
  else if m.currentState ≠ none then Run.fail .assertion m
  else
    Run.after [.onEnter m.topState]
      (HsmBase.initCurrentState onInit fuel
        { m with currentState := some m.topState, nextState := none })

/-- The part of the body of the loop of `Hsm::onEvent` after a handler returned `true`:
`if (nextState) enterAndInitNextState();` and `handled = true`. -/
def HsmBase.afterHandled (onInit : HsmStateBase → List Request) (fuel : Nat) (m : HsmBase) :
    Run Bool :=
  match m.nextState with
  | some _ => (m.enterAndInitNextState onInit fuel).bind fun _ m2 => Run.pure true m2
  | none => Run.pure true m

/-- The loop of `Hsm::onEvent`, `for (state = currentState; state; state = state->superState)`,
entered at a non-null `state`. -/
def HsmBase.onEventFrom (onInit : HsmStateBase → List Request) (fuel : Nat) (event : Event)
    (m : HsmBase) (state : HsmStateBase) : Run Bool :=
  Run.after [.onEvent state]
    (({ m with sourceState := some state }.calls (event state).requests).bind fun _ m1 =>
      if (event state).handled then m1.afterHandled onInit fuel
      else
        match state with
        | .root _ => Run.pure false m1
        | .sub _ p => HsmBase.onEventFrom onInit fuel event m1 p)

/-- Function `Hsm::onEvent`. -/
def HsmBase.onEvent (onInit : HsmStateBase → List Request) (fuel : Nat) (event : Event)
    (m : HsmBase) : Run Bool :=
  match m.currentState with
  | none => Run.pure false m
  | some current => m.onEventFrom onInit fuel event current

/-! ## Paths in the state hierarchy -/

/-- The state itself followed by its super states up to the root, deepest first. -/
def HsmStateBase.chain : HsmStateBase → List HsmStateBase
  | .root i => [.root i]
  | .sub i p => .sub i p :: p.chain

/-- The root of the tree a state belongs to. -/
def HsmStateBase.rootOf : HsmStateBase → HsmStateBase
  | .root i => .root i
  | .sub _ p => p.rootOf

/-- The path from `c` up to but excluding `l`, deepest first. -/
def pathUp (c l : HsmStateBase) : List HsmStateBase :=
  c.chain.takeWhile (fun x => decide (x ≠ l))

/-- The path from `l` (excluded) down to `t` (included), shallowest first. -/
def pathDown (l t : HsmStateBase) : List HsmStateBase :=
  (pathUp t l).reverse

/-- The state `l` is the least common ancestor of `s` and `t`: it is an ancestor-or-self of both
and every common ancestor-or-self of both is an ancestor-or-self of `l`. -/
def IsLCA (l s t : HsmStateBase) : Prop :=
  l ∈ s.chain ∧ l ∈ t.chain ∧ ∀ a, a ∈ s.chain → a ∈ t.chain → a ∈ l.chain

/-- The least common ancestor of two states of one tree: the first state on the chain of `s`
that also lies on the chain of `t`. -/
def lca : HsmStateBase → HsmStateBase → HsmStateBase
  | .root i, _ => .root i
  | .sub i p, t => if HsmStateBase.sub i p ∈ t.chain then .sub i p else lca p t

/-- The state at which the exit phase of a transition from source `s` to target `t` stops: the
super state of `s` for a self transition, the least common ancestor otherwise. -/
def exitStop (s t : HsmStateBase) : Option HsmStateBase :=
  if t = s then s.superState else some (lca s t)

/-- The history fields after the states of `exited` were exited in this order by the loops of
`exitUpToLCA`. -/
def HsmBase.rememberAll (m : HsmBase) : List HsmStateBase → HsmBase
  | [] => m
  | .root _ :: xs => HsmBase.rememberAll m xs
  | .sub i p :: xs => HsmBase.rememberAll (m.remember p (.sub i p)) xs

/-! ## Callback traces -/

/-- Whether a callback is an event handler invocation. -/
def Callback.isHandler : Callback → Bool
  | .onEvent _ => true
  | _ => false

/-- Whether a callback is the entry or the exit of a root state. -/
def Callback.crossesRoot : Callback → Bool
  | .onEnter (.root _) => true
  | .onExit (.root _) => true
  | _ => false

/-- The states of a chain up to and including the first whose handler returns `true` (the whole
chain when none does). -/
def handlerWalk (ev : Event) : List HsmStateBase → List HsmStateBase
  | [] => []
  | n :: rest => if (ev n).handled then [n] else n :: handlerWalk ev rest

/-- The callbacks `onEnter(n), onInit(n)` for each state of a list, in order. -/
def enterInitTrace : List HsmStateBase → List Callback
  | [] => []
  | n :: ns => .onEnter n :: .onInit n :: enterInitTrace ns

/-- The state of the most recent `onInit` invocation of a callback trace. -/
def lastInit : List Callback → Option HsmStateBase
  | [] => none
  | cb :: rest =>
    match lastInit rest with
    | some s => some s
    | none =>
      match cb with
      | .onInit s => some s
      | _ => none

/-! ## Conditions on user code -/

/-- Whether a request is an `externalTransition`. -/
def Request.isExternal : Request → Bool
  | .externalTransition _ => true
  | _ => false

/-- Whether a request is an initial descent (`initialTransition` or
`initialHistoryTransition`). -/
def Request.isInitial : Request → Bool
  | .initialTransition _ => true
  | .initialHistoryTransition _ => true
  | _ => false

/-- The sub state an initial-descent request of `onInit` names, given the `historySubstate` of
the state being initialised; `none` for the requests that are not initial descents. -/
def Request.initialTarget (history : Option HsmStateBase) : Request → Option HsmStateBase
  | .initialTransition subState => some subState
  | .initialHistoryTransition subState => some (history.getD subState)
  | .transition _ => none
  | .externalTransition _ => none

/-- The sub state requested by `onInit` of `a` when it makes exactly one call, an initial
descent. -/
def initialChild (onInit : HsmStateBase → List Request)
    (history : HsmStateBase → Option HsmStateBase) (a : HsmStateBase) : Option HsmStateBase :=
  match onInit a with
  | [r] => r.initialTarget (history a)
  | _ => none

/-- The states `ns` are the successive initial descents from `n`: each is the direct sub state
requested by `onInit` of the one before, and `onInit` of the last one calls nothing. -/
def InitialDescent (onInit : HsmStateBase → List Request)
    (history : HsmStateBase → Option HsmStateBase) : HsmStateBase → List HsmStateBase → Prop
  | n, [] => onInit n = []
  | n, b :: rest =>
    initialChild onInit history n = some b ∧ b.superState = some n ∧
      InitialDescent onInit history b rest

/-- The reaction of the handler of state `n` calls nothing, or returns `true` after a single
request that is a `transition`, or an `externalTransition` to a state of the tree of `n` whose
exit phase stops at a state that has a super state. -/
def Reaction.SparesRoot (n : HsmStateBase) (r : Reaction) : Prop :=
  r.requests = [] ∨
    (r.handled = true ∧
      ∃ t, r.requests = [.transition t] ∨
        (r.requests = [.externalTransition t] ∧ t.rootOf = n.rootOf ∧
          ∃ l, exitStop n t = some l ∧ l.superState ≠ none))

/-- After the callbacks `history`, the machine rests at a leaf in the sense of the
specification: the current state is the state of the most recent `onInit` invocation, that
`onInit` requested no descent, and nothing is pending. -/
def Settled (onInit : HsmStateBase → List Request) (history : List Callback) (m : HsmBase) :
    Prop :=
  ∃ c, m.currentState = some c ∧ m.nextState = none ∧ lastInit history = some c ∧ onInit c = []

/-! ## Callers of `onEvent` -/

/-- A caller that dispatches a sequence of events, one `onEvent` call after the other, and
collects the returned values. -/
def HsmBase.onEvents (onInit : HsmStateBase → List Request) (fuel : Nat) :
    List Event → HsmBase → Run (List Bool)
  | [], m => Run.pure [] m
  | ev :: evs, m =>
    (m.onEvent onInit fuel ev).bind fun b m1 =>
      (HsmBase.onEvents onInit fuel evs m1).bind fun bs m2 => Run.pure (b :: bs) m2

/-- A caller that starts the machine and then dispatches a sequence of events. -/
def HsmBase.startAndDispatch (onInit : HsmStateBase → List Request) (fuel : Nat)
    (evs : List Event) (m : HsmBase) : Run (List Bool) :=
  (m.onStart onInit fuel).bind fun _ m1 => m1.onEvents onInit fuel evs

/-! ## The machine of `test/hsm_test/hsm_hierarchy_test.cpp` -/

/-- State `TOP` of the hierarchy test. -/
def hierarchyTop : HsmStateBase := .root 0

/-- State `S1` of the hierarchy test. -/
def hierarchyS1 : HsmStateBase := .sub 1 hierarchyTop

/-- State `S11` of the hierarchy test. -/
def hierarchyS11 : HsmStateBase := .sub 11 hierarchyS1

/-- State `S2` of the hierarchy test. -/
def hierarchyS2 : HsmStateBase := .sub 2 hierarchyTop

/-- State `S21` of the hierarchy test. -/
def hierarchyS21 : HsmStateBase := .sub 21 hierarchyS2

/-- State `S211` of the hierarchy test. -/
def hierarchyS211 : HsmStateBase := .sub 211 hierarchyS21

/-- All states of the hierarchy test. -/
def hierarchyStates : List HsmStateBase :=
  [hierarchyTop, hierarchyS1, hierarchyS11, hierarchyS2, hierarchyS21, hierarchyS211]

/-- The `onInit` overrides of the hierarchy test (`StateTop::onInit`, `State1::onInit`,
`State2::onInit`, `State21::onInit`). -/
def hierarchyInit (s : HsmStateBase) : List Request :=
  if s = hierarchyTop then [.initialTransition hierarchyS1]
  else if s = hierarchyS1 then [.initialTransition hierarchyS11]
  else if s = hierarchyS2 then [.initialTransition hierarchyS21]
  else if s = hierarchyS21 then [.initialTransition hierarchyS211]
  else []

/-- Event `C` of the hierarchy test (`State1::onEventC`, `State2::onEventC`,
`StateTop::onEventC`). -/
def hierarchyEventC : Event := fun s =>
  if s = hierarchyS1 then ⟨[.transition hierarchyS2], true⟩
  else if s = hierarchyS2 then ⟨[.transition hierarchyS1], true⟩
  else if s = hierarchyTop then ⟨[], true⟩
  else ⟨[], false⟩

/-- Event `D` of the hierarchy test. -/
def hierarchyEventD : Event := fun s =>
  if s = hierarchyS1 then ⟨[.transition hierarchyTop], true⟩
  else if s = hierarchyS11 then ⟨[.transition hierarchyS11], true⟩
  else if s = hierarchyS211 then ⟨[.transition hierarchyS21], true⟩
  else if s = hierarchyTop then ⟨[], true⟩
  else ⟨[], false⟩

/-- Event `E` of the hierarchy test: only `StateTop::onEventE` handles it, with
`transition(s211)`. -/
def hierarchyEventE : Event := fun s =>
  if s = hierarchyTop then ⟨[.transition hierarchyS211], true⟩ else ⟨[], false⟩

/-- An event that only `TOP` handles, without calling the engine (as `StateTop::onEventA`
when the current state is outside `S1`). -/
def hierarchyEventTopOnly : Event := fun s =>
  if s = hierarchyTop then ⟨[], true⟩ else ⟨[], false⟩

/-- An event that no state handles. -/
def unhandledEvent : Event := fun _ => ⟨[], false⟩

/-- Event `C` of the hierarchy test with the request of `S1` turned into
`externalTransition(S2)`. -/
def hierarchyEventCExternal : Event := fun s =>
  if s = hierarchyS1 then ⟨[.externalTransition hierarchyS2], true⟩ else hierarchyEventC s

/-- An event that `S1` handles by `externalTransition(S11)`, a transition into its own sub
state. -/
def hierarchyEventOwnSub : Event := fun s =>
  if s = hierarchyS1 then ⟨[.externalTransition hierarchyS11], true⟩ else ⟨[], false⟩

/-- An event that only `TOP` handles, by `externalTransition(S211)`, a transition into one of
its own sub states. -/
def hierarchyEventExternalFromTop : Event := fun s =>
  if s = hierarchyTop then ⟨[.externalTransition hierarchyS211], true⟩ else ⟨[], false⟩

/-- The hierarchy test machine after `onStart`. -/
def hierarchyStarted : HsmBase :=
  (HsmBase.onStart hierarchyInit 3 (HsmBase.new hierarchyTop)).hsm

/-! ## A tree with eight levels -/

/-- The root of a tree with a chain of seven nested states and one more leaf. -/
def deepTop : HsmStateBase := .root 0

/-- The innermost state of the chain of seven nested states below `deepTop`. -/
def deep7 : HsmStateBase :=
  .sub 7 (.sub 6 (.sub 5 (.sub 4 (.sub 3 (.sub 2 (.sub 1 deepTop))))))

/-- A leaf directly below `deepTop`. -/
def deepLeaf : HsmStateBase := .sub 8 deepTop

/-- The `onInit` callbacks: the root descends into `deepLeaf`, the other states are leaves. -/
def deepInit (s : HsmStateBase) : List Request :=
  if s = deepTop then [.initialTransition deepLeaf] else []

/-- An event that `deepLeaf` handles by `transition(deep7)`. -/
def deepEvent : Event := fun s =>
  if s = deepLeaf then ⟨[.transition deep7], true⟩ else ⟨[], false⟩

/-! ## The loops of `levelsToLCA` -/

/-- The number of super states above a state. -/
def HsmStateBase.depth : HsmStateBase → Nat
  | .root _ => 0
  | .sub _ p => p.depth + 1

/-- The outer loop of `levelsToLCA` with the way it is left: `some to_lca` when it returns from
inside the nested loops (`return to_lca`), `none` when both loops run to their end and the
function falls through to the final `return 0`. -/
def levelsFromFound (target : HsmStateBase) : HsmStateBase → Nat → Option Nat
  | .root i, to_lca => if onTargetChain (.root i) target then some to_lca else none
  | .sub i p, to_lca =>
    if onTargetChain (.sub i p) target then some to_lca
    else levelsFromFound target p (to_lca + 1)

/-! ## Misuse of the engine -/

/-- An `onInit` of the hierarchy test states in which `TOP` requests the initial descent into
`S11`, which is not one of its direct sub states. -/
def wrongChildInit (s : HsmStateBase) : List Request :=
  if s = hierarchyTop then [.initialTransition hierarchyS11] else []

/-! ## The machine at each `onExit` of the exit phase -/

/-- The `onExit` invocations of the first loop of `exitUpToLCA`, in order, each with the machine
at the moment of the invocation: in the loop body `state->onExit()` comes before
`state->superState->historySubstate = state`. -/
def HsmBase.exitUpToSourceCalls (m : HsmBase) (state : HsmStateBase) :
    List (HsmStateBase × HsmBase) :=
  if m.sourceState = some state then []
  else
    match state with
    | .root _ => [(state, m)]
    | .sub _ p => (state, m) :: HsmBase.exitUpToSourceCalls (m.remember p state) p

/-- The `onExit` invocations of the second loop of `exitUpToLCA`, each with the machine at the
moment of the invocation. -/
def HsmBase.exitLevelsCalls (m : HsmBase) : Nat → HsmStateBase → List (HsmStateBase × HsmBase)
  | 0, _ => []
  | toLca + 1, state =>
    match state with
    | .root _ => [(state, m)]
    | .sub _ p => (state, m) :: HsmBase.exitLevelsCalls (m.remember p state) toLca p

/-- The `onExit` invocations of `exitUpToLCA`, each with the machine at the moment of the
invocation. -/
def HsmBase.exitUpToLCACalls (m : HsmBase) (target : HsmStateBase) :
    List (HsmStateBase × HsmBase) :=
  match m.currentState with
  | none => []
  | some current =>
    m.exitUpToSourceCalls current ++
      match (m.exitUpToSource current).result with
      | .ok state =>
        (m.exitUpToSource current).hsm.exitLevelsCalls
          ((m.exitUpToSource current).hsm.levelsToLCA target) state
      | .error _ => []

/-- The states of `exited`, each with the machine before its exit is recorded, when they are
exited in this order starting from machine `m`. -/
def exitCalls (m : HsmBase) : List HsmStateBase → List (HsmStateBase × HsmBase)
  | [] => []
  | x :: xs => (x, m) :: exitCalls (m.rememberAll [x]) xs

/-- What `onExit` of a state sees in the `historySubstate` of its super state. -/
def seenHistory (x : HsmStateBase × HsmBase) : Option HsmStateBase :=
  match x.1.superState with
  | some p => x.2.historySubstate p
  | none => none

/-! ## The machine of `test/hsm_test/hsm_history_state_test.cpp` -/

/-- State `TOP` of the history test. -/
def historyTop : HsmStateBase := .root 0

/-- State `DISABLED` of the history test. -/
def historyDisabled : HsmStateBase := .sub 1 historyTop

/-- State `ENABLED` of the history test. -/
def historyEnabled : HsmStateBase := .sub 2 historyTop

/-- State `A` of the history test. -/
def historyA : HsmStateBase := .sub 21 historyEnabled

/-- State `B` of the history test. -/
def historyB : HsmStateBase := .sub 22 historyEnabled

/-- The `onInit` overrides of the history test (`StateTop::onInit`, `StateEnabled::onInit`). -/
def historyInit (s : HsmStateBase) : List Request :=
  if s = historyTop then [.initialTransition historyDisabled]
  else if s = historyEnabled then [.initialHistoryTransition historyA]
  else []

/-- Event `On` of the history test (`StateDisabled::onEventOn`). -/
def historyEventOn : Event := fun s =>
  if s = historyDisabled then ⟨[.transition historyEnabled], true⟩ else ⟨[], false⟩

/-- Event `Off` of the history test (`StateEnabled::onEventOff`). -/
def historyEventOff : Event := fun s =>
  if s = historyEnabled then ⟨[.transition historyDisabled], true⟩ else ⟨[], false⟩

/-- Event `A` of the history test (`StateEnabled::onEventA`). -/
def historyEventA : Event := fun s =>
  if s = historyEnabled then ⟨[.transition historyA], true⟩ else ⟨[], false⟩

/-- Event `B` of the history test (`StateEnabled::onEventB`). -/
def historyEventB : Event := fun s =>
  if s = historyEnabled then ⟨[.transition historyB], true⟩ else ⟨[], false⟩

/-- The history test machine after `onStart`, in state `DISABLED`. -/
def historyStarted : HsmBase :=
  (HsmBase.onStart historyInit 3 (HsmBase.new historyTop)).hsm

/-- The history test machine after `onStart`, `On` and `B`, in state `B`. -/
def historyInB : HsmBase :=
  (historyStarted.onEvents historyInit 3 [historyEventOn, historyEventB]).hsm

/-! ## Requests the engine does not check -/

/-- An event whose handler in `S1` calls `transition(S11)` and then `transition(S2)` before it
returns `true`. -/
def hierarchyEventTwice : Event := fun s =>
  if s = hierarchyS1 then ⟨[.transition hierarchyS11, .transition hierarchyS2], true⟩
  else ⟨[], false⟩

/-- The `onInit` overrides of the hierarchy test, except that `onInit` of `TOP` calls
`initialTransition(S1)` and then `initialTransition(S2)`. -/
def twiceInit (s : HsmStateBase) : List Request :=
  if s = hierarchyTop then [.initialTransition hierarchyS1, .initialTransition hierarchyS2]
  else hierarchyInit s

/-- The `onInit` overrides of a machine on the states of the hierarchy test in which only
`TOP` requests an initial descent, into `S1`. -/
def shallowInit (s : HsmStateBase) : List Request :=
  if s = hierarchyTop then [.initialTransition hierarchyS1] else []

/-- An event whose handler in `S1` calls `initialTransition(S11)` and returns `true`. -/
def hierarchyEventInitial : Event := fun s =>
  if s = hierarchyS1 then ⟨[.initialTransition hierarchyS11], true⟩ else ⟨[], false⟩

/-- An event whose handler in `S1` calls `initialHistoryTransition(S11)` and returns `true`. -/
def hierarchyEventInitialHistory : Event := fun s =>
  if s = hierarchyS1 then ⟨[.initialHistoryTransition hierarchyS11], true⟩ else ⟨[], false⟩

/-- The machine with `shallowInit` after `onStart`, in state `S1`. -/
def shallowStarted : HsmBase :=
  (HsmBase.onStart shallowInit 2 (HsmBase.new hierarchyTop)).hsm

/-! ## Entry paths longer than the buffer -/

/-- A state below `deep7`, at the ninth level of the tree with root `deepTop`. -/
def deep8 : HsmStateBase := .sub 9 deep7

/-- An event that `deepLeaf` handles by `transition(deep8)`. -/
def deepEvent8 : Event := fun s =>
  if s = deepLeaf then ⟨[.transition deep8], true⟩ else ⟨[], false⟩

/-! ## The machine of `test/hsm_test/hsm_simple_test.cpp` -/

/-- State `TOP` of the simple test. -/
def simpleTop : HsmStateBase := .root 0

/-- State `DISABLED` of the simple test. -/
def simpleDisabled : HsmStateBase := .sub 1 simpleTop

/-- State `ENABLED` of the simple test. -/
def simpleEnabled : HsmStateBase := .sub 2 simpleTop

/-- The `onInit` override of the simple test (`StateTop::onInit`). -/
def simpleInit (s : HsmStateBase) : List Request :=
  if s = simpleTop then [.initialTransition simpleDisabled] else []

/-- Event `On` of the simple test (`StateDisabled::onEventOn`). -/
def simpleEventOn : Event := fun s =>
  if s = simpleDisabled then ⟨[.transition simpleEnabled], true⟩ else ⟨[], false⟩

/-- Event `Off` of the simple test (`StateEnabled::onEventOff`). -/
def simpleEventOff : Event := fun s =>
  if s = simpleEnabled then ⟨[.transition simpleDisabled], true⟩ else ⟨[], false⟩

/-- Event `Reset` of the simple test (`StateTop::onEventReset`,
`StateDisabled::onEventReset`). -/
def simpleEventReset : Event := fun s =>
  if s = simpleTop then ⟨[.transition simpleDisabled], true⟩
  else if s = simpleDisabled then ⟨[], true⟩
  else ⟨[], false⟩

/-- The events of the simple test. -/
def simpleEvents : List Event := [simpleEventOn, simpleEventOff, simpleEventReset]

/-- The callbacks of a trace other than the handler invocations. -/
def lifecycle (trace : List Callback) : List Callback :=
  trace.filter fun cb => !cb.isHandler

/-! ## The machine of `test/hsm_test/hsm_choice_point_test.cpp` -/

/-- State `TOP` of the choice point test. -/
def choiceTop : HsmStateBase := .root 0

/-- State `EVEN` of the choice point test. -/
def choiceEven : HsmStateBase := .sub 1 choiceTop

/-- State `ODD` of the choice point test. -/
def choiceOdd : HsmStateBase := .sub 2 choiceTop

/-- The `onInit` override of the choice point test (`StateTop::onInit`). -/
def choiceInit (s : HsmStateBase) : List Request :=
  if s = choiceTop then [.initialTransition choiceEven] else []

/-- Event `Value(value)` of the choice point test (`StateTop::onEventValue`); `value % 2` of
C++ truncates towards zero. -/
def choiceEventValue (value : Int) : Event := fun s =>
  if s = choiceTop then
    if 0 = Int.tmod value 2 then ⟨[.transition choiceEven], true⟩
    else ⟨[.transition choiceOdd], true⟩
  else ⟨[], false⟩

/-- The sibling the choice point of `StateTop::onEventValue` selects: `EVEN` when
`value % 2 == 0`, `ODD` otherwise. -/
def chosen (value : Int) : HsmStateBase :=
  if value % 2 = 0 then choiceEven else choiceOdd

/-- The sibling the choice point does not select. -/
def notChosen (value : Int) : HsmStateBase :=
  if value % 2 = 0 then choiceOdd else choiceEven

/-! ## More events of the hierarchy test -/

/-- Event `A` of the hierarchy test (`State1::onEventA`, `StateTop::onEventA`). -/
def hierarchyEventA : Event := fun s =>
  if s = hierarchyS1 then ⟨[.transition hierarchyS1], true⟩
  else if s = hierarchyTop then ⟨[], true⟩
  else ⟨[], false⟩

/-- Event `B` of the hierarchy test (`State1::onEventB`, `State21::onEventB`,
`StateTop::onEventB`). -/
def hierarchyEventB : Event := fun s =>
  if s = hierarchyS1 then ⟨[.transition hierarchyS11], true⟩
  else if s = hierarchyS21 then ⟨[.transition hierarchyS211], true⟩
  else if s = hierarchyTop then ⟨[], true⟩
  else ⟨[], false⟩

/-- Event `F` of the hierarchy test (`State1::onEventF`, `State2::onEventF`,
`StateTop::onEventF`). -/
def hierarchyEventF : Event := fun s =>
  if s = hierarchyS1 then ⟨[.transition hierarchyS211], true⟩
  else if s = hierarchyS2 then ⟨[.transition hierarchyS11], true⟩
  else if s = hierarchyTop then ⟨[], true⟩
  else ⟨[], false⟩

/-- Event `G` of the hierarchy test (`State11::onEventG`, `State211::onEventG`,
`StateTop::onEventG`). -/
def hierarchyEventG : Event := fun s =>
  if s = hierarchyS11 then ⟨[.transition hierarchyS211], true⟩
  else if s = hierarchyS211 then ⟨[.transition hierarchyTop], true⟩
  else if s = hierarchyTop then ⟨[], true⟩
  else ⟨[], false⟩

/-- Event `H` of the hierarchy test (`State21::onEventH`, `StateTop::onEventH`). -/
def hierarchyEventH : Event := fun s =>
  if s = hierarchyS21 then ⟨[.transition hierarchyS21], true⟩
  else if s = hierarchyTop then ⟨[], true⟩
  else ⟨[], false⟩

/-- The hierarchy test machine after `onStart` and event `C`, in state `S211`. -/
def hierarchyInS211 : HsmBase :=
  (hierarchyStarted.onEvent hierarchyInit 3 hierarchyEventC).hsm

/-! ## The callbacks of the settling loop -/

/-- A callback of the settling loop started at `c` with `onInit` callbacks that only request
initial descents: an `onInit` of `c` or of a state below it, or an `onEnter` of a state
strictly below `c`. -/
def Callback.SettlesBelow (c : HsmStateBase) : Callback → Prop
  | .onInit n => c ∈ n.chain
  | .onEnter n => c ∈ n.chain ∧ n ≠ c
  | .onExit _ => False
  | .onEvent _ => False

/-! ## History recorded before the first history descent -/

/-- An event that `DISABLED` of the history test handles by `transition(B)`, a transition
into a sub state of `ENABLED`. -/
def historyEventDirectB : Event := fun s =>
  if s = historyDisabled then ⟨[.transition historyB], true⟩ else ⟨[], false⟩

/-! ## A machine with history descents at every level -/

/-- A second sub state of `S21`, beside `S211`, on the states of the hierarchy test. -/
def hierarchyS212 : HsmStateBase := .sub 212 hierarchyS21

/-- The `onInit` callbacks of a machine on the states of the hierarchy test in which every
state with sub states calls `initialHistoryTransition` with the sub state that the hierarchy
test enters. -/
def deepHistoryInit (s : HsmStateBase) : List Request :=
  if s = hierarchyTop then [.initialHistoryTransition hierarchyS1]
  else if s = hierarchyS1 then [.initialHistoryTransition hierarchyS11]
  else if s = hierarchyS2 then [.initialHistoryTransition hierarchyS21]
  else if s = hierarchyS21 then [.initialHistoryTransition hierarchyS211]
  else []

/-- An event that `S11` handles by `transition(S212)`. -/
def deepHistoryEventToS212 : Event := fun s =>
  if s = hierarchyS11 then ⟨[.transition hierarchyS212], true⟩ else ⟨[], false⟩

/-- An event that `S2` handles by `transition(S1)`. -/
def deepHistoryEventToS1 : Event := fun s =>
  if s = hierarchyS2 then ⟨[.transition hierarchyS1], true⟩ else ⟨[], false⟩

/-- An event that `S1` handles by `transition(S2)`. -/
def deepHistoryEventToS2 : Event := fun s =>
  if s = hierarchyS1 then ⟨[.transition hierarchyS2], true⟩ else ⟨[], false⟩

/-- The machine with `deepHistoryInit` after `onStart` and the event that leads to `S212`. -/
def deepHistoryInS212 : HsmBase :=
  (HsmBase.startAndDispatch deepHistoryInit 3 [deepHistoryEventToS212]
    (HsmBase.new hierarchyTop)).hsm

/-! ## All events of the hierarchy test -/

/-- The events `A` to `H` of the hierarchy test. -/
def hierarchyEvents : List Event :=
  [hierarchyEventA, hierarchyEventB, hierarchyEventC, hierarchyEventD, hierarchyEventE,
    hierarchyEventF, hierarchyEventG, hierarchyEventH]

/-! ## An external self transition -/

/-- An event that `S11` of the hierarchy test handles by `externalTransition(S11)`. -/
def hierarchyEventExternalSelf : Event := fun s =>
  if s = hierarchyS11 then ⟨[.externalTransition hierarchyS11], true⟩ else ⟨[], false⟩

/-! ## The slots of the entry path buffer -/

/-- The writes `*(++trace) = state` of the first loop of `enterNextState` when nothing bounds
them, each with the index of the slot of `entry_path` it goes to; `slot` is the index that
`trace` points at when the loop is entered at `state` (slot `0`, the null sentinel, at the
start). The walk is followed up to the root. -/
def entryPathWrites (currentState : Option HsmStateBase) :
    HsmStateBase → Nat → List (Nat × HsmStateBase)
  | state, slot =>
    if currentState = some state then []
    else
      match state with
      | .root _ => [(slot + 1, state)]
      | .sub _ p => (slot + 1, state) :: entryPathWrites currentState p (slot + 1)

/-! ## Well-formed history -/

/-- Every recorded `historySubstate` is a direct sub state of the state that holds it. -/
def HistoryWellFormed (history : HsmStateBase → Option HsmStateBase) : Prop :=
  ∀ p h, history p = some h → h.superState = some p

/-- Every call of `onInit` is an initial descent that names a direct sub state of the state
being initialised. -/
def NamesDirectChildren (onInit : HsmStateBase → List Request) : Prop :=
  ∀ n, ∀ r ∈ onInit n, ∃ d, d.superState = some n ∧
    (r = .initialTransition d ∨ r = .initialHistoryTransition d)

/-! ## The settling loop on a finite tree -/

/-- Whether a callback is an `onInit`. -/
def Callback.isOnInit : Callback → Bool
  | .onInit _ => true
  | _ => false

/-- Number of `onInit` invocations in a trace. -/
def onInitCount (trace : List Callback) : Nat :=
  (trace.filter Callback.isOnInit).length

/-- Height of the subtree of `n` in the finite tree `tree`: the greatest number of levels
between `n` and a state of `tree` that has `n` on its chain of super states. -/
def subtreeHeight (tree : List HsmStateBase) (n : HsmStateBase) : Nat :=
  ((tree.filter fun x => decide (n ∈ x.chain)).map fun x => x.depth - n.depth).foldr max 0

/-! ### A machine whose `onInit` callbacks call `transition` -/

/-- Root of the machine. -/
def loopTop : HsmStateBase := .root 0

/-- Composite state below the root. -/
def loopS : HsmStateBase := .sub 1 loopTop

/-- Leaf `A` of `loopS`; its `onInit` calls `transition(B)`. -/
def loopA : HsmStateBase := .sub 2 loopS

/-- Leaf `B` of `loopS`; its `onInit` calls `transition(A)`. -/
def loopB : HsmStateBase := .sub 3 loopS

/-- Leaf `C` of `loopS`, the initial sub state. -/
def loopC : HsmStateBase := .sub 4 loopS

/-- The five states of the machine. -/
def loopTree : List HsmStateBase := [loopTop, loopS, loopA, loopB, loopC]

/-- The `onInit` overrides: initial descents in the composite states, a call of `transition`
to the sibling in `A` and in `B`. -/
def loopInit (s : HsmStateBase) : List Request :=
  if s = loopTop then [.initialTransition loopS]
  else if s = loopS then [.initialTransition loopC]
  else if s = loopA then [.transition loopB]
  else if s = loopB then [.transition loopA]
  else []

/-- An event that `loopS` handles with `transition(A)`. -/
def loopEvent : Event := fun s =>
  if s = loopS then ⟨[.transition loopA], true⟩ else ⟨[], false⟩

/-! ## The machine of `test/hsm_example` (pump control) -/

/-- State `top` of the pump control machine. -/
def pumpTop : HsmStateBase := .root 0

/-- State `standby`. -/
def pumpStandby : HsmStateBase := .sub 1 pumpTop

/-- State `continuous`. -/
def pumpContinuous : HsmStateBase := .sub 2 pumpTop

/-- State `pulsing`. -/
def pumpPulsing : HsmStateBase := .sub 3 pumpTop

/-- State `running`, below `pulsing`. -/
def pumpRunning : HsmStateBase := .sub 4 pumpPulsing

/-- State `paused`, below `pulsing`. -/
def pumpPaused : HsmStateBase := .sub 5 pumpPulsing

/-- The `onInit` overrides (`StateTop::onInit`, `StatePulsing::onInit`). -/
def pumpInit (s : HsmStateBase) : List Request :=
  if s = pumpTop then [.initialTransition pumpStandby]
  else if s = pumpPulsing then [.initialTransition pumpRunning]
  else []

/-- Event `PumpControlHsm::onStandby` (`StateTop::onStandby`). -/
def pumpEventStandby : Event := fun s =>
  if s = pumpTop then ⟨[.transition pumpStandby], true⟩ else ⟨[], false⟩

/-- Event `PumpControlHsm::onContinuous` (`StateTop::onContinuous`). -/
def pumpEventContinuous : Event := fun s =>
  if s = pumpTop then ⟨[.transition pumpContinuous], true⟩ else ⟨[], false⟩

/-- Event `PumpControlHsm::onPulsing` (`StateTop::onPulsing`). -/
def pumpEventPulsing : Event := fun s =>
  if s = pumpTop then ⟨[.transition pumpPulsing], true⟩ else ⟨[], false⟩

/-- Event `PumpControlHsm::onRunningTimeout` (`StateRunning::onRunningTimeout`). -/
def pumpEventRunningTimeout : Event := fun s =>
  if s = pumpRunning then ⟨[.transition pumpPaused], true⟩ else ⟨[], false⟩

/-- Event `PumpControlHsm::onPausedTimeout` (`StatePaused::onPausedTimeout`). -/
def pumpEventPausedTimeout : Event := fun s =>
  if s = pumpPaused then ⟨[.transition pumpRunning], true⟩ else ⟨[], false⟩

/-- The five events of the pump control machine. -/
def pumpEvents : List Event :=
  [pumpEventStandby, pumpEventContinuous, pumpEventPulsing, pumpEventRunningTimeout,
    pumpEventPausedTimeout]

/-- The calls on the pump and on the two timers that the actions of `PumpControlHsm` make:
`pump.on()`, `pump.off()`, `runningTimer.start`, `runningTimer.cancel()`, `pausedTimer.start`,
`pausedTimer.cancel()`. -/
inductive PumpAction where
  | pumpOn
  | pumpOff
  | startRunningTimer
  | cancelRunningTimer
  | startPausedTimer
  | cancelPausedTimer
  deriving DecidableEq, Repr

/-- The actions of the `onEnter` and `onExit` overrides of the pump control states, in the
order of their statements. -/
def pumpActions : Callback → List PumpAction
  | .onEnter s =>
    if s = pumpContinuous then [.pumpOn]
    else if s = pumpRunning then [.pumpOn, .startRunningTimer]
    else if s = pumpPaused then [.startPausedTimer]
    else []
  | .onExit s =>
    if s = pumpContinuous then [.pumpOff]
    else if s = pumpPulsing then [.cancelRunningTimer, .cancelPausedTimer]
    else if s = pumpRunning then [.pumpOff]
    else []
  | _ => []

/-- The calls on the pump and the timers made during a trace of callbacks. -/
def pumpLog : List Callback → List PumpAction
  | [] => []
  | cb :: trace => pumpActions cb ++ pumpLog trace

/-- The calls on the pump, `pump.on()` and `pump.off()`, among the calls made. -/
def pumpCalls (log : List PumpAction) : List PumpAction :=
  log.filter fun a => decide (a = .pumpOn ∨ a = .pumpOff)

/-- A pump that accepts `on()` only when it is off and `off()` only when it is on: the state
of the pump after the calls, `none` when a call was not accepted. -/
def pumpReplay : Bool → List PumpAction → Option Bool
  | isOn, [] => some isOn
  | isOn, .pumpOn :: log => if isOn then none else pumpReplay true log
  | isOn, .pumpOff :: log => if isOn then pumpReplay false log else none
  | isOn, _ :: log => pumpReplay isOn log

/-- The four states in which the pump control machine settles. -/
def pumpLeaves : List HsmStateBase :=
  [pumpStandby, pumpContinuous, pumpRunning, pumpPaused]

/-- Whether a state is `running` or `continuous`. -/
def pumpRunsIn (s : HsmStateBase) : Bool :=
  decide (s = pumpRunning ∨ s = pumpContinuous)

/-- The event sequence of `TEST_F(PumpControlHsmTest, test)`. -/
def pumpTestEvents : List Event :=
  [pumpEventContinuous, pumpEventStandby, pumpEventPulsing, pumpEventRunningTimeout,
    pumpEventPausedTimeout, pumpEventStandby]

/-! ## The active configuration -/

/-- One callback seen by an observer who knows the innermost active state (`none` when no
state is active): `onEnter(n)` is accepted when the super state of `n` is the innermost active
state (for a root: when no state is active) and makes `n` the innermost active state;
`onExit(n)` is accepted when `n` is the innermost active state and makes its super state the
innermost active state; the other callbacks change nothing. -/
def replayStep (active : Option HsmStateBase) : Callback → Option (Option HsmStateBase)
  | .onEnter n => if n.superState = active then some (some n) else none
  | .onExit n => if active = some n then some n.superState else none
  | _ => some active

/-- The innermost active state after a trace of callbacks, `none` outside when a callback was
not accepted. -/
def replay (active : Option HsmStateBase) : List Callback → Option (Option HsmStateBase)
  | [] => some active
  | cb :: trace => (replayStep active cb).bind fun a => replay a trace

/-- The states on the chain from the innermost active state up to the root. -/
def activeChain : Option HsmStateBase → List HsmStateBase
  | none => []
  | some c => c.chain

/-- Whether `n` is active after one more callback: `onEnter(n)` makes it active, `onExit(n)`
inactive. -/
def activeStep (n : HsmStateBase) (b : Bool) (cb : Callback) : Bool :=
  if cb = .onEnter n then true else if cb = .onExit n then false else b

/-- Whether the most recent `onEnter`/`onExit` callback of `n` in the trace was `onEnter`. -/
def activeAfter (trace : List Callback) (n : HsmStateBase) : Bool :=
  trace.foldl (activeStep n) false

/-- The callbacks of the run `r` are accepted from the innermost active state `active`, and
when the run returns, the current state of the machine is the innermost active state and
belongs to the tree of `root`. -/
def Run.Tracks {α : Type} (active : Option HsmStateBase) (root : HsmStateBase) (r : Run α) :
    Prop :=
  ∃ a, replay active r.trace = some a ∧
    ∀ x, r.result = .ok x → ∃ c, a = some c ∧ r.hsm.currentState = some c ∧ c.rootOf = root

/-! ## Handlers that request a transition and decline the event -/

/-- An event of the hierarchy test machine whose handler in `S11` calls `transition(S2)` and
returns `false`, and whose handler in `S1` returns `true` without calling the engine. -/
def hierarchyEventDeclinedTransition : Event := fun s =>
  if s = hierarchyS11 then ⟨[.transition hierarchyS2], false⟩
  else if s = hierarchyS1 then ⟨[], true⟩
  else ⟨[], false⟩

/-- An event of the hierarchy test machine whose handler in `S11` calls `transition(S2)` and
returns `false`, and that no state handles. -/
def hierarchyEventDeclinedOnly : Event := fun s =>
  if s = hierarchyS11 then ⟨[.transition hierarchyS2], false⟩ else ⟨[], false⟩

/-! ## A tree with thirteen levels and recorded history -/

/-- The innermost state of the chain of twelve nested states below `deepTop`, four levels
below `deep8`. -/
def deep12 : HsmStateBase := .sub 13 (.sub 12 (.sub 11 (.sub 10 deep8)))

/-- A sub state of `deep12`. -/
def deepActive : HsmStateBase := .sub 14 deep12

/-- Another sub state of `deep12`, its declared default. -/
def deepDefault : HsmStateBase := .sub 15 deep12

/-- An event that `deepLeaf` handles by `transition(deep12)`. -/
def deepEvent12 : Event := fun s =>
  if s = deepLeaf then ⟨[.transition deep12], true⟩ else ⟨[], false⟩

/-- An event that `deepTop` handles by `transition(deep12)`. -/
def deepEventTop12 : Event := fun s =>
  if s = deepTop then ⟨[.transition deep12], true⟩ else ⟨[], false⟩

/-- The `onInit` callbacks of a machine on the tree with root `deepTop` in which every state
from `deepTop` down to `deep12` calls `initialHistoryTransition` with its sub state on the
chain of `deepDefault`; the other states are leaves. -/
def deepChainInit (s : HsmStateBase) : List Request :=
  match deepDefault.chain.find? (fun x => decide (x.superState = some s)) with
  | some x => [.initialHistoryTransition x]
  | none => []

/-- An event that `deepDefault` handles by `transition(deepActive)`. -/
def deepEventToActive : Event := fun s =>
  if s = deepDefault then ⟨[.transition deepActive], true⟩ else ⟨[], false⟩

/-- An event that `deepTop` handles by `transition(deepLeaf)`. -/
def deepEventOut : Event := fun s =>
  if s = deepTop then ⟨[.transition deepLeaf], true⟩ else ⟨[], false⟩

/-! ## The history of inactive states -/

/-- The run `r` keeps the recorded history `hist` of every state that is not on the chain of
`c`, and when it returns the current state is on the chain of `c`. -/
def Run.KeepsInactive {α : Type} (c : HsmStateBase)
    (hist : HsmStateBase → Option HsmStateBase) (r : Run α) : Prop :=
  (∀ q, q ∉ c.chain → r.hsm.historySubstate q = hist q) ∧
    ∀ x, r.result = .ok x → ∃ c1, r.hsm.currentState = some c1 ∧ c1 ∈ c.chain

/-! ## Lemmas on runs -/

theorem Run.after_nil {α : Type} (r : Run α) : Run.after [] r = r := by
  cases r; rfl

theorem Run.after_after {α : Type} (a b : List Callback) (r : Run α) :
    Run.after a (Run.after b r) = Run.after (a ++ b) r := by
  simp [Run.after]

theorem Run.pure_bind {α β : Type} (a : α) (m : HsmBase) (f : α → HsmBase → Run β) :
    (Run.pure a m).bind f = f a m := by
  simp [Run.pure, Run.bind, Run.after]

theorem Run.fail_bind {α β : Type} (e : Fault) (m : HsmBase) (f : α → HsmBase → Run β) :
    (Run.fail e m : Run α).bind f = Run.fail e m := by
  simp [Run.fail, Run.bind]

theorem Run.after_bind {α β : Type} (cbs : List Callback) (r : Run α)
    (f : α → HsmBase → Run β) : (Run.after cbs r).bind f = Run.after cbs (r.bind f) := by
  cases r with
  | mk tr h res =>
    cases res <;> simp [Run.bind, Run.after]

theorem Run.mk_ok_bind {α β : Type} (tr : List Callback) (m : HsmBase) (a : α)
    (f : α → HsmBase → Run β) : (Run.mk tr m (.ok a)).bind f = Run.after tr (f a m) := by
  simp [Run.bind]

/-! ## Lemmas on chains -/

theorem HsmStateBase.mem_chain_self (s : HsmStateBase) : s ∈ s.chain := by
  cases s <;> simp [HsmStateBase.chain]

theorem HsmStateBase.chain_ne_nil (s : HsmStateBase) : s.chain ≠ [] := by
  cases s <;> simp [HsmStateBase.chain]

theorem HsmStateBase.length_le_of_mem_chain {a b : HsmStateBase} (h : a ∈ b.chain) :
    a.chain.length ≤ b.chain.length := by
  induction b with
  | root i =>
    simp [HsmStateBase.chain] at h
    subst h; simp
  | sub i p ih =>
    simp only [HsmStateBase.chain, List.mem_cons] at h
    rcases h with h | h
    · subst h; simp
    · have := ih h
      simp only [HsmStateBase.chain, List.length_cons]
      omega

theorem HsmStateBase.not_mem_chain_super (i : Nat) (p : HsmStateBase) :
    HsmStateBase.sub i p ∉ p.chain := by
  intro h
  have := HsmStateBase.length_le_of_mem_chain h
  simp [HsmStateBase.chain] at this

theorem HsmStateBase.mem_chain_trans {a b c : HsmStateBase} (hab : a ∈ b.chain)
    (hbc : b ∈ c.chain) : a ∈ c.chain := by
  induction c with
  | root i =>
    simp [HsmStateBase.chain] at hbc
    subst hbc; exact hab
  | sub i p ih =>
    simp only [HsmStateBase.chain, List.mem_cons] at hbc
    rcases hbc with h | h
    · subst h; exact hab
    · simp only [HsmStateBase.chain, List.mem_cons]
      exact Or.inr (ih h)

theorem HsmStateBase.chain_antisymm {a b : HsmStateBase} (hab : a ∈ b.chain)
    (hba : b ∈ a.chain) : a = b := by
  cases b with
  | root i => simpa [HsmStateBase.chain] using hab
  | sub i p =>
    simp only [HsmStateBase.chain, List.mem_cons] at hab
    rcases hab with h | h
    · exact h
    · exact absurd (HsmStateBase.mem_chain_trans hba h) (HsmStateBase.not_mem_chain_super i p)

theorem HsmStateBase.chain_nodup (s : HsmStateBase) : s.chain.Nodup := by
  induction s with
  | root i => simp [HsmStateBase.chain]
  | sub i p ih =>
    simp only [HsmStateBase.chain, List.nodup_cons]
    exact ⟨HsmStateBase.not_mem_chain_super i p, ih⟩

theorem onTargetChain_iff (state t : HsmStateBase) :
    onTargetChain state t = true ↔ state ∈ t.chain := by
  induction t with
  | root i => simp [onTargetChain, HsmStateBase.chain]
  | sub i p ih => simp [onTargetChain, HsmStateBase.chain, ih]

theorem pathUp_self (c : HsmStateBase) : pathUp c c = [] := by
  cases c <;> simp [pathUp, HsmStateBase.chain]

theorem pathUp_sub {i : Nat} {p l : HsmStateBase} (h : HsmStateBase.sub i p ≠ l) :
    pathUp (.sub i p) l = .sub i p :: pathUp p l := by
  simp [pathUp, HsmStateBase.chain, h]

theorem mem_chain_sub_of_ne {i : Nat} {p l : HsmStateBase} (h : l ∈ (HsmStateBase.sub i p).chain)
    (hne : HsmStateBase.sub i p ≠ l) : l ∈ p.chain := by
  simp only [HsmStateBase.chain, List.mem_cons] at h
  rcases h with h | h
  · exact absurd h.symm hne
  · exact h

theorem pathUp_append {c s l : HsmStateBase} (hs : s ∈ c.chain) (hl : l ∈ s.chain) :
    pathUp c s ++ pathUp s l = pathUp c l := by
  induction c with
  | root i =>
    simp [HsmStateBase.chain] at hs
    subst hs; simp [pathUp_self]
  | sub i p ih =>
    by_cases hcs : HsmStateBase.sub i p = s
    · subst hcs; simp [pathUp_self]
    · have hsp := mem_chain_sub_of_ne hs hcs
      have hcl : HsmStateBase.sub i p ≠ l := by
        intro h
        subst h
        exact HsmStateBase.not_mem_chain_super i p (HsmStateBase.mem_chain_trans hl hsp)
      rw [pathUp_sub hcs, pathUp_sub hcl, List.cons_append, ih hsp]

theorem mem_pathUp_ne {c l x : HsmStateBase} (h : x ∈ pathUp c l) : x ≠ l := by
  have := List.mem_takeWhile_imp h
  simpa using this

theorem pathUp_subset_chain {c l x : HsmStateBase} (h : x ∈ pathUp c l) : x ∈ c.chain :=
  (List.takeWhile_sublist _).subset h

theorem chain_eq_pathUp_append {c l : HsmStateBase} (h : l ∈ c.chain) :
    c.chain = pathUp c l ++ l.chain := by
  induction c with
  | root i =>
    simp [HsmStateBase.chain] at h
    subst h; simp [pathUp_self]
  | sub i p ih =>
    by_cases hc : HsmStateBase.sub i p = l
    · subst hc; simp [pathUp_self]
    · rw [pathUp_sub hc, List.cons_append, ← ih (mem_chain_sub_of_ne h hc)]
      rfl

/-! ## The exit phase -/

@[simp] theorem HsmBase.remember_sourceState (m : HsmBase) (p s : HsmStateBase) :
    (m.remember p s).sourceState = m.sourceState := rfl

@[simp] theorem HsmBase.remember_currentState (m : HsmBase) (p s : HsmStateBase) :
    (m.remember p s).currentState = m.currentState := rfl

@[simp] theorem HsmBase.remember_nextState (m : HsmBase) (p s : HsmStateBase) :
    (m.remember p s).nextState = m.nextState := rfl

@[simp] theorem HsmBase.remember_topState (m : HsmBase) (p s : HsmStateBase) :
    (m.remember p s).topState = m.topState := rfl

@[simp] theorem HsmBase.rememberAll_sourceState (m : HsmBase) (xs : List HsmStateBase) :
    (m.rememberAll xs).sourceState = m.sourceState := by
  induction xs generalizing m with
  | nil => rfl
  | cons x xs ih => cases x <;> simp [HsmBase.rememberAll, ih]

@[simp] theorem HsmBase.rememberAll_currentState (m : HsmBase) (xs : List HsmStateBase) :
    (m.rememberAll xs).currentState = m.currentState := by
  induction xs generalizing m with
  | nil => rfl
  | cons x xs ih => cases x <;> simp [HsmBase.rememberAll, ih]

@[simp] theorem HsmBase.rememberAll_nextState (m : HsmBase) (xs : List HsmStateBase) :
    (m.rememberAll xs).nextState = m.nextState := by
  induction xs generalizing m with
  | nil => rfl
  | cons x xs ih => cases x <;> simp [HsmBase.rememberAll, ih]

@[simp] theorem HsmBase.rememberAll_topState (m : HsmBase) (xs : List HsmStateBase) :
    (m.rememberAll xs).topState = m.topState := by
  induction xs generalizing m with
  | nil => rfl
  | cons x xs ih => cases x <;> simp [HsmBase.rememberAll, ih]

theorem HsmBase.rememberAll_append (m : HsmBase) (xs ys : List HsmStateBase) :
    m.rememberAll (xs ++ ys) = (m.rememberAll xs).rememberAll ys := by
  induction xs generalizing m with
  | nil => rfl
  | cons x xs ih => cases x <;> simp [HsmBase.rememberAll, ih]

/-- The first exit loop stops at the source state when it lies on the chain of the state the
loop is entered at. -/
theorem HsmBase.exitUpToSource_eq (m : HsmBase) {c s : HsmStateBase}
    (hsrc : m.sourceState = some s) (hs : s ∈ c.chain) :
    m.exitUpToSource c
      = ⟨(pathUp c s).map .onExit, m.rememberAll (pathUp c s), .ok s⟩ := by
  induction c generalizing m with
  | root i =>
    simp [HsmStateBase.chain] at hs
    subst hs
    simp [HsmBase.exitUpToSource, hsrc, pathUp_self, Run.pure, HsmBase.rememberAll]
  | sub i p ih =>
    by_cases hc : HsmStateBase.sub i p = s
    · subst hc
      simp [HsmBase.exitUpToSource, hsrc, pathUp_self, Run.pure, HsmBase.rememberAll]
    · have hne : ¬ (s = HsmStateBase.sub i p) := fun h => hc h.symm
      rw [HsmBase.exitUpToSource]
      simp only [hsrc, Option.some.injEq, hne, if_false]
      rw [ih (m.remember p (.sub i p)) (by simpa using hsrc) (mem_chain_sub_of_ne hs hc),
        pathUp_sub hc]
      simp [Run.after, HsmBase.rememberAll]

/-- The second exit loop, run for as many levels as there are states below `l` on the chain of
`state`, stops at `l`. -/
theorem HsmBase.exitLevels_eq (m : HsmBase) {state l : HsmStateBase} (hl : l ∈ state.chain) :
    m.exitLevels (pathUp state l).length state
      = ⟨(pathUp state l).map .onExit, m.rememberAll (pathUp state l), .ok l⟩ := by
  induction state generalizing m with
  | root i =>
    simp [HsmStateBase.chain] at hl
    subst hl
    simp [HsmBase.exitLevels, pathUp_self, Run.pure, HsmBase.rememberAll]
  | sub i p ih =>
    by_cases hc : HsmStateBase.sub i p = l
    · subst hc
      simp [HsmBase.exitLevels, pathUp_self, Run.pure, HsmBase.rememberAll]
    · rw [pathUp_sub hc]
      simp only [List.length_cons, HsmBase.exitLevels]
      rw [ih (m.remember p (.sub i p)) (mem_chain_sub_of_ne hl hc)]
      simp [Run.after, HsmBase.rememberAll]

theorem IsLCA.super {l t p : HsmStateBase} {i : Nat} (h : IsLCA l (.sub i p) t)
    (hne : HsmStateBase.sub i p ≠ l) : IsLCA l p t :=
  ⟨mem_chain_sub_of_ne h.1 hne, h.2.1, fun a ha hat =>
    h.2.2 a (by simp [HsmStateBase.chain, ha]) hat⟩

theorem IsLCA.eq_of_mem {l s t : HsmStateBase} (h : IsLCA l s t) (hs : s ∈ t.chain) : s = l :=
  HsmStateBase.chain_antisymm (h.2.2 s s.mem_chain_self hs) h.1

/-- The outer loop of `levelsToLCA` counts the states strictly below the least common
ancestor. -/
theorem levelsFrom_eq {l s t : HsmStateBase} (h : IsLCA l s t) (k : Nat) :
    levelsFrom t s k = k + (pathUp s l).length := by
  induction s generalizing k with
  | root i =>
    have hl : l = .root i := by simpa [HsmStateBase.chain] using h.1
    subst hl
    have : onTargetChain (.root i) t = true := (onTargetChain_iff _ _).2 h.2.1
    simp [levelsFrom, this, pathUp_self]
  | sub i p ih =>
    by_cases hc : HsmStateBase.sub i p = l
    · subst hc
      have : onTargetChain (.sub i p) t = true := (onTargetChain_iff _ _).2 h.2.1
      simp [levelsFrom, this, pathUp_self]
    · have hnot : onTargetChain (.sub i p) t = false := by
        rw [Bool.eq_false_iff]
        intro hon
        exact hc (h.eq_of_mem ((onTargetChain_iff _ _).1 hon))
      rw [levelsFrom, hnot, pathUp_sub hc]
      simp only [Bool.false_eq_true, if_false, List.length_cons]
      rw [ih (h.super hc)]
      omega

/-- The exit phase of a transition whose target differs from the source: every state from the
current state up to but excluding the least common ancestor of source and target is exited,
deepest first, and the least common ancestor becomes the current state. -/
theorem HsmBase.exitUpToLCA_eq (m : HsmBase) {c s t l : HsmStateBase}
    (hcur : m.currentState = some c) (hsrc : m.sourceState = some s) (hs : s ∈ c.chain)
    (hts : t ≠ s) (hl : IsLCA l s t) :
    m.exitUpToLCA t
      = ⟨(pathUp c l).map .onExit,
          { m.rememberAll (pathUp c l) with currentState := some l }, .ok ()⟩ := by
  have hst : ¬ (s = t) := fun h => hts h.symm
  rw [HsmBase.exitUpToLCA, hcur]
  simp only
  rw [HsmBase.exitUpToSource_eq m hsrc hs, Run.mk_ok_bind]
  simp only [HsmBase.levelsToLCA, HsmBase.rememberAll_sourceState, hsrc, hst, if_false]
  rw [levelsFrom_eq hl 0, Nat.zero_add, HsmBase.exitLevels_eq _ hl.1, Run.mk_ok_bind]
  simp [Run.after, Run.pure, ← pathUp_append hs hl.1, HsmBase.rememberAll_append, hsrc]

/-- The exit phase of a self transition (`target == sourceState`) on a state with a super
state: every state from the current state up to and including the source is exited and the
super state of the source becomes the current state. -/
theorem HsmBase.exitUpToLCA_self (m : HsmBase) {c p : HsmStateBase} {i : Nat}
    (hcur : m.currentState = some c) (hsrc : m.sourceState = some (.sub i p))
    (hs : HsmStateBase.sub i p ∈ c.chain) :
    m.exitUpToLCA (.sub i p)
      = ⟨(pathUp c p).map .onExit,
          { m.rememberAll (pathUp c p) with currentState := some p }, .ok ()⟩ := by
  have hp : p ∈ (HsmStateBase.sub i p).chain := by
    simp [HsmStateBase.chain, HsmStateBase.mem_chain_self]
  have hne : HsmStateBase.sub i p ≠ p := fun h => by
    have := congrArg (fun x => x.chain.length) h
    simp [HsmStateBase.chain] at this
  rw [HsmBase.exitUpToLCA, hcur]
  simp only
  rw [HsmBase.exitUpToSource_eq m hsrc hs, Run.mk_ok_bind]
  simp only [HsmBase.levelsToLCA, HsmBase.rememberAll_sourceState, hsrc, if_true]
  have h1 : (pathUp (.sub i p) p).length = 1 := by
    rw [pathUp_sub hne, pathUp_self]; rfl
  rw [← h1, HsmBase.exitLevels_eq _ hp, Run.mk_ok_bind]
  simp [Run.after, Run.pure, ← pathUp_append hs hp, HsmBase.rememberAll_append, hsrc]

/-! ## The entry phase -/

/-- The path trace of `enterNextState` from a state below (or equal to) the current state:
it fits the buffer when at most six slots are needed. -/
theorem tracePath_eq {l t : HsmStateBase} (hl : l ∈ t.chain) (acc : List HsmStateBase)
    (hlen : (pathUp t l).length + acc.length < MAX_STATE_NESTING) :
    tracePath (some l) t acc = .ok ((pathUp t l).reverse ++ acc) := by
  induction t generalizing acc with
  | root i =>
    have : l = .root i := by simpa [HsmStateBase.chain] using hl
    subst this
    simp [tracePath, pathUp_self]
  | sub i p ih =>
    by_cases hc : HsmStateBase.sub i p = l
    · subst hc
      simp [tracePath, pathUp_self]
    · have hne : ¬ (l = HsmStateBase.sub i p) := fun h => hc h.symm
      rw [pathUp_sub hc] at hlen ⊢
      simp only [List.length_cons] at hlen
      rw [tracePath]
      simp only [Option.some.injEq, hne, if_false]
      rw [if_neg (by omega), ih (mem_chain_sub_of_ne hl hc) _ (by simp; omega)]
      simp

/-- The entry phase enters the states from the current state (excluded) down to the pending
state (included), shallowest first. -/
theorem HsmBase.enterNextState_eq (m : HsmBase) {l t : HsmStateBase}
    (hcur : m.currentState = some l) (hnext : m.nextState = some t) (hl : l ∈ t.chain)
    (hlen : (pathDown l t).length < MAX_STATE_NESTING) :
    m.enterNextState = ⟨(pathDown l t).map .onEnter, m, .ok ()⟩ := by
  rw [HsmBase.enterNextState, hnext]
  simp only [hcur]
  rw [tracePath_eq hl [] (by simpa [pathDown] using hlen)]
  simp [Run.after, Run.pure, pathDown]

theorem HsmStateBase.rootOf_mem_chain (s : HsmStateBase) : s.rootOf ∈ s.chain := by
  induction s with
  | root i => simp [HsmStateBase.rootOf, HsmStateBase.chain]
  | sub i p ih => simp [HsmStateBase.rootOf, HsmStateBase.chain, ih]

/-- Two states of one tree have a least common ancestor, and `lca` finds it. -/
theorem lca_isLCA {s t : HsmStateBase} (h : s.rootOf = t.rootOf) : IsLCA (lca s t) s t := by
  induction s with
  | root i =>
    refine ⟨by simp [lca, HsmStateBase.chain], ?_, fun a ha _ => by
      simpa [lca, HsmStateBase.chain] using ha⟩
    have := t.rootOf_mem_chain
    rw [← h] at this
    simpa [lca, HsmStateBase.rootOf] using this
  | sub i p ih =>
    by_cases hm : HsmStateBase.sub i p ∈ t.chain
    · simp only [lca, hm, if_true]
      exact ⟨HsmStateBase.mem_chain_self _, hm, fun a ha _ => ha⟩
    · simp only [lca, hm, if_false]
      have ih := ih (by simpa [HsmStateBase.rootOf] using h)
      refine ⟨by simp [HsmStateBase.chain, ih.1], ih.2.1, fun a ha hat => ?_⟩
      simp only [HsmStateBase.chain, List.mem_cons] at ha
      rcases ha with ha | ha
      · subst ha; exact absurd hat hm
      · exact ih.2.2 a ha hat

/-! ## The dispatch loop -/

theorem HsmBase.calls_nil (m : HsmBase) : m.calls [] = Run.pure () m := rfl

theorem Run.bind_pure_unit (r : Run Unit) : (r.bind fun _ m1 => Run.pure () m1) = r := by
  cases r with
  | mk tr h res =>
    cases res <;> simp [Run.bind, Run.after, Run.pure]

theorem HsmBase.calls_single (m : HsmBase) (r : Request) : m.calls [r] = m.call r := by
  simp [HsmBase.calls, Run.bind_pure_unit]

theorem HsmBase.onEvent_eq_onEventFrom (onInit : HsmStateBase → List Request) (fuel : Nat)
    (ev : Event) (m : HsmBase) {c : HsmStateBase} (hcur : m.currentState = some c) :
    m.onEvent onInit fuel ev = m.onEventFrom onInit fuel ev c := by
  unfold HsmBase.onEvent
  rw [hcur]

/-- The dispatch loop overwrites `sourceState` before it reads it. -/
theorem HsmBase.onEventFrom_sourceState (onInit : HsmStateBase → List Request) (fuel : Nat)
    (ev : Event) (m : HsmBase) (x : Option HsmStateBase) (state : HsmStateBase) :
    HsmBase.onEventFrom onInit fuel ev { m with sourceState := x } state
      = m.onEventFrom onInit fuel ev state := by
  conv_lhs => rw [HsmBase.onEventFrom]
  conv_rhs => rw [HsmBase.onEventFrom]

/-- A handler that calls nothing and returns `false` passes the event to the super state. -/
theorem HsmBase.onEventFrom_pass (onInit : HsmStateBase → List Request) (fuel : Nat)
    (ev : Event) (m : HsmBase) (i : Nat) (p : HsmStateBase)
    (h : ev (.sub i p) = ⟨[], false⟩) :
    m.onEventFrom onInit fuel ev (.sub i p)
      = Run.after [.onEvent (.sub i p)] (m.onEventFrom onInit fuel ev p) := by
  conv_lhs => rw [HsmBase.onEventFrom]
  simp only [h, HsmBase.calls_nil, Run.pure_bind, Bool.false_eq_true, if_false]
  rw [HsmBase.onEventFrom_sourceState]

/-- The walk of the dispatch loop over handlers that call nothing and return `false`. -/
theorem HsmBase.onEventFrom_walk (onInit : HsmStateBase → List Request) (fuel : Nat)
    (ev : Event) (m : HsmBase) {c s : HsmStateBase} (hs : s ∈ c.chain)
    (hbelow : ∀ n ∈ pathUp c s, ev n = ⟨[], false⟩) :
    m.onEventFrom onInit fuel ev c
      = Run.after ((pathUp c s).map .onEvent) (m.onEventFrom onInit fuel ev s) := by
  induction c with
  | root i =>
    have : s = .root i := by simpa [HsmStateBase.chain] using hs
    subst this
    simp [pathUp_self, Run.after_nil]
  | sub i p ih =>
    by_cases hc : HsmStateBase.sub i p = s
    · subst hc
      simp [pathUp_self, Run.after_nil]
    · rw [pathUp_sub hc] at hbelow ⊢
      rw [HsmBase.onEventFrom_pass _ _ _ _ _ _ (hbelow _ (List.mem_cons_self _ _)),
        ih (mem_chain_sub_of_ne hs hc) (fun n hn => hbelow n (List.mem_cons_of_mem _ hn)),
        Run.after_after]
      rfl

/-- The dispatch loop at a handler that handles the event without calling the engine. -/
theorem HsmBase.onEventFrom_internal (onInit : HsmStateBase → List Request) (fuel : Nat)
    (ev : Event) (m : HsmBase) (s : HsmStateBase) (hnext : m.nextState = none)
    (h : ev s = ⟨[], true⟩) :
    m.onEventFrom onInit fuel ev s
      = ⟨[.onEvent s], { m with sourceState := some s }, .ok true⟩ := by
  rw [HsmBase.onEventFrom]
  simp only [h, HsmBase.calls_nil, Run.pure_bind, HsmBase.afterHandled, hnext, if_true]
  simp [Run.after, Run.pure, hnext]

/-- The dispatch loop at the root with a handler that calls nothing and returns `false`. -/
theorem HsmBase.onEventFrom_root_pass (onInit : HsmStateBase → List Request) (fuel : Nat)
    (ev : Event) (m : HsmBase) (i : Nat) (h : ev (.root i) = ⟨[], false⟩) :
    m.onEventFrom onInit fuel ev (.root i)
      = ⟨[.onEvent (.root i)], { m with sourceState := some (.root i) }, .ok false⟩ := by
  rw [HsmBase.onEventFrom]
  simp only [h, HsmBase.calls_nil, Run.pure_bind, Bool.false_eq_true, if_false]
  simp [Run.after, Run.pure]

/-- The dispatch loop at a handler that requests one `transition` and returns `true`, given
what the exit phase does. -/
theorem HsmBase.onEventFrom_transition (onInit : HsmStateBase → List Request) (fuel : Nat)
    (ev : Event) (m : HsmBase) (s t : HsmStateBase) (exits : List Callback) (m1 : HsmBase)
    (hcur : m.currentState ≠ none) (h : ev s = ⟨[.transition t], true⟩)
    (hexit : HsmBase.exitUpToLCA { m with sourceState := some s } t = ⟨exits, m1, .ok ()⟩) :
    m.onEventFrom onInit fuel ev s
      = Run.after ([.onEvent s] ++ exits)
          ((HsmBase.enterAndInitNextState onInit fuel { m1 with nextState := some t }).bind
            fun _ m2 => Run.pure true m2) := by
  rw [HsmBase.onEventFrom]
  simp only [h, HsmBase.calls_single, HsmBase.call, HsmBase.transition, hcur, if_false, hexit,
    Run.mk_ok_bind, Run.after_bind, Run.pure_bind, if_true, Run.after_after,
    HsmBase.afterHandled]

/-- The dispatch loop at a handler that requests one `externalTransition` and returns `true`,
given what the exit phase does. -/
theorem HsmBase.onEventFrom_externalTransition (onInit : HsmStateBase → List Request)
    (fuel : Nat) (ev : Event) (m : HsmBase) (s t own : HsmStateBase) (exits : List Callback)
    (m1 : HsmBase) (hcur : m.currentState ≠ none) (h : ev s = ⟨[.externalTransition t], true⟩)
    (hexit : HsmBase.exitUpToLCA { m with sourceState := some s } t = ⟨exits, m1, .ok ()⟩)
    (hown : m1.currentState = some own) :
    m.onEventFrom onInit fuel ev s
      = Run.after ([.onEvent s] ++ exits ++ [.onExit own, .onEnter own])
          ((HsmBase.enterAndInitNextState onInit fuel { m1 with nextState := some t }).bind
            fun _ m2 => Run.pure true m2) := by
  rw [HsmBase.onEventFrom]
  simp only [h, HsmBase.calls_single, HsmBase.call, HsmBase.externalTransition, hcur, if_false,
    hexit, Run.mk_ok_bind, Run.after_bind, Run.pure_bind, if_true, Run.after_after, hown,
    List.append_assoc, HsmBase.afterHandled]

theorem HsmBase.rememberAll_with_sourceState (m : HsmBase) (x : Option HsmStateBase)
    (xs : List HsmStateBase) :
    HsmBase.rememberAll { m with sourceState := x } xs
      = { m.rememberAll xs with sourceState := x } := by
  induction xs generalizing m with
  | nil => rfl
  | cons y ys ih =>
    cases y with
    | root i => simpa [HsmBase.rememberAll] using ih m
    | sub i p => simpa [HsmBase.rememberAll, HsmBase.remember] using ih (m.remember p (.sub i p))

/-- Entry and settling from a current state on the chain of the pending state. -/
theorem HsmBase.enterAndInitNextState_eq (onInit : HsmStateBase → List Request) (fuel : Nat)
    (m : HsmBase) {l t : HsmStateBase} (hcur : m.currentState = some l)
    (hnext : m.nextState = some t) (hl : l ∈ t.chain)
    (hlen : (pathDown l t).length < MAX_STATE_NESTING) :
    m.enterAndInitNextState onInit fuel
      = Run.after ((pathDown l t).map .onEnter)
          (HsmBase.initCurrentState onInit fuel
            { m with currentState := some t, nextState := none }) := by
  rw [HsmBase.enterAndInitNextState, m.enterNextState_eq hcur hnext hl hlen, Run.mk_ok_bind,
    hnext]

/-! ## Claims -/

theorem HsmStateBase.rootOf_eq_root (s : HsmStateBase) : ∃ i, s.rootOf = .root i := by
  induction s with
  | root i => exact ⟨i, rfl⟩
  | sub i p ih => simpa [HsmStateBase.rootOf] using ih

theorem HsmStateBase.chain_root_eq (s : HsmStateBase) :
    s.chain = pathUp s s.rootOf ++ [s.rootOf] := by
  obtain ⟨i, hi⟩ := s.rootOf_eq_root
  have h := chain_eq_pathUp_append s.rootOf_mem_chain
  rw [hi] at h ⊢
  simpa [HsmStateBase.chain] using h

/-- The settling loop at a state whose `onInit` calls nothing, with nothing pending. -/
theorem HsmBase.initCurrentState_leaf (onInit : HsmStateBase → List Request) (fuel : Nat)
    (m : HsmBase) (c : HsmStateBase) (hcur : m.currentState = some c)
    (hnext : m.nextState = none) (hinit : onInit c = []) :
    HsmBase.initCurrentState onInit (fuel + 1) m = ⟨[.onInit c], m, .ok ()⟩ := by
  rw [HsmBase.initCurrentState, hcur]
  simp only [hinit, HsmBase.calls_nil, Run.pure_bind, hnext]
  simp [Run.after, Run.pure]

/-- C5 (amended): for a started machine with nothing pending, if the first accepting handler on
the chain from the current state `c` (at `s`) returns `true` without calling the engine, and
the handlers below it return `false` without calling the engine, then `onEvent` returns
`true`, the only callbacks are the handlers from `c` up to `s` (no `onExit`, `onEnter` or
`onInit`), and the machine is unchanged except for `sourceState`, left at `s`: the current
state and every `historySubstate` are as before. -/
theorem c5_handled_without_transition_is_internal (onInit : HsmStateBase → List Request)
    (fuel : Nat) (ev : Event) (m : HsmBase) (c s : HsmStateBase)
    (hcur : m.currentState = some c) (hnext : m.nextState = none) (hs : s ∈ c.chain)
    (hbelow : ∀ n ∈ pathUp c s, ev n = ⟨[], false⟩) (hev : ev s = ⟨[], true⟩) :
    m.onEvent onInit fuel ev
      = ⟨(pathUp c s).map .onEvent ++ [.onEvent s], { m with sourceState := some s },
          .ok true⟩ := by
  rw [HsmBase.onEvent_eq_onEventFrom onInit fuel ev m hcur,
    HsmBase.onEventFrom_walk onInit fuel ev m hs hbelow,
    HsmBase.onEventFrom_internal onInit fuel ev m s hnext hev]
  rfl

/-- C5, witness: in the hierarchy test machine at `S11`, an event that only `TOP` handles,
without a transition. -/
theorem c5_handled_without_transition_is_internal_witness :
    hierarchyStarted.onEvent hierarchyInit 3 hierarchyEventTopOnly
      = ⟨(pathUp hierarchyS11 hierarchyTop).map .onEvent ++ [.onEvent hierarchyTop],
          { hierarchyStarted with sourceState := some hierarchyTop }, .ok true⟩ :=
  c5_handled_without_transition_is_internal hierarchyInit 3 hierarchyEventTopOnly
    hierarchyStarted hierarchyS11 hierarchyTop (by decide) (by decide) (by decide) (by decide)
    (by decide)

/-- C6 (amended): for a started machine, an event that no handler on the chain from the current
state `c` to the root accepts, and whose handlers on that chain make no engine call, returns
`false`, invokes the handlers of the whole chain and no `onExit`, `onEnter` or `onInit`, and
leaves the current state, the pending state and every `historySubstate` as they were;
`sourceState` is left at the root, the last state visited. -/
theorem c6_unhandled_event_leaves_source_at_root (onInit : HsmStateBase → List Request)
    (fuel : Nat) (ev : Event) (m : HsmBase) (c : HsmStateBase)
    (hcur : m.currentState = some c) (hall : ∀ n ∈ c.chain, ev n = ⟨[], false⟩) :
    m.onEvent onInit fuel ev
      = ⟨c.chain.map .onEvent, { m with sourceState := some c.rootOf }, .ok false⟩ := by
  obtain ⟨i, hi⟩ := c.rootOf_eq_root
  rw [HsmBase.onEvent_eq_onEventFrom onInit fuel ev m hcur,
    HsmBase.onEventFrom_walk onInit fuel ev m c.rootOf_mem_chain
      (fun n hn => hall n (pathUp_subset_chain hn)), c.chain_root_eq, hi,
    HsmBase.onEventFrom_root_pass onInit fuel ev m i (hi ▸ hall _ c.rootOf_mem_chain)]
  simp [Run.after]

/-- C6, witness: the hierarchy test machine at `S11` and an event that no state handles. -/
theorem c6_unhandled_event_leaves_source_at_root_witness :
    hierarchyStarted.onEvent hierarchyInit 3 unhandledEvent
      = ⟨hierarchyS11.chain.map .onEvent,
          { hierarchyStarted with sourceState := some hierarchyS11.rootOf }, .ok false⟩ :=
  c6_unhandled_event_leaves_source_at_root hierarchyInit 3 unhandledEvent hierarchyStarted
    hierarchyS11 (by decide) (by decide)

/-- C6, counterexample: after `onStart` of the hierarchy test machine `sourceState` is null;
the dispatch of an event that no state handles returns `false` and leaves `sourceState`
pointing at `TOP`, not at its value before the call. -/
theorem c6_unhandled_event_changes_source :
    (HsmBase.onStart hierarchyInit 3 (HsmBase.new hierarchyTop)).result = .ok () ∧
    hierarchyStarted.sourceState = none ∧
    (hierarchyStarted.onEvent hierarchyInit 3 unhandledEvent).result = .ok false ∧
    (hierarchyStarted.onEvent hierarchyInit 3 unhandledEvent).hsm.sourceState
      = some hierarchyTop ∧
    (hierarchyStarted.onEvent hierarchyInit 3 unhandledEvent).hsm.sourceState
      ≠ hierarchyStarted.sourceState := by
  decide

/-- C7: for every state `s` with a super state `p` (at any depth) that is the current state
and whose handler requests `transition(s)`: `levelsToLCA` returns 1, and the dispatch invokes
the handler of `s`, `onExit(s)`, `onEnter(s)` and then runs the settling loop at `s`; when `s`
is a leaf (`onInit(s)` calls nothing) the callbacks are exactly the handler, `onExit(s)`,
`onEnter(s)`, `onInit(s)`, and `s` is the current state again. -/
theorem c7_self_transition_exits_and_reenters_source (onInit : HsmStateBase → List Request)
    (fuel : Nat) (ev : Event) (m : HsmBase) (i : Nat) (p : HsmStateBase)
    (hcur : m.currentState = some (.sub i p))
    (hev : ev (.sub i p) = ⟨[.transition (.sub i p)], true⟩) :
    HsmBase.levelsToLCA { m with sourceState := some (.sub i p) } (.sub i p) = 1 ∧
    m.onEvent onInit fuel ev
      = Run.after [.onEvent (.sub i p), .onExit (.sub i p), .onEnter (.sub i p)]
          ((HsmBase.initCurrentState onInit fuel
              { m.remember p (.sub i p) with
                currentState := some (.sub i p), nextState := none,
                sourceState := some (.sub i p) }).bind
            fun _ m2 => Run.pure true m2) ∧
    (onInit (.sub i p) = [] →
      m.onEvent onInit (fuel + 1) ev
        = ⟨[.onEvent (.sub i p), .onExit (.sub i p), .onEnter (.sub i p), .onInit (.sub i p)],
            { m.remember p (.sub i p) with
              currentState := some (.sub i p), nextState := none,
              sourceState := some (.sub i p) }, .ok true⟩) := by
  have hp : p ∈ (HsmStateBase.sub i p).chain := by
    simp [HsmStateBase.chain, HsmStateBase.mem_chain_self]
  have hne : HsmStateBase.sub i p ≠ p := fun h => by
    have := congrArg (fun x => x.chain.length) h
    simp [HsmStateBase.chain] at this
  have hup : pathUp (.sub i p) p = [.sub i p] := by rw [pathUp_sub hne, pathUp_self]
  have hexit := HsmBase.exitUpToLCA_self { m with sourceState := some (.sub i p) }
    (c := .sub i p) (p := p) (i := i) hcur rfl (HsmStateBase.mem_chain_self _)
  have hdown : pathDown p (.sub i p) = [.sub i p] := by simp [pathDown, hup]
  have hrun : ∀ f, m.onEvent onInit f ev
      = Run.after [.onEvent (.sub i p), .onExit (.sub i p), .onEnter (.sub i p)]
          ((HsmBase.initCurrentState onInit f
              { m.remember p (.sub i p) with
                currentState := some (.sub i p), nextState := none,
                sourceState := some (.sub i p) }).bind
            fun _ m2 => Run.pure true m2) := by
    intro f
    rw [HsmBase.onEvent_eq_onEventFrom onInit f ev m hcur,
      HsmBase.onEventFrom_transition onInit f ev m _ _ _ _ (by simp [hcur]) hev hexit,
      HsmBase.enterAndInitNextState_eq onInit f _ (l := p) (t := .sub i p) rfl rfl hp
        (by rw [hdown]; simp [MAX_STATE_NESTING])]
    simp only [Run.after_bind, Run.after_after, hup, hdown, List.map, List.append_assoc,
      HsmBase.rememberAll, HsmBase.remember]
    rfl
  refine ⟨by simp [HsmBase.levelsToLCA], hrun fuel, fun hinit => ?_⟩
  rw [hrun (fuel + 1), HsmBase.initCurrentState_leaf onInit fuel _ (.sub i p) rfl rfl hinit,
    Run.mk_ok_bind]
  simp [Run.after, Run.pure]

/-- C7, witness: event `D` of the hierarchy test in state `S11`, whose handler requests
`transition(S11)`. -/
theorem c7_self_transition_exits_and_reenters_source_witness :
    HsmBase.levelsToLCA { hierarchyStarted with sourceState := some hierarchyS11 } hierarchyS11
      = 1 ∧
    hierarchyStarted.onEvent hierarchyInit 3 hierarchyEventD
      = Run.after [.onEvent hierarchyS11, .onExit hierarchyS11, .onEnter hierarchyS11]
          ((HsmBase.initCurrentState hierarchyInit 3
              { hierarchyStarted.remember hierarchyS1 hierarchyS11 with
                currentState := some hierarchyS11, nextState := none,
                sourceState := some hierarchyS11 }).bind
            fun _ m2 => Run.pure true m2) ∧
    (hierarchyInit hierarchyS11 = [] →
      hierarchyStarted.onEvent hierarchyInit (3 + 1) hierarchyEventD
        = ⟨[.onEvent hierarchyS11, .onExit hierarchyS11, .onEnter hierarchyS11,
              .onInit hierarchyS11],
            { hierarchyStarted.remember hierarchyS1 hierarchyS11 with
              currentState := some hierarchyS11, nextState := none,
              sourceState := some hierarchyS11 }, .ok true⟩) :=
  c7_self_transition_exits_and_reenters_source hierarchyInit 3 hierarchyEventD
    hierarchyStarted 11 hierarchyS1 (by decide) (by decide)

/-! ## Handler invocations -/

theorem Run.bind_trace {α β : Type} (r : Run α) (f : α → HsmBase → Run β) :
    (r.bind f).trace
      = r.trace ++ (match r.result with
          | .ok a => (f a r.hsm).trace
          | .error _ => []) := by
  cases r with
  | mk tr h res => cases res <;> simp [Run.bind, Run.after]

theorem Run.bind_result_ok {α β : Type} {r : Run α} {f : α → HsmBase → Run β} {b : β}
    (h : (r.bind f).result = .ok b) :
    ∃ a, r.result = .ok a ∧ (f a r.hsm).result = .ok b := by
  cases r with
  | mk tr m res =>
    cases res with
    | error e => simp [Run.bind] at h
    | ok a => exact ⟨a, rfl, by simpa [Run.bind, Run.after] using h⟩

theorem Run.bind_hsm_ok {α β : Type} {r : Run α} {f : α → HsmBase → Run β} {a : α}
    (h : r.result = .ok a) : (r.bind f).hsm = (f a r.hsm).hsm := by
  cases r with
  | mk tr m res =>
    simp only at h
    subst h
    simp [Run.bind, Run.after]

theorem Run.bind_result_of_ok {α β : Type} {r : Run α} {f : α → HsmBase → Run β} {a : α}
    (h : r.result = .ok a) : (r.bind f).result = (f a r.hsm).result := by
  cases r with
  | mk tr m res =>
    simp only at h
    subst h
    simp [Run.bind, Run.after]

theorem Run.bind_trace_of_ok {α β : Type} {r : Run α} {f : α → HsmBase → Run β} {a : α}
    (h : r.result = .ok a) : (r.bind f).trace = r.trace ++ (f a r.hsm).trace := by
  rw [Run.bind_trace, h]

theorem Run.bind_noHandlers {α β : Type} (r : Run α) (f : α → HsmBase → Run β)
    (hr : r.trace.filter Callback.isHandler = [])
    (hf : ∀ a m, (f a m).trace.filter Callback.isHandler = []) :
    (r.bind f).trace.filter Callback.isHandler = [] := by
  rw [Run.bind_trace, List.filter_append, hr]
  cases r.result <;> simp [hf]

theorem HsmBase.exitUpToSource_noHandlers (m : HsmBase) (state : HsmStateBase) :
    (m.exitUpToSource state).trace.filter Callback.isHandler = [] := by
  induction state generalizing m with
  | root i =>
    rw [HsmBase.exitUpToSource]
    split <;> simp [Run.pure, Run.after, Run.fail, Callback.isHandler]
  | sub i p ih =>
    rw [HsmBase.exitUpToSource]
    split
    · simp [Run.pure]
    · simpa [Run.after, Callback.isHandler] using ih _

theorem HsmBase.exitLevels_noHandlers (m : HsmBase) (n : Nat) (state : HsmStateBase) :
    (m.exitLevels n state).trace.filter Callback.isHandler = [] := by
  induction n generalizing m state with
  | zero => simp [HsmBase.exitLevels, Run.pure]
  | succ k ih =>
    cases state with
    | root i => simp [HsmBase.exitLevels, Run.after, Run.fail, Callback.isHandler]
    | sub i p => simpa [HsmBase.exitLevels, Run.after, Callback.isHandler] using ih _ _

theorem HsmBase.exitUpToLCA_noHandlers (m : HsmBase) (t : HsmStateBase) :
    (m.exitUpToLCA t).trace.filter Callback.isHandler = [] := by
  unfold HsmBase.exitUpToLCA
  split
  · split <;> simp [Run.pure, Run.fail]
  · refine Run.bind_noHandlers _ _ (HsmBase.exitUpToSource_noHandlers _ _) (fun a m1 => ?_)
    exact Run.bind_noHandlers _ _ (HsmBase.exitLevels_noHandlers _ _ _)
      (fun _ _ => by simp [Run.pure])

theorem HsmBase.call_noHandlers (m : HsmBase) (r : Request) :
    (m.call r).trace.filter Callback.isHandler = [] := by
  cases r with
  | transition t =>
    simp only [HsmBase.call, HsmBase.transition]
    split
    · simp [Run.fail]
    · exact Run.bind_noHandlers _ _ (HsmBase.exitUpToLCA_noHandlers _ _)
        (fun _ _ => by simp [Run.pure])
  | externalTransition t =>
    simp only [HsmBase.call, HsmBase.externalTransition]
    split
    · simp [Run.fail]
    · refine Run.bind_noHandlers _ _ (HsmBase.exitUpToLCA_noHandlers _ _) (fun _ m1 => ?_)
      split <;> simp [Run.fail, Run.pure, Run.after, Callback.isHandler]
  | initialTransition s => simp [HsmBase.call, HsmBase.initialTransition, Run.pure]
  | initialHistoryTransition s =>
    simp only [HsmBase.call, HsmBase.initialHistoryTransition]
    split
    · simp [Run.fail]
    · split <;> simp [HsmBase.initialTransition, Run.pure]

theorem HsmBase.calls_noHandlers (m : HsmBase) (rs : List Request) :
    (m.calls rs).trace.filter Callback.isHandler = [] := by
  induction rs generalizing m with
  | nil => simp [HsmBase.calls, Run.pure]
  | cons r rs ih =>
    exact Run.bind_noHandlers _ _ (HsmBase.call_noHandlers _ _) (fun _ m1 => ih m1)

theorem HsmBase.enterNextState_noHandlers (m : HsmBase) :
    m.enterNextState.trace.filter Callback.isHandler = [] := by
  unfold HsmBase.enterNextState
  split
  · split <;> simp [Run.pure, Run.fail]
  · split
    · simp [Run.after, Run.pure, List.filter_eq_nil_iff, Callback.isHandler]
    · simp [Run.fail]

theorem HsmBase.initCurrentState_noHandlers (onInit : HsmStateBase → List Request) (fuel : Nat)
    (m : HsmBase) :
    (HsmBase.initCurrentState onInit fuel m).trace.filter Callback.isHandler = [] := by
  induction fuel generalizing m with
  | zero => simp [HsmBase.initCurrentState, Run.fail]
  | succ k ih =>
    rw [HsmBase.initCurrentState]
    split
    · simp [Run.fail]
    · simp only [Run.after, List.singleton_append, List.filter_cons, Callback.isHandler,
        Bool.false_eq_true, if_false]
      refine Run.bind_noHandlers _ _ (HsmBase.calls_noHandlers _ _) (fun _ m1 => ?_)
      split
      · simp [Run.pure]
      · split
        · exact Run.bind_noHandlers _ _ (HsmBase.enterNextState_noHandlers _) (fun _ m2 => ih _)
        · simp [Run.fail]

theorem HsmBase.enterAndInitNextState_noHandlers (onInit : HsmStateBase → List Request)
    (fuel : Nat) (m : HsmBase) :
    (m.enterAndInitNextState onInit fuel).trace.filter Callback.isHandler = [] :=
  Run.bind_noHandlers _ _ (HsmBase.enterNextState_noHandlers _)
    (fun _ _ => HsmBase.initCurrentState_noHandlers _ _ _)

theorem Run.bind_of_ok {α β : Type} {r : Run α} {f : α → HsmBase → Run β} {a : α}
    (h : r.result = .ok a) : r.bind f = Run.after r.trace (f a r.hsm) := by
  cases r with
  | mk tr m res =>
    simp only at h
    subst h
    simp [Run.bind]

theorem Run.bind_of_error {α β : Type} {r : Run α} {f : α → HsmBase → Run β} {e : Fault}
    (h : r.result = .error e) : r.bind f = ⟨r.trace, r.hsm, .error e⟩ := by
  cases r with
  | mk tr m res =>
    simp only at h
    subst h
    simp [Run.bind]

/-- The dispatch loop at a state whose handler stops at a fault. -/
theorem HsmBase.onEventFrom_fault (onInit : HsmStateBase → List Request) (fuel : Nat)
    (ev : Event) (m : HsmBase) (x : HsmStateBase) (e : Fault)
    (h : (HsmBase.calls { m with sourceState := some x } (ev x).requests).result = .error e) :
    m.onEventFrom onInit fuel ev x
      = ⟨.onEvent x :: (HsmBase.calls { m with sourceState := some x } (ev x).requests).trace,
          (HsmBase.calls { m with sourceState := some x } (ev x).requests).hsm, .error e⟩ := by
  rw [HsmBase.onEventFrom, Run.bind_of_error h]
  rfl

/-- The dispatch loop at a state whose handler returns `true`. -/
theorem HsmBase.onEventFrom_handled (onInit : HsmStateBase → List Request) (fuel : Nat)
    (ev : Event) (m : HsmBase) (x : HsmStateBase)
    (h : (HsmBase.calls { m with sourceState := some x } (ev x).requests).result = .ok ())
    (hh : (ev x).handled = true) :
    m.onEventFrom onInit fuel ev x
      = Run.after
          (.onEvent x :: (HsmBase.calls { m with sourceState := some x } (ev x).requests).trace)
          (HsmBase.afterHandled onInit fuel
            (HsmBase.calls { m with sourceState := some x } (ev x).requests).hsm) := by
  rw [HsmBase.onEventFrom, Run.bind_of_ok h, Run.after_after]
  simp only [hh, if_true, HsmBase.afterHandled]
  rfl

/-- The dispatch loop at the root when its handler returns `false`. -/
theorem HsmBase.onEventFrom_root_unhandled (onInit : HsmStateBase → List Request) (fuel : Nat)
    (ev : Event) (m : HsmBase) (i : Nat)
    (h : (HsmBase.calls { m with sourceState := some (.root i) }
      (ev (.root i)).requests).result = .ok ())
    (hh : (ev (.root i)).handled = false) :
    m.onEventFrom onInit fuel ev (.root i)
      = ⟨.onEvent (.root i)
            :: (HsmBase.calls { m with sourceState := some (.root i) }
                (ev (.root i)).requests).trace,
          (HsmBase.calls { m with sourceState := some (.root i) } (ev (.root i)).requests).hsm,
          .ok false⟩ := by
  rw [HsmBase.onEventFrom, Run.bind_of_ok h, Run.after_after]
  simp [hh, Run.after, Run.pure]

/-- The dispatch loop at a state with a super state when its handler returns `false`. -/
theorem HsmBase.onEventFrom_sub_unhandled (onInit : HsmStateBase → List Request) (fuel : Nat)
    (ev : Event) (m : HsmBase) (i : Nat) (p : HsmStateBase)
    (h : (HsmBase.calls { m with sourceState := some (.sub i p) }
      (ev (.sub i p)).requests).result = .ok ())
    (hh : (ev (.sub i p)).handled = false) :
    m.onEventFrom onInit fuel ev (.sub i p)
      = Run.after
          (.onEvent (.sub i p)
            :: (HsmBase.calls { m with sourceState := some (.sub i p) }
                (ev (.sub i p)).requests).trace)
          (HsmBase.onEventFrom onInit fuel ev
            (HsmBase.calls { m with sourceState := some (.sub i p) }
              (ev (.sub i p)).requests).hsm p) := by
  conv_lhs => rw [HsmBase.onEventFrom]
  rw [Run.bind_of_ok h, Run.after_after]
  simp only [hh, Bool.false_eq_true, if_false]
  rfl

theorem HsmBase.afterHandled_noHandlers (onInit : HsmStateBase → List Request) (fuel : Nat)
    (m : HsmBase) :
    (HsmBase.afterHandled onInit fuel m).trace.filter Callback.isHandler = [] := by
  unfold HsmBase.afterHandled
  split
  · exact Run.bind_noHandlers _ _ (HsmBase.enterAndInitNextState_noHandlers _ _ _)
      (fun _ _ => by simp [Run.pure])
  · simp [Run.pure]

theorem HsmBase.afterHandled_result (onInit : HsmStateBase → List Request) (fuel : Nat)
    (m : HsmBase) (b : Bool) (h : (HsmBase.afterHandled onInit fuel m).result = .ok b) :
    b = true := by
  unfold HsmBase.afterHandled at h
  split at h
  · obtain ⟨_, _, h2⟩ := Run.bind_result_ok h
    simpa [Run.pure] using h2.symm
  · simpa [Run.pure] using h.symm

theorem HsmBase.onEventFrom_handlers (onInit : HsmStateBase → List Request) (fuel : Nat)
    (ev : Event) (m : HsmBase) (c : HsmStateBase) :
    ((m.onEventFrom onInit fuel ev c).trace.filter Callback.isHandler
        <+: (handlerWalk ev c.chain).map .onEvent) ∧
    ∀ b, (m.onEventFrom onInit fuel ev c).result = .ok b →
      (m.onEventFrom onInit fuel ev c).trace.filter Callback.isHandler
          = (handlerWalk ev c.chain).map .onEvent ∧
        b = c.chain.any (fun n => (ev n).handled) := by
  induction c generalizing m with
  | root i =>
    cases hres : (HsmBase.calls { m with sourceState := some (.root i) }
        (ev (.root i)).requests).result with
    | error e =>
      rw [HsmBase.onEventFrom_fault onInit fuel ev m _ e hres]
      simp only [List.filter_cons, Callback.isHandler, if_true, HsmBase.calls_noHandlers,
        HsmStateBase.chain, handlerWalk]
      constructor
      · split <;> simp
      · intro b hb; simp at hb
    | ok u =>
      cases hh : (ev (.root i)).handled with
      | true =>
        rw [HsmBase.onEventFrom_handled onInit fuel ev m _ hres hh]
        simp only [Run.after, List.filter_append, List.filter_cons, Callback.isHandler, if_true,
          HsmBase.calls_noHandlers, HsmBase.afterHandled_noHandlers, HsmStateBase.chain,
          handlerWalk, hh]
        constructor
        · simp
        · intro b hb
          simp [HsmBase.afterHandled_result onInit fuel _ b hb, hh]
      | false =>
        rw [HsmBase.onEventFrom_root_unhandled onInit fuel ev m _ hres hh]
        simp only [List.filter_cons, Callback.isHandler, if_true, HsmBase.calls_noHandlers,
          HsmStateBase.chain, handlerWalk, hh]
        constructor
        · simp
        · intro b hb
          simp only [Except.ok.injEq] at hb
          simp [← hb, hh]
  | sub i p ih =>
    cases hres : (HsmBase.calls { m with sourceState := some (.sub i p) }
        (ev (.sub i p)).requests).result with
    | error e =>
      rw [HsmBase.onEventFrom_fault onInit fuel ev m _ e hres]
      simp only [List.filter_cons, Callback.isHandler, if_true, HsmBase.calls_noHandlers,
        HsmStateBase.chain, handlerWalk]
      constructor
      · split <;> simp
      · intro b hb; simp at hb
    | ok u =>
      cases hh : (ev (.sub i p)).handled with
      | true =>
        rw [HsmBase.onEventFrom_handled onInit fuel ev m _ hres hh]
        simp only [Run.after, List.filter_append, List.filter_cons, Callback.isHandler, if_true,
          HsmBase.calls_noHandlers, HsmBase.afterHandled_noHandlers, HsmStateBase.chain,
          handlerWalk, hh]
        constructor
        · simp
        · intro b hb
          simp [HsmBase.afterHandled_result onInit fuel _ b hb, hh]
      | false =>
        rw [HsmBase.onEventFrom_sub_unhandled onInit fuel ev m _ _ hres hh]
        have ih := ih (HsmBase.calls { m with sourceState := some (.sub i p) }
              (ev (.sub i p)).requests).hsm
        simp only [Run.after, List.filter_append, List.filter_cons, Callback.isHandler, if_true,
          HsmBase.calls_noHandlers, HsmStateBase.chain, handlerWalk, hh, List.nil_append,
          List.cons_append, Bool.false_eq_true, if_false, List.map_cons, List.any_cons,
          Bool.false_or]
        constructor
        · exact (List.cons_prefix_cons).2 ⟨rfl, ih.1⟩
        · intro b hb
          have := ih.2 b hb
          exact ⟨by rw [this.1], this.2⟩

/-! ## The settling loop -/

theorem HsmStateBase.eq_sub_of_superState {b a : HsmStateBase} (h : b.superState = some a) :
    ∃ i, b = .sub i a := by
  cases b with
  | root i => simp [HsmStateBase.superState] at h
  | sub i p =>
    simp only [HsmStateBase.superState, Option.some.injEq] at h
    exact ⟨i, by rw [h]⟩

theorem HsmBase.call_initial (m : HsmBase) {a b : HsmStateBase} {r : Request}
    (hcur : m.currentState = some a)
    (hr : r.initialTarget (m.historySubstate a) = some b) :
    m.call r = ⟨[], { m with nextState := some b }, .ok ()⟩ := by
  cases r with
  | transition t => simp [Request.initialTarget] at hr
  | externalTransition t => simp [Request.initialTarget] at hr
  | initialTransition s =>
    simp only [Request.initialTarget, Option.some.injEq] at hr
    simp [HsmBase.call, HsmBase.initialTransition, Run.pure, hr]
  | initialHistoryTransition s =>
    simp only [Request.initialTarget, Option.some.injEq] at hr
    simp only [HsmBase.call, HsmBase.initialHistoryTransition, hcur]
    cases hh : m.historySubstate a with
    | none =>
      rw [hh] at hr
      simp only [Option.getD_none] at hr
      simp [HsmBase.initialTransition, Run.pure, hr, hcur]
    | some x =>
      rw [hh] at hr
      simp only [Option.getD_some] at hr
      simp [HsmBase.initialTransition, Run.pure, hr, hcur]

/-- One round of the settling loop at a state whose `onInit` requests a direct sub state. -/
theorem HsmBase.initCurrentState_descend (onInit : HsmStateBase → List Request) (fuel : Nat)
    (m : HsmBase) {a b : HsmStateBase} (hcur : m.currentState = some a)
    (hchild : initialChild onInit m.historySubstate a = some b)
    (hsuper : b.superState = some a) :
    HsmBase.initCurrentState onInit (fuel + 1) m
      = Run.after [.onInit a, .onEnter b]
          (HsmBase.initCurrentState onInit fuel
            { m with currentState := some b, nextState := none }) := by
  obtain ⟨i, hb⟩ := HsmStateBase.eq_sub_of_superState hsuper
  have hreq : ∃ r, onInit a = [r] ∧ r.initialTarget (m.historySubstate a) = some b := by
    unfold initialChild at hchild
    split at hchild
    · exact ⟨_, by assumption, hchild⟩
    · simp at hchild
  obtain ⟨r, hr, htarget⟩ := hreq
  have hne : HsmStateBase.sub i a ≠ a := fun h => by
    have := congrArg (fun x => x.chain.length) h
    simp [HsmStateBase.chain] at this
  have hdown : pathDown a b = [b] := by
    subst hb
    simp [pathDown, pathUp_sub hne, pathUp_self]
  have hmem : a ∈ b.chain := by
    subst hb
    simp [HsmStateBase.chain, HsmStateBase.mem_chain_self]
  have hcall := HsmBase.call_initial m hcur htarget
  have henter := HsmBase.enterNextState_eq { m with nextState := some b } (l := a) (t := b)
    hcur rfl hmem (by rw [hdown]; simp [MAX_STATE_NESTING])
  cases m with
  | mk top cur next src hist =>
    simp only at hcur
    subst hcur
    rw [HsmBase.initCurrentState]
    simp only [hr, HsmBase.calls_single, hcall, Run.mk_ok_bind, Run.after_nil, hsuper, if_true,
      henter, hdown, Run.after_after]
    rfl

theorem HsmBase.with_current_next_eq (m : HsmBase) {c : HsmStateBase}
    (hcur : m.currentState = some c) (hnext : m.nextState = none) :
    { m with currentState := some c, nextState := none } = m := by
  cases m
  simp only at hcur hnext
  subst hcur hnext
  rfl

/-- The settling loop along a sequence of initial descents: with enough fuel it invokes
`onInit` on the state it starts at, then `onEnter` and `onInit` on each state of the descent,
and stops at the last one. -/
theorem HsmBase.initCurrentState_descent (onInit : HsmStateBase → List Request)
    (ns : List HsmStateBase) :
    ∀ (fuel : Nat) (m : HsmBase) (n : HsmStateBase), m.currentState = some n →
      m.nextState = none → InitialDescent onInit m.historySubstate n ns → ns.length < fuel →
      HsmBase.initCurrentState onInit fuel m
        = ⟨.onInit n :: enterInitTrace ns,
            { m with currentState := some (ns.getLastD n), nextState := none }, .ok ()⟩ := by
  induction ns with
  | nil =>
    intro fuel m n hcur hnext hd hfuel
    obtain ⟨k, rfl⟩ : ∃ k, fuel = k + 1 := ⟨fuel - 1, by simp at hfuel; omega⟩
    rw [HsmBase.initCurrentState_leaf onInit k m n hcur hnext hd]
    simp [enterInitTrace, HsmBase.with_current_next_eq m hcur hnext]
  | cons b rest ih =>
    intro fuel m n hcur hnext hd hfuel
    obtain ⟨k, rfl⟩ : ∃ k, fuel = k + 1 := ⟨fuel - 1, by simp at hfuel; omega⟩
    obtain ⟨hchild, hsuper, hrest⟩ := hd
    rw [HsmBase.initCurrentState_descend onInit k m hcur hchild hsuper,
      ih k { m with currentState := some b, nextState := none } b rfl rfl hrest
        (by simp at hfuel; omega)]
    rw [List.getLastD_cons]
    simp [Run.after, enterInitTrace]

theorem exists_length_bound (nodes : List HsmStateBase) :
    ∃ d, ∀ x ∈ nodes, x.chain.length ≤ d := by
  induction nodes with
  | nil => exact ⟨0, by simp⟩
  | cons a rest ih =>
    obtain ⟨d, hd⟩ := ih
    refine ⟨max d a.chain.length, fun x hx => ?_⟩
    simp only [List.mem_cons] at hx
    rcases hx with hx | hx
    · subst hx; exact le_max_right _ _
    · exact le_trans (hd x hx) (le_max_left _ _)

/-- In a finite set of states closed under the initial descents requested by `onInit`, every
state has a finite sequence of initial descents. -/
theorem exists_initialDescent (onInit : HsmStateBase → List Request)
    (history : HsmStateBase → Option HsmStateBase) (nodes : List HsmStateBase)
    (hchild : ∀ a ∈ nodes, onInit a = [] ∨
      ∃ b ∈ nodes, initialChild onInit history a = some b ∧ b.superState = some a) :
    ∀ (k : Nat) (a : HsmStateBase), a ∈ nodes →
      (∀ x ∈ nodes, x.chain.length ≤ a.chain.length + k) →
      ∃ ns, InitialDescent onInit history a ns := by
  intro k
  induction k with
  | zero =>
    intro a ha hbound
    rcases hchild a ha with h | ⟨b, hb, _, hsuper⟩
    · exact ⟨[], h⟩
    · obtain ⟨i, hi⟩ := HsmStateBase.eq_sub_of_superState hsuper
      have := hbound b hb
      subst hi
      simp [HsmStateBase.chain] at this
  | succ k ih =>
    intro a ha hbound
    rcases hchild a ha with h | ⟨b, hb, hreq, hsuper⟩
    · exact ⟨[], h⟩
    · obtain ⟨i, hi⟩ := HsmStateBase.eq_sub_of_superState hsuper
      have hlen : b.chain.length = a.chain.length + 1 := by
        subst hi; simp [HsmStateBase.chain]
      obtain ⟨ns, hns⟩ := ih b hb (fun x hx => by have := hbound x hx; omega)
      exact ⟨b :: ns, hreq, hsuper, hns⟩

/-- C3: for every machine that was never started, over a finite set of states `nodes` that
contains the top state (a root) and in which every `onInit` either calls nothing or requests
exactly one initial descent into a direct sub state that is in `nodes`: there is a sequence
`ns` of successive initial descents from the top state (each state the direct sub state
requested by `onInit` of the one before, the last one requesting nothing), and with enough fuel
`onStart` returns with exactly the callbacks `onEnter(top), onInit(top)`, then
`onEnter(n), onInit(n)` for each `n` of `ns` in order — no `onExit` — and with the last state
of the descent as current state. -/
theorem c3_onStart_enters_top_and_settles (onInit : HsmStateBase → List Request)
    (m : HsmBase) (nodes : List HsmStateBase) (hnever : m.currentState = none)
    (hroot : m.topState.superState = none) (htop : m.topState ∈ nodes)
    (hchild : ∀ a ∈ nodes, onInit a = [] ∨
      ∃ b ∈ nodes, initialChild onInit m.historySubstate a = some b ∧ b.superState = some a) :
    ∃ ns, InitialDescent onInit m.historySubstate m.topState ns ∧
      ∀ fuel, ns.length < fuel →
        m.onStart onInit fuel
          = ⟨enterInitTrace (m.topState :: ns),
              { m with currentState := some (ns.getLastD m.topState), nextState := none },
              .ok ()⟩ := by
  obtain ⟨d, hd⟩ := exists_length_bound nodes
  obtain ⟨ns, hns⟩ := exists_initialDescent onInit m.historySubstate nodes hchild d m.topState
    htop (fun x hx => le_trans (hd x hx) (Nat.le_add_left _ _))
  refine ⟨ns, hns, fun fuel hfuel => ?_⟩
  rw [HsmBase.onStart]
  simp only [hroot, hnever, ne_eq, not_true_eq_false, if_false]
  rw [HsmBase.initCurrentState_descent onInit ns fuel
    { m with currentState := some m.topState, nextState := none } m.topState rfl rfl hns hfuel]
  simp [Run.after, enterInitTrace]

/-- C3, witness: the machine of the hierarchy test before `onStart`. -/
theorem c3_onStart_enters_top_and_settles_witness :
    ∃ ns, InitialDescent hierarchyInit (HsmBase.new hierarchyTop).historySubstate
        (HsmBase.new hierarchyTop).topState ns ∧
      ∀ fuel, ns.length < fuel →
        (HsmBase.new hierarchyTop).onStart hierarchyInit fuel
          = ⟨enterInitTrace ((HsmBase.new hierarchyTop).topState :: ns),
              { HsmBase.new hierarchyTop with
                currentState := some (ns.getLastD (HsmBase.new hierarchyTop).topState),
                nextState := none },
              .ok ()⟩ :=
  c3_onStart_enters_top_and_settles hierarchyInit (HsmBase.new hierarchyTop) hierarchyStates
    (by decide) (by decide) (by decide) (by decide)

/-! ## The current state is settled between calls -/

theorem Run.bind_ok {α β : Type} {r : Run α} {f : α → HsmBase → Run β} {b : β}
    (h : (r.bind f).result = .ok b) :
    ∃ a, r.result = .ok a ∧ (f a r.hsm).result = .ok b ∧
      (r.bind f).trace = r.trace ++ (f a r.hsm).trace ∧ (r.bind f).hsm = (f a r.hsm).hsm := by
  obtain ⟨a, ha, hb⟩ := Run.bind_result_ok h
  exact ⟨a, ha, hb, Run.bind_trace_of_ok ha, Run.bind_hsm_ok ha⟩

theorem lastInit_append_of_some {xs ys : List Callback} {c : HsmStateBase}
    (h : lastInit ys = some c) : lastInit (xs ++ ys) = some c := by
  induction xs with
  | nil => simpa using h
  | cons x xs ih => simp [lastInit, ih]

theorem lastInit_append_of_none {xs ys : List Callback} (h : lastInit ys = none) :
    lastInit (xs ++ ys) = lastInit xs := by
  induction xs with
  | nil => simpa using h
  | cons x xs ih => simp [lastInit, ih]

/-- Every engine operation that returns leaves a pending state. -/
theorem HsmBase.call_ok_nextState (m : HsmBase) (r : Request)
    (h : (m.call r).result = .ok ()) : (m.call r).hsm.nextState ≠ none := by
  cases r with
  | transition t =>
    simp only [HsmBase.call, HsmBase.transition] at h ⊢
    split at h
    · simp [Run.fail] at h
    · rename_i hc
      rw [if_neg hc]
      obtain ⟨a, _, _, _, hm⟩ := Run.bind_ok h
      rw [hm]; simp [Run.pure]
  | externalTransition t =>
    simp only [HsmBase.call, HsmBase.externalTransition] at h ⊢
    split at h
    · simp [Run.fail] at h
    · rename_i hc
      rw [if_neg hc]
      obtain ⟨a, _, h2, _, hm⟩ := Run.bind_ok h
      rw [hm]
      split at h2
      · simp [Run.fail] at h2
      · rename_i own hown
        simp [hown, Run.after, Run.pure]
  | initialTransition s => simp [HsmBase.call, HsmBase.initialTransition, Run.pure]
  | initialHistoryTransition s =>
    simp only [HsmBase.call, HsmBase.initialHistoryTransition] at h ⊢
    split
    · rename_i hc
      simp [hc, Run.fail] at h
    · split <;> simp [HsmBase.initialTransition, Run.pure]

theorem HsmBase.calls_ok_nextState (m : HsmBase) (rs : List Request) (hne : rs ≠ [])
    (h : (m.calls rs).result = .ok ()) : (m.calls rs).hsm.nextState ≠ none := by
  induction rs generalizing m with
  | nil => exact absurd rfl hne
  | cons r rs ih =>
    rw [HsmBase.calls] at h ⊢
    obtain ⟨a, h1, h2, _, hm⟩ := Run.bind_ok h
    rw [hm]
    cases rs with
    | nil => simpa [HsmBase.calls, Run.pure] using HsmBase.call_ok_nextState m r h1
    | cons r2 rs2 => exact ih _ (by simp) h2

theorem HsmBase.calls_ok_no_pending (m : HsmBase) (rs : List Request)
    (h : (m.calls rs).result = .ok ()) (hnext : (m.calls rs).hsm.nextState = none) :
    rs = [] := by
  by_contra hne
  exact HsmBase.calls_ok_nextState m rs hne h hnext

/-- When the settling loop returns, the machine rests at the state of the last `onInit`
invocation, whose `onInit` called nothing, and nothing is pending. -/
theorem HsmBase.initCurrentState_settled (onInit : HsmStateBase → List Request) (fuel : Nat)
    (m : HsmBase) (h : (HsmBase.initCurrentState onInit fuel m).result = .ok ()) :
    Settled onInit (HsmBase.initCurrentState onInit fuel m).trace
      (HsmBase.initCurrentState onInit fuel m).hsm := by
  induction fuel generalizing m with
  | zero => simp [HsmBase.initCurrentState, Run.fail] at h
  | succ k ih =>
    rw [HsmBase.initCurrentState] at h ⊢
    cases hcur : m.currentState with
    | none => simp [hcur, Run.fail] at h
    | some cur =>
      simp only [hcur] at h ⊢
      simp only [Run.after] at h ⊢
      obtain ⟨a, h1, h2, htr, hm⟩ := Run.bind_ok h
      rw [htr, hm]
      cases hnext : (m.calls (onInit cur)).hsm.nextState with
      | none =>
        have hnil := HsmBase.calls_ok_no_pending m _ h1 hnext
        simp only [hnext]
        rw [hnil]
        rw [hnil] at hnext
        simp only [HsmBase.calls_nil, Run.pure] at hnext ⊢
        exact ⟨cur, hcur, hnext, by simp [lastInit], hnil⟩
      | some next =>
        simp only [hnext] at h2 ⊢
        split at h2
        · rename_i hsup
          rw [if_pos hsup]
          obtain ⟨a2, h3, h4, htr2, hm2⟩ := Run.bind_ok h2
          rw [htr2, hm2]
          obtain ⟨c, hc1, hc2, hc3, hc4⟩ := ih _ h4
          refine ⟨c, hc1, hc2, ?_, hc4⟩
          rw [← List.append_assoc, ← List.append_assoc]
          exact lastInit_append_of_some hc3
        · simp [Run.fail] at h2

theorem HsmBase.afterHandled_settled (onInit : HsmStateBase → List Request) (fuel : Nat)
    (m : HsmBase) (b : Bool) (hnext : m.nextState ≠ none)
    (h : (HsmBase.afterHandled onInit fuel m).result = .ok b) :
    Settled onInit (HsmBase.afterHandled onInit fuel m).trace
      (HsmBase.afterHandled onInit fuel m).hsm := by
  cases hx : m.nextState with
  | none => exact absurd hx hnext
  | some x =>
    have e : HsmBase.afterHandled onInit fuel m
        = (m.enterAndInitNextState onInit fuel).bind fun _ m2 => Run.pure true m2 := by
      unfold HsmBase.afterHandled
      rw [hx]
    rw [e] at h ⊢
    obtain ⟨a, h1, h2, htr, hm⟩ := Run.bind_ok h
    rw [htr, hm]
    unfold HsmBase.enterAndInitNextState at h1 ⊢
    obtain ⟨a2, h3, h4, htr2, hm2⟩ := Run.bind_ok h1
    rw [htr2, hm2]
    obtain ⟨c, hc1, hc2, hc3, hc4⟩ := HsmBase.initCurrentState_settled onInit fuel _ h4
    refine ⟨c, hc1, hc2, ?_, hc4⟩
    simp only [Run.pure, List.append_nil]
    exact lastInit_append_of_some hc3

theorem HsmBase.calls_result_of_onEventFrom_ok (onInit : HsmStateBase → List Request)
    (fuel : Nat) (ev : Event) (m : HsmBase) (x : HsmStateBase) (b : Bool)
    (h : (m.onEventFrom onInit fuel ev x).result = .ok b) :
    (HsmBase.calls { m with sourceState := some x } (ev x).requests).result = .ok () := by
  cases hres : (HsmBase.calls { m with sourceState := some x } (ev x).requests).result with
  | error e =>
    rw [HsmBase.onEventFrom_fault onInit fuel ev m _ e hres] at h
    simp at h
  | ok u => rfl

theorem HsmBase.onEventFrom_handled_settled (onInit : HsmStateBase → List Request)
    (fuel : Nat) (ev : Event) (m : HsmBase) (x : HsmStateBase) (b : Bool)
    (hnext : m.nextState = none) (hh : (ev x).handled = true)
    (h : (m.onEventFrom onInit fuel ev x).result = .ok b) :
    ((m.onEventFrom onInit fuel ev x).hsm.currentState = m.currentState ∧
        (m.onEventFrom onInit fuel ev x).hsm.nextState = none ∧
        lastInit (m.onEventFrom onInit fuel ev x).trace = none) ∨
      Settled onInit (m.onEventFrom onInit fuel ev x).trace
        (m.onEventFrom onInit fuel ev x).hsm := by
  have hres := HsmBase.calls_result_of_onEventFrom_ok onInit fuel ev m x b h
  rw [HsmBase.onEventFrom_handled onInit fuel ev m x hres hh] at h ⊢
  by_cases hreq : (ev x).requests = []
  · left
    simp [hreq, HsmBase.calls_nil, Run.pure, Run.after, HsmBase.afterHandled, hnext, lastInit]
  · right
    have hpending := HsmBase.calls_ok_nextState _ _ hreq hres
    simp only [Run.after] at h ⊢
    obtain ⟨c, hc1, hc2, hc3, hc4⟩ := HsmBase.afterHandled_settled onInit fuel _ b hpending h
    exact ⟨c, hc1, hc2, lastInit_append_of_some hc3, hc4⟩

/-- A dispatch whose handlers request transitions only when they return `true`, started with
nothing pending: when it returns, either it invoked no `onInit` and left the current state and
the empty pending state alone, or it ended in a settling loop. -/
theorem HsmBase.onEventFrom_settled (onInit : HsmStateBase → List Request) (fuel : Nat)
    (ev : Event) (hev : ∀ n, (ev n).requests = [] ∨ (ev n).handled = true)
    (c : HsmStateBase) :
    ∀ (m : HsmBase) (b : Bool), m.nextState = none →
      (m.onEventFrom onInit fuel ev c).result = .ok b →
      ((m.onEventFrom onInit fuel ev c).hsm.currentState = m.currentState ∧
          (m.onEventFrom onInit fuel ev c).hsm.nextState = none ∧
          lastInit (m.onEventFrom onInit fuel ev c).trace = none) ∨
        Settled onInit (m.onEventFrom onInit fuel ev c).trace
          (m.onEventFrom onInit fuel ev c).hsm := by
  induction c with
  | root i =>
    intro m b hnext h
    cases hh : (ev (.root i)).handled with
    | true => exact HsmBase.onEventFrom_handled_settled onInit fuel ev m _ b hnext hh h
    | false =>
      have hreq : (ev (.root i)).requests = [] := by
        rcases hev (.root i) with h1 | h1
        · exact h1
        · rw [hh] at h1; exact absurd h1 (by simp)
      left
      rw [HsmBase.onEventFrom_root_unhandled onInit fuel ev m _
        (by rw [hreq]; rfl) hh]
      simp [hreq, HsmBase.calls_nil, Run.pure, hnext, lastInit]
  | sub i p ih =>
    intro m b hnext h
    cases hh : (ev (.sub i p)).handled with
    | true => exact HsmBase.onEventFrom_handled_settled onInit fuel ev m _ b hnext hh h
    | false =>
      have hreq : (ev (.sub i p)).requests = [] := by
        rcases hev (.sub i p) with h1 | h1
        · exact h1
        · rw [hh] at h1; exact absurd h1 (by simp)
      have hpass : ev (.sub i p) = ⟨[], false⟩ := by
        cases hx : ev (.sub i p) with
        | mk rq hd =>
          rw [hx] at hreq hh
          simp only at hreq hh
          rw [hreq, hh]
      rw [HsmBase.onEventFrom_pass onInit fuel ev m i p hpass] at h ⊢
      simp only [Run.after] at h ⊢
      rcases ih m b hnext h with ⟨h1, h2, h3⟩ | ⟨c, hc1, hc2, hc3, hc4⟩
      · left
        exact ⟨h1, h2, by simp [lastInit, h3]⟩
      · right
        exact ⟨c, hc1, hc2, lastInit_append_of_some hc3, hc4⟩

theorem HsmBase.onEvent_settled (onInit : HsmStateBase → List Request) (fuel : Nat)
    (ev : Event) (hev : ∀ n, (ev n).requests = [] ∨ (ev n).handled = true)
    (history : List Callback) (m : HsmBase) (b : Bool) (hm : Settled onInit history m)
    (h : (m.onEvent onInit fuel ev).result = .ok b) :
    Settled onInit (history ++ (m.onEvent onInit fuel ev).trace)
      (m.onEvent onInit fuel ev).hsm := by
  obtain ⟨c, hc1, hc2, hc3, hc4⟩ := hm
  rw [HsmBase.onEvent_eq_onEventFrom onInit fuel ev m hc1] at h ⊢
  rcases HsmBase.onEventFrom_settled onInit fuel ev hev c m b hc2 h with
    ⟨h1, h2, h3⟩ | ⟨d, hd1, hd2, hd3, hd4⟩
  · refine ⟨c, by rw [h1, hc1], h2, ?_, hc4⟩
    rw [lastInit_append_of_none h3, hc3]
  · exact ⟨d, hd1, hd2, lastInit_append_of_some hd3, hd4⟩

theorem HsmBase.onEvents_settled (onInit : HsmStateBase → List Request) (fuel : Nat)
    (evs : List Event) :
    ∀ (history : List Callback) (m : HsmBase) (bs : List Bool),
      (∀ ev ∈ evs, ∀ n, (ev n).requests = [] ∨ (ev n).handled = true) →
      Settled onInit history m → (m.onEvents onInit fuel evs).result = .ok bs →
      Settled onInit (history ++ (m.onEvents onInit fuel evs).trace)
        (m.onEvents onInit fuel evs).hsm := by
  induction evs with
  | nil =>
    intro history m bs _ hm _
    simpa [HsmBase.onEvents, Run.pure] using hm
  | cons ev evs ih =>
    intro history m bs hev hm h
    rw [HsmBase.onEvents] at h ⊢
    obtain ⟨b, h1, h2, htr, hhsm⟩ := Run.bind_ok h
    obtain ⟨bs2, h3, h4, htr2, hhsm2⟩ := Run.bind_ok h2
    rw [htr, hhsm, htr2, hhsm2]
    have hstep := HsmBase.onEvent_settled onInit fuel ev
      (hev ev (List.mem_cons_self _ _)) history m b hm h1
    have := ih _ _ bs2 (fun e he => hev e (List.mem_cons_of_mem _ he)) hstep h3
    simpa [Run.pure, List.append_assoc] using this

theorem HsmBase.onStart_settled (onInit : HsmStateBase → List Request) (fuel : Nat)
    (m : HsmBase) (h : (m.onStart onInit fuel).result = .ok ()) :
    Settled onInit (m.onStart onInit fuel).trace (m.onStart onInit fuel).hsm := by
  unfold HsmBase.onStart at h ⊢
  split at h
  · simp [Run.fail] at h
  · rename_i h1
    rw [if_neg h1]
    split at h
    · simp [Run.fail] at h
    · rename_i h2
      rw [if_neg h2]
      simp only [Run.after] at h ⊢
      obtain ⟨c, hc1, hc2, hc3, hc4⟩ := HsmBase.initCurrentState_settled onInit fuel _ h
      exact ⟨c, hc1, hc2, lastInit_append_of_some hc3, hc4⟩

/-- C4: after `onStart` returns and after every completed `onEvent` of a sequence of
dispatches whose handlers call the engine only when they return `true`, whatever `onInit`
does: the current state is a leaf in the sense of the specification — the most recent `onInit`
invocation of the whole run was on the current state and it requested no further descent (it
called nothing) — and nothing is pending. -/
theorem c4_current_is_settled_leaf_after_every_call (onInit : HsmStateBase → List Request)
    (fuel : Nat) (evs : List Event) (m : HsmBase) (bs : List Bool)
    (hev : ∀ ev ∈ evs, ∀ n, (ev n).requests = [] ∨ (ev n).handled = true)
    (h : (m.startAndDispatch onInit fuel evs).result = .ok bs) :
    Settled onInit (m.startAndDispatch onInit fuel evs).trace
      (m.startAndDispatch onInit fuel evs).hsm := by
  unfold HsmBase.startAndDispatch at h ⊢
  obtain ⟨u, h1, h2, htr, hhsm⟩ := Run.bind_ok h
  rw [htr, hhsm]
  exact HsmBase.onEvents_settled onInit fuel evs _ _ bs hev
    (HsmBase.onStart_settled onInit fuel m h1) h2

/-- C4, witness: the hierarchy test machine started and driven through the events `C`, `D`,
`E`, which all return. -/
theorem c4_current_is_settled_leaf_after_every_call_witness :
    Settled hierarchyInit
      ((HsmBase.new hierarchyTop).startAndDispatch hierarchyInit 4
        [hierarchyEventC, hierarchyEventD, hierarchyEventE]).trace
      ((HsmBase.new hierarchyTop).startAndDispatch hierarchyInit 4
        [hierarchyEventC, hierarchyEventD, hierarchyEventE]).hsm :=
  c4_current_is_settled_leaf_after_every_call hierarchyInit 4
    [hierarchyEventC, hierarchyEventD, hierarchyEventE] (HsmBase.new hierarchyTop)
    [true, true, true]
    (by
      intro ev hev n
      simp only [List.mem_cons, List.mem_singleton, List.not_mem_nil, or_false] at hev
      rcases hev with rfl | rfl | rfl
      · unfold hierarchyEventC; split_ifs <;> simp
      · unfold hierarchyEventD; split_ifs <;> simp
      · unfold hierarchyEventE; split_ifs <;> simp)
    (by decide)

/-! ## External transitions -/

/-- The exit phase of a transition from source `s` to a target `t` of the same tree, when it
does not run past the root: every state from the current state up to but excluding the state
`exitStop s t` is exited, deepest first, and that state becomes the current state. -/
theorem HsmBase.exitUpToLCA_stop (m : HsmBase) {c s t l : HsmStateBase}
    (hcur : m.currentState = some c) (hsrc : m.sourceState = some s) (hs : s ∈ c.chain)
    (htree : t.rootOf = s.rootOf) (hstop : exitStop s t = some l) :
    m.exitUpToLCA t
      = ⟨(pathUp c l).map .onExit,
          { m.rememberAll (pathUp c l) with currentState := some l }, .ok ()⟩ := by
  unfold exitStop at hstop
  by_cases hts : t = s
  · subst hts
    rw [if_pos rfl] at hstop
    obtain ⟨i, hi⟩ := HsmStateBase.eq_sub_of_superState hstop
    subst hi
    exact HsmBase.exitUpToLCA_self m hcur hsrc hs
  · rw [if_neg hts] at hstop
    simp only [Option.some.injEq] at hstop
    subst hstop
    exact HsmBase.exitUpToLCA_eq m hcur hsrc hs hts (lca_isLCA htree.symm)

/-- The dispatch in which the first accepting handler, at `s`, requests `transition(t)`. -/
theorem HsmBase.onEvent_transition_eq (onInit : HsmStateBase → List Request) (fuel : Nat)
    (ev : Event) (m : HsmBase) (c s t l : HsmStateBase) (hcur : m.currentState = some c)
    (hs : s ∈ c.chain) (hbelow : ∀ n ∈ pathUp c s, ev n = ⟨[], false⟩)
    (hev : ev s = ⟨[.transition t], true⟩) (htree : t.rootOf = s.rootOf)
    (hstop : exitStop s t = some l) :
    m.onEvent onInit fuel ev
      = Run.after ((pathUp c s).map .onEvent ++ [.onEvent s] ++ (pathUp c l).map .onExit)
          ((HsmBase.enterAndInitNextState onInit fuel
              { m.rememberAll (pathUp c l) with
                currentState := some l, nextState := some t, sourceState := some s }).bind
            fun _ m2 => Run.pure true m2) := by
  have hexit := HsmBase.exitUpToLCA_stop { m with sourceState := some s } (c := c) (s := s)
    (t := t) (l := l) hcur rfl hs htree hstop
  rw [HsmBase.onEvent_eq_onEventFrom onInit fuel ev m hcur,
    HsmBase.onEventFrom_walk onInit fuel ev m hs hbelow,
    HsmBase.onEventFrom_transition onInit fuel ev m s t _ _ (by simp [hcur]) hev hexit]
  simp only [Run.after_after, List.append_assoc, HsmBase.rememberAll_with_sourceState]

/-- The dispatch in which the first accepting handler, at `s`, requests
`externalTransition(t)`. -/
theorem HsmBase.onEvent_externalTransition_eq (onInit : HsmStateBase → List Request)
    (fuel : Nat) (ev : Event) (m : HsmBase) (c s t l : HsmStateBase)
    (hcur : m.currentState = some c) (hs : s ∈ c.chain)
    (hbelow : ∀ n ∈ pathUp c s, ev n = ⟨[], false⟩)
    (hev : ev s = ⟨[.externalTransition t], true⟩) (htree : t.rootOf = s.rootOf)
    (hstop : exitStop s t = some l) :
    m.onEvent onInit fuel ev
      = Run.after ((pathUp c s).map .onEvent ++ [.onEvent s] ++ (pathUp c l).map .onExit
            ++ [.onExit l, .onEnter l])
          ((HsmBase.enterAndInitNextState onInit fuel
              { m.rememberAll (pathUp c l) with
                currentState := some l, nextState := some t, sourceState := some s }).bind
            fun _ m2 => Run.pure true m2) := by
  have hexit := HsmBase.exitUpToLCA_stop { m with sourceState := some s } (c := c) (s := s)
    (t := t) (l := l) hcur rfl hs htree hstop
  rw [HsmBase.onEvent_eq_onEventFrom onInit fuel ev m hcur,
    HsmBase.onEventFrom_walk onInit fuel ev m hs hbelow,
    HsmBase.onEventFrom_externalTransition onInit fuel ev m s t l _ _ (by simp [hcur]) hev
      hexit rfl]
  simp only [Run.after_after, List.append_assoc, HsmBase.rememberAll_with_sourceState]

/-- C8: for a started machine with current state `c`, a handling state `s` on the chain of `c`
(the handlers below it call nothing and return `false`), a target `t` in the tree of `s`, and
`l` the state at which the exit phase stops (`exitStop s t`: the least common ancestor, or the
super state of `s` when `t = s`): the dispatch in which `s` requests `transition(t)` invokes the
handlers up to `s`, the exits from `c` up to but excluding `l`, and then continues with entry
and settling from `l`; the dispatch in which `s` requests `externalTransition(t)` instead
invokes the same callbacks with `onExit(l), onEnter(l)` inserted after the last exit and before
that same continuation; both end in the same machine state with the same result. -/
theorem c8_external_transition_inserts_exit_and_entry_of_lca
    (onInit : HsmStateBase → List Request) (fuel : Nat) (evT evX : Event) (m : HsmBase)
    (c s t l : HsmStateBase) (hcur : m.currentState = some c) (hs : s ∈ c.chain)
    (hbelow : ∀ n ∈ pathUp c s, evT n = ⟨[], false⟩)
    (hsame : ∀ n, n ≠ s → evX n = evT n)
    (hT : evT s = ⟨[.transition t], true⟩) (hX : evX s = ⟨[.externalTransition t], true⟩)
    (htree : t.rootOf = s.rootOf) (hstop : exitStop s t = some l) :
    m.onEvent onInit fuel evT
      = Run.after ((pathUp c s).map .onEvent ++ [.onEvent s] ++ (pathUp c l).map .onExit)
          ((HsmBase.enterAndInitNextState onInit fuel
              { m.rememberAll (pathUp c l) with
                currentState := some l, nextState := some t, sourceState := some s }).bind
            fun _ m2 => Run.pure true m2) ∧
    m.onEvent onInit fuel evX
      = Run.after ((pathUp c s).map .onEvent ++ [.onEvent s] ++ (pathUp c l).map .onExit
            ++ [.onExit l, .onEnter l])
          ((HsmBase.enterAndInitNextState onInit fuel
              { m.rememberAll (pathUp c l) with
                currentState := some l, nextState := some t, sourceState := some s }).bind
            fun _ m2 => Run.pure true m2) ∧
    (m.onEvent onInit fuel evX).hsm = (m.onEvent onInit fuel evT).hsm ∧
    (m.onEvent onInit fuel evX).result = (m.onEvent onInit fuel evT).result := by
  have hbelowX : ∀ n ∈ pathUp c s, evX n = ⟨[], false⟩ := fun n hn => by
    rw [hsame n (mem_pathUp_ne hn)]; exact hbelow n hn
  have h1 := HsmBase.onEvent_transition_eq onInit fuel evT m c s t l hcur hs hbelow hT htree
    hstop
  have h2 := HsmBase.onEvent_externalTransition_eq onInit fuel evX m c s t l hcur hs hbelowX hX
    htree hstop
  refine ⟨h1, h2, ?_, ?_⟩
  · rw [h1, h2]; rfl
  · rw [h1, h2]; rfl

/-- C8, witness: event `C` of the hierarchy test in state `S11`, with `transition(S2)` and
with `externalTransition(S2)` requested by `S1`; the exit phase stops at `TOP`. -/
theorem c8_external_transition_inserts_exit_and_entry_of_lca_witness :
    hierarchyStarted.onEvent hierarchyInit 3 hierarchyEventC
      = Run.after ((pathUp hierarchyS11 hierarchyS1).map .onEvent ++ [.onEvent hierarchyS1]
            ++ (pathUp hierarchyS11 hierarchyTop).map .onExit)
          ((HsmBase.enterAndInitNextState hierarchyInit 3
              { hierarchyStarted.rememberAll (pathUp hierarchyS11 hierarchyTop) with
                currentState := some hierarchyTop, nextState := some hierarchyS2,
                sourceState := some hierarchyS1 }).bind
            fun _ m2 => Run.pure true m2) ∧
    hierarchyStarted.onEvent hierarchyInit 3 hierarchyEventCExternal
      = Run.after ((pathUp hierarchyS11 hierarchyS1).map .onEvent ++ [.onEvent hierarchyS1]
            ++ (pathUp hierarchyS11 hierarchyTop).map .onExit
            ++ [.onExit hierarchyTop, .onEnter hierarchyTop])
          ((HsmBase.enterAndInitNextState hierarchyInit 3
              { hierarchyStarted.rememberAll (pathUp hierarchyS11 hierarchyTop) with
                currentState := some hierarchyTop, nextState := some hierarchyS2,
                sourceState := some hierarchyS1 }).bind
            fun _ m2 => Run.pure true m2) ∧
    (hierarchyStarted.onEvent hierarchyInit 3 hierarchyEventCExternal).hsm
      = (hierarchyStarted.onEvent hierarchyInit 3 hierarchyEventC).hsm ∧
    (hierarchyStarted.onEvent hierarchyInit 3 hierarchyEventCExternal).result
      = (hierarchyStarted.onEvent hierarchyInit 3 hierarchyEventC).result :=
  c8_external_transition_inserts_exit_and_entry_of_lca hierarchyInit 3 hierarchyEventC
    hierarchyEventCExternal hierarchyStarted hierarchyS11 hierarchyS1 hierarchyS2 hierarchyTop
    (by decide) (by decide) (by decide)
    (fun n hn => by simp [hierarchyEventCExternal, hn])
    (by decide) (by decide) (by decide) (by decide)

/-! ## Entries and exits of the root -/

theorem HsmBase.exitUpToSource_ok_quiet (m : HsmBase) (state a : HsmStateBase)
    (h : (m.exitUpToSource state).result = .ok a) :
    (m.exitUpToSource state).trace.filter Callback.crossesRoot = [] := by
  induction state generalizing m with
  | root i =>
    rw [HsmBase.exitUpToSource] at h ⊢
    split
    · simp [Run.pure]
    · rename_i hsrc
      simp [hsrc, Run.after, Run.fail] at h
  | sub i p ih =>
    rw [HsmBase.exitUpToSource] at h ⊢
    split
    · simp [Run.pure]
    · rename_i hsrc
      simp only [hsrc, if_false, Run.after] at h
      simpa [Run.after, Callback.crossesRoot] using ih _ h

theorem HsmBase.exitLevels_ok_quiet (m : HsmBase) (n : Nat) (state a : HsmStateBase)
    (h : (m.exitLevels n state).result = .ok a) :
    (m.exitLevels n state).trace.filter Callback.crossesRoot = [] := by
  induction n generalizing m state with
  | zero => simp [HsmBase.exitLevels, Run.pure]
  | succ k ih =>
    cases state with
    | root i => simp [HsmBase.exitLevels, Run.after, Run.fail] at h
    | sub i p =>
      simp only [HsmBase.exitLevels, Run.after] at h
      simpa [HsmBase.exitLevels, Run.after, Callback.crossesRoot] using ih _ _ h

theorem HsmBase.exitUpToLCA_ok_quiet (m : HsmBase) (t : HsmStateBase)
    (h : (m.exitUpToLCA t).result = .ok ()) :
    (m.exitUpToLCA t).trace.filter Callback.crossesRoot = [] := by
  unfold HsmBase.exitUpToLCA at h ⊢
  split
  · split <;> simp [Run.pure, Run.fail]
  · rename_i cur hcur
    simp only [hcur] at h
    obtain ⟨a, h1, h2, htr, _⟩ := Run.bind_ok h
    obtain ⟨a2, h3, _, htr2, _⟩ := Run.bind_ok h2
    rw [htr, htr2]
    simp [HsmBase.exitUpToSource_ok_quiet m _ a h1, HsmBase.exitLevels_ok_quiet _ _ _ a2 h3,
      Run.pure]

theorem HsmBase.exitUpToLCA_ok_currentState (m : HsmBase) (t : HsmStateBase)
    (hcur : m.currentState ≠ none) (h : (m.exitUpToLCA t).result = .ok ()) :
    (m.exitUpToLCA t).hsm.currentState ≠ none := by
  unfold HsmBase.exitUpToLCA at h ⊢
  split
  · rename_i hc; exact absurd hc hcur
  · rename_i cur hc
    simp only [hc] at h
    obtain ⟨a, h1, h2, _, hm⟩ := Run.bind_ok h
    obtain ⟨a2, h3, _, _, hm2⟩ := Run.bind_ok h2
    rw [hm, hm2]
    simp [Run.pure]

theorem HsmBase.call_ok_currentState (m : HsmBase) (r : Request)
    (hcur : m.currentState ≠ none) (h : (m.call r).result = .ok ()) :
    (m.call r).hsm.currentState ≠ none := by
  cases r with
  | transition t =>
    simp only [HsmBase.call, HsmBase.transition, if_neg hcur] at h ⊢
    obtain ⟨a, h1, _, _, hm⟩ := Run.bind_ok h
    rw [hm]
    simpa [Run.pure] using HsmBase.exitUpToLCA_ok_currentState m t hcur h1
  | externalTransition t =>
    simp only [HsmBase.call, HsmBase.externalTransition, if_neg hcur] at h ⊢
    obtain ⟨a, h1, h2, _, hm⟩ := Run.bind_ok h
    rw [hm]
    have := HsmBase.exitUpToLCA_ok_currentState m t hcur h1
    split
    · rename_i hc; exact absurd hc this
    · rename_i own hown
      simp [Run.after, Run.pure, hown]
  | initialTransition s => simpa [HsmBase.call, HsmBase.initialTransition, Run.pure] using hcur
  | initialHistoryTransition s =>
    simp only [HsmBase.call, HsmBase.initialHistoryTransition] at h ⊢
    split
    · rename_i hc; exact absurd hc hcur
    · rename_i cur hc
      split <;> simp [HsmBase.initialTransition, Run.pure, hc]

theorem HsmBase.calls_ok_currentState (m : HsmBase) (rs : List Request)
    (hcur : m.currentState ≠ none) (h : (m.calls rs).result = .ok ()) :
    (m.calls rs).hsm.currentState ≠ none := by
  induction rs generalizing m with
  | nil => simpa [HsmBase.calls, Run.pure] using hcur
  | cons r rs ih =>
    rw [HsmBase.calls] at h ⊢
    obtain ⟨a, h1, h2, _, hm⟩ := Run.bind_ok h
    rw [hm]
    exact ih _ (HsmBase.call_ok_currentState m r hcur h1) h2

theorem HsmBase.call_ok_quiet (m : HsmBase) (r : Request) (hr : r.isExternal = false)
    (h : (m.call r).result = .ok ()) :
    (m.call r).trace.filter Callback.crossesRoot = [] := by
  cases r with
  | transition t =>
    simp only [HsmBase.call, HsmBase.transition] at h ⊢
    split
    · simp [Run.fail]
    · rename_i hc
      rw [if_neg hc] at h
      obtain ⟨a, h1, _, htr, _⟩ := Run.bind_ok h
      rw [htr]
      simp [HsmBase.exitUpToLCA_ok_quiet m t h1, Run.pure]
  | externalTransition t => simp [Request.isExternal] at hr
  | initialTransition s => simp [HsmBase.call, HsmBase.initialTransition, Run.pure]
  | initialHistoryTransition s =>
    simp only [HsmBase.call, HsmBase.initialHistoryTransition]
    split
    · simp [Run.fail]
    · split <;> simp [HsmBase.initialTransition, Run.pure]

theorem HsmBase.calls_ok_quiet (m : HsmBase) (rs : List Request)
    (hrs : ∀ r ∈ rs, r.isExternal = false) (h : (m.calls rs).result = .ok ()) :
    (m.calls rs).trace.filter Callback.crossesRoot = [] := by
  induction rs generalizing m with
  | nil => simp [HsmBase.calls, Run.pure]
  | cons r rs ih =>
    rw [HsmBase.calls] at h ⊢
    obtain ⟨a, h1, h2, htr, _⟩ := Run.bind_ok h
    rw [htr]
    simp [HsmBase.call_ok_quiet m r (hrs r (List.mem_cons_self _ _)) h1,
      ih _ (fun x hx => hrs x (List.mem_cons_of_mem _ hx)) h2]

theorem tracePath_ok_sub (cur : HsmStateBase) (n : HsmStateBase) :
    ∀ (acc path : List HsmStateBase), tracePath (some cur) n acc = .ok path →
      ∀ x ∈ path, x ∈ acc ∨ x.superState ≠ none := by
  induction n with
  | root i =>
    intro acc path h x hx
    rw [tracePath] at h
    split at h
    · simp only [Except.ok.injEq] at h
      subst h; exact Or.inl hx
    · split at h
      · simp at h
      · simp only [reduceCtorEq, if_false] at h
        split at h <;> simp at h
  | sub i p ih =>
    intro acc path h x hx
    rw [tracePath] at h
    split at h
    · simp only [Except.ok.injEq] at h
      subst h; exact Or.inl hx
    · split at h
      · simp at h
      · rcases ih _ _ h x hx with hmem | hsup
        · simp only [List.mem_cons] at hmem
          rcases hmem with rfl | hmem
          · right; simp [HsmStateBase.superState]
          · exact Or.inl hmem
        · exact Or.inr hsup

theorem Callback.crossesRoot_onEnter_of_super {x : HsmStateBase} (h : x.superState ≠ none) :
    (Callback.onEnter x).crossesRoot = false := by
  cases x with
  | root i => simp [HsmStateBase.superState] at h
  | sub i p => rfl

theorem Callback.crossesRoot_onExit_of_super {x : HsmStateBase} (h : x.superState ≠ none) :
    (Callback.onExit x).crossesRoot = false := by
  cases x with
  | root i => simp [HsmStateBase.superState] at h
  | sub i p => rfl

theorem HsmBase.enterNextState_quiet (m : HsmBase) (hcur : m.currentState ≠ none) :
    m.enterNextState.trace.filter Callback.crossesRoot = [] := by
  obtain ⟨cur, hc⟩ := Option.ne_none_iff_exists'.1 hcur
  unfold HsmBase.enterNextState
  split
  · split <;> simp [Run.pure, Run.fail]
  · rename_i next hnext
    simp only [hc]
    split
    · rename_i path hpath
      simp only [Run.after, Run.pure, List.append_nil, List.filter_eq_nil_iff, List.mem_map,
        forall_exists_index, and_imp, forall_apply_eq_imp_iff₂]
      intro x hx
      rcases tracePath_ok_sub cur next [] path hpath x hx with hmem | hsup
      · simp at hmem
      · simp [Callback.crossesRoot_onEnter_of_super hsup]
    · simp [Run.fail]

theorem HsmBase.enterNextState_hsm (m : HsmBase) : m.enterNextState.hsm = m := by
  unfold HsmBase.enterNextState
  split
  · split <;> simp [Run.pure, Run.fail]
  · split <;> simp [Run.pure, Run.fail, Run.after]

theorem HsmBase.initCurrentState_ok_quiet (onInit : HsmStateBase → List Request)
    (hinit : ∀ n, ∀ r ∈ onInit n, r.isExternal = false) (fuel : Nat) (m : HsmBase)
    (h : (HsmBase.initCurrentState onInit fuel m).result = .ok ()) :
    (HsmBase.initCurrentState onInit fuel m).trace.filter Callback.crossesRoot = [] := by
  induction fuel generalizing m with
  | zero => simp [HsmBase.initCurrentState, Run.fail] at h
  | succ k ih =>
    rw [HsmBase.initCurrentState] at h ⊢
    cases hcur : m.currentState with
    | none => simp [hcur, Run.fail] at h
    | some cur =>
      simp only [hcur, Run.after] at h ⊢
      obtain ⟨a, h1, h2, htr, _⟩ := Run.bind_ok h
      rw [htr]
      have hq1 := HsmBase.calls_ok_quiet m _ (hinit cur) h1
      have hc1 := HsmBase.calls_ok_currentState m _ (by simp [hcur]) h1
      simp only [List.singleton_append, List.filter_cons, Callback.crossesRoot,
        Bool.false_eq_true, if_false, List.filter_append, hq1, List.nil_append]
      cases hnext : (m.calls (onInit cur)).hsm.nextState with
      | none => simp [Run.pure]
      | some next =>
        simp only [hnext] at h2 ⊢
        split at h2
        · rename_i hsup
          rw [if_pos hsup]
          obtain ⟨a2, h3, h4, htr2, _⟩ := Run.bind_ok h2
          rw [htr2]
          simp [HsmBase.enterNextState_quiet _ hc1, ih _ h4]
        · simp [Run.fail] at h2

theorem HsmBase.afterHandled_ok_quiet (onInit : HsmStateBase → List Request)
    (hinit : ∀ n, ∀ r ∈ onInit n, r.isExternal = false) (fuel : Nat) (m : HsmBase) (b : Bool)
    (hcur : m.currentState ≠ none)
    (h : (HsmBase.afterHandled onInit fuel m).result = .ok b) :
    (HsmBase.afterHandled onInit fuel m).trace.filter Callback.crossesRoot = [] := by
  cases hx : m.nextState with
  | none => simp [HsmBase.afterHandled, hx, Run.pure]
  | some x =>
    have e : HsmBase.afterHandled onInit fuel m
        = (m.enterAndInitNextState onInit fuel).bind fun _ m2 => Run.pure true m2 := by
      unfold HsmBase.afterHandled
      rw [hx]
    rw [e] at h ⊢
    obtain ⟨a, h1, _, htr, _⟩ := Run.bind_ok h
    rw [htr]
    unfold HsmBase.enterAndInitNextState at h1 ⊢
    obtain ⟨a2, h3, h4, htr2, _⟩ := Run.bind_ok h1
    rw [htr2]
    simp [HsmBase.enterNextState_quiet m hcur,
      HsmBase.initCurrentState_ok_quiet onInit hinit fuel _ h4, Run.pure]

theorem HsmBase.onEventFrom_handled_quiet (onInit : HsmStateBase → List Request)
    (hinit : ∀ n, ∀ r ∈ onInit n, r.isExternal = false) (fuel : Nat) (ev : Event)
    (m : HsmBase) (x : HsmStateBase) (b : Bool) (hcur : m.currentState ≠ none)
    (hh : (ev x).handled = true) (hreq : ∀ r ∈ (ev x).requests, r.isExternal = false)
    (h : (m.onEventFrom onInit fuel ev x).result = .ok b) :
    (m.onEventFrom onInit fuel ev x).trace.filter Callback.crossesRoot = [] := by
  have hres := HsmBase.calls_result_of_onEventFrom_ok onInit fuel ev m x b h
  rw [HsmBase.onEventFrom_handled onInit fuel ev m x hres hh] at h ⊢
  simp only [Run.after] at h ⊢
  have hq := HsmBase.calls_ok_quiet _ _ hreq hres
  have hc := HsmBase.calls_ok_currentState { m with sourceState := some x } _ hcur hres
  simp [Callback.crossesRoot, hq, HsmBase.afterHandled_ok_quiet onInit hinit fuel _ b hc h]

theorem HsmBase.onEventFrom_external_quiet (onInit : HsmStateBase → List Request)
    (hinit : ∀ n, ∀ r ∈ onInit n, r.isExternal = false) (fuel : Nat) (ev : Event)
    (m : HsmBase) (c x t l : HsmStateBase) (b : Bool) (hcur : m.currentState = some c)
    (hx : x ∈ c.chain) (hev : ev x = ⟨[.externalTransition t], true⟩)
    (htree : t.rootOf = x.rootOf) (hstop : exitStop x t = some l)
    (hl : l.superState ≠ none) (h : (m.onEventFrom onInit fuel ev x).result = .ok b) :
    (m.onEventFrom onInit fuel ev x).trace.filter Callback.crossesRoot = [] := by
  have hexit := HsmBase.exitUpToLCA_stop { m with sourceState := some x } (c := c) (s := x)
    (t := t) (l := l) hcur rfl hx htree hstop
  have hq := HsmBase.exitUpToLCA_ok_quiet { m with sourceState := some x } t (by rw [hexit])
  rw [hexit] at hq
  simp only at hq
  obtain ⟨m1, hm1, e⟩ : ∃ m1 : HsmBase, m1.currentState ≠ none ∧
      m.onEventFrom onInit fuel ev x
        = Run.after ([.onEvent x] ++ (pathUp c l).map .onExit ++ [.onExit l, .onEnter l])
            (HsmBase.afterHandled onInit fuel m1) :=
      by
    refine ⟨{ HsmBase.rememberAll { m with sourceState := some x } (pathUp c l) with
      currentState := some l, nextState := some t }, by simp, ?_⟩
    rw [HsmBase.onEventFrom_externalTransition onInit fuel ev m x t l _ _
      (by simp [hcur]) hev hexit rfl]
    rfl
  rw [e] at h ⊢
  simp only [Run.after] at h ⊢
  have hq2 := HsmBase.afterHandled_ok_quiet onInit hinit fuel m1 b hm1 h
  have h1 : (Callback.onEvent x).crossesRoot = false := rfl
  simp [h1, hq, hq2, Callback.crossesRoot_onEnter_of_super hl,
    Callback.crossesRoot_onExit_of_super hl]

theorem Reaction.eq_of_fields {r : Reaction} {rs : List Request} {b : Bool}
    (h1 : r.requests = rs) (h2 : r.handled = b) : r = ⟨rs, b⟩ := by
  cases r
  simp only at h1 h2
  rw [h1, h2]

/-- A dispatch with handlers that spare the root, with `onInit` callbacks that request no
external transition: when it returns, no root state was entered or exited. -/
theorem HsmBase.onEventFrom_ok_quiet (onInit : HsmStateBase → List Request)
    (hinit : ∀ n, ∀ r ∈ onInit n, r.isExternal = false) (fuel : Nat) (ev : Event)
    (hev : ∀ n, (ev n).SparesRoot n) (c x : HsmStateBase) :
    x ∈ c.chain → ∀ (m : HsmBase) (b : Bool), m.currentState = some c →
      (m.onEventFrom onInit fuel ev x).result = .ok b →
      (m.onEventFrom onInit fuel ev x).trace.filter Callback.crossesRoot = [] := by
  induction x with
  | root i =>
    intro hx m b hcur h
    cases hh : (ev (.root i)).handled with
    | true =>
      rcases hev (.root i) with hreq | ⟨_, t, hreq | ⟨hreq, htree, l, hstop, hl⟩⟩
      · exact HsmBase.onEventFrom_handled_quiet onInit hinit fuel ev m _ b (by simp [hcur]) hh
          (by simp [hreq]) h
      · exact HsmBase.onEventFrom_handled_quiet onInit hinit fuel ev m _ b (by simp [hcur]) hh
          (by simp [hreq, Request.isExternal]) h
      · exact HsmBase.onEventFrom_external_quiet onInit hinit fuel ev m c _ t l b hcur hx
          (Reaction.eq_of_fields hreq hh) htree hstop hl h
    | false =>
      have hreq : (ev (.root i)).requests = [] := by
        rcases hev (.root i) with h1 | ⟨h1, _⟩
        · exact h1
        · rw [hh] at h1; exact absurd h1 (by simp)
      rw [HsmBase.onEventFrom_root_pass onInit fuel ev m i (Reaction.eq_of_fields hreq hh)]
      simp [Callback.crossesRoot]
  | sub i p ih =>
    intro hx m b hcur h
    cases hh : (ev (.sub i p)).handled with
    | true =>
      rcases hev (.sub i p) with hreq | ⟨_, t, hreq | ⟨hreq, htree, l, hstop, hl⟩⟩
      · exact HsmBase.onEventFrom_handled_quiet onInit hinit fuel ev m _ b (by simp [hcur]) hh
          (by simp [hreq]) h
      · exact HsmBase.onEventFrom_handled_quiet onInit hinit fuel ev m _ b (by simp [hcur]) hh
          (by simp [hreq, Request.isExternal]) h
      · exact HsmBase.onEventFrom_external_quiet onInit hinit fuel ev m c _ t l b hcur hx
          (Reaction.eq_of_fields hreq hh) htree hstop hl h
    | false =>
      have hreq : (ev (.sub i p)).requests = [] := by
        rcases hev (.sub i p) with h1 | ⟨h1, _⟩
        · exact h1
        · rw [hh] at h1; exact absurd h1 (by simp)
      have hp : p ∈ c.chain :=
        HsmStateBase.mem_chain_trans (by simp [HsmStateBase.chain, p.mem_chain_self]) hx
      rw [HsmBase.onEventFrom_pass onInit fuel ev m i p (Reaction.eq_of_fields hreq hh)] at h ⊢
      simp only [Run.after] at h ⊢
      simp [Callback.crossesRoot, ih hp m b hcur h]

theorem Reaction.SparesRoot.requests_or_handled {n : HsmStateBase} {r : Reaction}
    (h : r.SparesRoot n) : r.requests = [] ∨ r.handled = true := by
  rcases h with h | ⟨h, _⟩
  · exact Or.inl h
  · exact Or.inr h

theorem HsmBase.onEvents_ok_quiet (onInit : HsmStateBase → List Request)
    (hinit : ∀ n, ∀ r ∈ onInit n, r.isExternal = false) (fuel : Nat) (evs : List Event) :
    ∀ (history : List Callback) (m : HsmBase) (bs : List Bool),
      (∀ ev ∈ evs, ∀ n, (ev n).SparesRoot n) → Settled onInit history m →
      (m.onEvents onInit fuel evs).result = .ok bs →
      (m.onEvents onInit fuel evs).trace.filter Callback.crossesRoot = [] := by
  induction evs with
  | nil =>
    intro history m bs _ _ _
    simp [HsmBase.onEvents, Run.pure]
  | cons ev evs ih =>
    intro history m bs hev hm h
    rw [HsmBase.onEvents] at h ⊢
    obtain ⟨b, h1, h2, htr, _⟩ := Run.bind_ok h
    obtain ⟨bs2, h3, _, htr2, _⟩ := Run.bind_ok h2
    rw [htr, htr2]
    have hev1 := hev ev (List.mem_cons_self _ _)
    have hstep := HsmBase.onEvent_settled onInit fuel ev
      (fun n => (hev1 n).requests_or_handled) history m b hm h1
    obtain ⟨c, hc, _, _, _⟩ := hm
    have hq : (m.onEvent onInit fuel ev).trace.filter Callback.crossesRoot = [] := by
      rw [HsmBase.onEvent_eq_onEventFrom onInit fuel ev m hc] at h1 ⊢
      exact HsmBase.onEventFrom_ok_quiet onInit hinit fuel ev hev1 c c c.mem_chain_self m b hc
        h1
    simp [hq, Run.pure,
      ih _ _ bs2 (fun e he => hev e (List.mem_cons_of_mem _ he)) hstep h3]

/-- C9 (amended): for every machine and every sequence of dispatched events whose handlers
call nothing, or return `true` after a single request that is `transition(t)`, or
`externalTransition(t)` to a state of the tree whose exit phase stops at a state other than the
root, and whose `onInit` callbacks request no external transition: when `onStart` and all the
dispatches return, the top state is a root, the only entry or exit of a root in the whole run
is the `onEnter` of the top state during `onStart`; so the top state receives `onEnter` exactly
once and never receives `onExit`. -/
theorem c9_top_entered_once_and_never_exited (onInit : HsmStateBase → List Request)
    (fuel : Nat) (evs : List Event) (m : HsmBase) (bs : List Bool)
    (hinit : ∀ n, ∀ r ∈ onInit n, r.isExternal = false)
    (hev : ∀ ev ∈ evs, ∀ n, (ev n).SparesRoot n)
    (h : (m.startAndDispatch onInit fuel evs).result = .ok bs) :
    m.topState.superState = none ∧
    (m.startAndDispatch onInit fuel evs).trace.filter Callback.crossesRoot
      = [.onEnter m.topState] ∧
    (m.startAndDispatch onInit fuel evs).trace.count (.onEnter m.topState) = 1 ∧
    .onExit m.topState ∉ (m.startAndDispatch onInit fuel evs).trace := by
  unfold HsmBase.startAndDispatch at h ⊢
  obtain ⟨u, h1, h2, htr, _⟩ := Run.bind_ok h
  have hsettled := HsmBase.onStart_settled onInit fuel m h1
  have hq2 := HsmBase.onEvents_ok_quiet onInit hinit fuel evs _ _ bs hev hsettled h2
  have hroot : m.topState.superState = none := by
    by_contra hne
    simp [HsmBase.onStart, hne, Run.fail] at h1
  have hnever : m.currentState = none := by
    by_contra hne
    simp [HsmBase.onStart, hroot, hne, Run.fail] at h1
  have hstart : m.onStart onInit fuel
      = Run.after [.onEnter m.topState] (HsmBase.initCurrentState onInit fuel
          { m with currentState := some m.topState, nextState := none }) := by
    simp [HsmBase.onStart, hroot, hnever]
  have htop : (Callback.onEnter m.topState).crossesRoot = true := by
    cases ht : m.topState with
    | root i => rfl
    | sub i p => rw [ht] at hroot; simp [HsmStateBase.superState] at hroot
  have hq1 : (HsmBase.initCurrentState onInit fuel
      { m with currentState := some m.topState, nextState := none }).trace.filter
        Callback.crossesRoot = [] := by
    apply HsmBase.initCurrentState_ok_quiet onInit hinit
    rw [hstart] at h1
    simpa [Run.after] using h1
  have hfilter : ((m.onStart onInit fuel).trace
      ++ ((m.onStart onInit fuel).hsm.onEvents onInit fuel evs).trace).filter
        Callback.crossesRoot = [.onEnter m.topState] := by
    rw [List.filter_append, hq2, hstart]
    simp [Run.after, htop, hq1]
  rw [htr]
  refine ⟨hroot, hfilter, ?_, ?_⟩
  · have := List.count_filter (l := (m.onStart onInit fuel).trace
      ++ ((m.onStart onInit fuel).hsm.onEvents onInit fuel evs).trace) htop
    rw [← this, hfilter]
    simp
  · intro hmem
    have hcross : (Callback.onExit m.topState).crossesRoot = true := by
      cases ht : m.topState with
      | root i => rfl
      | sub i p => rw [ht] at hroot; simp [HsmStateBase.superState] at hroot
    have := List.mem_filter.2 ⟨hmem, hcross⟩
    rw [hfilter] at this
    simp at this

/-- C9, witness: the hierarchy test machine started and driven through the events `C`, `D`,
`E` and an external transition of `S1` into its own sub state `S11`. -/
theorem c9_top_entered_once_and_never_exited_witness :
    (HsmBase.new hierarchyTop).topState.superState = none ∧
    ((HsmBase.new hierarchyTop).startAndDispatch hierarchyInit 4
        [hierarchyEventC, hierarchyEventD, hierarchyEventE, hierarchyEventC,
          hierarchyEventOwnSub]).trace.filter Callback.crossesRoot
      = [.onEnter (HsmBase.new hierarchyTop).topState] ∧
    ((HsmBase.new hierarchyTop).startAndDispatch hierarchyInit 4
        [hierarchyEventC, hierarchyEventD, hierarchyEventE, hierarchyEventC,
          hierarchyEventOwnSub]).trace.count (.onEnter (HsmBase.new hierarchyTop).topState)
      = 1 ∧
    .onExit (HsmBase.new hierarchyTop).topState ∉
      ((HsmBase.new hierarchyTop).startAndDispatch hierarchyInit 4
        [hierarchyEventC, hierarchyEventD, hierarchyEventE, hierarchyEventC,
          hierarchyEventOwnSub]).trace :=
  c9_top_entered_once_and_never_exited hierarchyInit 4
    [hierarchyEventC, hierarchyEventD, hierarchyEventE, hierarchyEventC, hierarchyEventOwnSub]
    (HsmBase.new hierarchyTop) [true, true, true, true, true]
    (by
      intro n r hr
      unfold hierarchyInit at hr
      split_ifs at hr <;> simp at hr <;> subst hr <;> rfl)
    (by
      intro ev hev n
      simp only [List.mem_cons, List.mem_singleton, List.not_mem_nil, or_false] at hev
      rcases hev with rfl | rfl | rfl | rfl | rfl
      · unfold hierarchyEventC; split_ifs <;> simp [Reaction.SparesRoot]
      · unfold hierarchyEventD; split_ifs <;> simp [Reaction.SparesRoot]
      · unfold hierarchyEventE; split_ifs <;> simp [Reaction.SparesRoot]
      · unfold hierarchyEventC; split_ifs <;> simp [Reaction.SparesRoot]
      · unfold hierarchyEventOwnSub
        split_ifs with hn
        · subst hn
          exact Or.inr ⟨rfl, hierarchyS11, Or.inr ⟨rfl, by decide, hierarchyS1, by decide,
            by decide⟩⟩
        · simp [Reaction.SparesRoot])
    (by decide)

/-- C9, counterexample: in the hierarchy test machine at `S11`, the handler of `TOP` requests
`externalTransition(S211)`, a transition into one of its sub states. The exit phase stops at
`TOP`, which is then exited and entered again: over `onStart` and this one dispatch, which both
return, `TOP` receives `onExit` once and `onEnter` twice. -/
theorem c9_external_transition_from_top_exits_top :
    ((HsmBase.new hierarchyTop).startAndDispatch hierarchyInit 4
        [hierarchyEventExternalFromTop]).result = .ok [true] ∧
    ((HsmBase.new hierarchyTop).startAndDispatch hierarchyInit 4
        [hierarchyEventExternalFromTop]).trace
      = [.onEnter hierarchyTop, .onInit hierarchyTop, .onEnter hierarchyS1,
          .onInit hierarchyS1, .onEnter hierarchyS11, .onInit hierarchyS11,
          .onEvent hierarchyS11, .onEvent hierarchyS1, .onEvent hierarchyTop,
          .onExit hierarchyS11, .onExit hierarchyS1, .onExit hierarchyTop,
          .onEnter hierarchyTop, .onEnter hierarchyS2, .onEnter hierarchyS21,
          .onEnter hierarchyS211, .onInit hierarchyS211] ∧
    ((HsmBase.new hierarchyTop).startAndDispatch hierarchyInit 4
        [hierarchyEventExternalFromTop]).trace.count (.onEnter hierarchyTop) = 2 ∧
    .onExit hierarchyTop ∈ ((HsmBase.new hierarchyTop).startAndDispatch hierarchyInit 4
        [hierarchyEventExternalFromTop]).trace := by
  decide

/-! ## History -/

theorem HsmStateBase.chain_comparable {a b c : HsmStateBase} (ha : a ∈ c.chain)
    (hb : b ∈ c.chain) : a ∈ b.chain ∨ b ∈ a.chain := by
  induction c with
  | root i =>
    simp only [HsmStateBase.chain, List.mem_singleton] at ha hb
    subst ha hb
    exact Or.inl (HsmStateBase.mem_chain_self _)
  | sub i p ih =>
    simp only [HsmStateBase.chain, List.mem_cons] at ha hb
    rcases ha with ha | ha
    · subst ha
      right
      rcases hb with hb | hb
      · subst hb; exact HsmStateBase.mem_chain_self _
      · simp [HsmStateBase.chain, hb]
    · rcases hb with hb | hb
      · subst hb
        left
        simp [HsmStateBase.chain, ha]
      · exact ih ha hb

/-- A chain holds at most one direct sub state of each state. -/
theorem HsmStateBase.sub_unique_on_chain {c p : HsmStateBase} {i j : Nat}
    (hi : HsmStateBase.sub i p ∈ c.chain) (hj : HsmStateBase.sub j p ∈ c.chain) : j = i := by
  rcases HsmStateBase.chain_comparable hi hj with h | h
  · simp only [HsmStateBase.chain, List.mem_cons] at h
    rcases h with h | h
    · injection h with h1 _
      exact h1.symm
    · exact absurd h (HsmStateBase.not_mem_chain_super i p)
  · simp only [HsmStateBase.chain, List.mem_cons] at h
    rcases h with h | h
    · injection h
    · exact absurd h (HsmStateBase.not_mem_chain_super j p)

theorem HsmBase.rememberAll_lookup (xs : List HsmStateBase) (i : Nat) (p : HsmStateBase)
    (huniq : ∀ j, HsmStateBase.sub j p ∈ xs → j = i) :
    ∀ m : HsmBase, (HsmStateBase.sub i p ∈ xs ∨ m.historySubstate p = some (.sub i p)) →
      (m.rememberAll xs).historySubstate p = some (.sub i p) := by
  induction xs with
  | nil =>
    intro m h
    rcases h with h | h
    · simp at h
    · exact h
  | cons y ys ih =>
    intro m h
    have huniq2 : ∀ j, HsmStateBase.sub j p ∈ ys → j = i := fun j hj =>
      huniq j (List.mem_cons_of_mem _ hj)
    cases y with
    | root k =>
      simp only [HsmBase.rememberAll]
      apply ih huniq2
      rcases h with h | h
      · simp only [List.mem_cons, reduceCtorEq, false_or] at h
        exact Or.inl h
      · exact Or.inr h
    | sub k q =>
      simp only [HsmBase.rememberAll]
      apply ih huniq2
      by_cases hq : q = p
      · subst hq
        have hk : k = i := huniq k (List.mem_cons_self _ _)
        subst hk
        right
        simp [HsmBase.remember]
      · rcases h with h | h
        · simp only [List.mem_cons] at h
          rcases h with h | h
          · injection h with _ h2
            exact absurd h2.symm hq
          · exact Or.inl h
        · right
          simp only [HsmBase.remember]
          rw [Function.update_noteq (fun hpq => hq hpq.symm)]
          exact h

/-- The states below `l` on the chain of `c` have a super state. -/
theorem pathUp_has_super {c l n : HsmStateBase} (hl : l ∈ c.chain) (hn : n ∈ pathUp c l) :
    ∃ i p, n = .sub i p := by
  cases n with
  | sub i p => exact ⟨i, p, rfl⟩
  | root k =>
    exfalso
    have hne := mem_pathUp_ne hn
    rcases HsmStateBase.chain_comparable (pathUp_subset_chain hn) hl with h | h
    · have h2 := chain_eq_pathUp_append hl
      have hnodup := c.chain_nodup
      rw [h2] at hnodup
      exact (List.disjoint_of_nodup_append hnodup) hn h
    · simp only [HsmStateBase.chain, List.mem_singleton] at h
      exact hne h.symm

/-- After the exits of the states below `l` on the chain of `c`, every exited state is the
`historySubstate` of its super state. -/
theorem HsmBase.rememberAll_pathUp (m : HsmBase) {c l : HsmStateBase} {i : Nat}
    {p : HsmStateBase} (hn : HsmStateBase.sub i p ∈ pathUp c l) :
    (m.rememberAll (pathUp c l)).historySubstate p = some (.sub i p) :=
  HsmBase.rememberAll_lookup _ i p
    (fun _ hj => HsmStateBase.sub_unique_on_chain (pathUp_subset_chain hn)
      (pathUp_subset_chain hj)) m (Or.inl hn)

theorem HsmBase.call_initial_frame (m : HsmBase) (r : Request) (hr : r.isInitial = true) :
    (m.call r).hsm.historySubstate = m.historySubstate ∧ (m.call r).trace = [] := by
  cases r with
  | transition t => simp [Request.isInitial] at hr
  | externalTransition t => simp [Request.isInitial] at hr
  | initialTransition s => simp [HsmBase.call, HsmBase.initialTransition, Run.pure]
  | initialHistoryTransition s =>
    simp only [HsmBase.call, HsmBase.initialHistoryTransition]
    split
    · simp [Run.fail]
    · split <;> simp [HsmBase.initialTransition, Run.pure]

theorem HsmBase.calls_initial_frame (m : HsmBase) (rs : List Request)
    (hrs : ∀ r ∈ rs, r.isInitial = true) :
    (m.calls rs).hsm.historySubstate = m.historySubstate ∧ (m.calls rs).trace = [] := by
  induction rs generalizing m with
  | nil => simp [HsmBase.calls, Run.pure]
  | cons r rs ih =>
    have h1 := HsmBase.call_initial_frame m r (hrs r (List.mem_cons_self _ _))
    rw [HsmBase.calls]
    cases hres : (m.call r).result with
    | error e =>
      rw [Run.bind_of_error hres]
      exact h1
    | ok u =>
      rw [Run.bind_of_ok hres]
      have h2 := ih (m.call r).hsm (fun x hx => hrs x (List.mem_cons_of_mem _ hx))
      simp [Run.after, h1, h2]

theorem HsmBase.enterNextState_no_exit (m : HsmBase) (n : HsmStateBase) :
    .onExit n ∉ m.enterNextState.trace := by
  unfold HsmBase.enterNextState
  split
  · split <;> simp [Run.pure, Run.fail]
  · split <;> simp [Run.pure, Run.fail, Run.after]

/-- With `onInit` callbacks that only request initial descents, the settling loop invokes no
`onExit` and writes no `historySubstate`. -/
theorem HsmBase.initCurrentState_frame (onInit : HsmStateBase → List Request)
    (hinit : ∀ n, ∀ r ∈ onInit n, r.isInitial = true) (fuel : Nat) (m : HsmBase) :
    (HsmBase.initCurrentState onInit fuel m).hsm.historySubstate = m.historySubstate ∧
      ∀ n, .onExit n ∉ (HsmBase.initCurrentState onInit fuel m).trace := by
  induction fuel generalizing m with
  | zero => simp [HsmBase.initCurrentState, Run.fail]
  | succ k ih =>
    rw [HsmBase.initCurrentState]
    cases hcur : m.currentState with
    | none => simp [Run.fail]
    | some cur =>
      simp only
      have hc := HsmBase.calls_initial_frame m (onInit cur) (hinit cur)
      cases hres : (m.calls (onInit cur)).result with
      | error e =>
        rw [Run.bind_of_error hres]
        simp [Run.after, hc]
      | ok u =>
        rw [Run.bind_of_ok hres]
        cases hnext : (m.calls (onInit cur)).hsm.nextState with
        | none => simp [Run.after, Run.pure, hc]
        | some next =>
          simp only
          split
          · cases hres2 : (m.calls (onInit cur)).hsm.enterNextState.result with
            | error e =>
              rw [Run.bind_of_error hres2]
              simp [Run.after, hc, HsmBase.enterNextState_hsm, HsmBase.enterNextState_no_exit]
            | ok u2 =>
              rw [Run.bind_of_ok hres2]
              have h3 := ih { (m.calls (onInit cur)).hsm.enterNextState.hsm with
                currentState := (m.calls (onInit cur)).hsm.enterNextState.hsm.nextState,
                nextState := none }
              simp only [HsmBase.enterNextState_hsm, hc.1] at h3 ⊢
              simp [Run.after, hc, h3, HsmBase.enterNextState_no_exit]
          · simp [Run.after, Run.fail, hc]

theorem HsmBase.enterAndInitNextState_frame (onInit : HsmStateBase → List Request)
    (hinit : ∀ n, ∀ r ∈ onInit n, r.isInitial = true) (fuel : Nat) (m : HsmBase) :
    ((m.enterAndInitNextState onInit fuel).bind
        fun _ m2 => Run.pure true m2).hsm.historySubstate = m.historySubstate ∧
      ∀ n, .onExit n ∉ ((m.enterAndInitNextState onInit fuel).bind
        fun _ m2 => Run.pure true m2).trace := by
  unfold HsmBase.enterAndInitNextState
  cases hres : m.enterNextState.result with
  | error e =>
    rw [Run.bind_of_error hres, Run.bind_of_error rfl]
    simp [HsmBase.enterNextState_hsm, HsmBase.enterNextState_no_exit]
  | ok u =>
    rw [Run.bind_of_ok hres]
    have h3 := HsmBase.initCurrentState_frame onInit hinit fuel
      { m.enterNextState.hsm with
        currentState := m.enterNextState.hsm.nextState, nextState := none }
    simp only [HsmBase.enterNextState_hsm] at h3 ⊢
    cases hres2 : (HsmBase.initCurrentState onInit fuel
        { m with currentState := m.nextState, nextState := none }).result with
    | error e =>
      rw [Run.bind_of_error (by simpa [Run.after] using hres2)]
      simp [Run.after, h3, HsmBase.enterNextState_no_exit]
    | ok u2 =>
      rw [Run.bind_of_ok (by simpa [Run.after] using hres2)]
      simp [Run.after, Run.pure, h3, HsmBase.enterNextState_no_exit]

theorem exitStop_mem_chain {s t l : HsmStateBase} (htree : t.rootOf = s.rootOf)
    (hstop : exitStop s t = some l) : l ∈ s.chain := by
  unfold exitStop at hstop
  split at hstop
  · obtain ⟨i, hi⟩ := HsmStateBase.eq_sub_of_superState hstop
    subst hi
    simp [HsmStateBase.chain, HsmStateBase.mem_chain_self]
  · simp only [Option.some.injEq] at hstop
    subst hstop
    exact (lca_isLCA htree.symm).1

/-- C10 (amended): for a started machine with current state `c`, `onInit` callbacks that only
request initial descents, and an event whose first accepting handler, at `s`, requests
`transition(t)` or `externalTransition(t)` to a state of the tree (the exit phase stopping at
`l`): the states exited by the exit phase are those from `c` up to but excluding `l`; each of
them has a super state whose `historySubstate` is that state when the dispatch ends; and the
only other `onExit` of the dispatch is the additional exit of `l` by an external transition
(for which no `historySubstate` is written). -/
theorem c10_exit_phase_records_history (onInit : HsmStateBase → List Request) (fuel : Nat)
    (ev : Event) (m : HsmBase) (c s t l : HsmStateBase)
    (hinit : ∀ n, ∀ r ∈ onInit n, r.isInitial = true)
    (hcur : m.currentState = some c) (hs : s ∈ c.chain)
    (hbelow : ∀ n ∈ pathUp c s, ev n = ⟨[], false⟩)
    (hev : ev s = ⟨[.transition t], true⟩ ∨ ev s = ⟨[.externalTransition t], true⟩)
    (htree : t.rootOf = s.rootOf) (hstop : exitStop s t = some l) :
    (∀ n ∈ pathUp c l, .onExit n ∈ (m.onEvent onInit fuel ev).trace ∧
      ∃ p, n.superState = some p ∧
        (m.onEvent onInit fuel ev).hsm.historySubstate p = some n) ∧
    (∀ n, .onExit n ∈ (m.onEvent onInit fuel ev).trace →
      n ∈ pathUp c l ∨ (n = l ∧ ev s = ⟨[.externalTransition t], true⟩)) := by
  have hl : l ∈ c.chain := HsmStateBase.mem_chain_trans (exitStop_mem_chain htree hstop) hs
  have hframe := HsmBase.enterAndInitNextState_frame onInit hinit fuel
    { m.rememberAll (pathUp c l) with
      currentState := some l, nextState := some t, sourceState := some s }
  have hhist : ∀ n ∈ pathUp c l, ∃ p, n.superState = some p ∧
      (m.rememberAll (pathUp c l)).historySubstate p = some n := by
    intro n hn
    obtain ⟨i, p, rfl⟩ := pathUp_has_super hl hn
    exact ⟨p, rfl, HsmBase.rememberAll_pathUp m hn⟩
  rcases hev with hev | hev
  · rw [HsmBase.onEvent_transition_eq onInit fuel ev m c s t l hcur hs hbelow hev htree hstop]
    simp only [Run.after, hframe.1]
    refine ⟨fun n hn => ⟨by simp [hn], hhist n hn⟩, fun n hn => ?_⟩
    simp only [List.append_assoc, List.mem_append, List.mem_map, reduceCtorEq, and_false,
      exists_false, List.mem_singleton, Callback.onExit.injEq, exists_eq_right, false_or] at hn
    rcases hn with hn | hn
    · exact Or.inl hn
    · exact absurd hn (hframe.2 n)
  · rw [HsmBase.onEvent_externalTransition_eq onInit fuel ev m c s t l hcur hs hbelow hev htree
      hstop]
    simp only [Run.after, hframe.1]
    refine ⟨fun n hn => ⟨by simp [hn], hhist n hn⟩, fun n hn => ?_⟩
    simp only [List.append_assoc, List.mem_append, List.mem_map, reduceCtorEq, and_false,
      exists_false, List.mem_singleton, Callback.onExit.injEq, exists_eq_right, false_or,
      List.mem_cons, List.not_mem_nil, or_false] at hn
    rcases hn with hn | hn | hn
    · exact Or.inl hn
    · exact Or.inr ⟨hn, hev⟩
    · exact absurd hn (hframe.2 n)

/-- C10, witness: event `C` of the hierarchy test in state `S11`, handled by `S1` with
`transition(S2)`; the exit phase stops at `TOP`. -/
theorem c10_exit_phase_records_history_witness :
    (∀ n ∈ pathUp hierarchyS11 hierarchyTop,
      .onExit n ∈ (hierarchyStarted.onEvent hierarchyInit 3 hierarchyEventC).trace ∧
      ∃ p, n.superState = some p ∧
        (hierarchyStarted.onEvent hierarchyInit 3 hierarchyEventC).hsm.historySubstate p
          = some n) ∧
    (∀ n, .onExit n ∈ (hierarchyStarted.onEvent hierarchyInit 3 hierarchyEventC).trace →
      n ∈ pathUp hierarchyS11 hierarchyTop ∨
        (n = hierarchyTop ∧
          hierarchyEventC hierarchyS1 = ⟨[.externalTransition hierarchyS2], true⟩)) :=
  c10_exit_phase_records_history hierarchyInit 3 hierarchyEventC hierarchyStarted hierarchyS11
    hierarchyS1 hierarchyS2 hierarchyTop
    (by
      intro n r hr
      unfold hierarchyInit at hr
      split_ifs at hr <;> simp at hr <;> subst hr <;> rfl)
    (by decide) (by decide) (by decide) (Or.inl (by decide)) (by decide) (by decide)

/-- C10, counterexample: in the hierarchy test machine at `S11`, the handler of `S1` requests
`externalTransition(S11)`. The dispatch returns `true`; `onExit` is invoked on `S1`, which has
the super state `TOP`, but `historySubstate` of `TOP` is still null when the dispatch
returns. -/
theorem c10_external_exit_does_not_record_history :
    (hierarchyStarted.onEvent hierarchyInit 3 hierarchyEventOwnSub).result = .ok true ∧
    (hierarchyStarted.onEvent hierarchyInit 3 hierarchyEventOwnSub).trace
      = [.onEvent hierarchyS11, .onEvent hierarchyS1, .onExit hierarchyS11,
          .onExit hierarchyS1, .onEnter hierarchyS1, .onEnter hierarchyS11,
          .onInit hierarchyS11] ∧
    hierarchyS1.superState = some hierarchyTop ∧
    (hierarchyStarted.onEvent hierarchyInit 3 hierarchyEventOwnSub).hsm.historySubstate
      hierarchyTop = none ∧
    (hierarchyStarted.onEvent hierarchyInit 3 hierarchyEventOwnSub).hsm.historySubstate
      hierarchyTop ≠ some hierarchyS1 := by
  decide

/-! ## The distance to the least common ancestor -/

theorem levelsFrom_eq_getD (t s : HsmStateBase) (k : Nat) :
    levelsFrom t s k = (levelsFromFound t s k).getD 0 := by
  induction s generalizing k with
  | root i => simp only [levelsFrom, levelsFromFound]; split <;> rfl
  | sub i p ih =>
    simp only [levelsFrom, levelsFromFound]
    split
    · rfl
    · exact ih _

theorem levelsFromFound_eq {l s t : HsmStateBase} (h : IsLCA l s t) (k : Nat) :
    levelsFromFound t s k = some (k + (pathUp s l).length) := by
  induction s generalizing k with
  | root i =>
    have hl : l = .root i := by simpa [HsmStateBase.chain] using h.1
    subst hl
    have : onTargetChain (.root i) t = true := (onTargetChain_iff _ _).2 h.2.1
    simp [levelsFromFound, this, pathUp_self]
  | sub i p ih =>
    by_cases hc : HsmStateBase.sub i p = l
    · subst hc
      have : onTargetChain (.sub i p) t = true := (onTargetChain_iff _ _).2 h.2.1
      simp [levelsFromFound, this, pathUp_self]
    · have hnot : onTargetChain (.sub i p) t = false := by
        rw [Bool.eq_false_iff]
        intro hon
        exact hc (h.eq_of_mem ((onTargetChain_iff _ _).1 hon))
      rw [levelsFromFound, hnot, pathUp_sub hc]
      simp only [Bool.false_eq_true, if_false, List.length_cons]
      rw [ih (h.super hc)]
      congr 1
      omega

theorem HsmStateBase.chain_length (s : HsmStateBase) : s.chain.length = s.depth + 1 := by
  induction s with
  | root i => rfl
  | sub i p ih => simp [HsmStateBase.chain, HsmStateBase.depth, ih]

theorem pathUp_length {s l : HsmStateBase} (hl : l ∈ s.chain) :
    (pathUp s l).length = s.depth - l.depth := by
  have h := congrArg List.length (chain_eq_pathUp_append hl)
  rw [List.length_append, s.chain_length, l.chain_length] at h
  omega

theorem pathUp_eq_nil_iff {s l : HsmStateBase} (hl : l ∈ s.chain) :
    pathUp s l = [] ↔ s = l := by
  constructor
  · intro h
    have h2 := chain_eq_pathUp_append hl
    rw [h, List.nil_append] at h2
    have hs := s.mem_chain_self
    rw [h2] at hs
    exact HsmStateBase.chain_antisymm hs hl
  · intro h
    subst h
    exact pathUp_self _

/-- C13: for every two distinct states `s` (the source) and `t` (the target) of one tree,
`lca s t` is an ancestor-or-self of both that lies below every other common ancestor-or-self
(it is the deepest one), and `levelsToLCA(t)` returns `depth(s) - depth(lca s t)`; it returns 0
exactly when `s` is an ancestor of `t`; and the nested loops are left through `return to_lca`,
never through the final `return 0`. -/
theorem c13_levelsToLCA_is_depth_difference (m : HsmBase) (s t : HsmStateBase)
    (hsrc : m.sourceState = some s) (hne : s ≠ t) (htree : s.rootOf = t.rootOf) :
    IsLCA (lca s t) s t ∧
    (∀ a, a ∈ s.chain → a ∈ t.chain → a.depth ≤ (lca s t).depth) ∧
    m.levelsToLCA t = s.depth - (lca s t).depth ∧
    (m.levelsToLCA t = 0 ↔ s ∈ t.chain) ∧
    levelsFromFound t s 0 = some (m.levelsToLCA t) := by
  have hl := lca_isLCA htree
  have hlev : m.levelsToLCA t = (pathUp s (lca s t)).length := by
    simp [HsmBase.levelsToLCA, hsrc, hne, levelsFrom_eq hl 0]
  refine ⟨hl, fun a ha hat => ?_, ?_, ?_, ?_⟩
  · have := HsmStateBase.length_le_of_mem_chain (hl.2.2 a ha hat)
    rw [a.chain_length, (lca s t).chain_length] at this
    omega
  · rw [hlev, pathUp_length hl.1]
  · rw [hlev, List.length_eq_zero, pathUp_eq_nil_iff hl.1]
    constructor
    · intro h
      rw [h]
      exact hl.2.1
    · intro h
      exact hl.eq_of_mem h
  · rw [hlev, levelsFromFound_eq hl 0, Nat.zero_add]

/-- C13, witness: source `S1` and target `S211` of the hierarchy test, whose least common
ancestor is `TOP`. -/
theorem c13_levelsToLCA_is_depth_difference_witness :
    IsLCA (lca hierarchyS1 hierarchyS211) hierarchyS1 hierarchyS211 ∧
    (∀ a, a ∈ hierarchyS1.chain → a ∈ hierarchyS211.chain →
      a.depth ≤ (lca hierarchyS1 hierarchyS211).depth) ∧
    HsmBase.levelsToLCA { hierarchyStarted with sourceState := some hierarchyS1 } hierarchyS211
      = hierarchyS1.depth - (lca hierarchyS1 hierarchyS211).depth ∧
    (HsmBase.levelsToLCA { hierarchyStarted with sourceState := some hierarchyS1 } hierarchyS211
      = 0 ↔ hierarchyS1 ∈ hierarchyS211.chain) ∧
    levelsFromFound hierarchyS211 hierarchyS1 0
      = some (HsmBase.levelsToLCA { hierarchyStarted with sourceState := some hierarchyS1 }
          hierarchyS211) :=
  c13_levelsToLCA_is_depth_difference { hierarchyStarted with sourceState := some hierarchyS1 }
    hierarchyS1 hierarchyS211 (by decide) (by decide) (by decide)

/-! ## Pending state between calls -/

/-- C14: for every machine and every sequence of dispatched events whose handlers call the
engine only when they return `true` (whatever `onInit` requests): when `onStart` and all the
dispatches return, `nextState` is null; with no events, this is the state after `onStart`. -/
theorem c14_nothing_pending_between_calls (onInit : HsmStateBase → List Request)
    (fuel : Nat) (evs : List Event) (m : HsmBase) (bs : List Bool)
    (hev : ∀ ev ∈ evs, ∀ n, (ev n).requests = [] ∨ (ev n).handled = true)
    (h : (m.startAndDispatch onInit fuel evs).result = .ok bs) :
    (m.startAndDispatch onInit fuel evs).hsm.nextState = none := by
  unfold HsmBase.startAndDispatch at h ⊢
  obtain ⟨u, h1, h2, _, hhsm⟩ := Run.bind_ok h
  rw [hhsm]
  obtain ⟨c, _, hnext, _⟩ := HsmBase.onEvents_settled onInit fuel evs _ _ bs hev
    (HsmBase.onStart_settled onInit fuel m h1) h2
  exact hnext

/-- C14, witness: the hierarchy test machine started and driven through the events `C`, `D`,
`E` and an event that no state handles. -/
theorem c14_nothing_pending_between_calls_witness :
    ((HsmBase.new hierarchyTop).startAndDispatch hierarchyInit 4
      [hierarchyEventC, hierarchyEventD, hierarchyEventE, unhandledEvent]).hsm.nextState
      = none :=
  c14_nothing_pending_between_calls hierarchyInit 4
    [hierarchyEventC, hierarchyEventD, hierarchyEventE, unhandledEvent]
    (HsmBase.new hierarchyTop) [true, true, true, false]
    (by
      intro ev hev n
      simp only [List.mem_cons, List.mem_singleton, List.not_mem_nil, or_false] at hev
      rcases hev with rfl | rfl | rfl | rfl
      · unfold hierarchyEventC; split_ifs <;> simp
      · unfold hierarchyEventD; split_ifs <;> simp
      · unfold hierarchyEventE; split_ifs <;> simp
      · simp [unhandledEvent])
    (by decide)

/-! ## Misuse of the engine -/

/-- C16: `onStart` on a machine that has already been started (`currentState` non-null) fails
an assertion, without invoking any callback and without changing the machine (the current
state included). -/
theorem c16_double_start_fails_assertion (onInit : HsmStateBase → List Request) (fuel : Nat)
    (m : HsmBase) (h : m.currentState ≠ none) :
    m.onStart onInit fuel = ⟨[], m, .error .assertion⟩ := by
  by_cases ht : m.topState.superState ≠ none
  · simp [HsmBase.onStart, ht, Run.fail]
  · simp [HsmBase.onStart, ht, h, Run.fail]

/-- C16, witness: `onStart` on the started hierarchy test machine. -/
theorem c16_double_start_fails_assertion_witness :
    hierarchyStarted.onStart hierarchyInit 3 = ⟨[], hierarchyStarted, .error .assertion⟩ :=
  c16_double_start_fails_assertion hierarchyInit 3 hierarchyStarted (by decide)

/-- C17 (amended): `onEvent` on a machine on which `onStart` has not been called
(`currentState` null) returns `false` as for an event that no state handles: the loop over the
states is not entered, no handler and no callback is invoked, and the machine is unchanged. -/
theorem c17_dispatch_before_start_returns_false (onInit : HsmStateBase → List Request)
    (fuel : Nat) (ev : Event) (m : HsmBase) (h : m.currentState = none) :
    m.onEvent onInit fuel ev = ⟨[], m, .ok false⟩ := by
  unfold HsmBase.onEvent
  rw [h]
  rfl

/-- C17, witness: event `C` dispatched to the hierarchy test machine before `onStart`. -/
theorem c17_dispatch_before_start_returns_false_witness :
    (HsmBase.new hierarchyTop).onEvent hierarchyInit 3 hierarchyEventC
      = ⟨[], HsmBase.new hierarchyTop, .ok false⟩ :=
  c17_dispatch_before_start_returns_false hierarchyInit 3 hierarchyEventC
    (HsmBase.new hierarchyTop) (by decide)

/-- C17, counterexample: event `C` of the hierarchy test dispatched to the freshly constructed
machine, before `onStart`: `onEvent` returns the normal result `false`, no fault is raised and
nothing is invoked. -/
theorem c17_dispatch_before_start_is_not_a_fault :
    (HsmBase.new hierarchyTop).currentState = none ∧
    ((HsmBase.new hierarchyTop).onEvent hierarchyInit 3 hierarchyEventC).result = .ok false ∧
    ((HsmBase.new hierarchyTop).onEvent hierarchyInit 3 hierarchyEventC).trace = [] ∧
    ((HsmBase.new hierarchyTop).onEvent hierarchyInit 3 hierarchyEventC).hsm.currentState
      = none := by
  decide

/-- C19: if `onInit` of the state `a` being initialised calls `initialTransition(x)` and the
super state of `x` is not `a`, the settling loop fails the assertion right after `onInit(a)`:
`onEnter(x)` is not invoked and the current state is still `a` (only `nextState` holds `x`). -/
theorem c19_wrong_initial_child_fails_assertion (onInit : HsmStateBase → List Request)
    (fuel : Nat) (m : HsmBase) (a x : HsmStateBase) (hcur : m.currentState = some a)
    (hinit : onInit a = [.initialTransition x]) (hx : x.superState ≠ some a) :
    HsmBase.initCurrentState onInit (fuel + 1) m
      = ⟨[.onInit a], { m with nextState := some x }, .error .assertion⟩ ∧
    .onEnter x ∉ (HsmBase.initCurrentState onInit (fuel + 1) m).trace ∧
    (HsmBase.initCurrentState onInit (fuel + 1) m).hsm.currentState = some a := by
  have hrun : HsmBase.initCurrentState onInit (fuel + 1) m
      = ⟨[.onInit a], { m with nextState := some x }, .error .assertion⟩ := by
    cases m with
    | mk top cur next src hist =>
      simp only at hcur
      subst hcur
      rw [HsmBase.initCurrentState]
      simp only [hinit, HsmBase.calls_single, HsmBase.call, HsmBase.initialTransition,
        Run.pure_bind, hx, if_false]
      rfl
  rw [hrun]
  exact ⟨rfl, by simp, hcur⟩

/-- C19, witness: the settling loop of `onStart` at `TOP` of the hierarchy test states, when
`onInit(TOP)` requests the initial descent into `S11`, a sub state of `S1`. -/
theorem c19_wrong_initial_child_fails_assertion_witness :
    HsmBase.initCurrentState wrongChildInit (2 + 1)
        { HsmBase.new hierarchyTop with currentState := some hierarchyTop }
      = ⟨[.onInit hierarchyTop],
          { ({ HsmBase.new hierarchyTop with currentState := some hierarchyTop } : HsmBase) with
            nextState := some hierarchyS11 },
          .error .assertion⟩ ∧
    .onEnter hierarchyS11 ∉ (HsmBase.initCurrentState wrongChildInit (2 + 1)
        { HsmBase.new hierarchyTop with currentState := some hierarchyTop }).trace ∧
    (HsmBase.initCurrentState wrongChildInit (2 + 1)
        { HsmBase.new hierarchyTop with currentState := some hierarchyTop }).hsm.currentState
      = some hierarchyTop :=
  c19_wrong_initial_child_fails_assertion wrongChildInit 2
    { HsmBase.new hierarchyTop with currentState := some hierarchyTop } hierarchyTop
    hierarchyS11 (by decide) (by decide) (by decide)

/-! ## The source state after a dispatch -/

theorem HsmBase.exitUpToSource_sourceState (m : HsmBase) (state : HsmStateBase) :
    (m.exitUpToSource state).hsm.sourceState = m.sourceState := by
  induction state generalizing m with
  | root i =>
    rw [HsmBase.exitUpToSource]
    split <;> simp [Run.pure, Run.after, Run.fail]
  | sub i p ih =>
    rw [HsmBase.exitUpToSource]
    split
    · simp [Run.pure]
    · simpa [Run.after] using ih (m.remember p (.sub i p))

theorem HsmBase.exitLevels_sourceState (m : HsmBase) (n : Nat) (state : HsmStateBase) :
    (m.exitLevels n state).hsm.sourceState = m.sourceState := by
  induction n generalizing m state with
  | zero => simp [HsmBase.exitLevels, Run.pure]
  | succ k ih =>
    cases state with
    | root i => simp [HsmBase.exitLevels, Run.after, Run.fail]
    | sub i p => simpa [HsmBase.exitLevels, Run.after] using ih (m.remember p (.sub i p)) p

theorem Run.bind_sourceState {α β : Type} (r : Run α) (f : α → HsmBase → Run β)
    (x : Option HsmStateBase) (hr : r.hsm.sourceState = x)
    (hf : ∀ a m, m.sourceState = x → (f a m).hsm.sourceState = x) :
    (r.bind f).hsm.sourceState = x := by
  cases hres : r.result with
  | error e => rw [Run.bind_of_error hres]; exact hr
  | ok a => rw [Run.bind_of_ok hres]; exact hf a r.hsm hr

theorem HsmBase.exitUpToLCA_sourceState (m : HsmBase) (t : HsmStateBase) :
    (m.exitUpToLCA t).hsm.sourceState = m.sourceState := by
  unfold HsmBase.exitUpToLCA
  split
  · split <;> simp [Run.pure, Run.fail]
  · refine Run.bind_sourceState _ _ _ (HsmBase.exitUpToSource_sourceState _ _) (fun a m1 h1 => ?_)
    refine Run.bind_sourceState _ _ _ ?_ (fun a2 m2 h2 => ?_)
    · rw [HsmBase.exitLevels_sourceState, h1]
    · simpa [Run.pure] using h2

theorem HsmBase.call_sourceState (m : HsmBase) (r : Request) :
    (m.call r).hsm.sourceState = m.sourceState := by
  cases r with
  | transition t =>
    simp only [HsmBase.call, HsmBase.transition]
    split
    · simp [Run.fail]
    · exact Run.bind_sourceState _ _ _ (HsmBase.exitUpToLCA_sourceState _ _)
        (fun _ m1 h1 => by simpa [Run.pure] using h1)
  | externalTransition t =>
    simp only [HsmBase.call, HsmBase.externalTransition]
    split
    · simp [Run.fail]
    · refine Run.bind_sourceState _ _ _ (HsmBase.exitUpToLCA_sourceState _ _)
        (fun _ m1 h1 => ?_)
      split <;> simpa [Run.fail, Run.after, Run.pure] using h1
  | initialTransition s => simp [HsmBase.call, HsmBase.initialTransition, Run.pure]
  | initialHistoryTransition s =>
    simp only [HsmBase.call, HsmBase.initialHistoryTransition]
    split
    · simp [Run.fail]
    · split <;> simp [HsmBase.initialTransition, Run.pure]

theorem HsmBase.calls_sourceState (m : HsmBase) (rs : List Request) :
    (m.calls rs).hsm.sourceState = m.sourceState := by
  induction rs generalizing m with
  | nil => simp [HsmBase.calls, Run.pure]
  | cons r rs ih =>
    rw [HsmBase.calls]
    exact Run.bind_sourceState _ _ _ (HsmBase.call_sourceState _ _)
      (fun _ m1 h1 => by rw [ih, h1])

theorem HsmBase.initCurrentState_sourceState (onInit : HsmStateBase → List Request)
    (fuel : Nat) (m : HsmBase) :
    (HsmBase.initCurrentState onInit fuel m).hsm.sourceState = m.sourceState := by
  induction fuel generalizing m with
  | zero => simp [HsmBase.initCurrentState, Run.fail]
  | succ k ih =>
    rw [HsmBase.initCurrentState]
    split
    · simp [Run.fail]
    · simp only [Run.after]
      refine Run.bind_sourceState _ _ _ (HsmBase.calls_sourceState _ _) (fun _ m1 h1 => ?_)
      split
      · simpa [Run.pure] using h1
      · split
        · refine Run.bind_sourceState _ _ _ (by rw [HsmBase.enterNextState_hsm]; exact h1)
            (fun _ m2 h2 => ?_)
          rw [ih]
          exact h2
        · simpa [Run.fail] using h1

theorem HsmBase.afterHandled_sourceState (onInit : HsmStateBase → List Request) (fuel : Nat)
    (m : HsmBase) :
    (HsmBase.afterHandled onInit fuel m).hsm.sourceState = m.sourceState := by
  unfold HsmBase.afterHandled
  split
  · refine Run.bind_sourceState _ _ _ ?_ (fun _ m2 h2 => by simpa [Run.pure] using h2)
    unfold HsmBase.enterAndInitNextState
    refine Run.bind_sourceState _ _ _ (by rw [HsmBase.enterNextState_hsm]) (fun _ m1 h1 => ?_)
    rw [HsmBase.initCurrentState_sourceState]
    exact h1
  · simp [Run.pure]

theorem last_cons_of_ne_nil {α : Type} (a : α) {l : List α} (h : l ≠ []) :
    (a :: l).getLast? = l.getLast? := by
  cases l with
  | nil => exact absurd rfl h
  | cons b t => simp [List.getLast?_cons_cons]

theorem handlerWalk_ne_nil (ev : Event) {xs : List HsmStateBase} (h : xs ≠ []) :
    handlerWalk ev xs ≠ [] := by
  cases xs with
  | nil => exact absurd rfl h
  | cons x rest =>
    simp only [handlerWalk]
    split <;> simp

/-- After the dispatch loop, `sourceState` points at the state whose handler was tried last. -/
theorem HsmBase.onEventFrom_sourceState_after (onInit : HsmStateBase → List Request)
    (fuel : Nat) (ev : Event) (c : HsmStateBase) :
    ∀ m : HsmBase, (m.onEventFrom onInit fuel ev c).hsm.sourceState ≠ none ∧
      ∀ b, (m.onEventFrom onInit fuel ev c).result = .ok b →
        (m.onEventFrom onInit fuel ev c).hsm.sourceState
          = (handlerWalk ev c.chain).getLast? := by
  induction c with
  | root i =>
    intro m
    have hsrc := HsmBase.calls_sourceState { m with sourceState := some (.root i) }
      (ev (.root i)).requests
    cases hres : (HsmBase.calls { m with sourceState := some (.root i) }
        (ev (.root i)).requests).result with
    | error e =>
      rw [HsmBase.onEventFrom_fault onInit fuel ev m _ e hres]
      simp [hsrc]
    | ok u =>
      cases hh : (ev (.root i)).handled with
      | true =>
        rw [HsmBase.onEventFrom_handled onInit fuel ev m _ hres hh]
        simp [Run.after, HsmBase.afterHandled_sourceState, hsrc, HsmStateBase.chain,
          handlerWalk, hh]
      | false =>
        rw [HsmBase.onEventFrom_root_unhandled onInit fuel ev m _ hres hh]
        simp [hsrc, HsmStateBase.chain, handlerWalk, hh]
  | sub i p ih =>
    intro m
    have hsrc := HsmBase.calls_sourceState { m with sourceState := some (.sub i p) }
      (ev (.sub i p)).requests
    cases hres : (HsmBase.calls { m with sourceState := some (.sub i p) }
        (ev (.sub i p)).requests).result with
    | error e =>
      rw [HsmBase.onEventFrom_fault onInit fuel ev m _ e hres]
      simp [hsrc]
    | ok u =>
      cases hh : (ev (.sub i p)).handled with
      | true =>
        rw [HsmBase.onEventFrom_handled onInit fuel ev m _ hres hh]
        simp [Run.after, HsmBase.afterHandled_sourceState, hsrc, HsmStateBase.chain,
          handlerWalk, hh]
      | false =>
        rw [HsmBase.onEventFrom_sub_unhandled onInit fuel ev m _ _ hres hh]
        have ih := ih (HsmBase.calls { m with sourceState := some (.sub i p) }
          (ev (.sub i p)).requests).hsm
        simp only [Run.after, HsmStateBase.chain, handlerWalk, hh, Bool.false_eq_true,
          if_false]
        refine ⟨ih.1, fun b hb => ?_⟩
        rw [ih.2 b hb, last_cons_of_ne_nil _ (handlerWalk_ne_nil ev p.chain_ne_nil)]

/-- C15, counterexample: event `C` of the hierarchy test in state `S11`, handled by `S1` with
`transition(S2)`. The dispatch returns `true` and `nextState` is null again, but `sourceState`
still points at `S1`; after an event that no state handles it points at `TOP`. -/
theorem c15_source_is_not_cleared :
    (hierarchyStarted.onEvent hierarchyInit 3 hierarchyEventC).result = .ok true ∧
    (hierarchyStarted.onEvent hierarchyInit 3 hierarchyEventC).hsm.nextState = none ∧
    (hierarchyStarted.onEvent hierarchyInit 3 hierarchyEventC).hsm.sourceState
      = some hierarchyS1 ∧
    (hierarchyStarted.onEvent hierarchyInit 3 unhandledEvent).result = .ok false ∧
    (hierarchyStarted.onEvent hierarchyInit 3 unhandledEvent).hsm.sourceState
      = some hierarchyTop := by
  decide

/-! ## The order of `onExit` and the history record -/

theorem HsmBase.exitUpToSourceCalls_eq (m : HsmBase) {c s : HsmStateBase}
    (hsrc : m.sourceState = some s) (hs : s ∈ c.chain) :
    m.exitUpToSourceCalls c = exitCalls m (pathUp c s) := by
  induction c generalizing m with
  | root i =>
    simp [HsmStateBase.chain] at hs
    subst hs
    simp [HsmBase.exitUpToSourceCalls, hsrc, pathUp_self, exitCalls]
  | sub i p ih =>
    by_cases hc : HsmStateBase.sub i p = s
    · subst hc
      simp [HsmBase.exitUpToSourceCalls, hsrc, pathUp_self, exitCalls]
    · have hne : ¬ (s = HsmStateBase.sub i p) := fun h => hc h.symm
      rw [HsmBase.exitUpToSourceCalls]
      simp only [hsrc, Option.some.injEq, hne, if_false]
      rw [ih (m.remember p (.sub i p)) (by simpa using hsrc) (mem_chain_sub_of_ne hs hc),
        pathUp_sub hc]
      rfl

theorem HsmBase.exitLevelsCalls_eq (m : HsmBase) {state l : HsmStateBase}
    (hl : l ∈ state.chain) :
    m.exitLevelsCalls (pathUp state l).length state = exitCalls m (pathUp state l) := by
  induction state generalizing m with
  | root i =>
    simp [HsmStateBase.chain] at hl
    subst hl
    simp [HsmBase.exitLevelsCalls, pathUp_self, exitCalls]
  | sub i p ih =>
    by_cases hc : HsmStateBase.sub i p = l
    · subst hc
      simp [HsmBase.exitLevelsCalls, pathUp_self, exitCalls]
    · rw [pathUp_sub hc]
      simp only [List.length_cons, HsmBase.exitLevelsCalls]
      rw [ih (m.remember p (.sub i p)) (mem_chain_sub_of_ne hl hc)]
      rfl

theorem exitCalls_append (m : HsmBase) (xs ys : List HsmStateBase) :
    exitCalls m (xs ++ ys) = exitCalls m xs ++ exitCalls (m.rememberAll xs) ys := by
  induction xs generalizing m with
  | nil => rfl
  | cons x xs ih =>
    have h : m.rememberAll (x :: xs) = (m.rememberAll [x]).rememberAll xs :=
      HsmBase.rememberAll_append m [x] xs
    simp only [List.cons_append, exitCalls, ih, h, List.append_eq]

theorem exitCalls_map_fst (m : HsmBase) (xs : List HsmStateBase) :
    (exitCalls m xs).map Prod.fst = xs := by
  induction xs generalizing m with
  | nil => rfl
  | cons x xs ih => simp [exitCalls, ih]

theorem exitCalls_mem (xs : List HsmStateBase) :
    ∀ (m : HsmBase) (x : HsmStateBase × HsmBase), x ∈ exitCalls m xs →
      ∃ pre post, xs = pre ++ x.1 :: post ∧ x.2 = m.rememberAll pre := by
  induction xs with
  | nil => intro m x hx; simp [exitCalls] at hx
  | cons y ys ih =>
    intro m x hx
    simp only [exitCalls, List.mem_cons] at hx
    rcases hx with hx | hx
    · subst hx
      exact ⟨[], ys, rfl, rfl⟩
    · obtain ⟨pre, post, h1, h2⟩ := ih _ x hx
      refine ⟨y :: pre, post, by rw [h1]; rfl, ?_⟩
      rw [h2]
      exact (HsmBase.rememberAll_append m [y] pre).symm

theorem HsmBase.rememberAll_untouched (xs : List HsmStateBase) (p : HsmStateBase)
    (h : ∀ j, HsmStateBase.sub j p ∉ xs) :
    ∀ m : HsmBase, (m.rememberAll xs).historySubstate p = m.historySubstate p := by
  induction xs with
  | nil => intro m; rfl
  | cons y ys ih =>
    intro m
    have h2 : ∀ j, HsmStateBase.sub j p ∉ ys := fun j hj => h j (List.mem_cons_of_mem _ hj)
    cases y with
    | root k => exact ih h2 m
    | sub k q =>
      simp only [HsmBase.rememberAll]
      rw [ih h2]
      have hq : p ≠ q := by
        intro hpq
        subst hpq
        exact h k (List.mem_cons_self _ _)
      simp [HsmBase.remember, Function.update_noteq hq]

/-- The exit phase of a transition from source `s` to a target of the tree: the `onExit`
invocations are those of the states from the current state up to the state at which the exit
phase stops, each on the machine in which the exits of the states before it are recorded. -/
theorem HsmBase.exitUpToLCACalls_eq (m : HsmBase) {c s t l : HsmStateBase}
    (hcur : m.currentState = some c) (hsrc : m.sourceState = some s) (hs : s ∈ c.chain)
    (htree : t.rootOf = s.rootOf) (hstop : exitStop s t = some l) :
    m.exitUpToLCACalls t = exitCalls m (pathUp c l) := by
  have hl : l ∈ s.chain := exitStop_mem_chain htree hstop
  have hlev : HsmBase.levelsToLCA (m.rememberAll (pathUp c s)) t = (pathUp s l).length := by
    unfold exitStop at hstop
    by_cases hts : t = s
    · subst hts
      rw [if_pos rfl] at hstop
      obtain ⟨i, hi⟩ := HsmStateBase.eq_sub_of_superState hstop
      subst hi
      have hne : HsmStateBase.sub i l ≠ l := fun h => by
        have := congrArg (fun x => x.chain.length) h
        simp [HsmStateBase.chain] at this
      simp [HsmBase.levelsToLCA, hsrc, pathUp_sub hne, pathUp_self]
    · rw [if_neg hts] at hstop
      simp only [Option.some.injEq] at hstop
      subst hstop
      have hst : ¬ (s = t) := fun h => hts h.symm
      simp [HsmBase.levelsToLCA, hsrc, hst, levelsFrom_eq (lca_isLCA htree.symm) 0]
  unfold HsmBase.exitUpToLCACalls
  rw [hcur]
  simp only
  rw [HsmBase.exitUpToSourceCalls_eq m hsrc hs, HsmBase.exitUpToSource_eq m hsrc hs]
  simp only
  rw [hlev, HsmBase.exitLevelsCalls_eq _ hl, ← exitCalls_append, pathUp_append hs hl]

theorem HsmBase.exitUpToSourceCalls_trace (state : HsmStateBase) :
    ∀ m : HsmBase, (m.exitUpToSourceCalls state).map (fun x => Callback.onExit x.1)
      = (m.exitUpToSource state).trace := by
  induction state with
  | root i =>
    intro m
    by_cases h : m.sourceState = some (.root i)
    · simp [HsmBase.exitUpToSourceCalls, HsmBase.exitUpToSource, h, Run.pure]
    · simp [HsmBase.exitUpToSourceCalls, HsmBase.exitUpToSource, h, Run.after, Run.fail]
  | sub i p ih =>
    intro m
    by_cases h : m.sourceState = some (.sub i p)
    · simp [HsmBase.exitUpToSourceCalls, HsmBase.exitUpToSource, h, Run.pure]
    · rw [HsmBase.exitUpToSourceCalls, HsmBase.exitUpToSource]
      simp only [h, if_false, List.map_cons, Run.after, List.singleton_append, ih]

theorem HsmBase.exitLevelsCalls_trace (toLca : Nat) :
    ∀ (state : HsmStateBase) (m : HsmBase),
      (m.exitLevelsCalls toLca state).map (fun x => Callback.onExit x.1)
        = (m.exitLevels toLca state).trace := by
  induction toLca with
  | zero => intro state m; simp [HsmBase.exitLevelsCalls, HsmBase.exitLevels, Run.pure]
  | succ n ih =>
    intro state m
    cases state with
    | root i => simp [HsmBase.exitLevelsCalls, HsmBase.exitLevels, Run.after, Run.fail]
    | sub i p => simp [HsmBase.exitLevelsCalls, HsmBase.exitLevels, Run.after, ih]

/-- The `onExit` invocations observed by `exitUpToLCACalls` are exactly the callbacks of
`exitUpToLCA`, in the same order. -/
theorem HsmBase.exitUpToLCACalls_trace (m : HsmBase) (target : HsmStateBase) :
    (m.exitUpToLCACalls target).map (fun x => Callback.onExit x.1)
      = (m.exitUpToLCA target).trace := by
  unfold HsmBase.exitUpToLCACalls HsmBase.exitUpToLCA
  cases hc : m.currentState with
  | none =>
    by_cases h : m.sourceState = none <;> simp [h, Run.pure, Run.fail]
  | some current =>
    simp only [List.map_append, HsmBase.exitUpToSourceCalls_trace, Run.bind_trace]
    cases hr : (m.exitUpToSource current).result with
    | error e => simp
    | ok state =>
      simp only [HsmBase.exitLevelsCalls_trace]
      cases (HsmBase.exitLevels (m.exitUpToSource current).hsm
        (HsmBase.levelsToLCA (m.exitUpToSource current).hsm target) state).result <;>
        simp [Run.pure]

theorem pathUp_nodup (c l : HsmStateBase) : (pathUp c l).Nodup :=
  (List.takeWhile_sublist _).nodup (HsmStateBase.chain_nodup c)

/-- C12 (amended): in the exit phase `exitUpToLCA` of `transition`/`externalTransition`, the
states from the current state up to the stopping state are exited innermost first, and for each
exited state `n` the engine first invokes `n.onExit` and only then records `n` as the
`historySubstate` of its super state: when `onExit(n)` runs the super state still holds the
history it had before the exit phase, and when the exit phase is over it holds `n`. -/
theorem c12_onExit_runs_before_history_is_recorded (m : HsmBase) (c s t l : HsmStateBase)
    (hcur : m.currentState = some c) (hsrc : m.sourceState = some s) (hs : s ∈ c.chain)
    (htree : t.rootOf = s.rootOf) (hstop : exitStop s t = some l) :
    (m.exitUpToLCACalls t).map (fun x => Callback.onExit x.1) = (m.exitUpToLCA t).trace ∧
    (m.exitUpToLCACalls t).map Prod.fst = pathUp c l ∧
    ∀ x ∈ m.exitUpToLCACalls t, ∃ i p, x.1 = .sub i p ∧
      seenHistory x = m.historySubstate p ∧
      (m.exitUpToLCA t).hsm.historySubstate p = some x.1 := by
  have hl : l ∈ c.chain :=
    HsmStateBase.mem_chain_trans (exitStop_mem_chain htree hstop) hs
  refine ⟨HsmBase.exitUpToLCACalls_trace m t, ?_, ?_⟩
  · rw [HsmBase.exitUpToLCACalls_eq m hcur hsrc hs htree hstop, exitCalls_map_fst]
  · intro x hx
    rw [HsmBase.exitUpToLCACalls_eq m hcur hsrc hs htree hstop] at hx
    obtain ⟨pre, post, hsplit, hm⟩ := exitCalls_mem _ m x hx
    have hmem : x.1 ∈ pathUp c l := by rw [hsplit]; simp
    obtain ⟨i, p, hip⟩ := pathUp_has_super hl hmem
    refine ⟨i, p, hip, ?_, ?_⟩
    · have hnd := pathUp_nodup c l
      rw [hsplit] at hnd
      have hnot : ∀ j, HsmStateBase.sub j p ∉ pre := by
        intro j hj
        have hjmem : HsmStateBase.sub j p ∈ pathUp c l := by rw [hsplit]; simp [hj]
        have hji : j = i :=
          HsmStateBase.sub_unique_on_chain (pathUp_subset_chain (hip ▸ hmem))
            (pathUp_subset_chain hjmem)
        subst hji
        rw [hip] at hnd
        exact (List.nodup_append.1 hnd).2.2 hj (List.mem_cons_self _ _)
      simp only [seenHistory, hip, HsmStateBase.superState, hm]
      exact HsmBase.rememberAll_untouched pre p hnot m
    · rw [HsmBase.exitUpToLCA_stop m hcur hsrc hs htree hstop, hip]
      exact HsmBase.rememberAll_pathUp m (hip ▸ hmem)

/-- C12, witness: in the hierarchy test machine at `S11`, when the handler of `S1` requests
`transition(S2)`. -/
theorem c12_onExit_runs_before_history_is_recorded_witness :
    (HsmBase.exitUpToLCACalls { hierarchyStarted with sourceState := some hierarchyS1 }
        hierarchyS2).map (fun x => Callback.onExit x.1)
      = (HsmBase.exitUpToLCA { hierarchyStarted with sourceState := some hierarchyS1 }
          hierarchyS2).trace ∧
    (HsmBase.exitUpToLCACalls { hierarchyStarted with sourceState := some hierarchyS1 }
        hierarchyS2).map Prod.fst = pathUp hierarchyS11 hierarchyTop ∧
    ∀ x ∈ HsmBase.exitUpToLCACalls { hierarchyStarted with sourceState := some hierarchyS1 }
        hierarchyS2, ∃ i p, x.1 = .sub i p ∧
      seenHistory x
        = HsmBase.historySubstate { hierarchyStarted with sourceState := some hierarchyS1 } p ∧
      (HsmBase.exitUpToLCA { hierarchyStarted with sourceState := some hierarchyS1 }
          hierarchyS2).hsm.historySubstate p = some x.1 :=
  c12_onExit_runs_before_history_is_recorded
    { hierarchyStarted with sourceState := some hierarchyS1 }
    hierarchyS11 hierarchyS1 hierarchyS2 hierarchyTop (by decide) rfl (by decide) (by decide)
    (by decide)

/-- C12, counterexample: in the hierarchy test machine at `S11`, when the handler of `S1`
requests `transition(S2)`, the exit phase invokes `onExit(S11)` and `onExit(S1)`; at these
moments `S1.historySubstate` and `TOP.historySubstate` are still unset, not `S11` and `S1`,
which they become only afterwards. -/
theorem c12_history_is_unset_when_onExit_runs :
    (HsmBase.exitUpToLCACalls { hierarchyStarted with sourceState := some hierarchyS1 }
        hierarchyS2).map (fun x => (x.1, seenHistory x))
      = [(hierarchyS11, none), (hierarchyS1, none)] ∧
    (HsmBase.exitUpToLCA { hierarchyStarted with sourceState := some hierarchyS1 }
        hierarchyS2).trace = [.onExit hierarchyS11, .onExit hierarchyS1] ∧
    (HsmBase.exitUpToLCA { hierarchyStarted with sourceState := some hierarchyS1 }
        hierarchyS2).hsm.historySubstate hierarchyS1 = some hierarchyS11 ∧
    (HsmBase.exitUpToLCA { hierarchyStarted with sourceState := some hierarchyS1 }
        hierarchyS2).hsm.historySubstate hierarchyTop = some hierarchyS1 := by
  decide

/-! ## History descent -/

/-- The callbacks of the history test: `onStart`, then `On`, `B`, `Off`, `On`; the last `On`
enters `B`. -/
theorem history_test_trace :
    (HsmBase.startAndDispatch historyInit 3
        [historyEventOn, historyEventB, historyEventOff, historyEventOn]
        (HsmBase.new historyTop)).trace
      = [.onEnter historyTop, .onInit historyTop, .onEnter historyDisabled,
          .onInit historyDisabled,
          .onEvent historyDisabled, .onExit historyDisabled, .onEnter historyEnabled,
          .onInit historyEnabled, .onEnter historyA, .onInit historyA,
          .onEvent historyA, .onEvent historyEnabled, .onExit historyA, .onEnter historyB,
          .onInit historyB,
          .onEvent historyB, .onEvent historyEnabled, .onExit historyB, .onExit historyEnabled,
          .onEnter historyDisabled, .onInit historyDisabled,
          .onEvent historyDisabled, .onExit historyDisabled, .onEnter historyEnabled,
          .onInit historyEnabled, .onEnter historyB, .onInit historyB] := by
  decide

theorem mem_pathUp_of_super_mem {c l p : HsmStateBase} {i : Nat} (hl : l ∈ c.chain)
    (hx : HsmStateBase.sub i p ∈ c.chain) (hp : p ∈ pathUp c l) :
    HsmStateBase.sub i p ∈ pathUp c l := by
  have hnd := HsmStateBase.chain_nodup c
  rw [chain_eq_pathUp_append hl] at hx hnd
  rcases List.mem_append.1 hx with h | h
  · exact h
  · have hpl : p ∈ l.chain :=
      HsmStateBase.mem_chain_trans (by simp [HsmStateBase.chain, HsmStateBase.mem_chain_self]) h
    exact absurd hpl (fun h2 => (List.nodup_append.1 hnd).2.2 hp h2)

/-- A dispatch whose first accepting handler requests one `transition`, with `onInit` callbacks
that only request initial descents, leaves every state exited by the exit phase as the
`historySubstate` of its super state. -/
theorem HsmBase.onEvent_transition_history (onInit : HsmStateBase → List Request) (fuel : Nat)
    (hinit : ∀ n, ∀ r ∈ onInit n, r.isInitial = true)
    (ev : Event) (m : HsmBase) (c s t l : HsmStateBase) (hcur : m.currentState = some c)
    (hs : s ∈ c.chain) (hbelow : ∀ n ∈ pathUp c s, ev n = ⟨[], false⟩)
    (hev : ev s = ⟨[.transition t], true⟩) (htree : t.rootOf = s.rootOf)
    (hstop : exitStop s t = some l) {i : Nat} {p : HsmStateBase}
    (hn : HsmStateBase.sub i p ∈ pathUp c l) :
    (m.onEvent onInit fuel ev).hsm.historySubstate p = some (.sub i p) := by
  have hframe := HsmBase.enterAndInitNextState_frame onInit hinit fuel
    { m.rememberAll (pathUp c l) with
      currentState := some l, nextState := some t, sourceState := some s }
  rw [HsmBase.onEvent_transition_eq onInit fuel ev m c s t l hcur hs hbelow hev htree hstop]
  simp only [Run.after, hframe.1]
  exact HsmBase.rememberAll_pathUp m hn

/-- One round of the settling loop at a state whose `onInit` calls
`initialHistoryTransition(d)`: it descends into the recorded `historySubstate` if there is one
and into `d` otherwise. -/
theorem HsmBase.initCurrentState_history (onInit : HsmStateBase → List Request) (fuel : Nat)
    (m : HsmBase) (P d : HsmStateBase) (hcur : m.currentState = some P)
    (hP : onInit P = [.initialHistoryTransition d]) (hd : d.superState = some P)
    (hwf : ∀ h, m.historySubstate P = some h → h.superState = some P) :
    HsmBase.initCurrentState onInit (fuel + 1) m
      = Run.after [.onInit P, .onEnter ((m.historySubstate P).getD d)]
          (HsmBase.initCurrentState onInit fuel
            { m with currentState := some ((m.historySubstate P).getD d),
                     nextState := none }) := by
  apply HsmBase.initCurrentState_descend onInit fuel m hcur
  · simp [initialChild, hP, Request.initialTarget]
  · cases hh : m.historySubstate P with
    | none => simpa using hd
    | some h => simpa using hwf h hh

/-- A dispatch whose first accepting handler requests `transition(P)` to an inactive state `P`
whose `onInit` calls `initialHistoryTransition(d)` and whose recorded `historySubstate` is its
sub state `X`: after the exit and entry phases, the settling loop enters `X`. -/
theorem HsmBase.onEvent_transition_into_history (onInit : HsmStateBase → List Request)
    (fuel : Nat) (ev : Event) (m : HsmBase) (c s P d : HsmStateBase) (i : Nat)
    (hP : onInit P = [.initialHistoryTransition d])
    (hhist : m.historySubstate P = some (.sub i P))
    (hcur : m.currentState = some c) (hs : s ∈ c.chain)
    (hbelow : ∀ n ∈ pathUp c s, ev n = ⟨[], false⟩)
    (hev : ev s = ⟨[.transition P], true⟩) (htree : P.rootOf = s.rootOf)
    (hinactive : P ∉ c.chain)
    (hlen : (pathDown (lca s P) P).length < MAX_STATE_NESTING) :
    m.onEvent onInit (fuel + 1) ev
      = Run.after ((pathUp c s).map .onEvent ++ [.onEvent s]
            ++ (pathUp c (lca s P)).map .onExit ++ (pathDown (lca s P) P).map .onEnter
            ++ [.onInit P, .onEnter (.sub i P)])
          ((HsmBase.initCurrentState onInit fuel
              { m.rememberAll (pathUp c (lca s P)) with
                currentState := some (.sub i P), nextState := none,
                sourceState := some s }).bind fun _ m2 => Run.pure true m2) := by
  have hne : P ≠ s := fun h => hinactive (h ▸ hs)
  have hstop : exitStop s P = some (lca s P) := by simp [exitStop, hne]
  have hlca := lca_isLCA htree.symm
  have hkeep : (m.rememberAll (pathUp c (lca s P))).historySubstate P = some (.sub i P) := by
    rw [HsmBase.rememberAll_untouched _ P _ m, hhist]
    intro j hj
    exact hinactive (HsmStateBase.mem_chain_trans
      (by simp [HsmStateBase.chain, HsmStateBase.mem_chain_self]) (pathUp_subset_chain hj))
  rw [HsmBase.onEvent_transition_eq onInit (fuel + 1) ev m c s P (lca s P) hcur hs hbelow hev
      htree hstop,
    HsmBase.enterAndInitNextState_eq onInit (fuel + 1) _ rfl rfl hlca.2.1 hlen,
    HsmBase.initCurrentState_descend onInit fuel _ (a := P) (b := .sub i P) rfl
      (by simp [initialChild, hP, Request.initialTarget, hkeep]) rfl]
  simp only [Run.after_after, Run.after_bind, List.append_assoc]

/-! ## Requests the engine does not check -/

/-- C18, the code at the failing inputs: no assertion fails on a second request. In the
hierarchy test machine at `S11`, a handler of `S1` that calls `transition(S11)` and then
`transition(S2)` has both exit phases carried out at once (`S11` is exited by the first call,
`S1` by the second), the second target replaces the first, and `onEvent` returns `true` with
the machine settled below `S2`. An `onInit` of `TOP` that calls `initialTransition(S1)` and
then `initialTransition(S2)` makes the settling loop descend into `S2`, and `onStart`
returns. -/
theorem c18_second_request_replaces_first_without_failure :
    (hierarchyStarted.onEvent hierarchyInit 3 hierarchyEventTwice).result = .ok true ∧
    (hierarchyStarted.onEvent hierarchyInit 3 hierarchyEventTwice).trace
      = [.onEvent hierarchyS11, .onEvent hierarchyS1, .onExit hierarchyS11,
          .onExit hierarchyS1, .onEnter hierarchyS2, .onInit hierarchyS2,
          .onEnter hierarchyS21, .onInit hierarchyS21, .onEnter hierarchyS211,
          .onInit hierarchyS211] ∧
    (hierarchyStarted.onEvent hierarchyInit 3 hierarchyEventTwice).hsm.currentState
      = some hierarchyS211 ∧
    (HsmBase.onStart twiceInit 4 (HsmBase.new hierarchyTop)).result = .ok () ∧
    (HsmBase.onStart twiceInit 4 (HsmBase.new hierarchyTop)).trace
      = [.onEnter hierarchyTop, .onInit hierarchyTop, .onEnter hierarchyS2,
          .onInit hierarchyS2, .onEnter hierarchyS21, .onInit hierarchyS21,
          .onEnter hierarchyS211, .onInit hierarchyS211] ∧
    (HsmBase.onStart twiceInit 4 (HsmBase.new hierarchyTop)).hsm.currentState
      = some hierarchyS211 := by
  decide

/-- C20, the code at the failing inputs: no assertion fails when an event handler requests an
initial descent. In a machine at `S1`, a handler of `S1` that calls `initialTransition(S11)`,
or `initialHistoryTransition(S11)`, and returns `true` makes `onEvent` enter `S11`, settle
there and return `true`. -/
theorem c20_initial_transition_in_handler_enters_state :
    shallowStarted.currentState = some hierarchyS1 ∧
    (shallowStarted.onEvent shallowInit 2 hierarchyEventInitial).result = .ok true ∧
    (shallowStarted.onEvent shallowInit 2 hierarchyEventInitial).trace
      = [.onEvent hierarchyS1, .onEnter hierarchyS11, .onInit hierarchyS11] ∧
    (shallowStarted.onEvent shallowInit 2 hierarchyEventInitial).hsm.currentState
      = some hierarchyS11 ∧
    (shallowStarted.onEvent shallowInit 2 hierarchyEventInitialHistory).result = .ok true ∧
    (shallowStarted.onEvent shallowInit 2 hierarchyEventInitialHistory).trace
      = [.onEvent hierarchyS1, .onEnter hierarchyS11, .onInit hierarchyS11] ∧
    (shallowStarted.onEvent shallowInit 2 hierarchyEventInitialHistory).hsm.currentState
      = some hierarchyS11 := by
  decide

/-! ## Entry paths longer than the buffer -/

/-- The path trace of `enterNextState` when the path from the pending state up to the current
state has `MAX_STATE_NESTING` states or more: the loop writes past the last slot. -/
theorem tracePath_overflow {l t : HsmStateBase} (hl : l ∈ t.chain) (acc : List HsmStateBase)
    (hacc : acc.length < MAX_STATE_NESTING)
    (hlen : MAX_STATE_NESTING ≤ (pathUp t l).length + acc.length) :
    tracePath (some l) t acc = .error .bufferOverflow := by
  induction t generalizing acc with
  | root i =>
    have : l = .root i := by simpa [HsmStateBase.chain] using hl
    subst this
    simp [pathUp_self] at hlen
    omega
  | sub i p ih =>
    by_cases hc : HsmStateBase.sub i p = l
    · subst hc
      simp [pathUp_self] at hlen
      omega
    · have hne : ¬ (l = HsmStateBase.sub i p) := fun h => hc h.symm
      rw [pathUp_sub hc] at hlen
      simp only [List.length_cons] at hlen
      rw [tracePath]
      simp only [Option.some.injEq, hne, if_false]
      by_cases hfull : MAX_STATE_NESTING ≤ acc.length + 1
      · rw [if_pos hfull]
      · rw [if_neg hfull]
        exact ih (mem_chain_sub_of_ne hl hc) _ (by simp; omega) (by simp; omega)

/-- C21, the code at the failing inputs: `enterNextState` has no range check. In the tree with
root `deepTop`, started at `deepLeaf`, a handler of `deepLeaf` that requests
`transition(deep8)` has an entry path of eight states, more than `MAX_STATE_NESTING`. The
engine does not fail an assertion: the exit phase is carried out (`onExit(deepLeaf)`) and the
trace loop then writes past the end of `entry_path`. The same happens for the entry path of
seven states to `deep7`, which is not more than `MAX_STATE_NESTING`. -/
theorem c21_long_entry_path_overflows_without_assertion :
    (pathDown deepTop deep8).length = 8 ∧ MAX_STATE_NESTING = 7 ∧
    ((HsmBase.onStart deepInit 2 (HsmBase.new deepTop)).hsm.onEvent deepInit 2
        deepEvent8).result = .error .bufferOverflow ∧
    ((HsmBase.onStart deepInit 2 (HsmBase.new deepTop)).hsm.onEvent deepInit 2
        deepEvent8).result ≠ .error .assertion ∧
    ((HsmBase.onStart deepInit 2 (HsmBase.new deepTop)).hsm.onEvent deepInit 2
        deepEvent8).trace = [.onEvent deepLeaf, .onExit deepLeaf] ∧
    (pathDown deepTop deep7).length = 7 ∧
    ((HsmBase.onStart deepInit 2 (HsmBase.new deepTop)).hsm.onEvent deepInit 2
        deepEvent).result = .error .bufferOverflow := by
  decide

/-! ## The top state must be a root -/

/-- C22: `onStart` on a machine whose top state has a super state fails the first assertion:
no callback is invoked and the machine is unchanged, so the current state of a machine that
was not started is still null. -/
theorem c22_start_with_nested_top_fails_assertion (onInit : HsmStateBase → List Request)
    (fuel : Nat) (m : HsmBase) (h : m.topState.superState ≠ none) :
    m.onStart onInit fuel = ⟨[], m, .error .assertion⟩ ∧
    (m.currentState = none → (m.onStart onInit fuel).hsm.currentState = none) := by
  have h1 : m.onStart onInit fuel = ⟨[], m, .error .assertion⟩ := by
    simp [HsmBase.onStart, h, Run.fail]
  exact ⟨h1, fun hc => by rw [h1]; exact hc⟩

/-- C22, witness: a machine constructed with `S1` of the hierarchy test, whose super state is
`TOP`, as its top state. -/
theorem c22_start_with_nested_top_fails_assertion_witness :
    (HsmBase.new hierarchyS1).onStart hierarchyInit 3
      = ⟨[], HsmBase.new hierarchyS1, .error .assertion⟩ ∧
    ((HsmBase.new hierarchyS1).currentState = none →
      ((HsmBase.new hierarchyS1).onStart hierarchyInit 3).hsm.currentState = none) :=
  c22_start_with_nested_top_fails_assertion hierarchyInit 3 (HsmBase.new hierarchyS1)
    (by decide)

/-! ## The simple test -/

/-- One dispatch of the simple test machine, in `DISABLED` or `ENABLED` with nothing pending,
returns and leaves the machine in `DISABLED` or `ENABLED` with nothing pending. -/
theorem simple_onEvent_step (m : HsmBase) (ev : Event) (hev : ev ∈ simpleEvents)
    (hcur : m.currentState = some simpleDisabled ∨ m.currentState = some simpleEnabled)
    (hnext : m.nextState = none) :
    (∃ b, (m.onEvent simpleInit 2 ev).result = .ok b) ∧
    ((m.onEvent simpleInit 2 ev).hsm.currentState = some simpleDisabled ∨
      (m.onEvent simpleInit 2 ev).hsm.currentState = some simpleEnabled) ∧
    (m.onEvent simpleInit 2 ev).hsm.nextState = none := by
  obtain ⟨top, cur, next, src, hist⟩ := m
  simp only at hcur hnext
  subst hnext
  simp only [simpleEvents, List.mem_cons, List.mem_singleton, List.not_mem_nil, or_false]
    at hev
  rcases hev with rfl | rfl | rfl <;> rcases hcur with rfl | rfl <;>
    refine ⟨⟨_, rfl⟩, ?_, rfl⟩ <;> first | exact Or.inl rfl | exact Or.inr rfl

theorem simple_onEvents_step (evs : List Event) (hevs : ∀ ev ∈ evs, ev ∈ simpleEvents) :
    ∀ m : HsmBase,
      (m.currentState = some simpleDisabled ∨ m.currentState = some simpleEnabled) →
      m.nextState = none →
      (∃ bs, (m.onEvents simpleInit 2 evs).result = .ok bs) ∧
      ((m.onEvents simpleInit 2 evs).hsm.currentState = some simpleDisabled ∨
        (m.onEvents simpleInit 2 evs).hsm.currentState = some simpleEnabled) ∧
      (m.onEvents simpleInit 2 evs).hsm.nextState = none := by
  induction evs with
  | nil =>
    intro m hcur hnext
    exact ⟨⟨[], rfl⟩, hcur, hnext⟩
  | cons ev evs ih =>
    intro m hcur hnext
    obtain ⟨⟨b, hb⟩, hcur1, hnext1⟩ :=
      simple_onEvent_step m ev (hevs ev (List.mem_cons_self _ _)) hcur hnext
    obtain ⟨⟨bs, hbs⟩, hcur2, hnext2⟩ :=
      ih (fun e he => hevs e (List.mem_cons_of_mem _ he)) _ hcur1 hnext1
    rw [HsmBase.onEvents, Run.bind_of_ok hb, Run.bind_of_ok hbs]
    exact ⟨⟨b :: bs, rfl⟩, hcur2, hnext2⟩

theorem simple_reset (m : HsmBase)
    (hcur : m.currentState = some simpleDisabled ∨ m.currentState = some simpleEnabled)
    (hnext : m.nextState = none) :
    (m.onEvent simpleInit 2 simpleEventReset).result = .ok true ∧
    (m.onEvent simpleInit 2 simpleEventReset).hsm.currentState = some simpleDisabled := by
  obtain ⟨top, cur, next, src, hist⟩ := m
  simp only at hcur hnext
  subst hnext
  rcases hcur with rfl | rfl <;> exact ⟨rfl, rfl⟩

/-- C24: the machine `TOP{DISABLED, ENABLED}` of the simple test. `onStart` yields exactly
`onEnter(TOP)`, `onInit(TOP)`, `onEnter(DISABLED)`, `onInit(DISABLED)`. In every machine in
`DISABLED`, `On` is handled by `DISABLED` and yields `onExit(DISABLED)`, `onEnter(ENABLED)`,
`onInit(ENABLED)`; in every machine in `ENABLED`, `Off` is handled by `ENABLED` and yields
`onExit(ENABLED)`, `onEnter(DISABLED)`, `onInit(DISABLED)`. After `onStart` and any sequence of
the events `On`, `Off`, `Reset`, all dispatches have returned, the machine is in `DISABLED` or
`ENABLED`, and dispatching `Reset` returns `true` and leaves the machine in `DISABLED`. -/
theorem c24_simple_machine_traces_and_reset (evs : List Event)
    (hevs : ∀ ev ∈ evs, ev ∈ simpleEvents) (mD mE : HsmBase)
    (hD : mD.currentState = some simpleDisabled) (hE : mE.currentState = some simpleEnabled) :
    (HsmBase.onStart simpleInit 2 (HsmBase.new simpleTop)).result = .ok () ∧
    (HsmBase.onStart simpleInit 2 (HsmBase.new simpleTop)).trace
      = [.onEnter simpleTop, .onInit simpleTop, .onEnter simpleDisabled,
          .onInit simpleDisabled] ∧
    (mD.onEvent simpleInit 2 simpleEventOn).result = .ok true ∧
    (mD.onEvent simpleInit 2 simpleEventOn).trace
      = [.onEvent simpleDisabled, .onExit simpleDisabled, .onEnter simpleEnabled,
          .onInit simpleEnabled] ∧
    lifecycle (mD.onEvent simpleInit 2 simpleEventOn).trace
      = [.onExit simpleDisabled, .onEnter simpleEnabled, .onInit simpleEnabled] ∧
    (mE.onEvent simpleInit 2 simpleEventOff).result = .ok true ∧
    (mE.onEvent simpleInit 2 simpleEventOff).trace
      = [.onEvent simpleEnabled, .onExit simpleEnabled, .onEnter simpleDisabled,
          .onInit simpleDisabled] ∧
    lifecycle (mE.onEvent simpleInit 2 simpleEventOff).trace
      = [.onExit simpleEnabled, .onEnter simpleDisabled, .onInit simpleDisabled] ∧
    (∃ bs, (HsmBase.startAndDispatch simpleInit 2 evs (HsmBase.new simpleTop)).result
      = .ok bs) ∧
    ((HsmBase.startAndDispatch simpleInit 2 evs (HsmBase.new simpleTop)).hsm.currentState
        = some simpleDisabled ∨
      (HsmBase.startAndDispatch simpleInit 2 evs (HsmBase.new simpleTop)).hsm.currentState
        = some simpleEnabled) ∧
    ((HsmBase.startAndDispatch simpleInit 2 evs (HsmBase.new simpleTop)).hsm.onEvent
        simpleInit 2 simpleEventReset).result = .ok true ∧
    ((HsmBase.startAndDispatch simpleInit 2 evs (HsmBase.new simpleTop)).hsm.onEvent
        simpleInit 2 simpleEventReset).hsm.currentState = some simpleDisabled := by
  have hstart : (HsmBase.onStart simpleInit 2 (HsmBase.new simpleTop)).result = .ok () := by
    decide
  have hdispatch := simple_onEvents_step evs hevs
    (HsmBase.onStart simpleInit 2 (HsmBase.new simpleTop)).hsm (Or.inl (by decide))
    (by decide)
  have hrun : HsmBase.startAndDispatch simpleInit 2 evs (HsmBase.new simpleTop)
      = Run.after (HsmBase.onStart simpleInit 2 (HsmBase.new simpleTop)).trace
          ((HsmBase.onStart simpleInit 2 (HsmBase.new simpleTop)).hsm.onEvents
            simpleInit 2 evs) := by
    rw [HsmBase.startAndDispatch, Run.bind_of_ok hstart]
  obtain ⟨hret, hcur, hnext⟩ := hdispatch
  have hreset := simple_reset
    (HsmBase.startAndDispatch simpleInit 2 evs (HsmBase.new simpleTop)).hsm
    (by rw [hrun]; exact hcur) (by rw [hrun]; exact hnext)
  obtain ⟨topD, curD, nextD, srcD, histD⟩ := mD
  obtain ⟨topE, curE, nextE, srcE, histE⟩ := mE
  simp only at hD hE
  subst hD hE
  refine ⟨hstart, by decide, rfl, rfl, rfl, rfl, rfl, rfl, ?_, ?_, hreset.1, hreset.2⟩
  · rw [hrun]; exact hret
  · rw [hrun]; exact hcur

/-- C24, witness: the event sequence of the simple test, `On`, `Off`, `On`, `Reset`, `Reset`,
and the machines of the test after `onStart` and after `On`. -/
theorem c24_simple_machine_traces_and_reset_witness :
    (HsmBase.onStart simpleInit 2 (HsmBase.new simpleTop)).result = .ok () ∧
    (HsmBase.onStart simpleInit 2 (HsmBase.new simpleTop)).trace
      = [.onEnter simpleTop, .onInit simpleTop, .onEnter simpleDisabled,
          .onInit simpleDisabled] ∧
    ((HsmBase.startAndDispatch simpleInit 2 [] (HsmBase.new simpleTop)).hsm.onEvent
        simpleInit 2 simpleEventOn).result = .ok true ∧
    ((HsmBase.startAndDispatch simpleInit 2 [] (HsmBase.new simpleTop)).hsm.onEvent
        simpleInit 2 simpleEventOn).trace
      = [.onEvent simpleDisabled, .onExit simpleDisabled, .onEnter simpleEnabled,
          .onInit simpleEnabled] ∧
    lifecycle ((HsmBase.startAndDispatch simpleInit 2 [] (HsmBase.new simpleTop)).hsm.onEvent
        simpleInit 2 simpleEventOn).trace
      = [.onExit simpleDisabled, .onEnter simpleEnabled, .onInit simpleEnabled] ∧
    ((HsmBase.startAndDispatch simpleInit 2 [simpleEventOn]
        (HsmBase.new simpleTop)).hsm.onEvent simpleInit 2 simpleEventOff).result = .ok true ∧
    ((HsmBase.startAndDispatch simpleInit 2 [simpleEventOn]
        (HsmBase.new simpleTop)).hsm.onEvent simpleInit 2 simpleEventOff).trace
      = [.onEvent simpleEnabled, .onExit simpleEnabled, .onEnter simpleDisabled,
          .onInit simpleDisabled] ∧
    lifecycle ((HsmBase.startAndDispatch simpleInit 2 [simpleEventOn]
        (HsmBase.new simpleTop)).hsm.onEvent simpleInit 2 simpleEventOff).trace
      = [.onExit simpleEnabled, .onEnter simpleDisabled, .onInit simpleDisabled] ∧
    (∃ bs, (HsmBase.startAndDispatch simpleInit 2
        [simpleEventOn, simpleEventOff, simpleEventOn, simpleEventReset, simpleEventReset]
        (HsmBase.new simpleTop)).result = .ok bs) ∧
    ((HsmBase.startAndDispatch simpleInit 2
        [simpleEventOn, simpleEventOff, simpleEventOn, simpleEventReset, simpleEventReset]
        (HsmBase.new simpleTop)).hsm.currentState = some simpleDisabled ∨
      (HsmBase.startAndDispatch simpleInit 2
        [simpleEventOn, simpleEventOff, simpleEventOn, simpleEventReset, simpleEventReset]
        (HsmBase.new simpleTop)).hsm.currentState = some simpleEnabled) ∧
    ((HsmBase.startAndDispatch simpleInit 2
        [simpleEventOn, simpleEventOff, simpleEventOn, simpleEventReset, simpleEventReset]
        (HsmBase.new simpleTop)).hsm.onEvent simpleInit 2 simpleEventReset).result
      = .ok true ∧
    ((HsmBase.startAndDispatch simpleInit 2
        [simpleEventOn, simpleEventOff, simpleEventOn, simpleEventReset, simpleEventReset]
        (HsmBase.new simpleTop)).hsm.onEvent simpleInit 2 simpleEventReset).hsm.currentState
      = some simpleDisabled :=
  c24_simple_machine_traces_and_reset
    [simpleEventOn, simpleEventOff, simpleEventOn, simpleEventReset, simpleEventReset]
    (by
      intro ev hev
      simp only [List.mem_cons, List.mem_singleton, List.not_mem_nil, or_false] at hev
      rcases hev with rfl | rfl | rfl | rfl | rfl <;> simp [simpleEvents])
    (HsmBase.startAndDispatch simpleInit 2 [] (HsmBase.new simpleTop)).hsm
    (HsmBase.startAndDispatch simpleInit 2 [simpleEventOn] (HsmBase.new simpleTop)).hsm
    (by decide) (by decide)

/-- The callbacks of the simple test, as its expectations list them (with the handler
invocations of the states that pass the event on): `onStart`, `On`, `Off`, `On`, `Reset`,
`Reset`. -/
theorem simple_test_trace :
    (HsmBase.startAndDispatch simpleInit 2
        [simpleEventOn, simpleEventOff, simpleEventOn, simpleEventReset, simpleEventReset]
        (HsmBase.new simpleTop)).trace
      = [.onEnter simpleTop, .onInit simpleTop, .onEnter simpleDisabled,
          .onInit simpleDisabled,
          .onEvent simpleDisabled, .onExit simpleDisabled, .onEnter simpleEnabled,
          .onInit simpleEnabled,
          .onEvent simpleEnabled, .onExit simpleEnabled, .onEnter simpleDisabled,
          .onInit simpleDisabled,
          .onEvent simpleDisabled, .onExit simpleDisabled, .onEnter simpleEnabled,
          .onInit simpleEnabled,
          .onEvent simpleEnabled, .onEvent simpleTop, .onExit simpleEnabled,
          .onEnter simpleDisabled, .onInit simpleDisabled,
          .onEvent simpleDisabled] := by
  decide

/-! ## The choice point test -/

theorem tmod_two_eq_zero_iff (value : Int) : 0 = Int.tmod value 2 ↔ value % 2 = 0 := by
  rw [eq_comm, ← Int.dvd_iff_tmod_eq_zero, Int.dvd_iff_emod_eq_zero]

theorem choiceEventValue_even {value : Int} (h : value % 2 = 0) :
    choiceEventValue value
      = fun s => if s = choiceTop then ⟨[.transition choiceEven], true⟩ else ⟨[], false⟩ := by
  funext s
  simp [choiceEventValue, (tmod_two_eq_zero_iff value).2 h]

theorem choiceEventValue_odd {value : Int} (h : ¬ value % 2 = 0) :
    choiceEventValue value
      = fun s => if s = choiceTop then ⟨[.transition choiceOdd], true⟩ else ⟨[], false⟩ := by
  funext s
  simp [choiceEventValue, mt (tmod_two_eq_zero_iff value).1 h]

/-- C25: the machine `TOP{EVEN, ODD}` of the choice point test. For every integer `value` and
every machine whose current state is the leaf `EVEN` or `ODD`, dispatching `Value(value)`
returns `true`; the event is passed on by the leaf and handled by `TOP`, and the other
callbacks are exactly `onExit` of the previous leaf, `onEnter` and `onInit` of the chosen
sibling (`EVEN` if `value % 2 == 0`, `ODD` otherwise); the chosen sibling is the current state
afterwards, and the sibling that was not chosen receives no `onEnter`. -/
theorem c25_choice_point_enters_chosen_sibling (value : Int) (m : HsmBase)
    (leaf : HsmStateBase) (hleaf : leaf = choiceEven ∨ leaf = choiceOdd)
    (hcur : m.currentState = some leaf) :
    (m.onEvent choiceInit 1 (choiceEventValue value)).result = .ok true ∧
    (m.onEvent choiceInit 1 (choiceEventValue value)).trace
      = [.onEvent leaf, .onEvent choiceTop, .onExit leaf, .onEnter (chosen value),
          .onInit (chosen value)] ∧
    lifecycle (m.onEvent choiceInit 1 (choiceEventValue value)).trace
      = [.onExit leaf, .onEnter (chosen value), .onInit (chosen value)] ∧
    (m.onEvent choiceInit 1 (choiceEventValue value)).hsm.currentState
      = some (chosen value) ∧
    .onEnter (notChosen value) ∉ (m.onEvent choiceInit 1 (choiceEventValue value)).trace := by
  have hrun : (m.onEvent choiceInit 1 (choiceEventValue value)).result = .ok true ∧
      (m.onEvent choiceInit 1 (choiceEventValue value)).trace
        = [.onEvent leaf, .onEvent choiceTop, .onExit leaf, .onEnter (chosen value),
            .onInit (chosen value)] ∧
      lifecycle (m.onEvent choiceInit 1 (choiceEventValue value)).trace
        = [.onExit leaf, .onEnter (chosen value), .onInit (chosen value)] ∧
      (m.onEvent choiceInit 1 (choiceEventValue value)).hsm.currentState
        = some (chosen value) := by
    obtain ⟨top, cur, next, src, hist⟩ := m
    simp only at hcur
    subst hcur
    by_cases h : value % 2 = 0
    · rw [choiceEventValue_even h]
      simp only [chosen, h, if_true]
      rcases hleaf with rfl | rfl <;> exact ⟨rfl, rfl, rfl, rfl⟩
    · rw [choiceEventValue_odd h]
      simp only [chosen, h, if_false]
      rcases hleaf with rfl | rfl <;> exact ⟨rfl, rfl, rfl, rfl⟩
  refine ⟨hrun.1, hrun.2.1, hrun.2.2.1, hrun.2.2.2, ?_⟩
  rw [hrun.2.1]
  have hne : notChosen value ≠ chosen value := by
    unfold notChosen chosen
    split_ifs <;> decide
  simp [hne]

/-- C25, witness: `Value(1)` dispatched to the machine of the choice point test after
`onStart`, in `EVEN`. -/
theorem c25_choice_point_enters_chosen_sibling_witness :
    ((HsmBase.onStart choiceInit 2 (HsmBase.new choiceTop)).hsm.onEvent choiceInit 1
        (choiceEventValue 1)).result = .ok true ∧
    ((HsmBase.onStart choiceInit 2 (HsmBase.new choiceTop)).hsm.onEvent choiceInit 1
        (choiceEventValue 1)).trace
      = [.onEvent choiceEven, .onEvent choiceTop, .onExit choiceEven, .onEnter (chosen 1),
          .onInit (chosen 1)] ∧
    lifecycle ((HsmBase.onStart choiceInit 2 (HsmBase.new choiceTop)).hsm.onEvent choiceInit 1
        (choiceEventValue 1)).trace
      = [.onExit choiceEven, .onEnter (chosen 1), .onInit (chosen 1)] ∧
    ((HsmBase.onStart choiceInit 2 (HsmBase.new choiceTop)).hsm.onEvent choiceInit 1
        (choiceEventValue 1)).hsm.currentState = some (chosen 1) ∧
    .onEnter (notChosen 1) ∉
      ((HsmBase.onStart choiceInit 2 (HsmBase.new choiceTop)).hsm.onEvent choiceInit 1
        (choiceEventValue 1)).trace :=
  c25_choice_point_enters_chosen_sibling 1
    (HsmBase.onStart choiceInit 2 (HsmBase.new choiceTop)).hsm choiceEven (Or.inl rfl)
    (by decide)

/-- The callbacks of the choice point test: `onStart`, `Value(1)`, `Value(2)`. -/
theorem choice_point_test_trace :
    (HsmBase.startAndDispatch choiceInit 2 [choiceEventValue 1, choiceEventValue 2]
        (HsmBase.new choiceTop)).trace
      = [.onEnter choiceTop, .onInit choiceTop, .onEnter choiceEven, .onInit choiceEven,
          .onEvent choiceEven, .onEvent choiceTop, .onExit choiceEven, .onEnter choiceOdd,
          .onInit choiceOdd,
          .onEvent choiceOdd, .onEvent choiceTop, .onExit choiceOdd, .onEnter choiceEven,
          .onInit choiceEven] := by
  decide

/-! ## The callbacks of the settling loop -/

/-- The callbacks of the hierarchy test, first half: `onStart`, then the events `A` to `D` in
the order of the test. -/
theorem hierarchy_test_trace_A_to_D :
    (HsmBase.startAndDispatch hierarchyInit 3
        [hierarchyEventA, hierarchyEventB, hierarchyEventC, hierarchyEventD]
        (HsmBase.new hierarchyTop)).trace
      = [.onEnter hierarchyTop, .onInit hierarchyTop, .onEnter hierarchyS1,
          .onInit hierarchyS1, .onEnter hierarchyS11, .onInit hierarchyS11,
          .onEvent hierarchyS11, .onEvent hierarchyS1, .onExit hierarchyS11,
          .onExit hierarchyS1, .onEnter hierarchyS1, .onInit hierarchyS1,
          .onEnter hierarchyS11, .onInit hierarchyS11,
          .onEvent hierarchyS11, .onEvent hierarchyS1, .onExit hierarchyS11,
          .onEnter hierarchyS11, .onInit hierarchyS11,
          .onEvent hierarchyS11, .onEvent hierarchyS1, .onExit hierarchyS11,
          .onExit hierarchyS1, .onEnter hierarchyS2, .onInit hierarchyS2,
          .onEnter hierarchyS21, .onInit hierarchyS21, .onEnter hierarchyS211,
          .onInit hierarchyS211,
          .onEvent hierarchyS211, .onExit hierarchyS211, .onInit hierarchyS21,
          .onEnter hierarchyS211, .onInit hierarchyS211] := by
  decide

/-- The callbacks of the hierarchy test, second half: the events `E` to `H` in the order of
the test, dispatched in state `S211`. -/
theorem hierarchy_test_trace_E_to_H :
    (hierarchyInS211.onEvents hierarchyInit 3
        [hierarchyEventE, hierarchyEventF, hierarchyEventG, hierarchyEventH]).trace
      = [.onEvent hierarchyS211, .onEvent hierarchyS21, .onEvent hierarchyS2,
          .onEvent hierarchyTop, .onExit hierarchyS211, .onExit hierarchyS21,
          .onExit hierarchyS2, .onEnter hierarchyS2, .onEnter hierarchyS21,
          .onEnter hierarchyS211, .onInit hierarchyS211,
          .onEvent hierarchyS211, .onEvent hierarchyS21, .onEvent hierarchyS2,
          .onExit hierarchyS211, .onExit hierarchyS21, .onExit hierarchyS2,
          .onEnter hierarchyS1, .onEnter hierarchyS11, .onInit hierarchyS11,
          .onEvent hierarchyS11, .onExit hierarchyS11, .onExit hierarchyS1,
          .onEnter hierarchyS2, .onEnter hierarchyS21, .onEnter hierarchyS211,
          .onInit hierarchyS211,
          .onEvent hierarchyS211, .onEvent hierarchyS21, .onExit hierarchyS211,
          .onExit hierarchyS21, .onEnter hierarchyS21, .onInit hierarchyS21,
          .onEnter hierarchyS211, .onInit hierarchyS211] := by
  decide

theorem Run.bind_pure_trace {α β : Type} (r : Run α) (b : β) :
    (r.bind fun _ m2 => Run.pure b m2).trace = r.trace := by
  cases r with
  | mk tr h res => cases res <;> simp [Run.bind, Run.after, Run.pure]

theorem HsmStateBase.rootOf_eq_of_mem_chain {a b : HsmStateBase} (h : a ∈ b.chain) :
    a.rootOf = b.rootOf := by
  induction b with
  | root i =>
    have : a = .root i := by simpa [HsmStateBase.chain] using h
    rw [this]
  | sub i p ih =>
    by_cases hab : HsmStateBase.sub i p = a
    · rw [← hab]
    · simpa [HsmStateBase.rootOf] using ih (mem_chain_sub_of_ne h hab)

theorem HsmStateBase.super_mem_chain (i : Nat) (p : HsmStateBase) :
    p ∈ (HsmStateBase.sub i p).chain := by
  simp [HsmStateBase.chain, HsmStateBase.mem_chain_self]

theorem HsmStateBase.sub_ne_super (i : Nat) (p : HsmStateBase) :
    HsmStateBase.sub i p ≠ p := fun h => by
  have := congrArg (fun x => x.chain.length) h
  simp [HsmStateBase.chain] at this

theorem pathUp_sub_super (i : Nat) (p : HsmStateBase) : pathUp (.sub i p) p = [.sub i p] := by
  rw [pathUp_sub (HsmStateBase.sub_ne_super i p), pathUp_self]

theorem HsmBase.call_initial_currentState (m : HsmBase) (r : Request)
    (hr : r.isInitial = true) : (m.call r).hsm.currentState = m.currentState := by
  cases r with
  | transition t => simp [Request.isInitial] at hr
  | externalTransition t => simp [Request.isInitial] at hr
  | initialTransition s => simp [HsmBase.call, HsmBase.initialTransition, Run.pure]
  | initialHistoryTransition s =>
    simp only [HsmBase.call, HsmBase.initialHistoryTransition]
    split
    · simp [Run.fail]
    · split <;> simp [HsmBase.initialTransition, Run.pure]

theorem HsmBase.calls_initial_currentState (m : HsmBase) (rs : List Request)
    (hrs : ∀ r ∈ rs, r.isInitial = true) : (m.calls rs).hsm.currentState = m.currentState := by
  induction rs generalizing m with
  | nil => simp [HsmBase.calls, Run.pure]
  | cons r rs ih =>
    have h1 := HsmBase.call_initial_currentState m r (hrs r (List.mem_cons_self _ _))
    rw [HsmBase.calls]
    cases hres : (m.call r).result with
    | error e =>
      rw [Run.bind_of_error hres]
      exact h1
    | ok u =>
      rw [Run.bind_of_ok hres]
      have h2 := ih (m.call r).hsm (fun x hx => hrs x (List.mem_cons_of_mem _ hx))
      simp [Run.after, h1, h2]

/-- One round of the settling loop at `c` with `onInit` callbacks that only request initial
descents: it stops after `onInit(c)`, or it goes on at a direct sub state of `c` after
`onInit(c)` and the `onEnter` of that sub state. -/
theorem HsmBase.initCurrentState_step (onInit : HsmStateBase → List Request)
    (hinit : ∀ n, ∀ r ∈ onInit n, r.isInitial = true) (k : Nat) (m : HsmBase)
    (c : HsmStateBase) (hcur : m.currentState = some c) :
    (∃ m1 res, HsmBase.initCurrentState onInit (k + 1) m = ⟨[.onInit c], m1, res⟩) ∨
    (∃ i m1, m1.currentState = some (.sub i c) ∧
      HsmBase.initCurrentState onInit (k + 1) m
        = Run.after [.onInit c, .onEnter (.sub i c)]
            (HsmBase.initCurrentState onInit k m1)) := by
  have hc := HsmBase.calls_initial_frame m (onInit c) (hinit c)
  have hcc := HsmBase.calls_initial_currentState m (onInit c) (hinit c)
  rw [HsmBase.initCurrentState, hcur]
  simp only
  cases hres : (m.calls (onInit c)).result with
  | error e =>
    rw [Run.bind_of_error hres]
    exact Or.inl ⟨(m.calls (onInit c)).hsm, .error e, by simp [Run.after, hc.2]⟩
  | ok u =>
    rw [Run.bind_of_ok hres]
    cases hnext : (m.calls (onInit c)).hsm.nextState with
    | none =>
      exact Or.inl ⟨(m.calls (onInit c)).hsm, .ok (), by simp [Run.after, Run.pure, hc.2]⟩
    | some next =>
      simp only
      by_cases hsup : next.superState = (m.calls (onInit c)).hsm.currentState
      · rw [if_pos hsup]
        rw [hcc, hcur] at hsup
        obtain ⟨i, hi⟩ := HsmStateBase.eq_sub_of_superState hsup
        subst hi
        refine Or.inr ⟨i, { (m.calls (onInit c)).hsm with
          currentState := some (.sub i c), nextState := none }, rfl, ?_⟩
        rw [HsmBase.enterNextState_eq (m.calls (onInit c)).hsm (l := c) (t := .sub i c)
          (by rw [hcc, hcur]) hnext (HsmStateBase.super_mem_chain i c)
          (by simp [pathDown, pathUp_sub_super, MAX_STATE_NESTING]), Run.mk_ok_bind]
        simp only [pathDown, pathUp_sub_super, List.reverse_singleton, List.map, Run.after_after,
          hc.2, List.append_nil, List.singleton_append, hnext]
        rfl
      · rw [if_neg hsup]
        exact Or.inl ⟨(m.calls (onInit c)).hsm, .error .assertion,
          by simp [Run.after, Run.fail, hc.2]⟩

theorem Callback.SettlesBelow.of_sub {i : Nat} {c : HsmStateBase} {cb : Callback}
    (h : cb.SettlesBelow (.sub i c)) : cb.SettlesBelow c := by
  cases cb with
  | onInit n => exact HsmStateBase.mem_chain_trans (HsmStateBase.super_mem_chain i c) h
  | onEnter n =>
    refine ⟨HsmStateBase.mem_chain_trans (HsmStateBase.super_mem_chain i c) h.1, ?_⟩
    intro hn
    subst hn
    exact HsmStateBase.not_mem_chain_super i n h.1
  | onExit n => exact h
  | onEvent n => exact h

/-- With `onInit` callbacks that only request initial descents, the settling loop started at
`c` invokes `onInit` only on `c` and states below it, `onEnter` only on states strictly below
`c`, and nothing else. -/
theorem HsmBase.initCurrentState_settlesBelow (onInit : HsmStateBase → List Request)
    (hinit : ∀ n, ∀ r ∈ onInit n, r.isInitial = true) (fuel : Nat) :
    ∀ (m : HsmBase) (c : HsmStateBase), m.currentState = some c →
      ∀ cb ∈ (HsmBase.initCurrentState onInit fuel m).trace, cb.SettlesBelow c := by
  induction fuel with
  | zero =>
    intro m c _ cb hcb
    simp [HsmBase.initCurrentState, Run.fail] at hcb
  | succ k ih =>
    intro m c hcur cb hcb
    rcases HsmBase.initCurrentState_step onInit hinit k m c hcur with
      ⟨m1, res, h⟩ | ⟨i, m1, hm1, h⟩
    · rw [h] at hcb
      simp only [List.mem_singleton] at hcb
      subst hcb
      exact c.mem_chain_self
    · rw [h] at hcb
      simp only [Run.after, List.cons_append, List.nil_append, List.mem_cons] at hcb
      rcases hcb with rfl | rfl | hcb
      · exact c.mem_chain_self
      · exact ⟨HsmStateBase.super_mem_chain i c, HsmStateBase.sub_ne_super i c⟩
      · exact (ih m1 _ hm1 cb hcb).of_sub

/-! ## Transitions along one chain -/

theorem not_mem_pathUp_of_mem_chain {c l a : HsmStateBase} (hl : l ∈ c.chain)
    (ha : a ∈ l.chain) : a ∉ pathUp c l := by
  intro h
  have hnd := HsmStateBase.chain_nodup c
  rw [chain_eq_pathUp_append hl] at hnd
  exact (List.nodup_append.1 hnd).2.2 h ha

theorem mem_pathUp_of_mem_chain {c l n : HsmStateBase} (hl : l ∈ c.chain) (hn : n ∈ c.chain)
    (hnl : n ∉ l.chain) : n ∈ pathUp c l := by
  rw [chain_eq_pathUp_append hl] at hn
  rcases List.mem_append.1 hn with h | h
  · exact h
  · exact absurd h hnl

theorem IsLCA.eq_of_mem_right {l s t : HsmStateBase} (h : IsLCA l s t) (ht : t ∈ s.chain) :
    t = l :=
  HsmStateBase.chain_antisymm (h.2.2 t ht t.mem_chain_self) h.2.1

/-- The callbacks of the part of a dispatch after the exit phase, with `onInit` callbacks
that only request initial descents and a current state `l` on the chain of the pending state
`t`: `onEnter` of the states from `l` (excluded) down to `t`, and the callbacks of the settling
loop at `t`. -/
theorem HsmBase.enterAndInitNextState_callbacks (onInit : HsmStateBase → List Request)
    (hinit : ∀ n, ∀ r ∈ onInit n, r.isInitial = true) (fuel : Nat) (m : HsmBase)
    {l t : HsmStateBase} (hcur : m.currentState = some l) (hnext : m.nextState = some t)
    (hl : l ∈ t.chain) (hlen : (pathDown l t).length < MAX_STATE_NESTING) :
    (m.enterAndInitNextState onInit fuel).bind (fun _ m2 => Run.pure true m2)
      = Run.after ((pathDown l t).map .onEnter)
          ((HsmBase.initCurrentState onInit fuel
            { m with currentState := some t, nextState := none }).bind
              fun _ m2 => Run.pure true m2) ∧
    ∀ cb ∈ ((HsmBase.initCurrentState onInit fuel
        { m with currentState := some t, nextState := none }).bind
          fun _ m2 => Run.pure true m2).trace, cb.SettlesBelow t := by
  refine ⟨by rw [HsmBase.enterAndInitNextState_eq onInit fuel m hcur hnext hl hlen,
    Run.after_bind], ?_⟩
  rw [Run.bind_pure_trace]
  exact HsmBase.initCurrentState_settlesBelow onInit hinit fuel _ t rfl

/-- The settling loop begins with `onInit` of the current state. -/
theorem HsmBase.initCurrentState_head (onInit : HsmStateBase → List Request) (k : Nat)
    (m : HsmBase) (c : HsmStateBase) (hcur : m.currentState = some c) :
    ∃ rest, ((HsmBase.initCurrentState onInit (k + 1) m).bind
      fun _ m2 => Run.pure true m2).trace = .onInit c :: rest := by
  rw [Run.bind_pure_trace, HsmBase.initCurrentState, hcur]
  exact ⟨_, rfl⟩

/-- C26: for every state `s` with a super state `p` that is an ancestor of the current state
`c` (or `c` itself) and whose handler is the first to accept the event and requests
`transition(s)`, with `onInit` callbacks that only request initial descents: the dispatch
invokes the handlers from `c` up to `s`, then `onExit` on the states from `c` up to and
including `s`, deepest first, then `onEnter(s)`, and then runs the settling loop at `s`, which
begins with `onInit(s)` and invokes only `onInit` on `s` and states below it and `onEnter` on
states strictly below `s`; no state from `p` upwards receives `onExit` or `onEnter`. -/
theorem c26_self_transition_on_composite (onInit : HsmStateBase → List Request)
    (hinit : ∀ n, ∀ r ∈ onInit n, r.isInitial = true) (fuel : Nat) (ev : Event) (m : HsmBase)
    (c p : HsmStateBase) (i : Nat) (hcur : m.currentState = some c)
    (hs : HsmStateBase.sub i p ∈ c.chain)
    (hbelow : ∀ n ∈ pathUp c (.sub i p), ev n = ⟨[], false⟩)
    (hev : ev (.sub i p) = ⟨[.transition (.sub i p)], true⟩) :
    m.onEvent onInit (fuel + 1) ev
      = Run.after ((pathUp c (.sub i p)).map .onEvent ++ [.onEvent (.sub i p)]
            ++ ((pathUp c (.sub i p)).map .onExit ++ [.onExit (.sub i p)])
            ++ [.onEnter (.sub i p)])
          ((HsmBase.initCurrentState onInit (fuel + 1)
              { m.rememberAll (pathUp c p) with
                currentState := some (.sub i p), nextState := none,
                sourceState := some (.sub i p) }).bind fun _ m2 => Run.pure true m2) ∧
    (∃ rest, ((HsmBase.initCurrentState onInit (fuel + 1)
        { m.rememberAll (pathUp c p) with
          currentState := some (.sub i p), nextState := none,
          sourceState := some (.sub i p) }).bind fun _ m2 => Run.pure true m2).trace
      = .onInit (.sub i p) :: rest) ∧
    (∀ cb ∈ ((HsmBase.initCurrentState onInit (fuel + 1)
        { m.rememberAll (pathUp c p) with
          currentState := some (.sub i p), nextState := none,
          sourceState := some (.sub i p) }).bind fun _ m2 => Run.pure true m2).trace,
      cb.SettlesBelow (.sub i p)) ∧
    ∀ a ∈ p.chain, .onExit a ∉ (m.onEvent onInit (fuel + 1) ev).trace ∧
      .onEnter a ∉ (m.onEvent onInit (fuel + 1) ev).trace := by
  have hp : p ∈ (HsmStateBase.sub i p).chain := HsmStateBase.super_mem_chain i p
  have hstop : exitStop (.sub i p) (.sub i p) = some p := by
    simp [exitStop, HsmStateBase.superState]
  have hup : pathUp c p = pathUp c (.sub i p) ++ [.sub i p] := by
    rw [← pathUp_append hs hp, pathUp_sub_super]
  have hdown : pathDown p (.sub i p) = [.sub i p] := by simp [pathDown, pathUp_sub_super]
  have hrest := HsmBase.enterAndInitNextState_callbacks onInit hinit (fuel + 1)
    { m.rememberAll (pathUp c p) with
      currentState := some p, nextState := some (.sub i p),
      sourceState := some (.sub i p) } (l := p) (t := .sub i p) rfl rfl hp
    (by rw [hdown]; simp [MAX_STATE_NESTING])
  have hrun := HsmBase.onEvent_transition_eq onInit (fuel + 1) ev m c (.sub i p) (.sub i p) p
    hcur hs hbelow hev rfl hstop
  rw [hrest.1, Run.after_after] at hrun
  have hrun2 : m.onEvent onInit (fuel + 1) ev
      = Run.after ((pathUp c (.sub i p)).map .onEvent ++ [.onEvent (.sub i p)]
            ++ ((pathUp c (.sub i p)).map .onExit ++ [.onExit (.sub i p)])
            ++ [.onEnter (.sub i p)])
          ((HsmBase.initCurrentState onInit (fuel + 1)
              { m.rememberAll (pathUp c p) with
                currentState := some (.sub i p), nextState := none,
                sourceState := some (.sub i p) }).bind fun _ m2 => Run.pure true m2) := by
    rw [hrun, hup, hdown]
    simp
  refine ⟨hrun2, HsmBase.initCurrentState_head onInit fuel _ _ rfl, hrest.2, fun a ha => ?_⟩
  have hane : a ≠ HsmStateBase.sub i p := fun h =>
    HsmStateBase.not_mem_chain_super i p (h ▸ ha)
  have hanp : a ∉ pathUp c (.sub i p) := fun h =>
    not_mem_pathUp_of_mem_chain hs (HsmStateBase.mem_chain_trans ha hp) h
  rw [hrun2]
  simp only [Run.after, List.mem_append, List.mem_map, List.mem_singleton, reduceCtorEq,
    and_false, exists_false, false_or, Callback.onExit.injEq, exists_eq_right,
    Callback.onEnter.injEq, or_false]
  refine ⟨?_, ?_⟩
  · rintro ((h | h) | h)
    · exact hanp h
    · exact hane h
    · exact hrest.2 _ h
  · rintro (h | h)
    · exact hane h
    · have hb := hrest.2 _ h
      exact HsmStateBase.not_mem_chain_super i p (HsmStateBase.mem_chain_trans hb.1 ha)

/-- C26, witness: event `A` of the hierarchy test in state `S11`, handled by `S1` with
`transition(S1)`. -/
theorem c26_self_transition_on_composite_witness :
    hierarchyStarted.onEvent hierarchyInit (2 + 1) hierarchyEventA
      = Run.after ((pathUp hierarchyS11 hierarchyS1).map .onEvent ++ [.onEvent hierarchyS1]
            ++ ((pathUp hierarchyS11 hierarchyS1).map .onExit ++ [.onExit hierarchyS1])
            ++ [.onEnter hierarchyS1])
          ((HsmBase.initCurrentState hierarchyInit (2 + 1)
              { hierarchyStarted.rememberAll (pathUp hierarchyS11 hierarchyTop) with
                currentState := some hierarchyS1, nextState := none,
                sourceState := some hierarchyS1 }).bind fun _ m2 => Run.pure true m2) ∧
    (∃ rest, ((HsmBase.initCurrentState hierarchyInit (2 + 1)
        { hierarchyStarted.rememberAll (pathUp hierarchyS11 hierarchyTop) with
          currentState := some hierarchyS1, nextState := none,
          sourceState := some hierarchyS1 }).bind fun _ m2 => Run.pure true m2).trace
      = .onInit hierarchyS1 :: rest) ∧
    (∀ cb ∈ ((HsmBase.initCurrentState hierarchyInit (2 + 1)
        { hierarchyStarted.rememberAll (pathUp hierarchyS11 hierarchyTop) with
          currentState := some hierarchyS1, nextState := none,
          sourceState := some hierarchyS1 }).bind fun _ m2 => Run.pure true m2).trace,
      cb.SettlesBelow hierarchyS1) ∧
    ∀ a ∈ hierarchyTop.chain,
      .onExit a ∉ (hierarchyStarted.onEvent hierarchyInit (2 + 1) hierarchyEventA).trace ∧
      .onEnter a ∉ (hierarchyStarted.onEvent hierarchyInit (2 + 1) hierarchyEventA).trace :=
  c26_self_transition_on_composite hierarchyInit
    (by
      intro n r hr
      unfold hierarchyInit at hr
      split_ifs at hr <;> simp at hr <;> subst hr <;> rfl)
    2 hierarchyEventA hierarchyStarted hierarchyS11 hierarchyTop 1 (by decide) (by decide)
    (by decide) (by decide)

/-- C27: when the first accepting handler, at `s`, requests `transition(t)` to a proper
ancestor `t` of `s`, with `onInit` callbacks that only request initial descents: the dispatch
invokes the handlers from the current state `c` up to `s`, then `onExit` on the states from
`c` up to but excluding `t`, invokes no `onEnter` before the settling loop, and then runs the
settling loop at `t`, which begins with `onInit(t)` and invokes only `onInit` on `t` and
states below it and `onEnter` on states strictly below `t`; `t` itself receives neither
`onExit` nor `onEnter`. -/
theorem c27_transition_to_proper_ancestor (onInit : HsmStateBase → List Request)
    (hinit : ∀ n, ∀ r ∈ onInit n, r.isInitial = true) (fuel : Nat) (ev : Event) (m : HsmBase)
    (c s t : HsmStateBase) (hcur : m.currentState = some c) (hs : s ∈ c.chain)
    (ht : t ∈ s.chain) (hts : t ≠ s) (hbelow : ∀ n ∈ pathUp c s, ev n = ⟨[], false⟩)
    (hev : ev s = ⟨[.transition t], true⟩) :
    m.onEvent onInit (fuel + 1) ev
      = Run.after ((pathUp c s).map .onEvent ++ [.onEvent s] ++ (pathUp c t).map .onExit)
          ((HsmBase.initCurrentState onInit (fuel + 1)
              { m.rememberAll (pathUp c t) with
                currentState := some t, nextState := none,
                sourceState := some s }).bind fun _ m2 => Run.pure true m2) ∧
    (∃ rest, ((HsmBase.initCurrentState onInit (fuel + 1)
        { m.rememberAll (pathUp c t) with
          currentState := some t, nextState := none,
          sourceState := some s }).bind fun _ m2 => Run.pure true m2).trace
      = .onInit t :: rest) ∧
    (∀ cb ∈ ((HsmBase.initCurrentState onInit (fuel + 1)
        { m.rememberAll (pathUp c t) with
          currentState := some t, nextState := none,
          sourceState := some s }).bind fun _ m2 => Run.pure true m2).trace,
      cb.SettlesBelow t) ∧
    .onExit t ∉ (m.onEvent onInit (fuel + 1) ev).trace ∧
    .onEnter t ∉ (m.onEvent onInit (fuel + 1) ev).trace := by
  have htree : t.rootOf = s.rootOf := HsmStateBase.rootOf_eq_of_mem_chain ht
  have hlca : lca s t = t := ((lca_isLCA htree.symm).eq_of_mem_right ht).symm
  have hstop : exitStop s t = some t := by simp [exitStop, hts, hlca]
  have hdown : pathDown t t = [] := by simp [pathDown, pathUp_self]
  have hrest := HsmBase.enterAndInitNextState_callbacks onInit hinit (fuel + 1)
    { m.rememberAll (pathUp c t) with
      currentState := some t, nextState := some t, sourceState := some s }
    (l := t) (t := t) rfl rfl t.mem_chain_self (by rw [hdown]; simp [MAX_STATE_NESTING])
  have hrun := HsmBase.onEvent_transition_eq onInit (fuel + 1) ev m c s t t hcur hs hbelow hev
    htree hstop
  rw [hrest.1, Run.after_after, hdown] at hrun
  simp only [List.map_nil, List.append_nil] at hrun
  refine ⟨hrun, HsmBase.initCurrentState_head onInit fuel _ _ rfl, hrest.2, ?_⟩
  have htp : t ∉ pathUp c t := fun h => mem_pathUp_ne h rfl
  rw [hrun]
  simp only [Run.after, List.mem_append, List.mem_map, List.mem_singleton, reduceCtorEq,
    and_false, exists_false, false_or, Callback.onExit.injEq, exists_eq_right]
  refine ⟨?_, ?_⟩
  · rintro (h | h)
    · exact htp h
    · exact hrest.2 _ h
  · intro h
    exact (hrest.2 _ h).2 rfl

/-- C27, witness: event `D` of the hierarchy test in state `S211`, handled by `S211` with
`transition(S21)`. -/
theorem c27_transition_to_proper_ancestor_witness :
    hierarchyInS211.onEvent hierarchyInit (2 + 1) hierarchyEventD
      = Run.after ((pathUp hierarchyS211 hierarchyS211).map .onEvent
            ++ [.onEvent hierarchyS211] ++ (pathUp hierarchyS211 hierarchyS21).map .onExit)
          ((HsmBase.initCurrentState hierarchyInit (2 + 1)
              { hierarchyInS211.rememberAll (pathUp hierarchyS211 hierarchyS21) with
                currentState := some hierarchyS21, nextState := none,
                sourceState := some hierarchyS211 }).bind fun _ m2 => Run.pure true m2) ∧
    (∃ rest, ((HsmBase.initCurrentState hierarchyInit (2 + 1)
        { hierarchyInS211.rememberAll (pathUp hierarchyS211 hierarchyS21) with
          currentState := some hierarchyS21, nextState := none,
          sourceState := some hierarchyS211 }).bind fun _ m2 => Run.pure true m2).trace
      = .onInit hierarchyS21 :: rest) ∧
    (∀ cb ∈ ((HsmBase.initCurrentState hierarchyInit (2 + 1)
        { hierarchyInS211.rememberAll (pathUp hierarchyS211 hierarchyS21) with
          currentState := some hierarchyS21, nextState := none,
          sourceState := some hierarchyS211 }).bind fun _ m2 => Run.pure true m2).trace,
      cb.SettlesBelow hierarchyS21) ∧
    .onExit hierarchyS21 ∉
      (hierarchyInS211.onEvent hierarchyInit (2 + 1) hierarchyEventD).trace ∧
    .onEnter hierarchyS21 ∉
      (hierarchyInS211.onEvent hierarchyInit (2 + 1) hierarchyEventD).trace :=
  c27_transition_to_proper_ancestor hierarchyInit
    (by
      intro n r hr
      unfold hierarchyInit at hr
      split_ifs at hr <;> simp at hr <;> subst hr <;> rfl)
    2 hierarchyEventD hierarchyInS211 hierarchyS211 hierarchyS211 hierarchyS21 (by decide)
    (by decide) (by decide) (by decide) (by decide) (by decide)

theorem mem_pathUp_of_mem_pathUp {c s t n : HsmStateBase} (hs : s ∈ c.chain)
    (hst : s ∈ t.chain) (hn : n ∈ c.chain) (hnt : n ∈ pathUp t s) : n ∈ pathUp c s :=
  mem_pathUp_of_mem_chain hs hn (fun h => not_mem_pathUp_of_mem_chain hst h hnt)

/-- C28 (amended): when the first accepting handler, at `s`, requests `transition(t)` to a state
`t` strictly below `s` and at most six states below it (one less than `MAX_STATE_NESTING`),
the handlers below `s` returning `false` without calling the engine, with `onInit` callbacks
that only request initial descents: the dispatch invokes the handlers from the current state `c` up to `s`,
then `onExit` on every active state strictly below `s`, deepest first, then `onEnter` on the
states from `s` (excluded) down to `t`, and then runs the settling loop at `t`, which begins
with `onInit(t)`. A state on the path from `s` to `t` that was active is both exited and
re-entered, and no state of that path other than `t` receives `onInit`. -/
theorem c28_transition_to_descendant (onInit : HsmStateBase → List Request)
    (hinit : ∀ n, ∀ r ∈ onInit n, r.isInitial = true) (fuel : Nat) (ev : Event) (m : HsmBase)
    (c s t : HsmStateBase) (hcur : m.currentState = some c) (hs : s ∈ c.chain)
    (hst : s ∈ t.chain) (hne : s ≠ t) (hbelow : ∀ n ∈ pathUp c s, ev n = ⟨[], false⟩)
    (hev : ev s = ⟨[.transition t], true⟩)
    (hlen : (pathDown s t).length < MAX_STATE_NESTING) :
    m.onEvent onInit (fuel + 1) ev
      = Run.after ((pathUp c s).map .onEvent ++ [.onEvent s] ++ (pathUp c s).map .onExit
            ++ (pathDown s t).map .onEnter)
          ((HsmBase.initCurrentState onInit (fuel + 1)
              { m.rememberAll (pathUp c s) with
                currentState := some t, nextState := none,
                sourceState := some s }).bind fun _ m2 => Run.pure true m2) ∧
    (∃ rest, ((HsmBase.initCurrentState onInit (fuel + 1)
        { m.rememberAll (pathUp c s) with
          currentState := some t, nextState := none,
          sourceState := some s }).bind fun _ m2 => Run.pure true m2).trace
      = .onInit t :: rest) ∧
    (∀ n ∈ c.chain, n ∈ pathDown s t →
      .onExit n ∈ (m.onEvent onInit (fuel + 1) ev).trace ∧
      .onEnter n ∈ (m.onEvent onInit (fuel + 1) ev).trace) ∧
    ∀ n ∈ pathDown s t, n ≠ t → .onInit n ∉ (m.onEvent onInit (fuel + 1) ev).trace := by
  have htree : t.rootOf = s.rootOf := (HsmStateBase.rootOf_eq_of_mem_chain hst).symm
  have hlca : lca s t = s := ((lca_isLCA htree.symm).eq_of_mem hst).symm
  have hts : ¬ (t = s) := fun h => hne h.symm
  have hstop : exitStop s t = some s := by simp [exitStop, hts, hlca]
  have hrest := HsmBase.enterAndInitNextState_callbacks onInit hinit (fuel + 1)
    { m.rememberAll (pathUp c s) with
      currentState := some s, nextState := some t, sourceState := some s }
    (l := s) (t := t) rfl rfl hst hlen
  have hrun := HsmBase.onEvent_transition_eq onInit (fuel + 1) ev m c s t s hcur hs hbelow hev
    htree hstop
  rw [hrest.1, Run.after_after] at hrun
  refine ⟨hrun, HsmBase.initCurrentState_head onInit fuel _ _ rfl, fun n hnc hn => ?_,
    fun n hn hnt => ?_⟩
  · have hn2 : n ∈ pathUp t s := by simpa [pathDown] using hn
    have hn3 := mem_pathUp_of_mem_pathUp hs hst hnc hn2
    rw [hrun]
    simp only [Run.after, List.mem_append, List.mem_map, Callback.onExit.injEq,
      exists_eq_right, Callback.onEnter.injEq]
    exact ⟨Or.inl (Or.inl (Or.inr hn3)), Or.inl (Or.inr hn)⟩
  · have hn2 : n ∈ pathUp t s := by simpa [pathDown] using hn
    rw [hrun]
    simp only [Run.after, List.mem_append, List.mem_map, List.mem_singleton, reduceCtorEq,
      and_false, exists_false, false_or, or_false]
    intro h
    have hb : t ∈ n.chain := hrest.2 _ h
    exact hnt (HsmStateBase.chain_antisymm (pathUp_subset_chain hn2) hb)

/-- C28, witness: event `E` of the hierarchy test in state `S211`, handled by `TOP` with
`transition(S211)`: `S211`, `S21` and `S2` are exited and entered again, and `onInit` is
invoked on `S211` only. -/
theorem c28_transition_to_descendant_witness :
    hierarchyInS211.onEvent hierarchyInit (2 + 1) hierarchyEventE
      = Run.after ((pathUp hierarchyS211 hierarchyTop).map .onEvent ++ [.onEvent hierarchyTop]
            ++ (pathUp hierarchyS211 hierarchyTop).map .onExit
            ++ (pathDown hierarchyTop hierarchyS211).map .onEnter)
          ((HsmBase.initCurrentState hierarchyInit (2 + 1)
              { hierarchyInS211.rememberAll (pathUp hierarchyS211 hierarchyTop) with
                currentState := some hierarchyS211, nextState := none,
                sourceState := some hierarchyTop }).bind fun _ m2 => Run.pure true m2) ∧
    (∃ rest, ((HsmBase.initCurrentState hierarchyInit (2 + 1)
        { hierarchyInS211.rememberAll (pathUp hierarchyS211 hierarchyTop) with
          currentState := some hierarchyS211, nextState := none,
          sourceState := some hierarchyTop }).bind fun _ m2 => Run.pure true m2).trace
      = .onInit hierarchyS211 :: rest) ∧
    (∀ n ∈ hierarchyS211.chain, n ∈ pathDown hierarchyTop hierarchyS211 →
      .onExit n ∈ (hierarchyInS211.onEvent hierarchyInit (2 + 1) hierarchyEventE).trace ∧
      .onEnter n ∈ (hierarchyInS211.onEvent hierarchyInit (2 + 1) hierarchyEventE).trace) ∧
    ∀ n ∈ pathDown hierarchyTop hierarchyS211, n ≠ hierarchyS211 →
      .onInit n ∉ (hierarchyInS211.onEvent hierarchyInit (2 + 1) hierarchyEventE).trace :=
  c28_transition_to_descendant hierarchyInit
    (by
      intro n r hr
      unfold hierarchyInit at hr
      split_ifs at hr <;> simp at hr <;> subst hr <;> rfl)
    2 hierarchyEventE hierarchyInS211 hierarchyS211 hierarchyTop hierarchyS211 (by decide)
    (by decide) (by decide) (by decide) (by decide) (by decide) (by decide)

/-! ## History recorded before the first history descent -/

/-- C23 (amended): let `onInit(P)` call `initialHistoryTransition(d)` for a direct sub state
`d` of `P`, on a machine whose recorded history of `P`, if any, is a direct sub state of `P`.
When `onInit(P)` runs while `P.historySubstate` is null, the settling loop next enters `d` and
goes on settling there; when it runs while `P.historySubstate` is some state `h`, it next
enters `h` and goes on settling there. The descent depends on the recorded history only, not
on whether `initialHistoryTransition` was invoked for `P` before. -/
theorem c23_history_descent_follows_recorded_history (onInit : HsmStateBase → List Request)
    (fuel : Nat) (m : HsmBase) (P d : HsmStateBase) (hcur : m.currentState = some P)
    (hP : onInit P = [.initialHistoryTransition d]) (hd : d.superState = some P)
    (hwf : ∀ h, m.historySubstate P = some h → h.superState = some P) :
    (m.historySubstate P = none →
      HsmBase.initCurrentState onInit (fuel + 1) m
        = Run.after [.onInit P, .onEnter d]
            (HsmBase.initCurrentState onInit fuel
              { m with currentState := some d, nextState := none })) ∧
    (∀ h, m.historySubstate P = some h →
      HsmBase.initCurrentState onInit (fuel + 1) m
        = Run.after [.onInit P, .onEnter h]
            (HsmBase.initCurrentState onInit fuel
              { m with currentState := some h, nextState := none })) := by
  have hstep := HsmBase.initCurrentState_history onInit fuel m P d hcur hP hd hwf
  refine ⟨fun hn => ?_, fun h hh => ?_⟩
  · rw [hstep, hn]
    rfl
  · rw [hstep, hh]
    rfl

/-- C23, witness: the history test machine after `Off` with `B` recorded as the history of
`ENABLED`, when the settling loop runs at `ENABLED`; the recorded `B` is entered, not the
declared `A`. -/
theorem c23_history_descent_follows_recorded_history_witness :
    (HsmBase.historySubstate
        { (historyInB.onEvent historyInit 2 historyEventOff).hsm with
          currentState := some historyEnabled } historyEnabled = none →
      HsmBase.initCurrentState historyInit (1 + 1)
          { (historyInB.onEvent historyInit 2 historyEventOff).hsm with
            currentState := some historyEnabled }
        = Run.after [.onInit historyEnabled, .onEnter historyA]
            (HsmBase.initCurrentState historyInit 1
              { { (historyInB.onEvent historyInit 2 historyEventOff).hsm with
                  currentState := some historyEnabled } with
                currentState := some historyA, nextState := none })) ∧
    (∀ h, HsmBase.historySubstate
        { (historyInB.onEvent historyInit 2 historyEventOff).hsm with
          currentState := some historyEnabled } historyEnabled = some h →
      HsmBase.initCurrentState historyInit (1 + 1)
          { (historyInB.onEvent historyInit 2 historyEventOff).hsm with
            currentState := some historyEnabled }
        = Run.after [.onInit historyEnabled, .onEnter h]
            (HsmBase.initCurrentState historyInit 1
              { { (historyInB.onEvent historyInit 2 historyEventOff).hsm with
                  currentState := some historyEnabled } with
                currentState := some h, nextState := none })) :=
  c23_history_descent_follows_recorded_history historyInit 1
    { (historyInB.onEvent historyInit 2 historyEventOff).hsm with
      currentState := some historyEnabled }
    historyEnabled historyA rfl (by decide) (by decide)
    (by
      intro h hh
      have hB : HsmBase.historySubstate
          { (historyInB.onEvent historyInit 2 historyEventOff).hsm with
            currentState := some historyEnabled } historyEnabled = some historyB := by
        decide
      rw [hB] at hh
      injection hh with hh
      subst hh
      decide)

/-- C23, counterexample: the states of the history test, with an event that `DISABLED`
handles by `transition(B)`. After `onStart`, that event enters `ENABLED` and `B` without
`onInit(ENABLED)`; `Off` exits `B` and `ENABLED`; `On` then invokes `onInit(ENABLED)`, and with
it `initialHistoryTransition(A)`, for the first time, and the settling loop descends into the
recorded `B`, not into `A`. -/
theorem c23_first_history_descent_enters_recorded_state :
    (HsmBase.startAndDispatch historyInit 3
        [historyEventDirectB, historyEventOff, historyEventOn]
        (HsmBase.new historyTop)).result = .ok [true, true, true] ∧
    (HsmBase.startAndDispatch historyInit 3
        [historyEventDirectB, historyEventOff, historyEventOn]
        (HsmBase.new historyTop)).trace
      = [.onEnter historyTop, .onInit historyTop, .onEnter historyDisabled,
          .onInit historyDisabled,
          .onEvent historyDisabled, .onExit historyDisabled, .onEnter historyEnabled,
          .onEnter historyB, .onInit historyB,
          .onEvent historyB, .onEvent historyEnabled, .onExit historyB,
          .onExit historyEnabled, .onEnter historyDisabled, .onInit historyDisabled,
          .onEvent historyDisabled, .onExit historyDisabled, .onEnter historyEnabled,
          .onInit historyEnabled, .onEnter historyB, .onInit historyB] ∧
    (HsmBase.startAndDispatch historyInit 3
        [historyEventDirectB, historyEventOff, historyEventOn]
        (HsmBase.new historyTop)).trace.count (.onInit historyEnabled) = 1 ∧
    historyInit historyEnabled = [.initialHistoryTransition historyA] ∧
    .onEnter historyA ∉ (HsmBase.startAndDispatch historyInit 3
        [historyEventDirectB, historyEventOff, historyEventOn]
        (HsmBase.new historyTop)).trace := by
  decide

/-! ## Writers of `historySubstate` -/

/-- The dispatch of an event that no state on the chain of the current state accepts. -/
theorem HsmBase.onEvent_unhandled_eq (onInit : HsmStateBase → List Request) (fuel : Nat)
    (ev : Event) (m : HsmBase) (c : HsmStateBase) (hcur : m.currentState = some c)
    (hall : ∀ n ∈ c.chain, ev n = ⟨[], false⟩) :
    m.onEvent onInit fuel ev
      = ⟨c.chain.map .onEvent, { m with sourceState := some c.rootOf }, .ok false⟩ := by
  obtain ⟨i, hi⟩ := c.rootOf_eq_root
  rw [HsmBase.onEvent_eq_onEventFrom onInit fuel ev m hcur,
    HsmBase.onEventFrom_walk onInit fuel ev m c.rootOf_mem_chain
      (fun n hn => hall n (pathUp_subset_chain hn)), c.chain_root_eq, hi,
    HsmBase.onEventFrom_root_pass onInit fuel ev m i (hi ▸ hall _ c.rootOf_mem_chain)]
  simp [Run.after]

/-- The dispatch of an event that the first accepting handler, at `s`, handles without calling
the engine. -/
theorem HsmBase.onEvent_internal_eq (onInit : HsmStateBase → List Request) (fuel : Nat)
    (ev : Event) (m : HsmBase) (c s : HsmStateBase) (hcur : m.currentState = some c)
    (hnext : m.nextState = none) (hs : s ∈ c.chain)
    (hbelow : ∀ n ∈ pathUp c s, ev n = ⟨[], false⟩) (hev : ev s = ⟨[], true⟩) :
    m.onEvent onInit fuel ev
      = ⟨(pathUp c s).map .onEvent ++ [.onEvent s], { m with sourceState := some s },
          .ok true⟩ := by
  rw [HsmBase.onEvent_eq_onEventFrom onInit fuel ev m hcur,
    HsmBase.onEventFrom_walk onInit fuel ev m hs hbelow,
    HsmBase.onEventFrom_internal onInit fuel ev m s hnext hev]
  simp [Run.after]

/-- With `onInit` callbacks that only request initial descents, `onStart` writes no
`historySubstate`. -/
theorem HsmBase.onStart_frame (onInit : HsmStateBase → List Request)
    (hinit : ∀ n, ∀ r ∈ onInit n, r.isInitial = true) (fuel : Nat) (m : HsmBase) :
    (m.onStart onInit fuel).hsm.historySubstate = m.historySubstate := by
  unfold HsmBase.onStart
  split_ifs
  · rfl
  · rfl
  · exact (HsmBase.initCurrentState_frame onInit hinit fuel
      { m with currentState := some m.topState, nextState := none }).1

/-- C30: with `onInit` callbacks that only request initial descents, `historySubstate` is
written by the exit phase only. `onStart` (on any machine `m0`), the entry path
(`enterNextState`) and the settling loop (`initCurrentState`) leave the `historySubstate` of
every state unchanged; so do, on a started machine with current state `c` and nothing
pending, the dispatch of an event that no state accepts and the dispatch of an event that the
first accepting handler handles without calling the engine. A dispatch whose first accepting
handler, at `s`, requests `transition(t)` (the exit phase stopping at `l`) leaves every state
exited by the exit phase as the `historySubstate` of its super state, and leaves the
`historySubstate` of every state of which no direct sub state is exited unchanged. -/
theorem c30_history_written_by_exit_phase_only (onInit : HsmStateBase → List Request)
    (hinit : ∀ n, ∀ r ∈ onInit n, r.isInitial = true) (fuel : Nat) (m0 m : HsmBase)
    (c : HsmStateBase) (hcur : m.currentState = some c) (hnext : m.nextState = none)
    (evU : Event) (hU : ∀ n ∈ c.chain, evU n = ⟨[], false⟩)
    (evI : Event) (sI : HsmStateBase) (hsI : sI ∈ c.chain)
    (hbelowI : ∀ n ∈ pathUp c sI, evI n = ⟨[], false⟩) (hevI : evI sI = ⟨[], true⟩)
    (evT : Event) (s t l : HsmStateBase) (hs : s ∈ c.chain)
    (hbelowT : ∀ n ∈ pathUp c s, evT n = ⟨[], false⟩)
    (hevT : evT s = ⟨[.transition t], true⟩) (htree : t.rootOf = s.rootOf)
    (hstop : exitStop s t = some l) :
    (m0.onStart onInit fuel).hsm.historySubstate = m0.historySubstate ∧
    m.enterNextState.hsm.historySubstate = m.historySubstate ∧
    (HsmBase.initCurrentState onInit fuel m).hsm.historySubstate = m.historySubstate ∧
    ((m.onEvent onInit fuel evU).result = .ok false ∧
      (m.onEvent onInit fuel evU).hsm.historySubstate = m.historySubstate) ∧
    ((m.onEvent onInit fuel evI).result = .ok true ∧
      (m.onEvent onInit fuel evI).hsm.historySubstate = m.historySubstate) ∧
    (∀ n ∈ pathUp c l, ∃ p, n.superState = some p ∧
      (m.onEvent onInit fuel evT).hsm.historySubstate p = some n) ∧
    (∀ p, (∀ j, HsmStateBase.sub j p ∉ pathUp c l) →
      (m.onEvent onInit fuel evT).hsm.historySubstate p = m.historySubstate p) := by
  have hl : l ∈ c.chain := HsmStateBase.mem_chain_trans (exitStop_mem_chain htree hstop) hs
  have hframe := HsmBase.enterAndInitNextState_frame onInit hinit fuel
    { m.rememberAll (pathUp c l) with
      currentState := some l, nextState := some t, sourceState := some s }
  refine ⟨HsmBase.onStart_frame onInit hinit fuel m0, by rw [HsmBase.enterNextState_hsm],
    (HsmBase.initCurrentState_frame onInit hinit fuel m).1, ?_, ?_, ?_, ?_⟩
  · rw [HsmBase.onEvent_unhandled_eq onInit fuel evU m c hcur hU]
    exact ⟨rfl, rfl⟩
  · rw [HsmBase.onEvent_internal_eq onInit fuel evI m c sI hcur hnext hsI hbelowI hevI]
    exact ⟨rfl, rfl⟩
  · intro n hn
    obtain ⟨i, p, rfl⟩ := pathUp_has_super hl hn
    exact ⟨p, rfl, HsmBase.onEvent_transition_history onInit fuel hinit evT m c s t l hcur hs
      hbelowT hevT htree hstop hn⟩
  · intro p hp
    rw [HsmBase.onEvent_transition_eq onInit fuel evT m c s t l hcur hs hbelowT hevT htree
      hstop]
    simp only [Run.after, hframe.1]
    exact HsmBase.rememberAll_untouched _ p hp m

/-- C30, witness: the hierarchy test machine, before `onStart` and in `S11`; an event that no
state handles, an event that only `TOP` handles without calling the engine, and event `C`,
handled by `S1` with `transition(S2)`, whose exit phase stops at `TOP`. -/
theorem c30_history_written_by_exit_phase_only_witness :
    ((HsmBase.new hierarchyTop).onStart hierarchyInit 3).hsm.historySubstate
      = (HsmBase.new hierarchyTop).historySubstate ∧
    hierarchyStarted.enterNextState.hsm.historySubstate = hierarchyStarted.historySubstate ∧
    (HsmBase.initCurrentState hierarchyInit 3 hierarchyStarted).hsm.historySubstate
      = hierarchyStarted.historySubstate ∧
    ((hierarchyStarted.onEvent hierarchyInit 3 unhandledEvent).result = .ok false ∧
      (hierarchyStarted.onEvent hierarchyInit 3 unhandledEvent).hsm.historySubstate
        = hierarchyStarted.historySubstate) ∧
    ((hierarchyStarted.onEvent hierarchyInit 3 hierarchyEventTopOnly).result = .ok true ∧
      (hierarchyStarted.onEvent hierarchyInit 3 hierarchyEventTopOnly).hsm.historySubstate
        = hierarchyStarted.historySubstate) ∧
    (∀ n ∈ pathUp hierarchyS11 hierarchyTop, ∃ p, n.superState = some p ∧
      (hierarchyStarted.onEvent hierarchyInit 3 hierarchyEventC).hsm.historySubstate p
        = some n) ∧
    (∀ p, (∀ j, HsmStateBase.sub j p ∉ pathUp hierarchyS11 hierarchyTop) →
      (hierarchyStarted.onEvent hierarchyInit 3 hierarchyEventC).hsm.historySubstate p
        = hierarchyStarted.historySubstate p) :=
  c30_history_written_by_exit_phase_only hierarchyInit
    (by
      intro n r hr
      unfold hierarchyInit at hr
      split_ifs at hr <;> simp at hr <;> subst hr <;> rfl)
    3 (HsmBase.new hierarchyTop) hierarchyStarted hierarchyS11 (by decide) (by decide)
    unhandledEvent (by decide)
    hierarchyEventTopOnly hierarchyTop (by decide) (by decide) (by decide)
    hierarchyEventC hierarchyS1 hierarchyS2 hierarchyTop (by decide) (by decide) (by decide)
    (by decide) (by decide)

/-! ## Deep history -/

/-- The callbacks of the machine with history descents at every level: `onStart`, the event
that leads to `S212`, the event that leaves `S2` for `S1`, and the event that returns to `S2`,
which settles on `S212` again. -/
theorem deep_history_trace :
    (HsmBase.startAndDispatch deepHistoryInit 3
        [deepHistoryEventToS212, deepHistoryEventToS1, deepHistoryEventToS2]
        (HsmBase.new hierarchyTop)).trace
      = [.onEnter hierarchyTop, .onInit hierarchyTop, .onEnter hierarchyS1,
          .onInit hierarchyS1, .onEnter hierarchyS11, .onInit hierarchyS11,
          .onEvent hierarchyS11, .onExit hierarchyS11, .onExit hierarchyS1,
          .onEnter hierarchyS2, .onEnter hierarchyS21, .onEnter hierarchyS212,
          .onInit hierarchyS212,
          .onEvent hierarchyS212, .onEvent hierarchyS21, .onEvent hierarchyS2,
          .onExit hierarchyS212, .onExit hierarchyS21, .onExit hierarchyS2,
          .onEnter hierarchyS1, .onInit hierarchyS1, .onEnter hierarchyS11,
          .onInit hierarchyS11,
          .onEvent hierarchyS11, .onEvent hierarchyS1, .onExit hierarchyS11,
          .onExit hierarchyS1, .onEnter hierarchyS2, .onInit hierarchyS2,
          .onEnter hierarchyS21, .onInit hierarchyS21, .onEnter hierarchyS212,
          .onInit hierarchyS212] := by
  decide

theorem pathDown_sub {i : Nat} {q P : HsmStateBase} (h : HsmStateBase.sub i q ≠ P) :
    pathDown P (.sub i q) = pathDown P q ++ [.sub i q] := by
  simp [pathDown, pathUp_sub h]

theorem pathDown_getLastD {c P : HsmStateBase} :
    (pathDown P c).getLastD P = c := by
  cases c with
  | root i =>
    by_cases h : HsmStateBase.root i = P
    · subst h
      simp [pathDown, pathUp_self]
    · simp [pathDown, pathUp, HsmStateBase.chain, List.takeWhile, h]
  | sub i q =>
    by_cases h : HsmStateBase.sub i q = P
    · subst h
      simp [pathDown, pathUp_self]
    · rw [pathDown_sub h]
      simp [List.getLastD_eq_getLast?]

theorem mem_chain_of_mem_pathUp {c P n : HsmStateBase} (hP : P ∈ c.chain)
    (hn : n ∈ pathUp c P) : P ∈ n.chain := by
  rcases HsmStateBase.chain_comparable hP (pathUp_subset_chain hn) with h | h
  · exact h
  · exact absurd hn (not_mem_pathUp_of_mem_chain hP h)

/-- The states from `P` (excluded) down to `c` are successive initial descents when each of
them is the sub state requested by `onInit` of its super state. -/
theorem initialDescent_pathDown (onInit : HsmStateBase → List Request)
    (history : HsmStateBase → Option HsmStateBase) (P : HsmStateBase) :
    ∀ c : HsmStateBase, P ∈ c.chain →
      (∀ i q, HsmStateBase.sub i q ∈ pathUp c P →
        initialChild onInit history q = some (.sub i q)) →
      ∀ rest, InitialDescent onInit history c rest →
        InitialDescent onInit history P (pathDown P c ++ rest) := by
  intro c
  induction c with
  | root i =>
    intro hP _ rest hrest
    have : P = .root i := by simpa [HsmStateBase.chain] using hP
    subst this
    simpa [pathDown, pathUp_self] using hrest
  | sub i q ih =>
    intro hP hchild rest hrest
    by_cases h : HsmStateBase.sub i q = P
    · subst h
      simpa [pathDown, pathUp_self] using hrest
    · rw [pathDown_sub h, List.append_assoc]
      refine ih (mem_chain_sub_of_ne hP h) (fun j r hj => hchild j r ?_) _
        ⟨hchild i q ?_, rfl, hrest⟩
      · rw [pathUp_sub h]
        exact List.mem_cons_of_mem _ hj
      · rw [pathUp_sub h]
        exact List.mem_cons_self _ _

/-- A dispatch whose first accepting handler requests `transition(P)` to an inactive state
`P`, on a machine in which each state from `P` (excluded) down to the leaf `c` is the recorded
history of its super state and is requested through `initialHistoryTransition`: the settling
loop descends from `P` to `c`. -/
theorem HsmBase.onEvent_transition_deep_history (onInit : HsmStateBase → List Request)
    (fuel : Nat) (ev : Event) (m : HsmBase) (P c c2 s2 : HsmStateBase) (hPc : P ∈ c.chain)
    (hleaf : onInit c = [])
    (hcomp : ∀ i q, HsmStateBase.sub i q ∈ pathUp c P →
      ∃ d, onInit q = [.initialHistoryTransition d])
    (hhist : ∀ i q, HsmStateBase.sub i q ∈ pathUp c P →
      m.historySubstate q = some (.sub i q))
    (hcur : m.currentState = some c2) (hinactive : P ∉ c2.chain) (hs : s2 ∈ c2.chain)
    (hbelow : ∀ n ∈ pathUp c2 s2, ev n = ⟨[], false⟩)
    (hev : ev s2 = ⟨[.transition P], true⟩) (htree : P.rootOf = s2.rootOf)
    (hlen : (pathDown (lca s2 P) P).length < MAX_STATE_NESTING)
    (hfuel : (pathUp c P).length < fuel) :
    m.onEvent onInit fuel ev
      = ⟨(pathUp c2 s2).map .onEvent ++ [.onEvent s2]
            ++ (pathUp c2 (lca s2 P)).map .onExit ++ (pathDown (lca s2 P) P).map .onEnter
            ++ .onInit P :: enterInitTrace (pathDown P c),
          { m.rememberAll (pathUp c2 (lca s2 P)) with
            currentState := some c, nextState := none, sourceState := some s2 },
          .ok true⟩ := by
  have hne : P ≠ s2 := fun h => hinactive (h ▸ hs)
  have hstop : exitStop s2 P = some (lca s2 P) := by simp [exitStop, hne]
  have hlca := lca_isLCA htree.symm
  have hchild : ∀ i q, HsmStateBase.sub i q ∈ pathUp c P →
      initialChild onInit (m.rememberAll (pathUp c2 (lca s2 P))).historySubstate q
        = some (.sub i q) := by
    intro i q hq
    obtain ⟨d, hd⟩ := hcomp i q hq
    have hPq : P ∈ q.chain :=
      mem_chain_sub_of_ne (mem_chain_of_mem_pathUp hPc hq) (mem_pathUp_ne hq)
    have hkeep : (m.rememberAll (pathUp c2 (lca s2 P))).historySubstate q
        = some (.sub i q) := by
      rw [HsmBase.rememberAll_untouched _ q _ m, hhist i q hq]
      intro j hj
      exact hinactive (HsmStateBase.mem_chain_trans hPq
        (HsmStateBase.mem_chain_trans (HsmStateBase.super_mem_chain j q)
          (pathUp_subset_chain hj)))
    simp [initialChild, hd, Request.initialTarget, hkeep]
  have hdesc : InitialDescent onInit
      (m.rememberAll (pathUp c2 (lca s2 P))).historySubstate P (pathDown P c) := by
    have h := initialDescent_pathDown onInit
      (m.rememberAll (pathUp c2 (lca s2 P))).historySubstate P c hPc hchild [] hleaf
    simpa using h
  have hsettle := HsmBase.initCurrentState_descent onInit (pathDown P c) fuel
    { { m.rememberAll (pathUp c2 (lca s2 P)) with
        currentState := some (lca s2 P), nextState := some P, sourceState := some s2 } with
      currentState := some P, nextState := none } P rfl rfl hdesc
    (by simpa [pathDown] using hfuel)
  rw [HsmBase.onEvent_transition_eq onInit fuel ev m c2 s2 P (lca s2 P) hcur hs hbelow hev
      htree hstop,
    HsmBase.enterAndInitNextState_eq onInit fuel _ rfl rfl hlca.2.1 hlen, hsettle,
    pathDown_getLastD]
  simp [Run.after, Run.bind, Run.pure]

/-- C29 (amended): with `onInit` callbacks that only request initial descents, let `c` be a leaf
at any depth below the state `P`, each state from `P` down to the super state of `c`
requesting its descent through `initialHistoryTransition`. If `c` is the current state when a
dispatch exits `P` by a `transition`, then when that dispatch returns each state from `P`
(excluded) down to `c` is the `historySubstate` of its super state; and on every machine in
which these records are unchanged and `P` is not active, a dispatch whose first accepting
handler requests `transition(P)` with at most six states to enter down to `P` (one less than
`MAX_STATE_NESTING`; fuel above the depth of `c` below `P`) returns `true` after the exit and
entry phases and the descent `onInit(P)`, then `onEnter` and `onInit` of each state from `P`
down to `c`, and leaves `c` the current state. In both dispatches the handlers below the
accepting one return `false` without calling the engine. -/
theorem c29_deep_history_restores_last_leaf (onInit : HsmStateBase → List Request)
    (hinit : ∀ n, ∀ r ∈ onInit n, r.isInitial = true) (fuel1 fuel2 : Nat)
    (P c : HsmStateBase) (hPc : P ∈ c.chain) (hleaf : onInit c = [])
    (hcomp : ∀ i q, HsmStateBase.sub i q ∈ pathUp c P →
      ∃ d, onInit q = [.initialHistoryTransition d])
    (m : HsmBase) (ev1 : Event) (s1 t1 l1 : HsmStateBase)
    (hcur1 : m.currentState = some c) (hs1 : s1 ∈ c.chain)
    (hbelow1 : ∀ n ∈ pathUp c s1, ev1 n = ⟨[], false⟩)
    (hev1 : ev1 s1 = ⟨[.transition t1], true⟩) (htree1 : t1.rootOf = s1.rootOf)
    (hstop1 : exitStop s1 t1 = some l1) (hexited : P ∈ pathUp c l1)
    (m2 : HsmBase)
    (hkeep : ∀ i q, HsmStateBase.sub i q ∈ pathUp c P →
      m2.historySubstate q = (m.onEvent onInit fuel1 ev1).hsm.historySubstate q)
    (ev2 : Event) (c2 s2 : HsmStateBase) (hcur2 : m2.currentState = some c2)
    (hinactive : P ∉ c2.chain) (hs2 : s2 ∈ c2.chain)
    (hbelow2 : ∀ n ∈ pathUp c2 s2, ev2 n = ⟨[], false⟩)
    (hev2 : ev2 s2 = ⟨[.transition P], true⟩) (htree2 : P.rootOf = s2.rootOf)
    (hlen : (pathDown (lca s2 P) P).length < MAX_STATE_NESTING)
    (hfuel : (pathUp c P).length < fuel2) :
    (∀ i q, HsmStateBase.sub i q ∈ pathUp c P →
      (m.onEvent onInit fuel1 ev1).hsm.historySubstate q = some (.sub i q)) ∧
    m2.onEvent onInit fuel2 ev2
      = ⟨(pathUp c2 s2).map .onEvent ++ [.onEvent s2]
            ++ (pathUp c2 (lca s2 P)).map .onExit ++ (pathDown (lca s2 P) P).map .onEnter
            ++ .onInit P :: enterInitTrace (pathDown P c),
          { m2.rememberAll (pathUp c2 (lca s2 P)) with
            currentState := some c, nextState := none, sourceState := some s2 },
          .ok true⟩ ∧
    (m2.onEvent onInit fuel2 ev2).hsm.currentState = some c := by
  have hl1 : l1 ∈ c.chain :=
    HsmStateBase.mem_chain_trans (exitStop_mem_chain htree1 hstop1) hs1
  have hl1P : l1 ∈ P.chain := mem_chain_of_mem_pathUp hl1 hexited
  have hrec : ∀ i q, HsmStateBase.sub i q ∈ pathUp c P →
      (m.onEvent onInit fuel1 ev1).hsm.historySubstate q = some (.sub i q) := by
    intro i q hq
    refine HsmBase.onEvent_transition_history onInit fuel1 hinit ev1 m c s1 t1 l1 hcur1 hs1
      hbelow1 hev1 htree1 hstop1 ?_
    rw [← pathUp_append hPc hl1P]
    exact List.mem_append_left _ hq
  have hrun := HsmBase.onEvent_transition_deep_history onInit fuel2 ev2 m2 P c c2 s2 hPc hleaf
    hcomp (fun i q hq => by rw [hkeep i q hq, hrec i q hq]) hcur2 hinactive hs2 hbelow2 hev2
    htree2 hlen hfuel
  exact ⟨hrec, hrun, by rw [hrun]⟩

/-- C29, witness: the machine on the states of the hierarchy test with history descents at
every level, in `S212`, two levels below `S2`. The event handled by `S2` with `transition(S1)`
exits `S212`, `S21` and `S2`; the following event, handled by `S1` with `transition(S2)`,
settles on `S212`, not on the declared `S211`. -/
theorem c29_deep_history_restores_last_leaf_witness :
    (∀ i q, HsmStateBase.sub i q ∈ pathUp hierarchyS212 hierarchyS2 →
      (deepHistoryInS212.onEvent deepHistoryInit 3 deepHistoryEventToS1).hsm.historySubstate q
        = some (.sub i q)) ∧
    (deepHistoryInS212.onEvent deepHistoryInit 3 deepHistoryEventToS1).hsm.onEvent
        deepHistoryInit 3 deepHistoryEventToS2
      = ⟨(pathUp hierarchyS11 hierarchyS1).map .onEvent ++ [.onEvent hierarchyS1]
            ++ (pathUp hierarchyS11 (lca hierarchyS1 hierarchyS2)).map .onExit
            ++ (pathDown (lca hierarchyS1 hierarchyS2) hierarchyS2).map .onEnter
            ++ .onInit hierarchyS2 :: enterInitTrace (pathDown hierarchyS2 hierarchyS212),
          { (deepHistoryInS212.onEvent deepHistoryInit 3
                deepHistoryEventToS1).hsm.rememberAll
              (pathUp hierarchyS11 (lca hierarchyS1 hierarchyS2)) with
            currentState := some hierarchyS212, nextState := none,
            sourceState := some hierarchyS1 },
          .ok true⟩ ∧
    ((deepHistoryInS212.onEvent deepHistoryInit 3 deepHistoryEventToS1).hsm.onEvent
        deepHistoryInit 3 deepHistoryEventToS2).hsm.currentState = some hierarchyS212 :=
  c29_deep_history_restores_last_leaf deepHistoryInit
    (by
      intro n r hr
      unfold deepHistoryInit at hr
      split_ifs at hr <;> simp at hr <;> subst hr <;> rfl)
    3 3 hierarchyS2 hierarchyS212 (by decide) (by decide)
    (by
      intro i q hq
      have hp : pathUp hierarchyS212 hierarchyS2 = [hierarchyS212, hierarchyS21] := by decide
      rw [hp] at hq
      simp only [List.mem_cons, List.mem_singleton, List.not_mem_nil, or_false, hierarchyS212,
        hierarchyS21, HsmStateBase.sub.injEq] at hq
      rcases hq with ⟨_, rfl⟩ | ⟨_, rfl⟩
      · exact ⟨hierarchyS211, by decide⟩
      · exact ⟨hierarchyS21, by decide⟩)
    deepHistoryInS212 deepHistoryEventToS1 hierarchyS2 hierarchyS1 hierarchyTop
    (by decide) (by decide) (by decide) (by decide) (by decide) (by decide) (by decide)
    (deepHistoryInS212.onEvent deepHistoryInit 3 deepHistoryEventToS1).hsm
    (fun _ _ _ => rfl)
    deepHistoryEventToS2 hierarchyS11 hierarchyS1
    (by decide) (by decide) (by decide) (by decide) (by decide) (by decide) (by decide)
    (by decide)

/-! ## All event sequences of the hierarchy test -/

theorem hierarchy_step_A_S11 (top : HsmStateBase) (src : Option HsmStateBase)
    (hist : HsmStateBase → Option HsmStateBase) :
    (HsmBase.onEvent hierarchyInit 3 hierarchyEventA
      ⟨top, some hierarchyS11, none, src, hist⟩).result = .ok true ∧
    (HsmBase.onEvent hierarchyInit 3 hierarchyEventA
      ⟨top, some hierarchyS11, none, src, hist⟩).hsm.currentState = some hierarchyS11 ∧
    (HsmBase.onEvent hierarchyInit 3 hierarchyEventA
      ⟨top, some hierarchyS11, none, src, hist⟩).hsm.nextState = none :=
  ⟨rfl, rfl, rfl⟩

theorem hierarchy_step_A_S211 (top : HsmStateBase) (src : Option HsmStateBase)
    (hist : HsmStateBase → Option HsmStateBase) :
    (HsmBase.onEvent hierarchyInit 3 hierarchyEventA
      ⟨top, some hierarchyS211, none, src, hist⟩).result = .ok true ∧
    (HsmBase.onEvent hierarchyInit 3 hierarchyEventA
      ⟨top, some hierarchyS211, none, src, hist⟩).hsm.currentState = some hierarchyS211 ∧
    (HsmBase.onEvent hierarchyInit 3 hierarchyEventA
      ⟨top, some hierarchyS211, none, src, hist⟩).hsm.nextState = none :=
  ⟨rfl, rfl, rfl⟩

/-- Event `A` of the hierarchy test, dispatched in `S11` or `S211` with nothing pending,
returns `true` and leaves the machine in `S11` or `S211` with nothing pending. -/
theorem hierarchy_step_A (m : HsmBase)
    (hcur : m.currentState = some hierarchyS11 ∨ m.currentState = some hierarchyS211)
    (hnext : m.nextState = none) :
    (m.onEvent hierarchyInit 3 hierarchyEventA).result = .ok true ∧
    ((m.onEvent hierarchyInit 3 hierarchyEventA).hsm.currentState = some hierarchyS11 ∨
      (m.onEvent hierarchyInit 3 hierarchyEventA).hsm.currentState = some hierarchyS211) ∧
    (m.onEvent hierarchyInit 3 hierarchyEventA).hsm.nextState = none := by
  obtain ⟨top, cur, next, src, hist⟩ := m
  simp only at hcur hnext
  subst hnext
  rcases hcur with rfl | rfl
  · have h := hierarchy_step_A_S11 top src hist
    exact ⟨h.1, Or.inl h.2.1, h.2.2⟩
  · have h := hierarchy_step_A_S211 top src hist
    exact ⟨h.1, Or.inr h.2.1, h.2.2⟩

theorem hierarchy_step_B_S11 (top : HsmStateBase) (src : Option HsmStateBase)
    (hist : HsmStateBase → Option HsmStateBase) :
    (HsmBase.onEvent hierarchyInit 3 hierarchyEventB
      ⟨top, some hierarchyS11, none, src, hist⟩).result = .ok true ∧
    (HsmBase.onEvent hierarchyInit 3 hierarchyEventB
      ⟨top, some hierarchyS11, none, src, hist⟩).hsm.currentState = some hierarchyS11 ∧
    (HsmBase.onEvent hierarchyInit 3 hierarchyEventB
      ⟨top, some hierarchyS11, none, src, hist⟩).hsm.nextState = none :=
  ⟨rfl, rfl, rfl⟩

theorem hierarchy_step_B_S211 (top : HsmStateBase) (src : Option HsmStateBase)
    (hist : HsmStateBase → Option HsmStateBase) :
    (HsmBase.onEvent hierarchyInit 3 hierarchyEventB
      ⟨top, some hierarchyS211, none, src, hist⟩).result = .ok true ∧
    (HsmBase.onEvent hierarchyInit 3 hierarchyEventB
      ⟨top, some hierarchyS211, none, src, hist⟩).hsm.currentState = some hierarchyS211 ∧
    (HsmBase.onEvent hierarchyInit 3 hierarchyEventB
      ⟨top, some hierarchyS211, none, src, hist⟩).hsm.nextState = none :=
  ⟨rfl, rfl, rfl⟩

/-- Event `B` of the hierarchy test, dispatched in `S11` or `S211` with nothing pending,
returns `true` and leaves the machine in `S11` or `S211` with nothing pending. -/
theorem hierarchy_step_B (m : HsmBase)
    (hcur : m.currentState = some hierarchyS11 ∨ m.currentState = some hierarchyS211)
    (hnext : m.nextState = none) :
    (m.onEvent hierarchyInit 3 hierarchyEventB).result = .ok true ∧
    ((m.onEvent hierarchyInit 3 hierarchyEventB).hsm.currentState = some hierarchyS11 ∨
      (m.onEvent hierarchyInit 3 hierarchyEventB).hsm.currentState = some hierarchyS211) ∧
    (m.onEvent hierarchyInit 3 hierarchyEventB).hsm.nextState = none := by
  obtain ⟨top, cur, next, src, hist⟩ := m
  simp only at hcur hnext
  subst hnext
  rcases hcur with rfl | rfl
  · have h := hierarchy_step_B_S11 top src hist
    exact ⟨h.1, Or.inl h.2.1, h.2.2⟩
  · have h := hierarchy_step_B_S211 top src hist
    exact ⟨h.1, Or.inr h.2.1, h.2.2⟩

theorem hierarchy_step_C_S11 (top : HsmStateBase) (src : Option HsmStateBase)
    (hist : HsmStateBase → Option HsmStateBase) :
    (HsmBase.onEvent hierarchyInit 3 hierarchyEventC
      ⟨top, some hierarchyS11, none, src, hist⟩).result = .ok true ∧
    (HsmBase.onEvent hierarchyInit 3 hierarchyEventC
      ⟨top, some hierarchyS11, none, src, hist⟩).hsm.currentState = some hierarchyS211 ∧
    (HsmBase.onEvent hierarchyInit 3 hierarchyEventC
      ⟨top, some hierarchyS11, none, src, hist⟩).hsm.nextState = none :=
  ⟨rfl, rfl, rfl⟩

theorem hierarchy_step_C_S211 (top : HsmStateBase) (src : Option HsmStateBase)
    (hist : HsmStateBase → Option HsmStateBase) :
    (HsmBase.onEvent hierarchyInit 3 hierarchyEventC
      ⟨top, some hierarchyS211, none, src, hist⟩).result = .ok true ∧
    (HsmBase.onEvent hierarchyInit 3 hierarchyEventC
      ⟨top, some hierarchyS211, none, src, hist⟩).hsm.currentState = some hierarchyS11 ∧
    (HsmBase.onEvent hierarchyInit 3 hierarchyEventC
      ⟨top, some hierarchyS211, none, src, hist⟩).hsm.nextState = none :=
  ⟨rfl, rfl, rfl⟩

/-- Event `C` of the hierarchy test, dispatched in `S11` or `S211` with nothing pending,
returns `true` and leaves the machine in `S11` or `S211` with nothing pending. -/
theorem hierarchy_step_C (m : HsmBase)
    (hcur : m.currentState = some hierarchyS11 ∨ m.currentState = some hierarchyS211)
    (hnext : m.nextState = none) :
    (m.onEvent hierarchyInit 3 hierarchyEventC).result = .ok true ∧
    ((m.onEvent hierarchyInit 3 hierarchyEventC).hsm.currentState = some hierarchyS11 ∨
      (m.onEvent hierarchyInit 3 hierarchyEventC).hsm.currentState = some hierarchyS211) ∧
    (m.onEvent hierarchyInit 3 hierarchyEventC).hsm.nextState = none := by
  obtain ⟨top, cur, next, src, hist⟩ := m
  simp only at hcur hnext
  subst hnext
  rcases hcur with rfl | rfl
  · have h := hierarchy_step_C_S11 top src hist
    exact ⟨h.1, Or.inr h.2.1, h.2.2⟩
  · have h := hierarchy_step_C_S211 top src hist
    exact ⟨h.1, Or.inl h.2.1, h.2.2⟩

theorem hierarchy_step_D_S11 (top : HsmStateBase) (src : Option HsmStateBase)
    (hist : HsmStateBase → Option HsmStateBase) :
    (HsmBase.onEvent hierarchyInit 3 hierarchyEventD
      ⟨top, some hierarchyS11, none, src, hist⟩).result = .ok true ∧
    (HsmBase.onEvent hierarchyInit 3 hierarchyEventD
      ⟨top, some hierarchyS11, none, src, hist⟩).hsm.currentState = some hierarchyS11 ∧
    (HsmBase.onEvent hierarchyInit 3 hierarchyEventD
      ⟨top, some hierarchyS11, none, src, hist⟩).hsm.nextState = none :=
  ⟨rfl, rfl, rfl⟩

theorem hierarchy_step_D_S211 (top : HsmStateBase) (src : Option HsmStateBase)
    (hist : HsmStateBase → Option HsmStateBase) :
    (HsmBase.onEvent hierarchyInit 3 hierarchyEventD
      ⟨top, some hierarchyS211, none, src, hist⟩).result = .ok true ∧
    (HsmBase.onEvent hierarchyInit 3 hierarchyEventD
      ⟨top, some hierarchyS211, none, src, hist⟩).hsm.currentState = some hierarchyS211 ∧
    (HsmBase.onEvent hierarchyInit 3 hierarchyEventD
      ⟨top, some hierarchyS211, none, src, hist⟩).hsm.nextState = none :=
  ⟨rfl, rfl, rfl⟩

/-- Event `D` of the hierarchy test, dispatched in `S11` or `S211` with nothing pending,
returns `true` and leaves the machine in `S11` or `S211` with nothing pending. -/
theorem hierarchy_step_D (m : HsmBase)
    (hcur : m.currentState = some hierarchyS11 ∨ m.currentState = some hierarchyS211)
    (hnext : m.nextState = none) :
    (m.onEvent hierarchyInit 3 hierarchyEventD).result = .ok true ∧
    ((m.onEvent hierarchyInit 3 hierarchyEventD).hsm.currentState = some hierarchyS11 ∨
      (m.onEvent hierarchyInit 3 hierarchyEventD).hsm.currentState = some hierarchyS211) ∧
    (m.onEvent hierarchyInit 3 hierarchyEventD).hsm.nextState = none := by
  obtain ⟨top, cur, next, src, hist⟩ := m
  simp only at hcur hnext
  subst hnext
  rcases hcur with rfl | rfl
  · have h := hierarchy_step_D_S11 top src hist
    exact ⟨h.1, Or.inl h.2.1, h.2.2⟩
  · have h := hierarchy_step_D_S211 top src hist
    exact ⟨h.1, Or.inr h.2.1, h.2.2⟩

theorem hierarchy_step_E_S11 (top : HsmStateBase) (src : Option HsmStateBase)
    (hist : HsmStateBase → Option HsmStateBase) :
    (HsmBase.onEvent hierarchyInit 3 hierarchyEventE
      ⟨top, some hierarchyS11, none, src, hist⟩).result = .ok true ∧
    (HsmBase.onEvent hierarchyInit 3 hierarchyEventE
      ⟨top, some hierarchyS11, none, src, hist⟩).hsm.currentState = some hierarchyS211 ∧
    (HsmBase.onEvent hierarchyInit 3 hierarchyEventE
      ⟨top, some hierarchyS11, none, src, hist⟩).hsm.nextState = none :=
  ⟨rfl, rfl, rfl⟩

theorem hierarchy_step_E_S211 (top : HsmStateBase) (src : Option HsmStateBase)
    (hist : HsmStateBase → Option HsmStateBase) :
    (HsmBase.onEvent hierarchyInit 3 hierarchyEventE
      ⟨top, some hierarchyS211, none, src, hist⟩).result = .ok true ∧
    (HsmBase.onEvent hierarchyInit 3 hierarchyEventE
      ⟨top, some hierarchyS211, none, src, hist⟩).hsm.currentState = some hierarchyS211 ∧
    (HsmBase.onEvent hierarchyInit 3 hierarchyEventE
      ⟨top, some hierarchyS211, none, src, hist⟩).hsm.nextState = none :=
  ⟨rfl, rfl, rfl⟩

/-- Event `E` of the hierarchy test, dispatched in `S11` or `S211` with nothing pending,
returns `true` and leaves the machine in `S11` or `S211` with nothing pending. -/
theorem hierarchy_step_E (m : HsmBase)
    (hcur : m.currentState = some hierarchyS11 ∨ m.currentState = some hierarchyS211)
    (hnext : m.nextState = none) :
    (m.onEvent hierarchyInit 3 hierarchyEventE).result = .ok true ∧
    ((m.onEvent hierarchyInit 3 hierarchyEventE).hsm.currentState = some hierarchyS11 ∨
      (m.onEvent hierarchyInit 3 hierarchyEventE).hsm.currentState = some hierarchyS211) ∧
    (m.onEvent hierarchyInit 3 hierarchyEventE).hsm.nextState = none := by
  obtain ⟨top, cur, next, src, hist⟩ := m
  simp only at hcur hnext
  subst hnext
  rcases hcur with rfl | rfl
  · have h := hierarchy_step_E_S11 top src hist
    exact ⟨h.1, Or.inr h.2.1, h.2.2⟩
  · have h := hierarchy_step_E_S211 top src hist
    exact ⟨h.1, Or.inr h.2.1, h.2.2⟩

theorem hierarchy_step_F_S11 (top : HsmStateBase) (src : Option HsmStateBase)
    (hist : HsmStateBase → Option HsmStateBase) :
    (HsmBase.onEvent hierarchyInit 3 hierarchyEventF
      ⟨top, some hierarchyS11, none, src, hist⟩).result = .ok true ∧
    (HsmBase.onEvent hierarchyInit 3 hierarchyEventF
      ⟨top, some hierarchyS11, none, src, hist⟩).hsm.currentState = some hierarchyS211 ∧
    (HsmBase.onEvent hierarchyInit 3 hierarchyEventF
      ⟨top, some hierarchyS11, none, src, hist⟩).hsm.nextState = none :=
  ⟨rfl, rfl, rfl⟩

theorem hierarchy_step_F_S211 (top : HsmStateBase) (src : Option HsmStateBase)
    (hist : HsmStateBase → Option HsmStateBase) :
    (HsmBase.onEvent hierarchyInit 3 hierarchyEventF
      ⟨top, some hierarchyS211, none, src, hist⟩).result = .ok true ∧
    (HsmBase.onEvent hierarchyInit 3 hierarchyEventF
      ⟨top, some hierarchyS211, none, src, hist⟩).hsm.currentState = some hierarchyS11 ∧
    (HsmBase.onEvent hierarchyInit 3 hierarchyEventF
      ⟨top, some hierarchyS211, none, src, hist⟩).hsm.nextState = none :=
  ⟨rfl, rfl, rfl⟩

/-- Event `F` of the hierarchy test, dispatched in `S11` or `S211` with nothing pending,
returns `true` and leaves the machine in `S11` or `S211` with nothing pending. -/
theorem hierarchy_step_F (m : HsmBase)
    (hcur : m.currentState = some hierarchyS11 ∨ m.currentState = some hierarchyS211)
    (hnext : m.nextState = none) :
    (m.onEvent hierarchyInit 3 hierarchyEventF).result = .ok true ∧
    ((m.onEvent hierarchyInit 3 hierarchyEventF).hsm.currentState = some hierarchyS11 ∨
      (m.onEvent hierarchyInit 3 hierarchyEventF).hsm.currentState = some hierarchyS211) ∧
    (m.onEvent hierarchyInit 3 hierarchyEventF).hsm.nextState = none := by
  obtain ⟨top, cur, next, src, hist⟩ := m
  simp only at hcur hnext
  subst hnext
  rcases hcur with rfl | rfl
  · have h := hierarchy_step_F_S11 top src hist
    exact ⟨h.1, Or.inr h.2.1, h.2.2⟩
  · have h := hierarchy_step_F_S211 top src hist
    exact ⟨h.1, Or.inl h.2.1, h.2.2⟩

theorem hierarchy_step_G_S11 (top : HsmStateBase) (src : Option HsmStateBase)
    (hist : HsmStateBase → Option HsmStateBase) :
    (HsmBase.onEvent hierarchyInit 3 hierarchyEventG
      ⟨top, some hierarchyS11, none, src, hist⟩).result = .ok true ∧
    (HsmBase.onEvent hierarchyInit 3 hierarchyEventG
      ⟨top, some hierarchyS11, none, src, hist⟩).hsm.currentState = some hierarchyS211 ∧
    (HsmBase.onEvent hierarchyInit 3 hierarchyEventG
      ⟨top, some hierarchyS11, none, src, hist⟩).hsm.nextState = none :=
  ⟨rfl, rfl, rfl⟩

theorem hierarchy_step_G_S211 (top : HsmStateBase) (src : Option HsmStateBase)
    (hist : HsmStateBase → Option HsmStateBase) :
    (HsmBase.onEvent hierarchyInit 3 hierarchyEventG
      ⟨top, some hierarchyS211, none, src, hist⟩).result = .ok true ∧
    (HsmBase.onEvent hierarchyInit 3 hierarchyEventG
      ⟨top, some hierarchyS211, none, src, hist⟩).hsm.currentState = some hierarchyS11 ∧
    (HsmBase.onEvent hierarchyInit 3 hierarchyEventG
      ⟨top, some hierarchyS211, none, src, hist⟩).hsm.nextState = none :=
  ⟨rfl, rfl, rfl⟩

/-- Event `G` of the hierarchy test, dispatched in `S11` or `S211` with nothing pending,
returns `true` and leaves the machine in `S11` or `S211` with nothing pending. -/
theorem hierarchy_step_G (m : HsmBase)
    (hcur : m.currentState = some hierarchyS11 ∨ m.currentState = some hierarchyS211)
    (hnext : m.nextState = none) :
    (m.onEvent hierarchyInit 3 hierarchyEventG).result = .ok true ∧
    ((m.onEvent hierarchyInit 3 hierarchyEventG).hsm.currentState = some hierarchyS11 ∨
      (m.onEvent hierarchyInit 3 hierarchyEventG).hsm.currentState = some hierarchyS211) ∧
    (m.onEvent hierarchyInit 3 hierarchyEventG).hsm.nextState = none := by
  obtain ⟨top, cur, next, src, hist⟩ := m
  simp only at hcur hnext
  subst hnext
  rcases hcur with rfl | rfl
  · have h := hierarchy_step_G_S11 top src hist
    exact ⟨h.1, Or.inr h.2.1, h.2.2⟩
  · have h := hierarchy_step_G_S211 top src hist
    exact ⟨h.1, Or.inl h.2.1, h.2.2⟩

theorem hierarchy_step_H_S11 (top : HsmStateBase) (src : Option HsmStateBase)
    (hist : HsmStateBase → Option HsmStateBase) :
    (HsmBase.onEvent hierarchyInit 3 hierarchyEventH
      ⟨top, some hierarchyS11, none, src, hist⟩).result = .ok true ∧
    (HsmBase.onEvent hierarchyInit 3 hierarchyEventH
      ⟨top, some hierarchyS11, none, src, hist⟩).hsm.currentState = some hierarchyS11 ∧
    (HsmBase.onEvent hierarchyInit 3 hierarchyEventH
      ⟨top, some hierarchyS11, none, src, hist⟩).hsm.nextState = none :=
  ⟨rfl, rfl, rfl⟩

theorem hierarchy_step_H_S211 (top : HsmStateBase) (src : Option HsmStateBase)
    (hist : HsmStateBase → Option HsmStateBase) :
    (HsmBase.onEvent hierarchyInit 3 hierarchyEventH
      ⟨top, some hierarchyS211, none, src, hist⟩).result = .ok true ∧
    (HsmBase.onEvent hierarchyInit 3 hierarchyEventH
      ⟨top, some hierarchyS211, none, src, hist⟩).hsm.currentState = some hierarchyS211 ∧
    (HsmBase.onEvent hierarchyInit 3 hierarchyEventH
      ⟨top, some hierarchyS211, none, src, hist⟩).hsm.nextState = none :=
  ⟨rfl, rfl, rfl⟩

/-- Event `H` of the hierarchy test, dispatched in `S11` or `S211` with nothing pending,
returns `true` and leaves the machine in `S11` or `S211` with nothing pending. -/
theorem hierarchy_step_H (m : HsmBase)
    (hcur : m.currentState = some hierarchyS11 ∨ m.currentState = some hierarchyS211)
    (hnext : m.nextState = none) :
    (m.onEvent hierarchyInit 3 hierarchyEventH).result = .ok true ∧
    ((m.onEvent hierarchyInit 3 hierarchyEventH).hsm.currentState = some hierarchyS11 ∨
      (m.onEvent hierarchyInit 3 hierarchyEventH).hsm.currentState = some hierarchyS211) ∧
    (m.onEvent hierarchyInit 3 hierarchyEventH).hsm.nextState = none := by
  obtain ⟨top, cur, next, src, hist⟩ := m
  simp only at hcur hnext
  subst hnext
  rcases hcur with rfl | rfl
  · have h := hierarchy_step_H_S11 top src hist
    exact ⟨h.1, Or.inl h.2.1, h.2.2⟩
  · have h := hierarchy_step_H_S211 top src hist
    exact ⟨h.1, Or.inr h.2.1, h.2.2⟩

/-- One dispatch of an event of the hierarchy test, in `S11` or `S211` with nothing pending,
returns `true` and leaves the machine in `S11` or `S211` with nothing pending. -/
theorem hierarchy_onEvent_step (m : HsmBase) (ev : Event) (hev : ev ∈ hierarchyEvents)
    (hcur : m.currentState = some hierarchyS11 ∨ m.currentState = some hierarchyS211)
    (hnext : m.nextState = none) :
    (m.onEvent hierarchyInit 3 ev).result = .ok true ∧
    ((m.onEvent hierarchyInit 3 ev).hsm.currentState = some hierarchyS11 ∨
      (m.onEvent hierarchyInit 3 ev).hsm.currentState = some hierarchyS211) ∧
    (m.onEvent hierarchyInit 3 ev).hsm.nextState = none := by
  simp only [hierarchyEvents, List.mem_cons, List.mem_singleton, List.not_mem_nil, or_false]
    at hev
  rcases hev with rfl | rfl | rfl | rfl | rfl | rfl | rfl | rfl
  · exact hierarchy_step_A m hcur hnext
  · exact hierarchy_step_B m hcur hnext
  · exact hierarchy_step_C m hcur hnext
  · exact hierarchy_step_D m hcur hnext
  · exact hierarchy_step_E m hcur hnext
  · exact hierarchy_step_F m hcur hnext
  · exact hierarchy_step_G m hcur hnext
  · exact hierarchy_step_H m hcur hnext

theorem hierarchy_onEvents_step (evs : List Event) (hevs : ∀ ev ∈ evs, ev ∈ hierarchyEvents) :
    ∀ m : HsmBase,
      (m.currentState = some hierarchyS11 ∨ m.currentState = some hierarchyS211) →
      m.nextState = none →
      (m.onEvents hierarchyInit 3 evs).result = .ok (evs.map fun _ => true) ∧
      ((m.onEvents hierarchyInit 3 evs).hsm.currentState = some hierarchyS11 ∨
        (m.onEvents hierarchyInit 3 evs).hsm.currentState = some hierarchyS211) ∧
      (m.onEvents hierarchyInit 3 evs).hsm.nextState = none := by
  induction evs with
  | nil =>
    intro m hcur hnext
    exact ⟨rfl, hcur, hnext⟩
  | cons ev evs ih =>
    intro m hcur hnext
    obtain ⟨hb, hcur1, hnext1⟩ :=
      hierarchy_onEvent_step m ev (hevs ev (List.mem_cons_self _ _)) hcur hnext
    obtain ⟨hbs, hcur2, hnext2⟩ :=
      ih (fun e he => hevs e (List.mem_cons_of_mem _ he)) _ hcur1 hnext1
    rw [HsmBase.onEvents, Run.bind_of_ok hb, Run.bind_of_ok hbs]
    exact ⟨rfl, hcur2, hnext2⟩

/-- C31: the machine `TOP{S1{S11}, S2{S21{S211}}}` of the hierarchy test. After `onStart`
and every finite sequence of the events `A` to `H`, all calls have returned (no assertion
failed, no super state of the root was dereferenced, nothing was written past the entry
path buffer), every `onEvent` has returned `true`, and the current state is `S11` or
`S211`. -/
theorem c31_hierarchy_machine_handles_every_sequence (evs : List Event)
    (hevs : ∀ ev ∈ evs, ev ∈ hierarchyEvents) :
    (HsmBase.startAndDispatch hierarchyInit 3 evs (HsmBase.new hierarchyTop)).result
      = .ok (evs.map fun _ => true) ∧
    ((HsmBase.startAndDispatch hierarchyInit 3 evs (HsmBase.new hierarchyTop)).hsm.currentState
        = some hierarchyS11 ∨
      (HsmBase.startAndDispatch hierarchyInit 3 evs (HsmBase.new hierarchyTop)).hsm.currentState
        = some hierarchyS211) := by
  have hstart : (HsmBase.onStart hierarchyInit 3 (HsmBase.new hierarchyTop)).result
      = .ok () := by decide
  obtain ⟨hret, hcur, _⟩ := hierarchy_onEvents_step evs hevs
    (HsmBase.onStart hierarchyInit 3 (HsmBase.new hierarchyTop)).hsm (Or.inl (by decide))
    (by decide)
  rw [HsmBase.startAndDispatch, Run.bind_of_ok hstart]
  exact ⟨hret, hcur⟩

/-- C31, witness: the event sequence of the hierarchy test, `A` to `H`. -/
theorem c31_hierarchy_machine_handles_every_sequence_witness :
    (HsmBase.startAndDispatch hierarchyInit 3 hierarchyEvents
        (HsmBase.new hierarchyTop)).result = .ok (hierarchyEvents.map fun _ => true) ∧
    ((HsmBase.startAndDispatch hierarchyInit 3 hierarchyEvents
        (HsmBase.new hierarchyTop)).hsm.currentState = some hierarchyS11 ∨
      (HsmBase.startAndDispatch hierarchyInit 3 hierarchyEvents
        (HsmBase.new hierarchyTop)).hsm.currentState = some hierarchyS211) :=
  c31_hierarchy_machine_handles_every_sequence hierarchyEvents (fun _ h => h)

/-! ## An external self transition -/

/-- C38: when the handler of the current state `s`, with super state `p`, requests
`externalTransition(s)`, with `onInit` callbacks that only request initial descents: the
dispatch invokes the handler, `onExit(s)`, `onExit(p)`, `onEnter(p)`, `onEnter(s)` and then
runs the settling loop at `s`, which begins with `onInit(s)`; when `s` is a leaf these are all
the callbacks and `s` is the current state again. When the dispatch is over `s` is the
`historySubstate` of `p`, and the `historySubstate` of every other state, the super state of
`p` included, is what it was before: the exit of `p` is not recorded. -/
theorem c38_external_self_transition (onInit : HsmStateBase → List Request)
    (hinit : ∀ n, ∀ r ∈ onInit n, r.isInitial = true) (fuel : Nat) (ev : Event) (m : HsmBase)
    (i : Nat) (p : HsmStateBase) (hcur : m.currentState = some (.sub i p))
    (hev : ev (.sub i p) = ⟨[.externalTransition (.sub i p)], true⟩) :
    m.onEvent onInit (fuel + 1) ev
      = Run.after [.onEvent (.sub i p), .onExit (.sub i p), .onExit p, .onEnter p,
            .onEnter (.sub i p)]
          ((HsmBase.initCurrentState onInit (fuel + 1)
              { m.remember p (.sub i p) with
                currentState := some (.sub i p), nextState := none,
                sourceState := some (.sub i p) }).bind fun _ m2 => Run.pure true m2) ∧
    (∃ rest, ((HsmBase.initCurrentState onInit (fuel + 1)
        { m.remember p (.sub i p) with
          currentState := some (.sub i p), nextState := none,
          sourceState := some (.sub i p) }).bind fun _ m2 => Run.pure true m2).trace
      = .onInit (.sub i p) :: rest) ∧
    (onInit (.sub i p) = [] →
      m.onEvent onInit (fuel + 1) ev
        = ⟨[.onEvent (.sub i p), .onExit (.sub i p), .onExit p, .onEnter p,
              .onEnter (.sub i p), .onInit (.sub i p)],
            { m.remember p (.sub i p) with
              currentState := some (.sub i p), nextState := none,
              sourceState := some (.sub i p) }, .ok true⟩) ∧
    (m.onEvent onInit (fuel + 1) ev).hsm.historySubstate p = some (.sub i p) ∧
    (∀ q, q ≠ p →
      (m.onEvent onInit (fuel + 1) ev).hsm.historySubstate q = m.historySubstate q) ∧
    (∀ q, p.superState = some q →
      (m.onEvent onInit (fuel + 1) ev).hsm.historySubstate q = m.historySubstate q) := by
  have hp : p ∈ (HsmStateBase.sub i p).chain := HsmStateBase.super_mem_chain i p
  have hstop : exitStop (.sub i p) (.sub i p) = some p := by
    simp [exitStop, HsmStateBase.superState]
  have hup : pathUp (.sub i p) p = [.sub i p] := pathUp_sub_super i p
  have hdown : pathDown p (.sub i p) = [.sub i p] := by simp [pathDown, pathUp_sub_super]
  have hrun : m.onEvent onInit (fuel + 1) ev
      = Run.after [.onEvent (.sub i p), .onExit (.sub i p), .onExit p, .onEnter p,
            .onEnter (.sub i p)]
          ((HsmBase.initCurrentState onInit (fuel + 1)
              { m.remember p (.sub i p) with
                currentState := some (.sub i p), nextState := none,
                sourceState := some (.sub i p) }).bind fun _ m2 => Run.pure true m2) := by
    rw [HsmBase.onEvent_externalTransition_eq onInit (fuel + 1) ev m (.sub i p) (.sub i p)
        (.sub i p) p hcur (HsmStateBase.mem_chain_self _)
        (by intro n hn; simp [pathUp_self] at hn) hev rfl hstop,
      HsmBase.enterAndInitNextState_eq onInit (fuel + 1) _ (l := p) (t := .sub i p) rfl rfl hp
        (by rw [hdown]; simp [MAX_STATE_NESTING])]
    simp only [Run.after_bind, Run.after_after, hup, hdown, pathUp_self, List.map,
      List.append_assoc, HsmBase.rememberAll, HsmBase.remember]
    rfl
  have hframe := HsmBase.initCurrentState_frame onInit hinit (fuel + 1)
    { m.remember p (.sub i p) with
      currentState := some (.sub i p), nextState := none, sourceState := some (.sub i p) }
  have hhist : (m.onEvent onInit (fuel + 1) ev).hsm.historySubstate
      = (m.remember p (.sub i p)).historySubstate := by
    rw [hrun]
    cases hres : (HsmBase.initCurrentState onInit (fuel + 1)
        { m.remember p (.sub i p) with
          currentState := some (.sub i p), nextState := none,
          sourceState := some (.sub i p) }).result with
    | error e =>
      rw [Run.bind_of_error hres]
      exact hframe.1
    | ok u =>
      rw [Run.bind_of_ok hres]
      exact hframe.1
  have hother : ∀ q, q ≠ p →
      (m.onEvent onInit (fuel + 1) ev).hsm.historySubstate q = m.historySubstate q := by
    intro q hq
    rw [hhist]
    simp [HsmBase.remember, Function.update_noteq hq]
  refine ⟨hrun, HsmBase.initCurrentState_head onInit fuel _ _ rfl, fun hleaf => ?_, ?_, hother,
    fun q hq => hother q ?_⟩
  · rw [hrun, HsmBase.initCurrentState_leaf onInit fuel _ (.sub i p) rfl rfl hleaf,
      Run.mk_ok_bind]
    simp [Run.after, Run.pure]
  · rw [hhist]
    simp [HsmBase.remember]
  · intro h
    subst h
    obtain ⟨j, hj⟩ := HsmStateBase.eq_sub_of_superState hq
    exact HsmStateBase.sub_ne_super j q hj.symm

/-- C38, witness: the hierarchy test machine in `S11`, whose handler requests
`externalTransition(S11)`: `S11` and `S1` are exited, `S1` and `S11` are entered again, and
`TOP` has no recorded history afterwards. -/
theorem c38_external_self_transition_witness :
    hierarchyStarted.onEvent hierarchyInit (2 + 1) hierarchyEventExternalSelf
      = Run.after [.onEvent hierarchyS11, .onExit hierarchyS11, .onExit hierarchyS1,
            .onEnter hierarchyS1, .onEnter hierarchyS11]
          ((HsmBase.initCurrentState hierarchyInit (2 + 1)
              { hierarchyStarted.remember hierarchyS1 hierarchyS11 with
                currentState := some hierarchyS11, nextState := none,
                sourceState := some hierarchyS11 }).bind fun _ m2 => Run.pure true m2) ∧
    (∃ rest, ((HsmBase.initCurrentState hierarchyInit (2 + 1)
        { hierarchyStarted.remember hierarchyS1 hierarchyS11 with
          currentState := some hierarchyS11, nextState := none,
          sourceState := some hierarchyS11 }).bind fun _ m2 => Run.pure true m2).trace
      = .onInit hierarchyS11 :: rest) ∧
    (hierarchyInit hierarchyS11 = [] →
      hierarchyStarted.onEvent hierarchyInit (2 + 1) hierarchyEventExternalSelf
        = ⟨[.onEvent hierarchyS11, .onExit hierarchyS11, .onExit hierarchyS1,
              .onEnter hierarchyS1, .onEnter hierarchyS11, .onInit hierarchyS11],
            { hierarchyStarted.remember hierarchyS1 hierarchyS11 with
              currentState := some hierarchyS11, nextState := none,
              sourceState := some hierarchyS11 }, .ok true⟩) ∧
    (hierarchyStarted.onEvent hierarchyInit (2 + 1)
        hierarchyEventExternalSelf).hsm.historySubstate hierarchyS1 = some hierarchyS11 ∧
    (∀ q, q ≠ hierarchyS1 →
      (hierarchyStarted.onEvent hierarchyInit (2 + 1)
          hierarchyEventExternalSelf).hsm.historySubstate q
        = hierarchyStarted.historySubstate q) ∧
    (∀ q, hierarchyS1.superState = some q →
      (hierarchyStarted.onEvent hierarchyInit (2 + 1)
          hierarchyEventExternalSelf).hsm.historySubstate q
        = hierarchyStarted.historySubstate q) :=
  c38_external_self_transition hierarchyInit
    (by
      intro n r hr
      unfold hierarchyInit at hr
      split_ifs at hr <;> simp at hr <;> subst hr <;> rfl)
    2 hierarchyEventExternalSelf hierarchyStarted 11 hierarchyS1 (by decide) (by decide)

/-! ## Null safety of the exit phase -/

/-- The exit phase of `transition(top)` requested by the handler of the root `top`: after the
exits up to the root, the second loop exits the root and reads the super state of the
root. -/
theorem HsmBase.exitUpToLCA_root_self (m : HsmBase) {c : HsmStateBase} {j : Nat}
    (hcur : m.currentState = some c) (hsrc : m.sourceState = some (.root j))
    (hs : HsmStateBase.root j ∈ c.chain) :
    m.exitUpToLCA (.root j)
      = ⟨(pathUp c (.root j)).map .onExit ++ [.onExit (.root j)],
          m.rememberAll (pathUp c (.root j)), .error .nullDereference⟩ := by
  rw [HsmBase.exitUpToLCA, hcur]
  simp only
  rw [HsmBase.exitUpToSource_eq m hsrc hs, Run.mk_ok_bind]
  simp [HsmBase.levelsToLCA, hsrc, HsmBase.exitLevels, Run.after, Run.fail, Run.bind]

theorem exitStop_isSome {s t : HsmStateBase} (hnot : ¬ (s = t ∧ t.superState = none)) :
    ∃ l, exitStop s t = some l := by
  unfold exitStop
  by_cases h : t = s
  · subst h
    rw [if_pos rfl]
    cases hsup : t.superState with
    | none => exact absurd ⟨rfl, hsup⟩ hnot
    | some p => exact ⟨p, rfl⟩
  · rw [if_neg h]
    exact ⟨_, rfl⟩

theorem exitStop_mem_target_chain {s t l : HsmStateBase} (htree : t.rootOf = s.rootOf)
    (hstop : exitStop s t = some l) : l ∈ t.chain := by
  unfold exitStop at hstop
  split at hstop
  · rename_i h
    subst h
    obtain ⟨i, hi⟩ := HsmStateBase.eq_sub_of_superState hstop
    rw [hi]
    exact HsmStateBase.super_mem_chain i l
  · simp only [Option.some.injEq] at hstop
    subst hstop
    exact (lca_isLCA htree.symm).2.1

/-- The path trace of `enterNextState` from a state whose chain holds the current state never
reads the super state of the root. -/
theorem tracePath_no_null {l t : HsmStateBase} (hl : l ∈ t.chain) :
    tracePath (some l) t [] ≠ .error .nullDereference := by
  by_cases h : (pathUp t l).length < MAX_STATE_NESTING
  · rw [tracePath_eq hl [] (by simpa using h)]
    simp
  · rw [tracePath_overflow hl [] (by simp [MAX_STATE_NESTING]) (by simpa using h)]
    simp

/-- C36: let the source `s` of a transition be the current state `c` or an ancestor of it,
the target `t` a state of the same tree, and not `s = t` with `t` the root. Then the exit
phase does not read the super state of the root: `exitUpToLCA` returns, after `onExit` on the
states from `c` up to but excluding the state `l` at which it stops, with `l` the current
state; `l` is the target or an ancestor of it, so that the path trace of `enterNextState`
meets the current state and does not read the super state of the root either. Conversely, on
a machine with current state `c0` in which the handler of the root requests `transition` to
the root itself, the exit phase exits the root and reads its super state. -/
theorem c36_exit_phase_is_null_safe (m : HsmBase) (c s t : HsmStateBase)
    (hcur : m.currentState = some c) (hsrc : m.sourceState = some s) (hs : s ∈ c.chain)
    (htree : t.rootOf = s.rootOf) (hnot : ¬ (s = t ∧ t.superState = none))
    (m0 : HsmBase) (c0 : HsmStateBase) (j : Nat) (hcur0 : m0.currentState = some c0)
    (hsrc0 : m0.sourceState = some (.root j)) (hs0 : HsmStateBase.root j ∈ c0.chain) :
    (∃ l, exitStop s t = some l ∧ l ∈ t.chain ∧
      m.exitUpToLCA t
        = ⟨(pathUp c l).map .onExit,
            { m.rememberAll (pathUp c l) with currentState := some l }, .ok ()⟩) ∧
    (m.exitUpToLCA t).result = .ok () ∧
    (HsmBase.enterNextState { (m.exitUpToLCA t).hsm with nextState := some t }).result
      ≠ .error .nullDereference ∧
    (m0.exitUpToLCA (.root j)).result = .error .nullDereference ∧
    (m0.exitUpToLCA (.root j)).trace
      = (pathUp c0 (.root j)).map .onExit ++ [.onExit (.root j)] := by
  obtain ⟨l, hstop⟩ := exitStop_isSome hnot
  have hl := exitStop_mem_target_chain htree hstop
  have hrun := HsmBase.exitUpToLCA_stop m hcur hsrc hs htree hstop
  have hroot := HsmBase.exitUpToLCA_root_self m0 hcur0 hsrc0 hs0
  have henter : (HsmBase.enterNextState
      { (m.exitUpToLCA t).hsm with nextState := some t }).result
        ≠ .error .nullDereference := by
    rw [hrun]
    simp only [HsmBase.enterNextState]
    have hnn := tracePath_no_null hl
    cases htp : tracePath (some l) t [] with
    | ok path => simp [Run.after, Run.pure]
    | error f =>
      simp only [Run.fail]
      intro hf
      injection hf with hf
      exact hnn (by rw [htp, hf])
  refine ⟨⟨l, hstop, hl, hrun⟩, by rw [hrun], henter,
    by rw [hroot], by rw [hroot]⟩

/-- C36, witness: the hierarchy test machine in `S11` when the handler of `S1` requests
`transition(S2)`; and the same machine when the handler of `TOP` requests
`transition(TOP)`. -/
theorem c36_exit_phase_is_null_safe_witness :
    (∃ l, exitStop hierarchyS1 hierarchyS2 = some l ∧ l ∈ hierarchyS2.chain ∧
      HsmBase.exitUpToLCA { hierarchyStarted with sourceState := some hierarchyS1 } hierarchyS2
        = ⟨(pathUp hierarchyS11 l).map .onExit,
            { HsmBase.rememberAll { hierarchyStarted with sourceState := some hierarchyS1 }
                (pathUp hierarchyS11 l) with currentState := some l }, .ok ()⟩) ∧
    (HsmBase.exitUpToLCA { hierarchyStarted with sourceState := some hierarchyS1 }
        hierarchyS2).result = .ok () ∧
    (HsmBase.enterNextState
        { (HsmBase.exitUpToLCA { hierarchyStarted with sourceState := some hierarchyS1 }
            hierarchyS2).hsm with nextState := some hierarchyS2 }).result
      ≠ .error .nullDereference ∧
    (HsmBase.exitUpToLCA { hierarchyStarted with sourceState := some (.root 0) }
        (.root 0)).result = .error .nullDereference ∧
    (HsmBase.exitUpToLCA { hierarchyStarted with sourceState := some (.root 0) }
        (.root 0)).trace
      = (pathUp hierarchyS11 (.root 0)).map .onExit ++ [.onExit (.root 0)] :=
  c36_exit_phase_is_null_safe { hierarchyStarted with sourceState := some hierarchyS1 }
    hierarchyS11 hierarchyS1 hierarchyS2 (by decide) rfl (by decide) (by decide) (by decide)
    { hierarchyStarted with sourceState := some (.root 0) } hierarchyS11 0 (by decide) rfl
    (by decide)

/-! ## The slots of the entry path buffer -/

/-- The trace loop of `enterNextState` writes the states from the pending state up to but
excluding the current state to consecutive slots, beginning right after the slot it starts
at. -/
theorem entryPathWrites_eq {l t : HsmStateBase} (hl : l ∈ t.chain) (slot : Nat) :
    entryPathWrites (some l) t slot
      = List.zip (List.range' (slot + 1) (pathUp t l).length) (pathUp t l) := by
  induction t generalizing slot with
  | root i =>
    have : l = .root i := by simpa [HsmStateBase.chain] using hl
    subst this
    simp [entryPathWrites, pathUp_self]
  | sub i p ih =>
    by_cases hc : HsmStateBase.sub i p = l
    · subst hc
      simp [entryPathWrites, pathUp_self]
    · have hne : ¬ (l = HsmStateBase.sub i p) := fun h => hc h.symm
      rw [entryPathWrites]
      simp only [Option.some.injEq, hne, if_false]
      rw [ih (mem_chain_sub_of_ne hl hc), pathUp_sub hc]
      simp [List.range'_succ]

/-- C37: let the current state `l` be the pending state `t` or an ancestor of it, with `k`
states on the path from `t` up to but excluding `l`. The trace loop of `enterNextState` writes
these `k` states, deepest first, to the slots `1..k` of `entry_path` (slot `0` holds the null
sentinel); every written slot is one of the `MAX_STATE_NESTING = 7` slots exactly when
`k ≤ 6`, and exactly then `enterNextState` does not write past the buffer. For `k ≤ 6` it
invokes `onEnter` on exactly these `k` states, shallowest first, and nothing else, leaving the
machine as it is; for `k > 6` it invokes nothing before the write past the buffer. -/
theorem c37_entry_path_fits_iff_at_most_six (m : HsmBase) (l t : HsmStateBase)
    (hcur : m.currentState = some l) (hnext : m.nextState = some t) (hl : l ∈ t.chain) :
    (entryPathWrites m.currentState t 0).map Prod.fst
      = List.range' 1 (pathUp t l).length ∧
    (entryPathWrites m.currentState t 0).map Prod.snd = pathUp t l ∧
    ((∀ w ∈ entryPathWrites m.currentState t 0, w.1 < MAX_STATE_NESTING)
      ↔ (pathUp t l).length ≤ 6) ∧
    (m.enterNextState.result ≠ .error .bufferOverflow ↔ (pathUp t l).length ≤ 6) ∧
    ((pathUp t l).length ≤ 6 →
      m.enterNextState = ⟨(pathUp t l).reverse.map .onEnter, m, .ok ()⟩) ∧
    (6 < (pathUp t l).length → m.enterNextState = ⟨[], m, .error .bufferOverflow⟩) := by
  have hw := entryPathWrites_eq hl 0
  rw [hcur]
  have hfst : (entryPathWrites (some l) t 0).map Prod.fst
      = List.range' 1 (pathUp t l).length := by
    rw [hw]
    exact List.map_fst_zip _ _ (by simp)
  have hsnd : (entryPathWrites (some l) t 0).map Prod.snd = pathUp t l := by
    rw [hw]
    exact List.map_snd_zip _ _ (by simp)
  have hfit : (pathUp t l).length ≤ 6 →
      m.enterNextState = ⟨(pathUp t l).reverse.map .onEnter, m, .ok ()⟩ := by
    intro hk
    have := HsmBase.enterNextState_eq m hcur hnext hl
      (by simp only [pathDown, List.length_reverse, MAX_STATE_NESTING]; omega)
    simpa [pathDown] using this
  have hover : 6 < (pathUp t l).length →
      m.enterNextState = ⟨[], m, .error .bufferOverflow⟩ := by
    intro hk
    rw [HsmBase.enterNextState, hnext]
    simp only [hcur]
    rw [tracePath_overflow hl [] (by simp [MAX_STATE_NESTING])
      (by simp only [MAX_STATE_NESTING, List.length_nil]; omega)]
    rfl
  refine ⟨hfst, hsnd, ?_, ?_, hfit, hover⟩
  · constructor
    · intro h
      by_contra hk
      have hmem : (7 : Nat) ∈ (entryPathWrites (some l) t 0).map Prod.fst := by
        rw [hfst, List.mem_range'_1]
        omega
      obtain ⟨w, hw1, hw2⟩ := List.mem_map.1 hmem
      have := h w hw1
      rw [hw2] at this
      simp [MAX_STATE_NESTING] at this
    · intro hk w hw1
      have hmem : w.1 ∈ (entryPathWrites (some l) t 0).map Prod.fst :=
        List.mem_map_of_mem _ hw1
      rw [hfst, List.mem_range'_1] at hmem
      simp only [MAX_STATE_NESTING]
      omega
  · constructor
    · intro h
      by_contra hk
      exact h (by rw [hover (by omega)])
    · intro hk
      rw [hfit hk]
      simp

/-- C37, witness: the hierarchy test machine with current state `TOP` and pending state
`S211`, as after the exit phase of event `E`: three states on the path. -/
theorem c37_entry_path_fits_iff_at_most_six_witness :
    (entryPathWrites
        (HsmBase.currentState { hierarchyStarted with
          currentState := some hierarchyTop, nextState := some hierarchyS211 })
        hierarchyS211 0).map Prod.fst
      = List.range' 1 (pathUp hierarchyS211 hierarchyTop).length ∧
    (entryPathWrites
        (HsmBase.currentState { hierarchyStarted with
          currentState := some hierarchyTop, nextState := some hierarchyS211 })
        hierarchyS211 0).map Prod.snd = pathUp hierarchyS211 hierarchyTop ∧
    ((∀ w ∈ entryPathWrites
        (HsmBase.currentState { hierarchyStarted with
          currentState := some hierarchyTop, nextState := some hierarchyS211 })
        hierarchyS211 0, w.1 < MAX_STATE_NESTING)
      ↔ (pathUp hierarchyS211 hierarchyTop).length ≤ 6) ∧
    ((HsmBase.enterNextState { hierarchyStarted with
          currentState := some hierarchyTop, nextState := some hierarchyS211 }).result
        ≠ .error .bufferOverflow ↔ (pathUp hierarchyS211 hierarchyTop).length ≤ 6) ∧
    ((pathUp hierarchyS211 hierarchyTop).length ≤ 6 →
      HsmBase.enterNextState { hierarchyStarted with
          currentState := some hierarchyTop, nextState := some hierarchyS211 }
        = ⟨(pathUp hierarchyS211 hierarchyTop).reverse.map .onEnter,
            { hierarchyStarted with
              currentState := some hierarchyTop, nextState := some hierarchyS211 },
            .ok ()⟩) ∧
    (6 < (pathUp hierarchyS211 hierarchyTop).length →
      HsmBase.enterNextState { hierarchyStarted with
          currentState := some hierarchyTop, nextState := some hierarchyS211 }
        = ⟨[], { hierarchyStarted with
              currentState := some hierarchyTop, nextState := some hierarchyS211 },
            .error .bufferOverflow⟩) :=
  c37_entry_path_fits_iff_at_most_six
    { hierarchyStarted with currentState := some hierarchyTop, nextState := some hierarchyS211 }
    hierarchyTop hierarchyS211 rfl rfl (by decide)

/-- The slots written for the entry paths of the hierarchy test and of the tree with eight
levels: `S2`, `S21`, `S211` go to the slots 3, 2, 1; the seven states down to `deep7` need the
slots 1 to 7, and slot 7 is not one of the seven slots `0..6`. -/
theorem entryPathWrites_examples :
    entryPathWrites (some hierarchyTop) hierarchyS211 0
      = [(1, hierarchyS211), (2, hierarchyS21), (3, hierarchyS2)] ∧
    (entryPathWrites (some deepTop) deep7 0).map Prod.fst = [1, 2, 3, 4, 5, 6, 7] := by
  decide

/-! ## Well-formed history -/

theorem HistoryWellFormed.remember_sub {m : HsmBase}
    (h : HistoryWellFormed m.historySubstate) (i : Nat) (p : HsmStateBase) :
    HistoryWellFormed (m.remember p (.sub i p)).historySubstate := by
  intro q x hx
  by_cases hq : q = p
  · subst hq
    simp only [HsmBase.remember, Function.update_same, Option.some.injEq] at hx
    subst hx
    rfl
  · simp only [HsmBase.remember, Function.update_noteq hq] at hx
    exact h q x hx

theorem HsmBase.exitUpToSource_wf (state : HsmStateBase) :
    ∀ m : HsmBase, HistoryWellFormed m.historySubstate →
      HistoryWellFormed (m.exitUpToSource state).hsm.historySubstate := by
  induction state with
  | root i =>
    intro m h
    rw [HsmBase.exitUpToSource]
    split <;> simpa [Run.pure, Run.after, Run.fail] using h
  | sub i p ih =>
    intro m h
    rw [HsmBase.exitUpToSource]
    split
    · simpa [Run.pure] using h
    · simpa [Run.after] using ih (m.remember p (.sub i p)) (h.remember_sub i p)

theorem HsmBase.exitLevels_wf (n : Nat) :
    ∀ (state : HsmStateBase) (m : HsmBase), HistoryWellFormed m.historySubstate →
      HistoryWellFormed (m.exitLevels n state).hsm.historySubstate := by
  induction n with
  | zero =>
    intro state m h
    simpa [HsmBase.exitLevels, Run.pure] using h
  | succ k ih =>
    intro state m h
    cases state with
    | root i => simpa [HsmBase.exitLevels, Run.after, Run.fail] using h
    | sub i p =>
      simpa [HsmBase.exitLevels, Run.after] using
        ih p (m.remember p (.sub i p)) (h.remember_sub i p)

theorem Run.bind_wf {α β : Type} (r : Run α) (f : α → HsmBase → Run β)
    (hr : HistoryWellFormed r.hsm.historySubstate)
    (hf : ∀ a m, HistoryWellFormed m.historySubstate →
      HistoryWellFormed (f a m).hsm.historySubstate) :
    HistoryWellFormed (r.bind f).hsm.historySubstate := by
  cases hres : r.result with
  | error e => rw [Run.bind_of_error hres]; exact hr
  | ok a => rw [Run.bind_of_ok hres]; exact hf a r.hsm hr

theorem HsmBase.exitUpToLCA_wf (m : HsmBase) (t : HsmStateBase)
    (h : HistoryWellFormed m.historySubstate) :
    HistoryWellFormed (m.exitUpToLCA t).hsm.historySubstate := by
  unfold HsmBase.exitUpToLCA
  split
  · split <;> simpa [Run.pure, Run.fail] using h
  · refine Run.bind_wf _ _ (HsmBase.exitUpToSource_wf _ m h) (fun a m1 h1 => ?_)
    refine Run.bind_wf _ _ (HsmBase.exitLevels_wf _ _ m1 h1) (fun a2 m2 h2 => ?_)
    simpa [Run.pure] using h2

theorem HsmBase.call_wf (m : HsmBase) (r : Request)
    (h : HistoryWellFormed m.historySubstate) :
    HistoryWellFormed (m.call r).hsm.historySubstate := by
  cases r with
  | transition t =>
    simp only [HsmBase.call, HsmBase.transition]
    split
    · simpa [Run.fail] using h
    · exact Run.bind_wf _ _ (HsmBase.exitUpToLCA_wf m t h)
        (fun _ m1 h1 => by simpa [Run.pure] using h1)
  | externalTransition t =>
    simp only [HsmBase.call, HsmBase.externalTransition]
    split
    · simpa [Run.fail] using h
    · refine Run.bind_wf _ _ (HsmBase.exitUpToLCA_wf m t h) (fun _ m1 h1 => ?_)
      split <;> simpa [Run.fail, Run.after, Run.pure] using h1
  | initialTransition s => simpa [HsmBase.call, HsmBase.initialTransition, Run.pure] using h
  | initialHistoryTransition s =>
    simp only [HsmBase.call, HsmBase.initialHistoryTransition]
    split
    · simpa [Run.fail] using h
    · split <;> simpa [HsmBase.initialTransition, Run.pure] using h

theorem HsmBase.calls_wf (rs : List Request) :
    ∀ m : HsmBase, HistoryWellFormed m.historySubstate →
      HistoryWellFormed (m.calls rs).hsm.historySubstate := by
  induction rs with
  | nil =>
    intro m h
    simpa [HsmBase.calls, Run.pure] using h
  | cons r rs ih =>
    intro m h
    rw [HsmBase.calls]
    exact Run.bind_wf _ _ (HsmBase.call_wf m r h) (fun _ m1 h1 => ih m1 h1)

theorem HsmBase.initCurrentState_wf (onInit : HsmStateBase → List Request) (fuel : Nat) :
    ∀ m : HsmBase, HistoryWellFormed m.historySubstate →
      HistoryWellFormed (HsmBase.initCurrentState onInit fuel m).hsm.historySubstate := by
  induction fuel with
  | zero =>
    intro m h
    simpa [HsmBase.initCurrentState, Run.fail] using h
  | succ k ih =>
    intro m h
    rw [HsmBase.initCurrentState]
    split
    · simpa [Run.fail] using h
    · simp only [Run.after]
      refine Run.bind_wf _ _ (HsmBase.calls_wf _ m h) (fun _ m1 h1 => ?_)
      split
      · simpa [Run.pure] using h1
      · split
        · refine Run.bind_wf _ _ (by rw [HsmBase.enterNextState_hsm]; exact h1)
            (fun _ m2 h2 => ?_)
          exact ih _ h2
        · simpa [Run.fail] using h1

theorem HsmBase.afterHandled_wf (onInit : HsmStateBase → List Request) (fuel : Nat)
    (m : HsmBase) (h : HistoryWellFormed m.historySubstate) :
    HistoryWellFormed (HsmBase.afterHandled onInit fuel m).hsm.historySubstate := by
  unfold HsmBase.afterHandled
  split
  · refine Run.bind_wf _ _ ?_ (fun _ m2 h2 => by simpa [Run.pure] using h2)
    unfold HsmBase.enterAndInitNextState
    refine Run.bind_wf _ _ (by rw [HsmBase.enterNextState_hsm]; exact h) (fun _ m1 h1 => ?_)
    exact HsmBase.initCurrentState_wf onInit fuel _ h1
  · simpa [Run.pure] using h

theorem HsmBase.onEventFrom_wf (onInit : HsmStateBase → List Request) (fuel : Nat)
    (ev : Event) (c : HsmStateBase) :
    ∀ m : HsmBase, HistoryWellFormed m.historySubstate →
      HistoryWellFormed (m.onEventFrom onInit fuel ev c).hsm.historySubstate := by
  induction c with
  | root i =>
    intro m h
    have hc := HsmBase.calls_wf (ev (.root i)).requests
      { m with sourceState := some (.root i) } h
    cases hres : (HsmBase.calls { m with sourceState := some (.root i) }
        (ev (.root i)).requests).result with
    | error e =>
      rw [HsmBase.onEventFrom_fault onInit fuel ev m _ e hres]
      exact hc
    | ok u =>
      cases hh : (ev (.root i)).handled with
      | true =>
        rw [HsmBase.onEventFrom_handled onInit fuel ev m _ hres hh]
        exact HsmBase.afterHandled_wf onInit fuel _ hc
      | false =>
        rw [HsmBase.onEventFrom_root_unhandled onInit fuel ev m _ hres hh]
        exact hc
  | sub i p ih =>
    intro m h
    have hc := HsmBase.calls_wf (ev (.sub i p)).requests
      { m with sourceState := some (.sub i p) } h
    cases hres : (HsmBase.calls { m with sourceState := some (.sub i p) }
        (ev (.sub i p)).requests).result with
    | error e =>
      rw [HsmBase.onEventFrom_fault onInit fuel ev m _ e hres]
      exact hc
    | ok u =>
      cases hh : (ev (.sub i p)).handled with
      | true =>
        rw [HsmBase.onEventFrom_handled onInit fuel ev m _ hres hh]
        exact HsmBase.afterHandled_wf onInit fuel _ hc
      | false =>
        rw [HsmBase.onEventFrom_sub_unhandled onInit fuel ev m _ _ hres hh]
        exact ih _ hc

theorem HsmBase.onEvent_wf (onInit : HsmStateBase → List Request) (fuel : Nat) (ev : Event)
    (m : HsmBase) (h : HistoryWellFormed m.historySubstate) :
    HistoryWellFormed (m.onEvent onInit fuel ev).hsm.historySubstate := by
  unfold HsmBase.onEvent
  split
  · simpa [Run.pure] using h
  · exact HsmBase.onEventFrom_wf onInit fuel ev _ m h

theorem HsmBase.onEvents_wf (onInit : HsmStateBase → List Request) (fuel : Nat)
    (evs : List Event) :
    ∀ m : HsmBase, HistoryWellFormed m.historySubstate →
      HistoryWellFormed (m.onEvents onInit fuel evs).hsm.historySubstate := by
  induction evs with
  | nil =>
    intro m h
    simpa [HsmBase.onEvents, Run.pure] using h
  | cons ev evs ih =>
    intro m h
    rw [HsmBase.onEvents]
    refine Run.bind_wf _ _ (HsmBase.onEvent_wf onInit fuel ev m h) (fun _ m1 h1 => ?_)
    exact Run.bind_wf _ _ (ih m1 h1) (fun _ m2 h2 => by simpa [Run.pure] using h2)

theorem HsmBase.onStart_wf (onInit : HsmStateBase → List Request) (fuel : Nat) (m : HsmBase)
    (h : HistoryWellFormed m.historySubstate) :
    HistoryWellFormed (m.onStart onInit fuel).hsm.historySubstate := by
  unfold HsmBase.onStart
  split_ifs
  · exact h
  · exact h
  · exact HsmBase.initCurrentState_wf onInit fuel
      { m with currentState := some m.topState, nextState := none } h

/-- Whatever the callbacks do, the machine reached by `onStart` and a sequence of dispatches
from a freshly constructed machine has a well-formed history. -/
theorem HsmBase.startAndDispatch_wf (onInit : HsmStateBase → List Request) (fuel : Nat)
    (evs : List Event) (top : HsmStateBase) :
    HistoryWellFormed
      (HsmBase.startAndDispatch onInit fuel evs (HsmBase.new top)).hsm.historySubstate := by
  unfold HsmBase.startAndDispatch
  refine Run.bind_wf _ _ (HsmBase.onStart_wf onInit fuel _ ?_)
    (fun _ m1 h1 => HsmBase.onEvents_wf onInit fuel evs m1 h1)
  intro p h hp
  simp [HsmBase.new] at hp

/-- The calls of an `onInit` that names direct sub states of the current state `c`, on a
machine with well-formed history: they return, invoke nothing and change `nextState` only,
to a direct sub state of `c` when there is a call. -/
theorem HsmBase.calls_children (c : HsmStateBase) (rs : List Request) :
    ∀ m : HsmBase, m.currentState = some c → HistoryWellFormed m.historySubstate →
      (∀ r ∈ rs, ∃ d, d.superState = some c ∧
        (r = .initialTransition d ∨ r = .initialHistoryTransition d)) →
      ∃ nx, m.calls rs = ⟨[], { m with nextState := nx }, .ok ()⟩ ∧
        (nx = m.nextState ∨ ∃ x, nx = some x ∧ x.superState = some c) := by
  induction rs with
  | nil =>
    intro m _ _ _
    exact ⟨m.nextState, rfl, Or.inl rfl⟩
  | cons r rs ih =>
    intro m hcur hwf hrs
    obtain ⟨d, hd, hr⟩ := hrs r (List.mem_cons_self _ _)
    have hcall : ∃ x, x.superState = some c ∧
        m.call r = ⟨[], { m with nextState := some x }, .ok ()⟩ := by
      rcases hr with rfl | rfl
      · exact ⟨d, hd, rfl⟩
      · cases hh : m.historySubstate c with
        | none =>
          exact ⟨d, hd, by
            simp [HsmBase.call, HsmBase.initialHistoryTransition, hcur, hh,
              HsmBase.initialTransition, Run.pure]⟩
        | some h =>
          exact ⟨h, hwf c h hh, by
            simp [HsmBase.call, HsmBase.initialHistoryTransition, hcur, hh,
              HsmBase.initialTransition, Run.pure]⟩
    obtain ⟨x, hx, hcall⟩ := hcall
    obtain ⟨nx, hnx, hor⟩ := ih { m with nextState := some x } hcur hwf
      (fun r2 hr2 => hrs r2 (List.mem_cons_of_mem _ hr2))
    refine ⟨nx, ?_, Or.inr ?_⟩
    · rw [HsmBase.calls, hcall, Run.mk_ok_bind, hnx]
      rfl
    · rcases hor with h | h
      · exact ⟨x, h, hx⟩
      · exact h

/-- The settling loop with `onInit` callbacks that name direct sub states, on a machine with
well-formed history and nothing pending, never fails the direct-child assertion. -/
theorem HsmBase.initCurrentState_no_assertion (onInit : HsmStateBase → List Request)
    (hvalid : NamesDirectChildren onInit) (fuel : Nat) :
    ∀ (m : HsmBase) (c : HsmStateBase), m.currentState = some c → m.nextState = none →
      HistoryWellFormed m.historySubstate →
      (HsmBase.initCurrentState onInit fuel m).result ≠ .error .assertion := by
  induction fuel with
  | zero =>
    intro m c _ _ _
    simp [HsmBase.initCurrentState, Run.fail]
  | succ k ih =>
    intro m c hcur hnext hwf
    obtain ⟨top, cur, next, src, hist⟩ := m
    simp only at hcur hnext hwf
    subst hcur hnext
    obtain ⟨nx, hcalls, hor⟩ := HsmBase.calls_children c (onInit c)
      ⟨top, some c, none, src, hist⟩ rfl hwf (hvalid c)
    rw [HsmBase.initCurrentState]
    simp only
    rw [hcalls, Run.mk_ok_bind]
    cases nx with
    | none => simp [Run.after, Run.pure]
    | some x =>
      have hx : x.superState = some c := by
        rcases hor with h | ⟨y, hy, hsup⟩
        · exact absurd h (by simp)
        · simp only [Option.some.injEq] at hy
          subst hy
          exact hsup
      obtain ⟨i, hi⟩ := HsmStateBase.eq_sub_of_superState hx
      subst hi
      simp only [HsmStateBase.superState, if_true]
      rw [HsmBase.enterNextState_eq ⟨top, some c, some (.sub i c), src, hist⟩ (l := c)
        (t := .sub i c) rfl rfl (HsmStateBase.super_mem_chain i c)
        (by simp [pathDown, pathUp_sub_super, MAX_STATE_NESTING]), Run.mk_ok_bind]
      simp only [Run.after]
      exact ih _ (.sub i c) rfl rfl hwf

/-- C34: whatever the handlers and `onInit` callbacks do, in the machine reached from a
freshly constructed machine by `onStart` and any sequence of dispatches (returned or not),
the `historySubstate` of every state `p` is null or a state whose super state is `p`. Hence
the settling loop started there at any state `c`, with `onInit` callbacks that name direct
sub states (through `initialTransition` or `initialHistoryTransition`, so that the recorded
history is entered where there is one), never fails the direct-child assertion. -/
theorem c34_history_is_null_or_direct_child (onInit : HsmStateBase → List Request)
    (fuel : Nat) (evs : List Event) (top : HsmStateBase)
    (onInit2 : HsmStateBase → List Request) (hvalid : NamesDirectChildren onInit2)
    (fuel2 : Nat) (c : HsmStateBase) :
    (∀ p, (HsmBase.startAndDispatch onInit fuel evs (HsmBase.new top)).hsm.historySubstate p
        = none ∨
      ∃ h, (HsmBase.startAndDispatch onInit fuel evs (HsmBase.new top)).hsm.historySubstate p
          = some h ∧ h.superState = some p) ∧
    (HsmBase.initCurrentState onInit2 fuel2
      { (HsmBase.startAndDispatch onInit fuel evs (HsmBase.new top)).hsm with
        currentState := some c, nextState := none }).result ≠ .error .assertion := by
  have hwf := HsmBase.startAndDispatch_wf onInit fuel evs top
  refine ⟨fun p => ?_, HsmBase.initCurrentState_no_assertion onInit2 hvalid fuel2 _ c rfl rfl
    hwf⟩
  cases hp : (HsmBase.startAndDispatch onInit fuel evs (HsmBase.new top)).hsm.historySubstate p
    with
  | none => exact Or.inl rfl
  | some h => exact Or.inr ⟨h, rfl, hwf p h hp⟩

/-- C34, witness: the history test machine after `onStart`, `On`, `B`, `Off`, with `B`
recorded as the history of `ENABLED`, and the settling loop of the test started at
`ENABLED`. -/
theorem c34_history_is_null_or_direct_child_witness :
    (∀ p, (HsmBase.startAndDispatch historyInit 3
          [historyEventOn, historyEventB, historyEventOff]
          (HsmBase.new historyTop)).hsm.historySubstate p = none ∨
      ∃ h, (HsmBase.startAndDispatch historyInit 3
          [historyEventOn, historyEventB, historyEventOff]
          (HsmBase.new historyTop)).hsm.historySubstate p = some h ∧
        h.superState = some p) ∧
    (HsmBase.initCurrentState historyInit 2
      { (HsmBase.startAndDispatch historyInit 3
          [historyEventOn, historyEventB, historyEventOff]
          (HsmBase.new historyTop)).hsm with
        currentState := some historyEnabled, nextState := none }).result
      ≠ .error .assertion :=
  c34_history_is_null_or_direct_child historyInit 3
    [historyEventOn, historyEventB, historyEventOff] historyTop historyInit
    (by
      intro n r hr
      unfold historyInit at hr
      split_ifs at hr with h1 h2
      · simp only [List.mem_singleton] at hr
        subst hr h1
        exact ⟨historyDisabled, rfl, Or.inl rfl⟩
      · simp only [List.mem_singleton] at hr
        subst hr h2
        exact ⟨historyA, rfl, Or.inr rfl⟩
      · simp at hr)
    2 historyEnabled

/-! ## Termination of the settling loop -/

theorem HsmStateBase.depth_le_of_mem_chain {a b : HsmStateBase} (h : a ∈ b.chain) :
    a.depth ≤ b.depth := by
  induction b with
  | root i =>
    simp only [HsmStateBase.chain, List.mem_singleton] at h
    rw [h]
  | sub i p ih =>
    simp only [HsmStateBase.chain, List.mem_cons] at h
    rcases h with h | h
    · rw [h]
    · exact Nat.le_succ_of_le (ih h)

theorem foldr_max_le (l : List Nat) : ∀ x ∈ l, x ≤ l.foldr max 0 := by
  induction l with
  | nil => simp
  | cons a l ih =>
    intro x hx
    simp only [List.mem_cons] at hx
    simp only [List.foldr_cons]
    rcases hx with rfl | hx
    · exact le_max_left _ _
    · exact le_trans (ih x hx) (le_max_right _ _)

theorem foldr_max_mem (l : List Nat) : l.foldr max 0 = 0 ∨ l.foldr max 0 ∈ l := by
  induction l with
  | nil => simp
  | cons a l ih =>
    simp only [List.foldr_cons, List.mem_cons]
    rcases max_cases a (l.foldr max 0) with ⟨h, _⟩ | ⟨h, _⟩
    · exact Or.inr (Or.inl h)
    · rw [h]
      rcases ih with h0 | hm
      · exact Or.inl h0
      · exact Or.inr (Or.inr hm)

theorem le_subtreeHeight {tree : List HsmStateBase} {n y : HsmStateBase} (hy : y ∈ tree)
    (hn : n ∈ y.chain) : y.depth - n.depth ≤ subtreeHeight tree n := by
  apply foldr_max_le
  simp only [List.mem_map, List.mem_filter, decide_eq_true_eq]
  exact ⟨y, ⟨hy, hn⟩, rfl⟩

/-- The subtree of a sub state that belongs to the tree is lower than the subtree of its
super state. -/
theorem subtreeHeight_sub {tree : List HsmStateBase} {i : Nat} {c : HsmStateBase}
    (hx : .sub i c ∈ tree) :
    subtreeHeight tree (.sub i c) + 1 ≤ subtreeHeight tree c := by
  have hatt : ∃ y ∈ tree, HsmStateBase.sub i c ∈ y.chain ∧
      subtreeHeight tree (.sub i c) = y.depth - (HsmStateBase.sub i c).depth := by
    rcases foldr_max_mem ((tree.filter fun x => decide (HsmStateBase.sub i c ∈ x.chain)).map
      fun x => x.depth - (HsmStateBase.sub i c).depth) with h | h
    · exact ⟨.sub i c, hx, HsmStateBase.mem_chain_self _, by
        rw [subtreeHeight, h, Nat.sub_self]⟩
    · simp only [List.mem_map, List.mem_filter, decide_eq_true_eq] at h
      obtain ⟨y, ⟨hy, hyc⟩, he⟩ := h
      exact ⟨y, hy, hyc, he.symm⟩
  obtain ⟨y, hy, hyc, he⟩ := hatt
  have hc : c ∈ y.chain := HsmStateBase.mem_chain_trans (HsmStateBase.super_mem_chain i c) hyc
  have hd := HsmStateBase.depth_le_of_mem_chain hyc
  have hle := le_subtreeHeight hy hc
  simp only [HsmStateBase.depth] at he hd
  omega

/-- The calls of an `onInit` that requests initial descents only, made while `c` is being
initialised: they return, invoke nothing and change `nextState` only, to the state that one of
the requests names. -/
theorem HsmBase.calls_initial_next (c : HsmStateBase) (rs : List Request) :
    ∀ m : HsmBase, m.currentState = some c → (∀ r ∈ rs, r.isInitial = true) →
      ∃ nx, m.calls rs = ⟨[], { m with nextState := nx }, .ok ()⟩ ∧
        (nx = m.nextState ∨
          ∃ r ∈ rs, ∃ x, r.initialTarget (m.historySubstate c) = some x ∧ nx = some x) := by
  induction rs with
  | nil =>
    intro m _ _
    exact ⟨m.nextState, rfl, Or.inl rfl⟩
  | cons r rs ih =>
    intro m hcur hrs
    have hr := hrs r (List.mem_cons_self _ _)
    have hx : ∃ x, r.initialTarget (m.historySubstate c) = some x := by
      cases r with
      | transition t => simp [Request.isInitial] at hr
      | externalTransition t => simp [Request.isInitial] at hr
      | initialTransition s => exact ⟨s, rfl⟩
      | initialHistoryTransition s => exact ⟨_, rfl⟩
    obtain ⟨x, hx⟩ := hx
    obtain ⟨nx, hnx, hor⟩ := ih { m with nextState := some x } hcur
      (fun r2 hr2 => hrs r2 (List.mem_cons_of_mem _ hr2))
    refine ⟨nx, ?_, Or.inr ?_⟩
    · rw [HsmBase.calls, HsmBase.call_initial m hcur hx, Run.mk_ok_bind, hnx]
      rfl
    · rcases hor with h | ⟨r2, hr2, y, hy, hny⟩
      · exact ⟨r, List.mem_cons_self _ _, x, hx, h⟩
      · exact ⟨r2, List.mem_cons_of_mem _ hr2, y, hy, hny⟩

/-- One round of the settling loop whose `onInit` requests initial descents only: it stops, or
fails the direct-child assertion, or enters a direct sub state that `onInit` named and goes
on there. -/
theorem HsmBase.initCurrentState_round (onInit : HsmStateBase → List Request)
    (hinit : ∀ n, ∀ r ∈ onInit n, r.isInitial = true) (k : Nat) (m : HsmBase)
    (c : HsmStateBase) (hcur : m.currentState = some c) (hnext : m.nextState = none) :
    HsmBase.initCurrentState onInit (k + 1) m = ⟨[.onInit c], m, .ok ()⟩ ∨
    (∃ x, x.superState ≠ some c ∧
      HsmBase.initCurrentState onInit (k + 1) m
        = ⟨[.onInit c], { m with nextState := some x }, .error .assertion⟩) ∨
    (∃ i, (∃ r ∈ onInit c, r.initialTarget (m.historySubstate c) = some (.sub i c)) ∧
      HsmBase.initCurrentState onInit (k + 1) m
        = Run.after [.onInit c, .onEnter (.sub i c)]
            (HsmBase.initCurrentState onInit k
              { m with currentState := some (.sub i c), nextState := none })) := by
  obtain ⟨top, cur, next, src, hist⟩ := m
  simp only at hcur hnext
  subst hcur hnext
  obtain ⟨nx, hcalls, hor⟩ := HsmBase.calls_initial_next c (onInit c)
    ⟨top, some c, none, src, hist⟩ rfl (hinit c)
  rw [HsmBase.initCurrentState]
  simp only
  rw [hcalls, Run.mk_ok_bind]
  cases nx with
  | none => exact Or.inl rfl
  | some x =>
    simp only
    by_cases hsup : x.superState = some c
    · rw [if_pos hsup]
      obtain ⟨i, hi⟩ := HsmStateBase.eq_sub_of_superState hsup
      subst hi
      refine Or.inr (Or.inr ⟨i, ?_, ?_⟩)
      · rcases hor with h | ⟨r, hr, y, hy, hny⟩
        · exact absurd h (by simp)
        · simp only [Option.some.injEq] at hny
          subst hny
          exact ⟨r, hr, hy⟩
      · rw [HsmBase.enterNextState_eq ⟨top, some c, some (.sub i c), src, hist⟩ (l := c)
          (t := .sub i c) rfl rfl (HsmStateBase.super_mem_chain i c)
          (by simp [pathDown, pathUp_sub_super, MAX_STATE_NESTING]), Run.mk_ok_bind]
        simp only [pathDown, pathUp_sub_super, List.reverse_singleton, List.map,
          Run.after_after, List.singleton_append]
        rfl
    · rw [if_neg hsup]
      exact Or.inr (Or.inl ⟨x, hsup, rfl⟩)

theorem onInitCount_after (cbs : List Callback) {α : Type} (r : Run α) :
    onInitCount (Run.after cbs r).trace = onInitCount cbs + onInitCount r.trace := by
  simp [onInitCount, Run.after, List.filter_append]

/-- The settling loop whose `onInit` requests initial descents only, started at a state `c` of
a finite tree that holds the direct sub states that `onInit` names: it invokes `onInit` at
most `subtreeHeight tree c + 1` times, and with that much fuel it returns or fails the
direct-child assertion. -/
theorem HsmBase.initCurrentState_bounded (onInit : HsmStateBase → List Request)
    (hinit : ∀ n, ∀ r ∈ onInit n, r.isInitial = true) (tree : List HsmStateBase)
    (hist : HsmStateBase → Option HsmStateBase)
    (hclosed : ∀ a ∈ tree, ∀ r ∈ onInit a, ∀ x, r.initialTarget (hist a) = some x →
      x.superState = some a → x ∈ tree) (fuel : Nat) :
    ∀ (m : HsmBase) (c : HsmStateBase), m.currentState = some c → m.nextState = none →
      m.historySubstate = hist → c ∈ tree →
      onInitCount (HsmBase.initCurrentState onInit fuel m).trace ≤ subtreeHeight tree c + 1 ∧
      (subtreeHeight tree c < fuel →
        (HsmBase.initCurrentState onInit fuel m).result = .ok () ∨
        (HsmBase.initCurrentState onInit fuel m).result = .error .assertion) := by
  induction fuel with
  | zero =>
    intro m c _ _ _ _
    simp [HsmBase.initCurrentState, Run.fail, onInitCount]
  | succ k ih =>
    intro m c hcur hnext hhist hc
    rcases HsmBase.initCurrentState_round onInit hinit k m c hcur hnext with
      h | ⟨x, _, h⟩ | ⟨i, ⟨r, hr, hx⟩, h⟩
    · rw [h]
      simp [onInitCount, Callback.isOnInit]
    · rw [h]
      simp [onInitCount, Callback.isOnInit]
    · have hmem : HsmStateBase.sub i c ∈ tree :=
        hclosed c hc r hr _ (hhist ▸ hx) rfl
      have hh := subtreeHeight_sub hmem
      obtain ⟨h1, h2⟩ := ih { m with currentState := some (.sub i c), nextState := none }
        (.sub i c) rfl rfl hhist hmem
      rw [h, onInitCount_after]
      refine ⟨?_, fun hlt => ?_⟩
      · have : onInitCount [Callback.onInit c, Callback.onEnter (.sub i c)] = 1 := rfl
        omega
      · exact h2 (by omega)

/-- Fuel that is enough stays enough: one more unit does not change the run. -/
theorem HsmBase.initCurrentState_fuel_succ (onInit : HsmStateBase → List Request) (k : Nat) :
    ∀ m : HsmBase, (HsmBase.initCurrentState onInit k m).result ≠ .error .outOfFuel →
      HsmBase.initCurrentState onInit (k + 1) m = HsmBase.initCurrentState onInit k m := by
  induction k with
  | zero =>
    intro m h
    exact absurd rfl h
  | succ k ih =>
    intro m h
    rw [HsmBase.initCurrentState] at h
    conv_lhs => rw [HsmBase.initCurrentState]
    conv_rhs => rw [HsmBase.initCurrentState]
    cases hcur : m.currentState with
    | none => rfl
    | some c =>
      rw [hcur] at h
      simp only at h ⊢
      cases hres : (m.calls (onInit c)).result with
      | error e => rw [Run.bind_of_error hres, Run.bind_of_error hres]
      | ok u =>
        rw [Run.bind_of_ok hres] at h ⊢
        rw [Run.bind_of_ok hres]
        cases hnext : (m.calls (onInit c)).hsm.nextState with
        | none => rfl
        | some nx =>
          rw [hnext] at h
          simp only at h ⊢
          by_cases hsup : nx.superState = (m.calls (onInit c)).hsm.currentState
          · rw [if_pos hsup] at h ⊢
            rw [if_pos hsup]
            cases hent : (m.calls (onInit c)).hsm.enterNextState.result with
            | error e => rw [Run.bind_of_error hent, Run.bind_of_error hent]
            | ok v =>
              rw [Run.bind_of_ok hent] at h ⊢
              rw [Run.bind_of_ok hent]
              rw [ih _ (by simpa [Run.after] using h)]
          · rw [if_neg hsup, if_neg hsup]

theorem HsmBase.initCurrentState_fuel_add (onInit : HsmStateBase → List Request) (k : Nat)
    (m : HsmBase) (h : (HsmBase.initCurrentState onInit k m).result ≠ .error .outOfFuel)
    (j : Nat) :
    HsmBase.initCurrentState onInit (k + j) m = HsmBase.initCurrentState onInit k m := by
  induction j with
  | zero => rfl
  | succ j ih =>
    rw [← Nat.add_assoc, HsmBase.initCurrentState_fuel_succ onInit (k + j) m (by rw [ih]; exact h),
      ih]

/-! ### The machine whose `onInit` callbacks call `transition` -/

theorem loop_round_A (k : Nat) (hist : HsmStateBase → Option HsmStateBase) :
    HsmBase.initCurrentState loopInit (k + 1) ⟨loopTop, some loopA, none, some loopS, hist⟩
      = Run.after [.onInit loopA, .onExit loopA, .onEnter loopB]
          (HsmBase.initCurrentState loopInit k
            ⟨loopTop, some loopB, none, some loopS,
              Function.update hist loopS (some loopA)⟩) :=
  rfl

theorem loop_round_B (k : Nat) (hist : HsmStateBase → Option HsmStateBase) :
    HsmBase.initCurrentState loopInit (k + 1) ⟨loopTop, some loopB, none, some loopS, hist⟩
      = Run.after [.onInit loopB, .onExit loopB, .onEnter loopA]
          (HsmBase.initCurrentState loopInit k
            ⟨loopTop, some loopA, none, some loopS,
              Function.update hist loopS (some loopB)⟩) :=
  rfl

/-- The settling loop started at `A` or at `B` uses up every fuel. -/
theorem loop_settle (fuel : Nat) :
    ∀ hist : HsmStateBase → Option HsmStateBase,
      ((HsmBase.initCurrentState loopInit fuel
          ⟨loopTop, some loopA, none, some loopS, hist⟩).result = .error .outOfFuel ∧
        onInitCount (HsmBase.initCurrentState loopInit fuel
          ⟨loopTop, some loopA, none, some loopS, hist⟩).trace = fuel) ∧
      ((HsmBase.initCurrentState loopInit fuel
          ⟨loopTop, some loopB, none, some loopS, hist⟩).result = .error .outOfFuel ∧
        onInitCount (HsmBase.initCurrentState loopInit fuel
          ⟨loopTop, some loopB, none, some loopS, hist⟩).trace = fuel) := by
  induction fuel with
  | zero =>
    intro hist
    exact ⟨⟨rfl, rfl⟩, ⟨rfl, rfl⟩⟩
  | succ k ih =>
    intro hist
    rw [loop_round_A, loop_round_B, onInitCount_after, onInitCount_after]
    obtain ⟨_, hB⟩ := ih (Function.update hist loopS (some loopA))
    obtain ⟨hA, _⟩ := ih (Function.update hist loopS (some loopB))
    refine ⟨⟨hB.1, ?_⟩, ⟨hA.1, ?_⟩⟩
    · rw [hB.2]
      have : onInitCount [Callback.onInit loopA, Callback.onExit loopA,
        Callback.onEnter loopB] = 1 := rfl
      omega
    · rw [hA.2]
      have : onInitCount [Callback.onInit loopB, Callback.onExit loopB,
        Callback.onEnter loopA] = 1 := rfl
      omega

theorem loop_start (k : Nat) :
    (HsmBase.new loopTop).onStart loopInit (k + 3)
      = ⟨[.onEnter loopTop, .onInit loopTop, .onEnter loopS, .onInit loopS, .onEnter loopC,
            .onInit loopC],
          ⟨loopTop, some loopC, none, none, fun _ => none⟩, .ok ()⟩ :=
  rfl

theorem loop_event (fuel : Nat) :
    HsmBase.onEvent loopInit fuel loopEvent
        ⟨loopTop, some loopC, none, none, fun _ => none⟩
      = Run.after [.onEvent loopC, .onEvent loopS, .onExit loopC]
          ((Run.after [.onEnter loopA] (HsmBase.initCurrentState loopInit fuel
              ⟨loopTop, some loopA, none, some loopS,
                Function.update (fun _ => none) loopS (some loopC)⟩)).bind
            fun _ m2 => Run.pure true m2) :=
  rfl

/-- The settling loop whose `onInit` callbacks request initial descents only
(`initialTransition`, `initialHistoryTransition`, of any state), started at a state `n` of a
finite tree that holds the direct sub states these callbacks name, terminates: it invokes
`onInit` at most `subtreeHeight tree n + 1` times, with more fuel than the height it returns or
fails the direct-child assertion, and more fuel does not change the run. Each iteration
stops (no descent requested), or fails the direct-child assertion with the state unchanged, or
enters a direct sub state, one level deeper, and goes on there. -/
theorem settling_loop_terminates_on_initial_descents
    (onInit : HsmStateBase → List Request)
    (hinit : ∀ n, ∀ r ∈ onInit n, r.isInitial = true) (tree : List HsmStateBase)
    (m : HsmBase) (n : HsmStateBase) (hcur : m.currentState = some n)
    (hnext : m.nextState = none) (hn : n ∈ tree)
    (hclosed : ∀ a ∈ tree, ∀ r ∈ onInit a, ∀ x,
      r.initialTarget (m.historySubstate a) = some x → x.superState = some a → x ∈ tree) :
    (∀ fuel, onInitCount (HsmBase.initCurrentState onInit fuel m).trace
      ≤ subtreeHeight tree n + 1) ∧
    (∀ fuel, subtreeHeight tree n < fuel →
      ((HsmBase.initCurrentState onInit fuel m).result = .ok () ∨
        (HsmBase.initCurrentState onInit fuel m).result = .error .assertion) ∧
      HsmBase.initCurrentState onInit fuel m
        = HsmBase.initCurrentState onInit (subtreeHeight tree n + 1) m) ∧
    (∀ (k : Nat) (m1 : HsmBase) (c : HsmStateBase), m1.currentState = some c →
      m1.nextState = none →
      HsmBase.initCurrentState onInit (k + 1) m1 = ⟨[.onInit c], m1, .ok ()⟩ ∨
      (∃ x, x.superState ≠ some c ∧
        HsmBase.initCurrentState onInit (k + 1) m1
          = ⟨[.onInit c], { m1 with nextState := some x }, .error .assertion⟩) ∨
      (∃ i, (HsmStateBase.sub i c).depth = c.depth + 1 ∧
        HsmBase.initCurrentState onInit (k + 1) m1
          = Run.after [.onInit c, .onEnter (.sub i c)]
              (HsmBase.initCurrentState onInit k
                { m1 with currentState := some (.sub i c), nextState := none }))) := by
  refine ⟨fun fuel => ?_, fun fuel hlt => ?_, fun k m1 c hc hnx => ?_⟩
  · exact (HsmBase.initCurrentState_bounded onInit hinit tree m.historySubstate hclosed fuel
      m n hcur hnext rfl hn).1
  · refine ⟨(HsmBase.initCurrentState_bounded onInit hinit tree m.historySubstate hclosed fuel
      m n hcur hnext rfl hn).2 hlt, ?_⟩
    have hres := (HsmBase.initCurrentState_bounded onInit hinit tree m.historySubstate hclosed
      (subtreeHeight tree n + 1) m n hcur hnext rfl hn).2 (Nat.lt_succ_self _)
    have hne : (HsmBase.initCurrentState onInit (subtreeHeight tree n + 1) m).result
        ≠ .error .outOfFuel := by
      rcases hres with h | h <;> rw [h] <;> simp
    obtain ⟨j, rfl⟩ := Nat.exists_eq_add_of_le (Nat.succ_le_of_lt hlt)
    exact HsmBase.initCurrentState_fuel_add onInit _ m hne j
  · rcases HsmBase.initCurrentState_round onInit hinit k m1 c hc hnx with
      h | h | ⟨i, _, h⟩
    · exact Or.inl h
    · exact Or.inr (Or.inl h)
    · exact Or.inr (Or.inr ⟨i, rfl, h⟩)

/-- The settling loop of `onStart` of the hierarchy test, started at `TOP`, terminates. -/
theorem settling_loop_of_hierarchy_test_terminates :
    (∀ fuel, onInitCount (HsmBase.initCurrentState hierarchyInit fuel
        ⟨hierarchyTop, some hierarchyTop, none, none, fun _ => none⟩).trace
      ≤ subtreeHeight hierarchyStates hierarchyTop + 1) ∧
    (∀ fuel, subtreeHeight hierarchyStates hierarchyTop < fuel →
      ((HsmBase.initCurrentState hierarchyInit fuel
          ⟨hierarchyTop, some hierarchyTop, none, none, fun _ => none⟩).result = .ok () ∨
        (HsmBase.initCurrentState hierarchyInit fuel
          ⟨hierarchyTop, some hierarchyTop, none, none, fun _ => none⟩).result
          = .error .assertion) ∧
      HsmBase.initCurrentState hierarchyInit fuel
          ⟨hierarchyTop, some hierarchyTop, none, none, fun _ => none⟩
        = HsmBase.initCurrentState hierarchyInit
            (subtreeHeight hierarchyStates hierarchyTop + 1)
            ⟨hierarchyTop, some hierarchyTop, none, none, fun _ => none⟩) ∧
    (∀ (k : Nat) (m1 : HsmBase) (c : HsmStateBase), m1.currentState = some c →
      m1.nextState = none →
      HsmBase.initCurrentState hierarchyInit (k + 1) m1 = ⟨[.onInit c], m1, .ok ()⟩ ∨
      (∃ x, x.superState ≠ some c ∧
        HsmBase.initCurrentState hierarchyInit (k + 1) m1
          = ⟨[.onInit c], { m1 with nextState := some x }, .error .assertion⟩) ∨
      (∃ i, (HsmStateBase.sub i c).depth = c.depth + 1 ∧
        HsmBase.initCurrentState hierarchyInit (k + 1) m1
          = Run.after [.onInit c, .onEnter (.sub i c)]
              (HsmBase.initCurrentState hierarchyInit k
                { m1 with currentState := some (.sub i c), nextState := none }))) :=
  settling_loop_terminates_on_initial_descents hierarchyInit
    (by
      intro n r hr
      unfold hierarchyInit at hr
      split_ifs at hr <;> simp at hr <;> subst hr <;> rfl)
    hierarchyStates ⟨hierarchyTop, some hierarchyTop, none, none, fun _ => none⟩ hierarchyTop
    rfl rfl (by decide)
    (by
      intro a _ r hr x hx _
      unfold hierarchyInit at hr
      split_ifs at hr <;> simp at hr <;> subst hr <;>
        simp only [Request.initialTarget, Option.some.injEq] at hx <;> subst hx <;> decide)

/-- C35, the code at the failing input: `transition` does not reject a call made inside
`onInit`. A machine with the states `TOP`, `S` below it and the leaves `A`, `B`, `C` of `S`, in
which `onInit` of `A` calls `transition(B)` and `onInit` of `B` calls `transition(A)`. After `onStart` (settled in `C`) an event that `S` handles with
`transition(A)` starts the settling loop at the leaf `A`, whose subtree has height 0: every
iteration exits the current leaf and enters its sibling, on the same level, and the loop uses
up every fuel, with as many `onInit` calls as there is fuel. -/
theorem c35_settling_loop_with_transition_never_stops :
    subtreeHeight loopTree loopA = 0 ∧
    (HsmBase.startAndDispatch loopInit 5 [loopEvent] (HsmBase.new loopTop)).trace
      = [.onEnter loopTop, .onInit loopTop, .onEnter loopS, .onInit loopS, .onEnter loopC,
          .onInit loopC, .onEvent loopC, .onEvent loopS, .onExit loopC, .onEnter loopA,
          .onInit loopA, .onExit loopA, .onEnter loopB,
          .onInit loopB, .onExit loopB, .onEnter loopA,
          .onInit loopA, .onExit loopA, .onEnter loopB,
          .onInit loopB, .onExit loopB, .onEnter loopA,
          .onInit loopA, .onExit loopA, .onEnter loopB] ∧
    ∀ k, (HsmBase.startAndDispatch loopInit (k + 3) [loopEvent] (HsmBase.new loopTop)).result
        = .error .outOfFuel ∧
      onInitCount (HsmBase.startAndDispatch loopInit (k + 3) [loopEvent]
        (HsmBase.new loopTop)).trace = k + 6 := by
  refine ⟨by decide, by decide, fun k => ?_⟩
  obtain ⟨⟨hres, hcount⟩, _⟩ := loop_settle (k + 3)
    (Function.update (fun _ => none) loopS (some loopC))
  rw [HsmBase.startAndDispatch, loop_start, Run.mk_ok_bind, HsmBase.onEvents, loop_event,
    Run.after_bind, Run.after_bind, Run.after_bind, Run.bind_of_error hres]
  constructor
  · rfl
  · rw [onInitCount_after, onInitCount_after, onInitCount_after]
    simp only [Run.bind]
    rw [hcount]
    have h1 : onInitCount [Callback.onEnter loopTop, .onInit loopTop, .onEnter loopS,
      .onInit loopS, .onEnter loopC, .onInit loopC] = 3 := rfl
    have h2 : onInitCount [Callback.onEvent loopC, .onEvent loopS, .onExit loopC] = 0 := rfl
    have h3 : onInitCount [Callback.onEnter loopA] = 0 := rfl
    omega

/-! ## All event sequences of the pump control machine -/

theorem pump_step_Standby_Standby (top : HsmStateBase) (src : Option HsmStateBase)
    (hist : HsmStateBase → Option HsmStateBase) :
    (HsmBase.onEvent pumpInit 2 pumpEventStandby ⟨top, some pumpStandby, none, src, hist⟩).trace
      =
        [.onEvent pumpStandby, .onEvent pumpTop, .onExit pumpStandby, .onEnter
          pumpStandby, .onInit pumpStandby] ∧
    (HsmBase.onEvent pumpInit 2 pumpEventStandby ⟨top, some pumpStandby, none, src, hist⟩).result
      = .ok true ∧
    (HsmBase.onEvent pumpInit 2 pumpEventStandby
      ⟨top, some pumpStandby, none, src, hist⟩).hsm.currentState = some pumpStandby ∧
    (HsmBase.onEvent pumpInit 2 pumpEventStandby
      ⟨top, some pumpStandby, none, src, hist⟩).hsm.nextState = none :=
  ⟨rfl, rfl, rfl, rfl⟩

theorem pump_step_Standby_Continuous (top : HsmStateBase) (src : Option HsmStateBase)
    (hist : HsmStateBase → Option HsmStateBase) :
    (HsmBase.onEvent pumpInit 2 pumpEventStandby ⟨top, some pumpContinuous, none, src, hist⟩).trace
      =
        [.onEvent pumpContinuous, .onEvent pumpTop, .onExit pumpContinuous, .onEnter
          pumpStandby, .onInit pumpStandby] ∧
    (HsmBase.onEvent pumpInit 2 pumpEventStandby ⟨top, some pumpContinuous, none, src, hist⟩).result
      = .ok true ∧
    (HsmBase.onEvent pumpInit 2 pumpEventStandby
      ⟨top, some pumpContinuous, none, src, hist⟩).hsm.currentState = some pumpStandby ∧
    (HsmBase.onEvent pumpInit 2 pumpEventStandby
      ⟨top, some pumpContinuous, none, src, hist⟩).hsm.nextState = none :=
  ⟨rfl, rfl, rfl, rfl⟩

theorem pump_step_Standby_Running (top : HsmStateBase) (src : Option HsmStateBase)
    (hist : HsmStateBase → Option HsmStateBase) :
    (HsmBase.onEvent pumpInit 2 pumpEventStandby ⟨top, some pumpRunning, none, src, hist⟩).trace
      =
        [.onEvent pumpRunning, .onEvent pumpPulsing, .onEvent pumpTop, .onExit
          pumpRunning, .onExit pumpPulsing, .onEnter pumpStandby, .onInit pumpStandby] ∧
    (HsmBase.onEvent pumpInit 2 pumpEventStandby ⟨top, some pumpRunning, none, src, hist⟩).result
      = .ok true ∧
    (HsmBase.onEvent pumpInit 2 pumpEventStandby
      ⟨top, some pumpRunning, none, src, hist⟩).hsm.currentState = some pumpStandby ∧
    (HsmBase.onEvent pumpInit 2 pumpEventStandby
      ⟨top, some pumpRunning, none, src, hist⟩).hsm.nextState = none :=
  ⟨rfl, rfl, rfl, rfl⟩

theorem pump_step_Standby_Paused (top : HsmStateBase) (src : Option HsmStateBase)
    (hist : HsmStateBase → Option HsmStateBase) :
    (HsmBase.onEvent pumpInit 2 pumpEventStandby ⟨top, some pumpPaused, none, src, hist⟩).trace
      =
        [.onEvent pumpPaused, .onEvent pumpPulsing, .onEvent pumpTop, .onExit
          pumpPaused, .onExit pumpPulsing, .onEnter pumpStandby, .onInit pumpStandby] ∧
    (HsmBase.onEvent pumpInit 2 pumpEventStandby ⟨top, some pumpPaused, none, src, hist⟩).result
      = .ok true ∧
    (HsmBase.onEvent pumpInit 2 pumpEventStandby
      ⟨top, some pumpPaused, none, src, hist⟩).hsm.currentState = some pumpStandby ∧
    (HsmBase.onEvent pumpInit 2 pumpEventStandby
      ⟨top, some pumpPaused, none, src, hist⟩).hsm.nextState = none :=
  ⟨rfl, rfl, rfl, rfl⟩

theorem pump_step_Continuous_Standby (top : HsmStateBase) (src : Option HsmStateBase)
    (hist : HsmStateBase → Option HsmStateBase) :
    (HsmBase.onEvent pumpInit 2 pumpEventContinuous ⟨top, some pumpStandby, none, src, hist⟩).trace
      =
        [.onEvent pumpStandby, .onEvent pumpTop, .onExit pumpStandby, .onEnter
          pumpContinuous, .onInit pumpContinuous] ∧
    (HsmBase.onEvent pumpInit 2 pumpEventContinuous ⟨top, some pumpStandby, none, src, hist⟩).result
      = .ok true ∧
    (HsmBase.onEvent pumpInit 2 pumpEventContinuous
      ⟨top, some pumpStandby, none, src, hist⟩).hsm.currentState = some pumpContinuous ∧
    (HsmBase.onEvent pumpInit 2 pumpEventContinuous
      ⟨top, some pumpStandby, none, src, hist⟩).hsm.nextState = none :=
  ⟨rfl, rfl, rfl, rfl⟩

theorem pump_step_Continuous_Continuous (top : HsmStateBase) (src : Option HsmStateBase)
    (hist : HsmStateBase → Option HsmStateBase) :
    (HsmBase.onEvent pumpInit 2 pumpEventContinuous ⟨top, some pumpContinuous, none, src, hist⟩).trace
      =
        [.onEvent pumpContinuous, .onEvent pumpTop, .onExit pumpContinuous, .onEnter
          pumpContinuous, .onInit pumpContinuous] ∧
    (HsmBase.onEvent pumpInit 2 pumpEventContinuous ⟨top, some pumpContinuous, none, src, hist⟩).result
      = .ok true ∧
    (HsmBase.onEvent pumpInit 2 pumpEventContinuous
      ⟨top, some pumpContinuous, none, src, hist⟩).hsm.currentState = some pumpContinuous ∧
    (HsmBase.onEvent pumpInit 2 pumpEventContinuous
      ⟨top, some pumpContinuous, none, src, hist⟩).hsm.nextState = none :=
  ⟨rfl, rfl, rfl, rfl⟩

theorem pump_step_Continuous_Running (top : HsmStateBase) (src : Option HsmStateBase)
    (hist : HsmStateBase → Option HsmStateBase) :
    (HsmBase.onEvent pumpInit 2 pumpEventContinuous ⟨top, some pumpRunning, none, src, hist⟩).trace
      =
        [.onEvent pumpRunning, .onEvent pumpPulsing, .onEvent pumpTop, .onExit
          pumpRunning, .onExit pumpPulsing, .onEnter pumpContinuous, .onInit
          pumpContinuous] ∧
    (HsmBase.onEvent pumpInit 2 pumpEventContinuous ⟨top, some pumpRunning, none, src, hist⟩).result
      = .ok true ∧
    (HsmBase.onEvent pumpInit 2 pumpEventContinuous
      ⟨top, some pumpRunning, none, src, hist⟩).hsm.currentState = some pumpContinuous ∧
    (HsmBase.onEvent pumpInit 2 pumpEventContinuous
      ⟨top, some pumpRunning, none, src, hist⟩).hsm.nextState = none :=
  ⟨rfl, rfl, rfl, rfl⟩

theorem pump_step_Continuous_Paused (top : HsmStateBase) (src : Option HsmStateBase)
    (hist : HsmStateBase → Option HsmStateBase) :
    (HsmBase.onEvent pumpInit 2 pumpEventContinuous ⟨top, some pumpPaused, none, src, hist⟩).trace
      =
        [.onEvent pumpPaused, .onEvent pumpPulsing, .onEvent pumpTop, .onExit
          pumpPaused, .onExit pumpPulsing, .onEnter pumpContinuous, .onInit
          pumpContinuous] ∧
    (HsmBase.onEvent pumpInit 2 pumpEventContinuous ⟨top, some pumpPaused, none, src, hist⟩).result
      = .ok true ∧
    (HsmBase.onEvent pumpInit 2 pumpEventContinuous
      ⟨top, some pumpPaused, none, src, hist⟩).hsm.currentState = some pumpContinuous ∧
    (HsmBase.onEvent pumpInit 2 pumpEventContinuous
      ⟨top, some pumpPaused, none, src, hist⟩).hsm.nextState = none :=
  ⟨rfl, rfl, rfl, rfl⟩

theorem pump_step_Pulsing_Standby (top : HsmStateBase) (src : Option HsmStateBase)
    (hist : HsmStateBase → Option HsmStateBase) :
    (HsmBase.onEvent pumpInit 2 pumpEventPulsing ⟨top, some pumpStandby, none, src, hist⟩).trace
      =
        [.onEvent pumpStandby, .onEvent pumpTop, .onExit pumpStandby, .onEnter
          pumpPulsing, .onInit pumpPulsing, .onEnter pumpRunning, .onInit pumpRunning] ∧
    (HsmBase.onEvent pumpInit 2 pumpEventPulsing ⟨top, some pumpStandby, none, src, hist⟩).result
      = .ok true ∧
    (HsmBase.onEvent pumpInit 2 pumpEventPulsing
      ⟨top, some pumpStandby, none, src, hist⟩).hsm.currentState = some pumpRunning ∧
    (HsmBase.onEvent pumpInit 2 pumpEventPulsing
      ⟨top, some pumpStandby, none, src, hist⟩).hsm.nextState = none :=
  ⟨rfl, rfl, rfl, rfl⟩

theorem pump_step_Pulsing_Continuous (top : HsmStateBase) (src : Option HsmStateBase)
    (hist : HsmStateBase → Option HsmStateBase) :
    (HsmBase.onEvent pumpInit 2 pumpEventPulsing ⟨top, some pumpContinuous, none, src, hist⟩).trace
      =
        [.onEvent pumpContinuous, .onEvent pumpTop, .onExit pumpContinuous, .onEnter
          pumpPulsing, .onInit pumpPulsing, .onEnter pumpRunning, .onInit pumpRunning] ∧
    (HsmBase.onEvent pumpInit 2 pumpEventPulsing ⟨top, some pumpContinuous, none, src, hist⟩).result
      = .ok true ∧
    (HsmBase.onEvent pumpInit 2 pumpEventPulsing
      ⟨top, some pumpContinuous, none, src, hist⟩).hsm.currentState = some pumpRunning ∧
    (HsmBase.onEvent pumpInit 2 pumpEventPulsing
      ⟨top, some pumpContinuous, none, src, hist⟩).hsm.nextState = none :=
  ⟨rfl, rfl, rfl, rfl⟩

theorem pump_step_Pulsing_Running (top : HsmStateBase) (src : Option HsmStateBase)
    (hist : HsmStateBase → Option HsmStateBase) :
    (HsmBase.onEvent pumpInit 2 pumpEventPulsing ⟨top, some pumpRunning, none, src, hist⟩).trace
      =
        [.onEvent pumpRunning, .onEvent pumpPulsing, .onEvent pumpTop, .onExit
          pumpRunning, .onExit pumpPulsing, .onEnter pumpPulsing, .onInit pumpPulsing,
          .onEnter pumpRunning, .onInit pumpRunning] ∧
    (HsmBase.onEvent pumpInit 2 pumpEventPulsing ⟨top, some pumpRunning, none, src, hist⟩).result
      = .ok true ∧
    (HsmBase.onEvent pumpInit 2 pumpEventPulsing
      ⟨top, some pumpRunning, none, src, hist⟩).hsm.currentState = some pumpRunning ∧
    (HsmBase.onEvent pumpInit 2 pumpEventPulsing
      ⟨top, some pumpRunning, none, src, hist⟩).hsm.nextState = none :=
  ⟨rfl, rfl, rfl, rfl⟩

theorem pump_step_Pulsing_Paused (top : HsmStateBase) (src : Option HsmStateBase)
    (hist : HsmStateBase → Option HsmStateBase) :
    (HsmBase.onEvent pumpInit 2 pumpEventPulsing ⟨top, some pumpPaused, none, src, hist⟩).trace
      =
        [.onEvent pumpPaused, .onEvent pumpPulsing, .onEvent pumpTop, .onExit
          pumpPaused, .onExit pumpPulsing, .onEnter pumpPulsing, .onInit pumpPulsing,
          .onEnter pumpRunning, .onInit pumpRunning] ∧
    (HsmBase.onEvent pumpInit 2 pumpEventPulsing ⟨top, some pumpPaused, none, src, hist⟩).result
      = .ok true ∧
    (HsmBase.onEvent pumpInit 2 pumpEventPulsing
      ⟨top, some pumpPaused, none, src, hist⟩).hsm.currentState = some pumpRunning ∧
    (HsmBase.onEvent pumpInit 2 pumpEventPulsing
      ⟨top, some pumpPaused, none, src, hist⟩).hsm.nextState = none :=
  ⟨rfl, rfl, rfl, rfl⟩

theorem pump_step_RunningTimeout_Standby (top : HsmStateBase) (src : Option HsmStateBase)
    (hist : HsmStateBase → Option HsmStateBase) :
    (HsmBase.onEvent pumpInit 2 pumpEventRunningTimeout ⟨top, some pumpStandby, none, src, hist⟩).trace
      =
        [.onEvent pumpStandby, .onEvent pumpTop] ∧
    (HsmBase.onEvent pumpInit 2 pumpEventRunningTimeout ⟨top, some pumpStandby, none, src, hist⟩).result
      = .ok false ∧
    (HsmBase.onEvent pumpInit 2 pumpEventRunningTimeout
      ⟨top, some pumpStandby, none, src, hist⟩).hsm.currentState = some pumpStandby ∧
    (HsmBase.onEvent pumpInit 2 pumpEventRunningTimeout
      ⟨top, some pumpStandby, none, src, hist⟩).hsm.nextState = none :=
  ⟨rfl, rfl, rfl, rfl⟩

theorem pump_step_RunningTimeout_Continuous (top : HsmStateBase) (src : Option HsmStateBase)
    (hist : HsmStateBase → Option HsmStateBase) :
    (HsmBase.onEvent pumpInit 2 pumpEventRunningTimeout ⟨top, some pumpContinuous, none, src, hist⟩).trace
      =
        [.onEvent pumpContinuous, .onEvent pumpTop] ∧
    (HsmBase.onEvent pumpInit 2 pumpEventRunningTimeout ⟨top, some pumpContinuous, none, src, hist⟩).result
      = .ok false ∧
    (HsmBase.onEvent pumpInit 2 pumpEventRunningTimeout
      ⟨top, some pumpContinuous, none, src, hist⟩).hsm.currentState = some pumpContinuous ∧
    (HsmBase.onEvent pumpInit 2 pumpEventRunningTimeout
      ⟨top, some pumpContinuous, none, src, hist⟩).hsm.nextState = none :=
  ⟨rfl, rfl, rfl, rfl⟩

theorem pump_step_RunningTimeout_Running (top : HsmStateBase) (src : Option HsmStateBase)
    (hist : HsmStateBase → Option HsmStateBase) :
    (HsmBase.onEvent pumpInit 2 pumpEventRunningTimeout ⟨top, some pumpRunning, none, src, hist⟩).trace
      =
        [.onEvent pumpRunning, .onExit pumpRunning, .onEnter pumpPaused, .onInit
          pumpPaused] ∧
    (HsmBase.onEvent pumpInit 2 pumpEventRunningTimeout ⟨top, some pumpRunning, none, src, hist⟩).result
      = .ok true ∧
    (HsmBase.onEvent pumpInit 2 pumpEventRunningTimeout
      ⟨top, some pumpRunning, none, src, hist⟩).hsm.currentState = some pumpPaused ∧
    (HsmBase.onEvent pumpInit 2 pumpEventRunningTimeout
      ⟨top, some pumpRunning, none, src, hist⟩).hsm.nextState = none :=
  ⟨rfl, rfl, rfl, rfl⟩

theorem pump_step_RunningTimeout_Paused (top : HsmStateBase) (src : Option HsmStateBase)
    (hist : HsmStateBase → Option HsmStateBase) :
    (HsmBase.onEvent pumpInit 2 pumpEventRunningTimeout ⟨top, some pumpPaused, none, src, hist⟩).trace
      =
        [.onEvent pumpPaused, .onEvent pumpPulsing, .onEvent pumpTop] ∧
    (HsmBase.onEvent pumpInit 2 pumpEventRunningTimeout ⟨top, some pumpPaused, none, src, hist⟩).result
      = .ok false ∧
    (HsmBase.onEvent pumpInit 2 pumpEventRunningTimeout
      ⟨top, some pumpPaused, none, src, hist⟩).hsm.currentState = some pumpPaused ∧
    (HsmBase.onEvent pumpInit 2 pumpEventRunningTimeout
      ⟨top, some pumpPaused, none, src, hist⟩).hsm.nextState = none :=
  ⟨rfl, rfl, rfl, rfl⟩

theorem pump_step_PausedTimeout_Standby (top : HsmStateBase) (src : Option HsmStateBase)
    (hist : HsmStateBase → Option HsmStateBase) :
    (HsmBase.onEvent pumpInit 2 pumpEventPausedTimeout ⟨top, some pumpStandby, none, src, hist⟩).trace
      =
        [.onEvent pumpStandby, .onEvent pumpTop] ∧
    (HsmBase.onEvent pumpInit 2 pumpEventPausedTimeout ⟨top, some pumpStandby, none, src, hist⟩).result
      = .ok false ∧
    (HsmBase.onEvent pumpInit 2 pumpEventPausedTimeout
      ⟨top, some pumpStandby, none, src, hist⟩).hsm.currentState = some pumpStandby ∧
    (HsmBase.onEvent pumpInit 2 pumpEventPausedTimeout
      ⟨top, some pumpStandby, none, src, hist⟩).hsm.nextState = none :=
  ⟨rfl, rfl, rfl, rfl⟩

theorem pump_step_PausedTimeout_Continuous (top : HsmStateBase) (src : Option HsmStateBase)
    (hist : HsmStateBase → Option HsmStateBase) :
    (HsmBase.onEvent pumpInit 2 pumpEventPausedTimeout ⟨top, some pumpContinuous, none, src, hist⟩).trace
      =
        [.onEvent pumpContinuous, .onEvent pumpTop] ∧
    (HsmBase.onEvent pumpInit 2 pumpEventPausedTimeout ⟨top, some pumpContinuous, none, src, hist⟩).result
      = .ok false ∧
    (HsmBase.onEvent pumpInit 2 pumpEventPausedTimeout
      ⟨top, some pumpContinuous, none, src, hist⟩).hsm.currentState = some pumpContinuous ∧
    (HsmBase.onEvent pumpInit 2 pumpEventPausedTimeout
      ⟨top, some pumpContinuous, none, src, hist⟩).hsm.nextState = none :=
  ⟨rfl, rfl, rfl, rfl⟩

theorem pump_step_PausedTimeout_Running (top : HsmStateBase) (src : Option HsmStateBase)
    (hist : HsmStateBase → Option HsmStateBase) :
    (HsmBase.onEvent pumpInit 2 pumpEventPausedTimeout ⟨top, some pumpRunning, none, src, hist⟩).trace
      =
        [.onEvent pumpRunning, .onEvent pumpPulsing, .onEvent pumpTop] ∧
    (HsmBase.onEvent pumpInit 2 pumpEventPausedTimeout ⟨top, some pumpRunning, none, src, hist⟩).result
      = .ok false ∧
    (HsmBase.onEvent pumpInit 2 pumpEventPausedTimeout
      ⟨top, some pumpRunning, none, src, hist⟩).hsm.currentState = some pumpRunning ∧
    (HsmBase.onEvent pumpInit 2 pumpEventPausedTimeout
      ⟨top, some pumpRunning, none, src, hist⟩).hsm.nextState = none :=
  ⟨rfl, rfl, rfl, rfl⟩

theorem pump_step_PausedTimeout_Paused (top : HsmStateBase) (src : Option HsmStateBase)
    (hist : HsmStateBase → Option HsmStateBase) :
    (HsmBase.onEvent pumpInit 2 pumpEventPausedTimeout ⟨top, some pumpPaused, none, src, hist⟩).trace
      =
        [.onEvent pumpPaused, .onExit pumpPaused, .onEnter pumpRunning, .onInit
          pumpRunning] ∧
    (HsmBase.onEvent pumpInit 2 pumpEventPausedTimeout ⟨top, some pumpPaused, none, src, hist⟩).result
      = .ok true ∧
    (HsmBase.onEvent pumpInit 2 pumpEventPausedTimeout
      ⟨top, some pumpPaused, none, src, hist⟩).hsm.currentState = some pumpRunning ∧
    (HsmBase.onEvent pumpInit 2 pumpEventPausedTimeout
      ⟨top, some pumpPaused, none, src, hist⟩).hsm.nextState = none :=
  ⟨rfl, rfl, rfl, rfl⟩

/-- One dispatch of the pump control machine settled in one of its four leaves: it returns,
the machine is settled in a leaf again, the pump accepts the calls made, it is on afterwards
exactly when the new leaf is `running` or `continuous`, and when `pulsing` is exited from
`running` the calls made start with `pump.off()`, `runningTimer.cancel()`,
`pausedTimer.cancel()`. -/
theorem pump_onEvent_step (m : HsmBase) (ev : Event) (hev : ev ∈ pumpEvents)
    (c : HsmStateBase) (hc : c ∈ pumpLeaves) (hcur : m.currentState = some c)
    (hnext : m.nextState = none) :
    ∃ b c2, (m.onEvent pumpInit 2 ev).result = .ok b ∧
      (m.onEvent pumpInit 2 ev).hsm.currentState = some c2 ∧ c2 ∈ pumpLeaves ∧
      (m.onEvent pumpInit 2 ev).hsm.nextState = none ∧
      pumpReplay (pumpRunsIn c) (pumpLog (m.onEvent pumpInit 2 ev).trace)
        = some (pumpRunsIn c2) ∧
      (c = pumpRunning → .onExit pumpPulsing ∈ (m.onEvent pumpInit 2 ev).trace →
        ∃ rest, pumpLog (m.onEvent pumpInit 2 ev).trace
          = .pumpOff :: .cancelRunningTimer :: .cancelPausedTimer :: rest) := by
  obtain ⟨top, cur, next, src, hist⟩ := m
  simp only at hcur hnext
  subst hcur hnext
  simp only [pumpEvents, pumpLeaves, List.mem_cons, List.mem_singleton, List.not_mem_nil,
    or_false] at hev hc
  rcases hev with rfl | rfl | rfl | rfl | rfl <;> rcases hc with rfl | rfl | rfl | rfl
  · obtain ⟨h1, h2, h3, h4⟩ := pump_step_Standby_Standby top src hist
    rw [h1]
    exact ⟨true, pumpStandby, h2, h3, by decide, h4, by decide, fun hne => absurd hne (by decide)⟩
  · obtain ⟨h1, h2, h3, h4⟩ := pump_step_Standby_Continuous top src hist
    rw [h1]
    exact ⟨true, pumpStandby, h2, h3, by decide, h4, by decide, fun hne => absurd hne (by decide)⟩
  · obtain ⟨h1, h2, h3, h4⟩ := pump_step_Standby_Running top src hist
    rw [h1]
    exact ⟨true, pumpStandby, h2, h3, by decide, h4, by decide, fun _ _ => ⟨_, rfl⟩⟩
  · obtain ⟨h1, h2, h3, h4⟩ := pump_step_Standby_Paused top src hist
    rw [h1]
    exact ⟨true, pumpStandby, h2, h3, by decide, h4, by decide, fun hne => absurd hne (by decide)⟩
  · obtain ⟨h1, h2, h3, h4⟩ := pump_step_Continuous_Standby top src hist
    rw [h1]
    exact ⟨true, pumpContinuous, h2, h3, by decide, h4, by decide, fun hne => absurd hne (by decide)⟩
  · obtain ⟨h1, h2, h3, h4⟩ := pump_step_Continuous_Continuous top src hist
    rw [h1]
    exact ⟨true, pumpContinuous, h2, h3, by decide, h4, by decide, fun hne => absurd hne (by decide)⟩
  · obtain ⟨h1, h2, h3, h4⟩ := pump_step_Continuous_Running top src hist
    rw [h1]
    exact ⟨true, pumpContinuous, h2, h3, by decide, h4, by decide, fun _ _ => ⟨_, rfl⟩⟩
  · obtain ⟨h1, h2, h3, h4⟩ := pump_step_Continuous_Paused top src hist
    rw [h1]
    exact ⟨true, pumpContinuous, h2, h3, by decide, h4, by decide, fun hne => absurd hne (by decide)⟩
  · obtain ⟨h1, h2, h3, h4⟩ := pump_step_Pulsing_Standby top src hist
    rw [h1]
    exact ⟨true, pumpRunning, h2, h3, by decide, h4, by decide, fun hne => absurd hne (by decide)⟩
  · obtain ⟨h1, h2, h3, h4⟩ := pump_step_Pulsing_Continuous top src hist
    rw [h1]
    exact ⟨true, pumpRunning, h2, h3, by decide, h4, by decide, fun hne => absurd hne (by decide)⟩
  · obtain ⟨h1, h2, h3, h4⟩ := pump_step_Pulsing_Running top src hist
    rw [h1]
    exact ⟨true, pumpRunning, h2, h3, by decide, h4, by decide, fun _ _ => ⟨_, rfl⟩⟩
  · obtain ⟨h1, h2, h3, h4⟩ := pump_step_Pulsing_Paused top src hist
    rw [h1]
    exact ⟨true, pumpRunning, h2, h3, by decide, h4, by decide, fun hne => absurd hne (by decide)⟩
  · obtain ⟨h1, h2, h3, h4⟩ := pump_step_RunningTimeout_Standby top src hist
    rw [h1]
    exact ⟨false, pumpStandby, h2, h3, by decide, h4, by decide, fun hne => absurd hne (by decide)⟩
  · obtain ⟨h1, h2, h3, h4⟩ := pump_step_RunningTimeout_Continuous top src hist
    rw [h1]
    exact ⟨false, pumpContinuous, h2, h3, by decide, h4, by decide, fun hne => absurd hne (by decide)⟩
  · obtain ⟨h1, h2, h3, h4⟩ := pump_step_RunningTimeout_Running top src hist
    rw [h1]
    exact ⟨true, pumpPaused, h2, h3, by decide, h4, by decide, fun _ hmem => absurd hmem (by decide)⟩
  · obtain ⟨h1, h2, h3, h4⟩ := pump_step_RunningTimeout_Paused top src hist
    rw [h1]
    exact ⟨false, pumpPaused, h2, h3, by decide, h4, by decide, fun hne => absurd hne (by decide)⟩
  · obtain ⟨h1, h2, h3, h4⟩ := pump_step_PausedTimeout_Standby top src hist
    rw [h1]
    exact ⟨false, pumpStandby, h2, h3, by decide, h4, by decide, fun hne => absurd hne (by decide)⟩
  · obtain ⟨h1, h2, h3, h4⟩ := pump_step_PausedTimeout_Continuous top src hist
    rw [h1]
    exact ⟨false, pumpContinuous, h2, h3, by decide, h4, by decide, fun hne => absurd hne (by decide)⟩
  · obtain ⟨h1, h2, h3, h4⟩ := pump_step_PausedTimeout_Running top src hist
    rw [h1]
    exact ⟨false, pumpRunning, h2, h3, by decide, h4, by decide, fun _ hmem => absurd hmem (by decide)⟩
  · obtain ⟨h1, h2, h3, h4⟩ := pump_step_PausedTimeout_Paused top src hist
    rw [h1]
    exact ⟨true, pumpRunning, h2, h3, by decide, h4, by decide, fun hne => absurd hne (by decide)⟩

theorem pumpLog_append (a b : List Callback) : pumpLog (a ++ b) = pumpLog a ++ pumpLog b := by
  induction a with
  | nil => rfl
  | cons x a ih => simp [pumpLog, ih]

theorem pumpReplay_append (l1 l2 : List PumpAction) :
    ∀ b0 : Bool, pumpReplay b0 (l1 ++ l2) = (pumpReplay b0 l1).bind fun b => pumpReplay b l2 := by
  induction l1 with
  | nil =>
    intro b0
    rfl
  | cons a l1 ih =>
    intro b0
    cases a <;> cases b0 <;> simp [pumpReplay, ih]

/-- The calls that a pump accepts, starting off when `b0` is false: the calls on the pump
alternate, the first is `on()` (when the pump starts off), and the pump is on afterwards
exactly when the last call on it was `on()`. -/
theorem pumpReplay_alternates (log : List PumpAction) :
    ∀ b0 b : Bool, pumpReplay b0 log = some b →
      List.Chain' (fun x y => x ≠ y) (pumpCalls log) ∧
      (∀ a, (pumpCalls log).head? = some a → a = if b0 then .pumpOff else .pumpOn) ∧
      (b = true ↔
        (pumpCalls log).getLast?.getD (if b0 then .pumpOn else .pumpOff) = .pumpOn) := by
  induction log with
  | nil =>
    intro b0 b h
    simp only [pumpReplay, Option.some.injEq] at h
    subst h
    cases b0 <;> simp [pumpCalls]
  | cons a log ih =>
    intro b0 b h
    cases a with
    | pumpOn =>
      cases b0 with
      | true => simp [pumpReplay] at h
      | false =>
        simp only [pumpReplay, Bool.false_eq_true, if_false] at h
        obtain ⟨h1, h2, h3⟩ := ih true b h
        have hc : pumpCalls (.pumpOn :: log) = .pumpOn :: pumpCalls log := by
          simp [pumpCalls]
        rw [hc, List.chain'_cons']
        refine ⟨⟨fun y hy => ?_, h1⟩, ?_, ?_⟩
        · rw [h2 y (by simpa using hy)]
          simp
        · simp
        · rw [h3]
          cases hl : (pumpCalls log).getLast? <;> simp [List.getLast?_cons, hl]
    | pumpOff =>
      cases b0 with
      | false => simp [pumpReplay] at h
      | true =>
        simp only [pumpReplay, if_true] at h
        obtain ⟨h1, h2, h3⟩ := ih false b h
        have hc : pumpCalls (.pumpOff :: log) = .pumpOff :: pumpCalls log := by
          simp [pumpCalls]
        rw [hc, List.chain'_cons']
        refine ⟨⟨fun y hy => ?_, h1⟩, ?_, ?_⟩
        · rw [h2 y (by simpa using hy)]
          simp
        · simp
        · rw [h3]
          cases hl : (pumpCalls log).getLast? <;> simp [List.getLast?_cons, hl]
    | startRunningTimer =>
      have hc : pumpCalls (.startRunningTimer :: log) = pumpCalls log := by simp [pumpCalls]
      rw [hc]
      exact ih b0 b (by simpa [pumpReplay] using h)
    | cancelRunningTimer =>
      have hc : pumpCalls (.cancelRunningTimer :: log) = pumpCalls log := by simp [pumpCalls]
      rw [hc]
      exact ih b0 b (by simpa [pumpReplay] using h)
    | startPausedTimer =>
      have hc : pumpCalls (.startPausedTimer :: log) = pumpCalls log := by simp [pumpCalls]
      rw [hc]
      exact ih b0 b (by simpa [pumpReplay] using h)
    | cancelPausedTimer =>
      have hc : pumpCalls (.cancelPausedTimer :: log) = pumpCalls log := by simp [pumpCalls]
      rw [hc]
      exact ih b0 b (by simpa [pumpReplay] using h)

theorem pump_onEvents_step (evs : List Event) (hevs : ∀ ev ∈ evs, ev ∈ pumpEvents) :
    ∀ (m : HsmBase) (c : HsmStateBase), c ∈ pumpLeaves → m.currentState = some c →
      m.nextState = none →
      ∃ bs c2, (m.onEvents pumpInit 2 evs).result = .ok bs ∧ bs.length = evs.length ∧
        (m.onEvents pumpInit 2 evs).hsm.currentState = some c2 ∧ c2 ∈ pumpLeaves ∧
        (m.onEvents pumpInit 2 evs).hsm.nextState = none ∧
        pumpReplay (pumpRunsIn c) (pumpLog (m.onEvents pumpInit 2 evs).trace)
          = some (pumpRunsIn c2) := by
  induction evs with
  | nil =>
    intro m c hc hcur hnext
    exact ⟨[], c, rfl, rfl, hcur, hc, hnext, rfl⟩
  | cons ev evs ih =>
    intro m c hc hcur hnext
    obtain ⟨b, c1, hb, hcur1, hc1, hnext1, hrep1, _⟩ :=
      pump_onEvent_step m ev (hevs ev (List.mem_cons_self _ _)) c hc hcur hnext
    obtain ⟨bs, c2, hbs, hlen, hcur2, hc2, hnext2, hrep2⟩ :=
      ih (fun e he => hevs e (List.mem_cons_of_mem _ he)) _ c1 hc1 hcur1 hnext1
    rw [HsmBase.onEvents, Run.bind_of_ok hb, Run.bind_of_ok hbs]
    refine ⟨b :: bs, c2, rfl, by simp [hlen], hcur2, hc2, hnext2, ?_⟩
    simp only [Run.after, Run.pure, List.append_nil, pumpLog_append, pumpReplay_append, hrep1,
      Option.some_bind, hrep2]

/-- The trace of the test of the pump control machine, and the calls on the pump and the
timers in it, in the order the test expects them. -/
theorem pump_test_trace :
    (HsmBase.startAndDispatch pumpInit 2 pumpTestEvents (HsmBase.new pumpTop)).result
      = .ok [true, true, true, true, true, true] ∧
    pumpLog (HsmBase.startAndDispatch pumpInit 2 pumpTestEvents (HsmBase.new pumpTop)).trace
      = [.pumpOn, .pumpOff, .pumpOn, .startRunningTimer, .pumpOff, .startPausedTimer,
          .pumpOn, .startRunningTimer, .pumpOff, .cancelRunningTimer, .cancelPausedTimer] := by
  decide

/-- C32: the pump control machine of the example. After `onStart` and every finite sequence
of the events `Standby`, `Continuous`, `Pulsing`, `RunningTimeout`, `PausedTimeout`, every
call has returned; the calls `pump.on()` and `pump.off()` made so far alternate (no two
consecutive calls on the pump are equal) and the first of them is `on()`; the last call on
the pump was `on()` exactly when the current state is `running` or `continuous`; and a next
dispatch from `running` in which `pulsing` is exited makes its calls in the order
`pump.off()`, `runningTimer.cancel()`, `pausedTimer.cancel()`, then the calls of the states
entered. -/
theorem c32_pump_calls_alternate (evs : List Event) (hevs : ∀ ev ∈ evs, ev ∈ pumpEvents)
    (ev : Event) (hev : ev ∈ pumpEvents) :
    (∃ bs, (HsmBase.startAndDispatch pumpInit 2 evs (HsmBase.new pumpTop)).result = .ok bs ∧
      bs.length = evs.length) ∧
    List.Chain' (fun x y => x ≠ y)
      (pumpCalls (pumpLog
        (HsmBase.startAndDispatch pumpInit 2 evs (HsmBase.new pumpTop)).trace)) ∧
    (∀ a, (pumpCalls (pumpLog
        (HsmBase.startAndDispatch pumpInit 2 evs (HsmBase.new pumpTop)).trace)).head? = some a →
      a = .pumpOn) ∧
    ((pumpCalls (pumpLog
        (HsmBase.startAndDispatch pumpInit 2 evs (HsmBase.new pumpTop)).trace)).getLast?
        = some .pumpOn ↔
      ((HsmBase.startAndDispatch pumpInit 2 evs (HsmBase.new pumpTop)).hsm.currentState
          = some pumpRunning ∨
        (HsmBase.startAndDispatch pumpInit 2 evs (HsmBase.new pumpTop)).hsm.currentState
          = some pumpContinuous)) ∧
    ((HsmBase.startAndDispatch pumpInit 2 evs (HsmBase.new pumpTop)).hsm.currentState
        = some pumpRunning →
      .onExit pumpPulsing ∈
        ((HsmBase.startAndDispatch pumpInit 2 evs (HsmBase.new pumpTop)).hsm.onEvent
          pumpInit 2 ev).trace →
      ∃ rest, pumpLog
          ((HsmBase.startAndDispatch pumpInit 2 evs (HsmBase.new pumpTop)).hsm.onEvent
            pumpInit 2 ev).trace
        = .pumpOff :: .cancelRunningTimer :: .cancelPausedTimer :: rest) := by
  have hstart : HsmBase.onStart pumpInit 2 (HsmBase.new pumpTop)
      = ⟨[.onEnter pumpTop, .onInit pumpTop, .onEnter pumpStandby, .onInit pumpStandby],
          ⟨pumpTop, some pumpStandby, none, none, fun _ => none⟩, .ok ()⟩ := rfl
  obtain ⟨bs, c2, hbs, hlen, hcur2, hc2, hnext2, hrep⟩ := pump_onEvents_step evs hevs
    ⟨pumpTop, some pumpStandby, none, none, fun _ => none⟩ pumpStandby (by decide) rfl rfl
  have hrun : HsmBase.startAndDispatch pumpInit 2 evs (HsmBase.new pumpTop)
      = Run.after [.onEnter pumpTop, .onInit pumpTop, .onEnter pumpStandby,
          .onInit pumpStandby]
        (HsmBase.onEvents pumpInit 2 evs
          ⟨pumpTop, some pumpStandby, none, none, fun _ => none⟩) := by
    rw [HsmBase.startAndDispatch, hstart, Run.mk_ok_bind]
  have hlog : pumpLog (HsmBase.startAndDispatch pumpInit 2 evs (HsmBase.new pumpTop)).trace
      = pumpLog (HsmBase.onEvents pumpInit 2 evs
          ⟨pumpTop, some pumpStandby, none, none, fun _ => none⟩).trace := by
    rw [hrun]
    simp only [Run.after, pumpLog_append]
    rfl
  have hhsm : (HsmBase.startAndDispatch pumpInit 2 evs (HsmBase.new pumpTop)).hsm
      = (HsmBase.onEvents pumpInit 2 evs
          ⟨pumpTop, some pumpStandby, none, none, fun _ => none⟩).hsm := by
    rw [hrun]
    rfl
  have hres : (HsmBase.startAndDispatch pumpInit 2 evs (HsmBase.new pumpTop)).result
      = .ok bs := by
    rw [hrun]
    exact hbs
  have hst : pumpRunsIn pumpStandby = false := by decide
  rw [hst] at hrep
  obtain ⟨h1, h2, h3⟩ := pumpReplay_alternates _ _ _ hrep
  simp only [Bool.false_eq_true, if_false] at h2 h3
  rw [hlog, hhsm, hcur2]
  refine ⟨⟨bs, hres, hlen⟩, h1, h2, ?_, ?_⟩
  · have h4 : pumpRunsIn c2 = true
        ↔ (some c2 = some pumpRunning ∨ some c2 = some pumpContinuous) := by
      simp [pumpRunsIn]
    rw [← h4, h3]
    cases hl : (pumpCalls (pumpLog (HsmBase.onEvents pumpInit 2 evs
      ⟨pumpTop, some pumpStandby, none, none, fun _ => none⟩).trace)).getLast? <;> simp
  · intro hrunning hmem
    obtain ⟨_, _, _, _, _, _, _, h5⟩ := pump_onEvent_step _ ev hev c2 hc2 hcur2 hnext2
    exact h5 (by simpa using hrunning) hmem

/-- C32, witness: the five events in a row, `Standby`, `Continuous`, `Pulsing`,
`RunningTimeout`, `PausedTimeout`, after which the machine is in `running`, followed by
`Standby`. -/
theorem c32_pump_calls_alternate_witness :
    (∃ bs, (HsmBase.startAndDispatch pumpInit 2 pumpEvents (HsmBase.new pumpTop)).result
        = .ok bs ∧ bs.length = pumpEvents.length) ∧
    List.Chain' (fun x y => x ≠ y)
      (pumpCalls (pumpLog
        (HsmBase.startAndDispatch pumpInit 2 pumpEvents (HsmBase.new pumpTop)).trace)) ∧
    (∀ a, (pumpCalls (pumpLog
        (HsmBase.startAndDispatch pumpInit 2 pumpEvents (HsmBase.new pumpTop)).trace)).head?
        = some a →
      a = .pumpOn) ∧
    ((pumpCalls (pumpLog
        (HsmBase.startAndDispatch pumpInit 2 pumpEvents (HsmBase.new pumpTop)).trace)).getLast?
        = some .pumpOn ↔
      ((HsmBase.startAndDispatch pumpInit 2 pumpEvents (HsmBase.new pumpTop)).hsm.currentState
          = some pumpRunning ∨
        (HsmBase.startAndDispatch pumpInit 2 pumpEvents (HsmBase.new pumpTop)).hsm.currentState
          = some pumpContinuous)) ∧
    ((HsmBase.startAndDispatch pumpInit 2 pumpEvents (HsmBase.new pumpTop)).hsm.currentState
        = some pumpRunning →
      .onExit pumpPulsing ∈
        ((HsmBase.startAndDispatch pumpInit 2 pumpEvents (HsmBase.new pumpTop)).hsm.onEvent
          pumpInit 2 pumpEventStandby).trace →
      ∃ rest, pumpLog
          ((HsmBase.startAndDispatch pumpInit 2 pumpEvents (HsmBase.new pumpTop)).hsm.onEvent
            pumpInit 2 pumpEventStandby).trace
        = .pumpOff :: .cancelRunningTimer :: .cancelPausedTimer :: rest) :=
  c32_pump_calls_alternate pumpEvents (fun _ h => h) pumpEventStandby
    (List.mem_cons_self _ _)

/-- The witness of C32 is not vacuous: after the five events the machine is in `running`,
`Standby` exits `pulsing`, and the calls made are `pump.off()` and the two `cancel()`. -/
theorem pump_leave_pulsing_example :
    (HsmBase.startAndDispatch pumpInit 2 pumpEvents (HsmBase.new pumpTop)).hsm.currentState
      = some pumpRunning ∧
    Callback.onExit pumpPulsing ∈
      ((HsmBase.startAndDispatch pumpInit 2 pumpEvents (HsmBase.new pumpTop)).hsm.onEvent
        pumpInit 2 pumpEventStandby).trace ∧
    pumpLog
        ((HsmBase.startAndDispatch pumpInit 2 pumpEvents (HsmBase.new pumpTop)).hsm.onEvent
          pumpInit 2 pumpEventStandby).trace
      = [.pumpOff, .cancelRunningTimer, .cancelPausedTimer] := by
  decide

/-! ## The active configuration -/

theorem replay_append (t1 t2 : List Callback) :
    ∀ a, replay a (t1 ++ t2) = (replay a t1).bind fun a1 => replay a1 t2 := by
  induction t1 with
  | nil =>
    intro a
    rfl
  | cons cb t1 ih =>
    intro a
    simp only [List.cons_append, replay]
    cases replayStep a cb with
    | none => rfl
    | some a1 => simp [ih]

theorem Run.tracks_pure {α : Type} (x : α) (m : HsmBase) {c root : HsmStateBase}
    (hcur : m.currentState = some c) (hroot : c.rootOf = root) :
    (Run.pure x m).Tracks (some c) root :=
  ⟨some c, rfl, fun _ _ => ⟨c, rfl, hcur, hroot⟩⟩

theorem Run.tracks_fail {α : Type} (f : Fault) (m : HsmBase) (a : Option HsmStateBase)
    (root : HsmStateBase) : (Run.fail f m : Run α).Tracks a root :=
  ⟨a, rfl, fun _ h => by simp [Run.fail] at h⟩

theorem Run.tracks_after {α : Type} (cbs : List Callback) (r : Run α)
    {a0 a1 : Option HsmStateBase} {root : HsmStateBase} (h0 : replay a0 cbs = some a1)
    (h : r.Tracks a1 root) : (Run.after cbs r).Tracks a0 root := by
  obtain ⟨a, ha, hok⟩ := h
  refine ⟨a, ?_, hok⟩
  simp only [Run.after]
  rw [replay_append, h0]
  exact ha

theorem Run.tracks_bind {α β : Type} (r : Run α) (f : α → HsmBase → Run β)
    {a0 : Option HsmStateBase} {root : HsmStateBase}
    (h : ∃ a1, replay a0 r.trace = some a1 ∧
      ∀ x, r.result = .ok x → (f x r.hsm).Tracks a1 root) :
    (r.bind f).Tracks a0 root := by
  obtain ⟨a1, h1, h2⟩ := h
  cases hres : r.result with
  | error e =>
    rw [Run.bind_of_error hres]
    exact ⟨a1, h1, fun _ h => by simp at h⟩
  | ok x =>
    rw [Run.bind_of_ok hres]
    exact Run.tracks_after _ _ h1 (h2 x hres)

theorem Run.Tracks.bind {α β : Type} {r : Run α} {f : α → HsmBase → Run β}
    {a0 : Option HsmStateBase} {root : HsmStateBase} (h : r.Tracks a0 root)
    (hf : ∀ x m c, m.currentState = some c → c.rootOf = root → (f x m).Tracks (some c) root) :
    (r.bind f).Tracks a0 root := by
  obtain ⟨a1, h1, h2⟩ := h
  refine Run.tracks_bind r f ⟨a1, h1, fun x hx => ?_⟩
  obtain ⟨c, rfl, hc, hr⟩ := h2 x hx
  exact hf x _ c hc hr

theorem HsmBase.exitUpToSource_replay (state : HsmStateBase) :
    ∀ m : HsmBase, ∃ a, replay (some state) (m.exitUpToSource state).trace = some a ∧
      ∀ s, (m.exitUpToSource state).result = .ok s → a = some s ∧ s.rootOf = state.rootOf := by
  induction state with
  | root i =>
    intro m
    unfold HsmBase.exitUpToSource
    split_ifs
    · exact ⟨some (.root i), rfl, fun s hs => by
        simp only [Run.pure, Except.ok.injEq] at hs
        subst hs
        exact ⟨rfl, rfl⟩⟩
    · exact ⟨none, by simp [Run.after, Run.fail, replay, replayStep, HsmStateBase.superState],
        fun s hs => by simp [Run.after, Run.fail] at hs⟩
  | sub i p ih =>
    intro m
    unfold HsmBase.exitUpToSource
    split_ifs
    · exact ⟨some (.sub i p), rfl, fun s hs => by
        simp only [Run.pure, Except.ok.injEq] at hs
        subst hs
        exact ⟨rfl, rfl⟩⟩
    · obtain ⟨a, ha, hok⟩ := ih (m.remember p (.sub i p))
      refine ⟨a, ?_, fun s hs => ?_⟩
      · simpa [Run.after, replay, replayStep, HsmStateBase.superState] using ha
      · obtain ⟨h1, h2⟩ := hok s (by simpa [Run.after] using hs)
        exact ⟨h1, by simpa [HsmStateBase.rootOf] using h2⟩

theorem HsmBase.exitLevels_replay (n : Nat) :
    ∀ (m : HsmBase) (state : HsmStateBase),
      ∃ a, replay (some state) (m.exitLevels n state).trace = some a ∧
        ∀ s, (m.exitLevels n state).result = .ok s → a = some s ∧ s.rootOf = state.rootOf := by
  induction n with
  | zero =>
    intro m state
    exact ⟨some state, rfl, fun s hs => by
      simp only [HsmBase.exitLevels, Run.pure, Except.ok.injEq] at hs
      subst hs
      exact ⟨rfl, rfl⟩⟩
  | succ k ih =>
    intro m state
    cases state with
    | root i =>
      exact ⟨none, by
        simp [HsmBase.exitLevels, Run.after, Run.fail, replay, replayStep,
          HsmStateBase.superState],
        fun s hs => by simp [HsmBase.exitLevels, Run.after, Run.fail] at hs⟩
    | sub i p =>
      obtain ⟨a, ha, hok⟩ := ih (m.remember p (.sub i p)) p
      refine ⟨a, ?_, fun s hs => ?_⟩
      · simpa [HsmBase.exitLevels, Run.after, replay, replayStep, HsmStateBase.superState]
          using ha
      · obtain ⟨h1, h2⟩ := hok s (by simpa [HsmBase.exitLevels, Run.after] using hs)
        exact ⟨h1, by simpa [HsmStateBase.rootOf] using h2⟩

theorem HsmBase.exitUpToLCA_tracks (m : HsmBase) (t : HsmStateBase) {c root : HsmStateBase}
    (hcur : m.currentState = some c) (hroot : c.rootOf = root) :
    (m.exitUpToLCA t).Tracks (some c) root := by
  unfold HsmBase.exitUpToLCA
  rw [hcur]
  simp only
  obtain ⟨a1, h1, hok1⟩ := HsmBase.exitUpToSource_replay c m
  refine Run.tracks_bind _ _ ⟨a1, h1, fun s hs => ?_⟩
  obtain ⟨rfl, hr1⟩ := hok1 s hs
  obtain ⟨a2, h2, hok2⟩ := HsmBase.exitLevels_replay
    ((m.exitUpToSource c).hsm.levelsToLCA t) (m.exitUpToSource c).hsm s
  refine Run.tracks_bind _ _ ⟨a2, h2, fun l hl => ?_⟩
  obtain ⟨rfl, hr2⟩ := hok2 l hl
  exact Run.tracks_pure _ _ rfl (by rw [hr2, hr1, hroot])

theorem HsmBase.call_tracks (m : HsmBase) (r : Request) {c root : HsmStateBase}
    (hcur : m.currentState = some c) (hroot : c.rootOf = root) :
    (m.call r).Tracks (some c) root := by
  have hne : ¬ (m.currentState = none) := by simp [hcur]
  cases r with
  | transition t =>
    simp only [HsmBase.call, HsmBase.transition, if_neg hne]
    exact (HsmBase.exitUpToLCA_tracks m t hcur hroot).bind
      (fun _ m1 c1 h1 hr => Run.tracks_pure _ _ h1 hr)
  | externalTransition t =>
    simp only [HsmBase.call, HsmBase.externalTransition, if_neg hne]
    refine (HsmBase.exitUpToLCA_tracks m t hcur hroot).bind (fun _ m1 c1 h1 hr => ?_)
    rw [h1]
    simp only
    refine Run.tracks_after _ _ ?_ (Run.tracks_pure _ _ (c := c1) rfl hr)
    simp [replay, replayStep]
  | initialTransition s =>
    exact Run.tracks_pure _ _ hcur hroot
  | initialHistoryTransition s =>
    simp only [HsmBase.call, HsmBase.initialHistoryTransition, hcur]
    cases m.historySubstate c <;> exact Run.tracks_pure _ _ hcur hroot

theorem HsmBase.calls_tracks (rs : List Request) :
    ∀ (m : HsmBase) (c root : HsmStateBase), m.currentState = some c → c.rootOf = root →
      (m.calls rs).Tracks (some c) root := by
  induction rs with
  | nil =>
    intro m c root hcur hroot
    exact Run.tracks_pure _ _ hcur hroot
  | cons r rs ih =>
    intro m c root hcur hroot
    rw [HsmBase.calls]
    exact (HsmBase.call_tracks m r hcur hroot).bind (fun _ m1 c1 h1 hr => ih m1 c1 root h1 hr)

/-- The first loop of `enterNextState` when it ends normally: the states written to the entry
path, read back from the last slot, are entered one below the other, starting below the
current state. -/
theorem tracePath_ok_replay (c : HsmStateBase) (state : HsmStateBase) :
    ∀ (acc path : List HsmStateBase) (x : HsmStateBase),
      tracePath (some c) state acc = .ok path →
      replay (some state) (acc.map .onEnter) = some (some x) →
      replay (some c) (path.map .onEnter) = some (some x) ∧ c ∈ state.chain := by
  induction state with
  | root i =>
    intro acc path x h hacc
    unfold tracePath at h
    dsimp only at h
    split_ifs at h with h1
    · simp only [Option.some.injEq] at h1
      simp only [Except.ok.injEq] at h
      subst h1 h
      exact ⟨hacc, HsmStateBase.mem_chain_self _⟩
    all_goals contradiction
  | sub i p ih =>
    intro acc path x h hacc
    unfold tracePath at h
    dsimp only at h
    split_ifs at h with h1
    · simp only [Option.some.injEq] at h1
      simp only [Except.ok.injEq] at h
      subst h1 h
      exact ⟨hacc, HsmStateBase.mem_chain_self _⟩
    · obtain ⟨h2, h3⟩ := ih (.sub i p :: acc) path x h (by
        simpa [replay, replayStep, HsmStateBase.superState] using hacc)
      exact ⟨h2, by simp [HsmStateBase.chain, h3]⟩

theorem HsmBase.enterNextState_replay (m : HsmBase) {c t : HsmStateBase}
    (hcur : m.currentState = some c) (hnext : m.nextState = some t) :
    ∃ a, replay (some c) m.enterNextState.trace = some a ∧
      ∀ u, m.enterNextState.result = .ok u → a = some t ∧ t.rootOf = c.rootOf := by
  unfold HsmBase.enterNextState
  rw [hnext, hcur]
  simp only
  cases h : tracePath (some c) t [] with
  | error f => exact ⟨some c, rfl, fun u hu => by simp [Run.fail] at hu⟩
  | ok path =>
    obtain ⟨h1, h2⟩ := tracePath_ok_replay c t [] path t h rfl
    refine ⟨some t, ?_, fun _ _ => ⟨rfl, (HsmStateBase.rootOf_eq_of_mem_chain h2).symm⟩⟩
    simpa [Run.after, Run.pure] using h1

theorem HsmBase.initCurrentState_tracks (onInit : HsmStateBase → List Request) (fuel : Nat) :
    ∀ (m : HsmBase) (c root : HsmStateBase), m.currentState = some c → c.rootOf = root →
      (HsmBase.initCurrentState onInit fuel m).Tracks (some c) root := by
  induction fuel with
  | zero =>
    intro m c root _ _
    exact Run.tracks_fail _ _ _ _
  | succ k ih =>
    intro m c root hcur hroot
    rw [HsmBase.initCurrentState, hcur]
    simp only
    refine Run.tracks_after _ _
      (show replay (some c) [Callback.onInit c] = some (some c) from rfl) ?_
    refine (HsmBase.calls_tracks (onInit c) m c root hcur hroot).bind
      (fun _ m1 c1 h1 hr => ?_)
    cases hnx : m1.nextState with
    | none => exact Run.tracks_pure _ _ h1 hr
    | some nx =>
      simp only
      by_cases hsup : nx.superState = m1.currentState
      · rw [if_pos hsup]
        obtain ⟨a, ha, hok⟩ := HsmBase.enterNextState_replay m1 h1 hnx
        refine Run.tracks_bind _ _ ⟨a, ha, fun u hu => ?_⟩
        obtain ⟨rfl, hrt⟩ := hok u hu
        rw [HsmBase.enterNextState_hsm, hnx]
        exact ih _ nx root rfl (by rw [hrt, hr])
      · rw [if_neg hsup]
        exact Run.tracks_fail _ _ _ _

theorem HsmBase.enterAndInitNextState_tracks (onInit : HsmStateBase → List Request)
    (fuel : Nat) (m : HsmBase) {c root : HsmStateBase} (hcur : m.currentState = some c)
    (hroot : c.rootOf = root) :
    (m.enterAndInitNextState onInit fuel).Tracks (some c) root := by
  unfold HsmBase.enterAndInitNextState
  cases hnx : m.nextState with
  | none =>
    have hfail : m.enterNextState = Run.fail .nullDereference m := by
      simp [HsmBase.enterNextState, hnx, hcur]
    rw [hfail, Run.fail_bind]
    exact Run.tracks_fail _ _ _ _
  | some t =>
    obtain ⟨a, ha, hok⟩ := HsmBase.enterNextState_replay m hcur hnx
    refine Run.tracks_bind _ _ ⟨a, ha, fun u hu => ?_⟩
    obtain ⟨rfl, hrt⟩ := hok u hu
    rw [HsmBase.enterNextState_hsm, hnx]
    exact HsmBase.initCurrentState_tracks onInit fuel _ t root rfl (by rw [hrt, hroot])

theorem HsmBase.afterHandled_tracks (onInit : HsmStateBase → List Request) (fuel : Nat)
    (m : HsmBase) {c root : HsmStateBase} (hcur : m.currentState = some c)
    (hroot : c.rootOf = root) :
    (m.afterHandled onInit fuel).Tracks (some c) root := by
  unfold HsmBase.afterHandled
  cases hnx : m.nextState with
  | none => exact Run.tracks_pure _ _ hcur hroot
  | some t =>
    exact (HsmBase.enterAndInitNextState_tracks onInit fuel m hcur hroot).bind
      (fun _ m2 c2 h2 hr => Run.tracks_pure _ _ h2 hr)

theorem HsmBase.onEventFrom_tracks (onInit : HsmStateBase → List Request) (fuel : Nat)
    (ev : Event) (state : HsmStateBase) :
    ∀ (m : HsmBase) (c root : HsmStateBase), m.currentState = some c → c.rootOf = root →
      (m.onEventFrom onInit fuel ev state).Tracks (some c) root := by
  induction state with
  | root i =>
    intro m c root hcur hroot
    rw [HsmBase.onEventFrom]
    refine Run.tracks_after _ _
      (show replay (some c) [Callback.onEvent (.root i)] = some (some c) from rfl) ?_
    refine (HsmBase.calls_tracks _ { m with sourceState := some (.root i) } c root hcur
      hroot).bind (fun _ m1 c1 h1 hr => ?_)
    cases (ev (.root i)).handled with
    | true => exact HsmBase.afterHandled_tracks onInit fuel m1 h1 hr
    | false => exact Run.tracks_pure _ _ h1 hr
  | sub i p ih =>
    intro m c root hcur hroot
    rw [HsmBase.onEventFrom]
    refine Run.tracks_after _ _
      (show replay (some c) [Callback.onEvent (.sub i p)] = some (some c) from rfl) ?_
    refine (HsmBase.calls_tracks _ { m with sourceState := some (.sub i p) } c root hcur
      hroot).bind (fun _ m1 c1 h1 hr => ?_)
    cases (ev (.sub i p)).handled with
    | true => exact HsmBase.afterHandled_tracks onInit fuel m1 h1 hr
    | false => exact ih m1 c1 root h1 hr

theorem HsmBase.onEvent_tracks (onInit : HsmStateBase → List Request) (fuel : Nat)
    (ev : Event) (m : HsmBase) {c root : HsmStateBase} (hcur : m.currentState = some c)
    (hroot : c.rootOf = root) :
    (m.onEvent onInit fuel ev).Tracks (some c) root := by
  rw [HsmBase.onEvent_eq_onEventFrom onInit fuel ev m hcur]
  exact HsmBase.onEventFrom_tracks onInit fuel ev c m c root hcur hroot

theorem HsmBase.onEvents_tracks (onInit : HsmStateBase → List Request) (fuel : Nat)
    (evs : List Event) :
    ∀ (m : HsmBase) (c root : HsmStateBase), m.currentState = some c → c.rootOf = root →
      (m.onEvents onInit fuel evs).Tracks (some c) root := by
  induction evs with
  | nil =>
    intro m c root hcur hroot
    exact Run.tracks_pure _ _ hcur hroot
  | cons ev evs ih =>
    intro m c root hcur hroot
    rw [HsmBase.onEvents]
    refine (HsmBase.onEvent_tracks onInit fuel ev m hcur hroot).bind
      (fun _ m1 c1 h1 hr => ?_)
    exact (ih m1 c1 root h1 hr).bind (fun _ m2 c2 h2 hr2 => Run.tracks_pure _ _ h2 hr2)

/-- Whatever the handlers and the `onInit` callbacks do: the callbacks of `onStart` and of
any sequence of dispatches on a freshly constructed machine are accepted by an observer who
starts with no active state, and when all calls have returned the current state is the
innermost active state, in the tree of the top state. -/
theorem HsmBase.startAndDispatch_tracks (onInit : HsmStateBase → List Request) (fuel : Nat)
    (evs : List Event) (top : HsmStateBase) :
    (HsmBase.startAndDispatch onInit fuel evs (HsmBase.new top)).Tracks none top := by
  unfold HsmBase.startAndDispatch HsmBase.onStart
  by_cases htop : top.superState = none
  · have h1 : ¬ ((HsmBase.new top).topState.superState ≠ none) := by
      simpa [HsmBase.new] using htop
    have h2 : ¬ ((HsmBase.new top).currentState ≠ none) := by simp [HsmBase.new]
    rw [if_neg h1, if_neg h2]
    have hroot : top.rootOf = top := by
      cases top with
      | root i => rfl
      | sub i p => simp [HsmStateBase.superState] at htop
    have henter : replay none [Callback.onEnter (HsmBase.new top).topState]
        = some (some top) := by
      simp [HsmBase.new, replay, replayStep, htop]
    exact Run.Tracks.bind (Run.tracks_after _ _ henter
      (HsmBase.initCurrentState_tracks onInit fuel _ top top rfl hroot))
      (fun _ m1 c1 h1 hr => HsmBase.onEvents_tracks onInit fuel evs m1 c1 top h1 hr)
  · have h1 : (HsmBase.new top).topState.superState ≠ none := by
      simpa [HsmBase.new] using htop
    rw [if_pos h1, Run.fail_bind]
    exact Run.tracks_fail _ _ _ _

theorem activeChain_some (x : HsmStateBase) :
    activeChain (some x) = x :: activeChain x.superState := by
  cases x <;> rfl

theorem not_mem_activeChain_super (x : HsmStateBase) : x ∉ activeChain x.superState := by
  cases x with
  | root i => simp [activeChain, HsmStateBase.superState]
  | sub i p => exact HsmStateBase.not_mem_chain_super i p

/-- One accepted callback moves the set of active states as the callback says. -/
theorem replayStep_active {a0 a1 : Option HsmStateBase} {cb : Callback}
    (h : replayStep a0 cb = some a1) (n : HsmStateBase) :
    activeStep n (decide (n ∈ activeChain a0)) cb = decide (n ∈ activeChain a1) := by
  cases cb with
  | onEnter x =>
    simp only [replayStep] at h
    split_ifs at h with hx
    simp only [Option.some.injEq] at h
    subst h hx
    rw [activeChain_some]
    by_cases hn : x = n
    · subst hn
      simp [activeStep]
    · have hn2 : ¬ (n = x) := fun e => hn e.symm
      simp [activeStep, hn, hn2]
  | onExit x =>
    simp only [replayStep] at h
    split_ifs at h with hx
    simp only [Option.some.injEq] at h
    subst h hx
    rw [activeChain_some]
    by_cases hn : x = n
    · subst hn
      simp [activeStep, not_mem_activeChain_super]
    · have hn2 : ¬ (n = x) := fun e => hn e.symm
      simp [activeStep, hn, hn2]
  | onInit x =>
    simp only [replayStep, Option.some.injEq] at h
    subst h
    simp [activeStep]
  | onEvent x =>
    simp only [replayStep, Option.some.injEq] at h
    subst h
    simp [activeStep]

/-- After an accepted trace the active states are the chain of the innermost active state. -/
theorem replay_active (trace : List Callback) :
    ∀ a0 a, replay a0 trace = some a → ∀ n,
      trace.foldl (activeStep n) (decide (n ∈ activeChain a0)) = decide (n ∈ activeChain a) := by
  induction trace with
  | nil =>
    intro a0 a h n
    simp only [replay, Option.some.injEq] at h
    subst h
    rfl
  | cons cb trace ih =>
    intro a0 a h n
    simp only [replay] at h
    cases hstep : replayStep a0 cb with
    | none => simp [hstep] at h
    | some a1 =>
      rw [hstep] at h
      simp only [Option.some_bind] at h
      rw [List.foldl_cons, replayStep_active hstep n]
      exact ih a1 a h n

theorem activeAfter_of_replay {trace : List Callback} {a : Option HsmStateBase}
    (h : replay none trace = some a) (n : HsmStateBase) :
    activeAfter trace n = decide (n ∈ activeChain a) := by
  have := replay_active trace none a h n
  simpa [activeAfter, activeChain] using this

theorem replay_split {pre post : List Callback} {cb : Callback} {a0 a : Option HsmStateBase}
    (h : replay a0 (pre ++ cb :: post) = some a) :
    ∃ a1 a2, replay a0 pre = some a1 ∧ replayStep a1 cb = some a2 := by
  rw [replay_append] at h
  cases h1 : replay a0 pre with
  | none => simp [h1] at h
  | some a1 =>
    rw [h1] at h
    simp only [Option.some_bind, replay] at h
    cases h2 : replayStep a1 cb with
    | none => simp [h2] at h
    | some a2 => exact ⟨a1, a2, rfl, h2⟩

/-- C33: whatever the handlers and the `onInit` callbacks request, for `onStart` followed by
any sequence of dispatches on a freshly constructed machine: when all calls have returned,
the states whose most recent `onEnter`/`onExit` callback was `onEnter` are exactly the
states on the chain from the current state up to the top state; and (also in a run that
stops at a fault) every `onExit` is invoked on a state that is active and has no active sub
state, every `onEnter` on a state that is inactive and whose super state, if it has one, is
active. -/
theorem c33_active_configuration (onInit : HsmStateBase → List Request) (fuel : Nat)
    (evs : List Event) (top : HsmStateBase) :
    (∀ bs, (HsmBase.startAndDispatch onInit fuel evs (HsmBase.new top)).result = .ok bs →
      ∃ c, (HsmBase.startAndDispatch onInit fuel evs (HsmBase.new top)).hsm.currentState
          = some c ∧
        c.rootOf = top ∧ top ∈ c.chain ∧
        ∀ n, activeAfter (HsmBase.startAndDispatch onInit fuel evs (HsmBase.new top)).trace n
            = true ↔ n ∈ c.chain) ∧
    (∀ pre n post,
      (HsmBase.startAndDispatch onInit fuel evs (HsmBase.new top)).trace
        = pre ++ .onExit n :: post →
      activeAfter pre n = true ∧ ∀ x, x.superState = some n → activeAfter pre x = false) ∧
    (∀ pre n post,
      (HsmBase.startAndDispatch onInit fuel evs (HsmBase.new top)).trace
        = pre ++ .onEnter n :: post →
      activeAfter pre n = false ∧ ∀ p, n.superState = some p → activeAfter pre p = true) := by
  obtain ⟨a, ha, hok⟩ := HsmBase.startAndDispatch_tracks onInit fuel evs top
  refine ⟨fun bs hbs => ?_, fun pre n post htr => ?_, fun pre n post htr => ?_⟩
  · obtain ⟨c, rfl, hc, hroot⟩ := hok bs hbs
    refine ⟨c, hc, hroot, hroot ▸ HsmStateBase.rootOf_mem_chain c, fun n => ?_⟩
    rw [activeAfter_of_replay ha n]
    simp [activeChain]
  · rw [htr] at ha
    obtain ⟨a1, a2, h1, h2⟩ := replay_split ha
    simp only [replayStep] at h2
    split_ifs at h2 with hx
    subst hx
    refine ⟨?_, fun x hx => ?_⟩
    · rw [activeAfter_of_replay h1 n]
      simp [activeChain, HsmStateBase.mem_chain_self]
    · rw [activeAfter_of_replay h1 x]
      obtain ⟨i, rfl⟩ := HsmStateBase.eq_sub_of_superState hx
      simp [activeChain, HsmStateBase.not_mem_chain_super]
  · rw [htr] at ha
    obtain ⟨a1, a2, h1, h2⟩ := replay_split ha
    simp only [replayStep] at h2
    split_ifs at h2 with hx
    subst hx
    refine ⟨?_, fun p hp => ?_⟩
    · rw [activeAfter_of_replay h1 n]
      simp [not_mem_activeChain_super]
    · rw [activeAfter_of_replay h1 p, hp]
      simp [activeChain, HsmStateBase.mem_chain_self]

/-- The run of the hierarchy test returns, in `S211`: the first part of the invariant applies
to it, the active states are `S211`, `S21`, `S2` and `TOP`. -/
theorem hierarchy_test_active_states :
    (HsmBase.startAndDispatch hierarchyInit 3 hierarchyEvents
        (HsmBase.new hierarchyTop)).result = .ok (hierarchyEvents.map fun _ => true) ∧
    (HsmBase.startAndDispatch hierarchyInit 3 hierarchyEvents
        (HsmBase.new hierarchyTop)).hsm.currentState = some hierarchyS211 ∧
    hierarchyStates.filter (activeAfter (HsmBase.startAndDispatch hierarchyInit 3
        hierarchyEvents (HsmBase.new hierarchyTop)).trace)
      = [hierarchyTop, hierarchyS2, hierarchyS21, hierarchyS211] := by
  decide

/-! ## The walk of the dispatch loop, total -/

theorem handlerWalk_initial_part (ev : Event) (xs : List HsmStateBase) : handlerWalk ev xs <+: xs := by
  induction xs with
  | nil => exact List.prefix_refl _
  | cons x rest ih =>
    simp only [handlerWalk]
    split
    · exact ⟨rest, rfl⟩
    · exact (List.prefix_cons_inj x).2 ih

/-- With handlers that make no engine call when they decline, the dispatch loop invokes the
handlers of the chain up to and including the first that accepts, whether or not the engine
calls of that handler return. -/
theorem HsmBase.onEventFrom_handlers_of_declining (onInit : HsmStateBase → List Request)
    (fuel : Nat) (ev : Event) (c : HsmStateBase) :
    ∀ m : HsmBase, (∀ n ∈ c.chain, (ev n).handled = false → (ev n).requests = []) →
      (m.onEventFrom onInit fuel ev c).trace.filter Callback.isHandler
        = (handlerWalk ev c.chain).map .onEvent := by
  induction c with
  | root i =>
    intro m hdecl
    cases hh : (ev (.root i)).handled with
    | true =>
      cases hres : (HsmBase.calls { m with sourceState := some (.root i) }
          (ev (.root i)).requests).result with
      | error e =>
        rw [HsmBase.onEventFrom_fault onInit fuel ev m _ e hres]
        simp [Callback.isHandler, HsmBase.calls_noHandlers, HsmStateBase.chain, handlerWalk, hh]
      | ok u =>
        rw [HsmBase.onEventFrom_handled onInit fuel ev m _ hres hh]
        simp [Run.after, Callback.isHandler, HsmBase.calls_noHandlers,
          HsmBase.afterHandled_noHandlers, HsmStateBase.chain, handlerWalk, hh]
    | false =>
      have hreq := hdecl _ (HsmStateBase.mem_chain_self _) hh
      rw [HsmBase.onEventFrom_root_unhandled onInit fuel ev m i (by rw [hreq]; rfl) hh]
      simp [Callback.isHandler, HsmBase.calls_noHandlers, HsmStateBase.chain, handlerWalk, hh]
  | sub i p ih =>
    intro m hdecl
    cases hh : (ev (.sub i p)).handled with
    | true =>
      cases hres : (HsmBase.calls { m with sourceState := some (.sub i p) }
          (ev (.sub i p)).requests).result with
      | error e =>
        rw [HsmBase.onEventFrom_fault onInit fuel ev m _ e hres]
        simp [Callback.isHandler, HsmBase.calls_noHandlers, HsmStateBase.chain, handlerWalk, hh]
      | ok u =>
        rw [HsmBase.onEventFrom_handled onInit fuel ev m _ hres hh]
        simp [Run.after, Callback.isHandler, HsmBase.calls_noHandlers,
          HsmBase.afterHandled_noHandlers, HsmStateBase.chain, handlerWalk, hh]
    | false =>
      have hreq := hdecl _ (HsmStateBase.mem_chain_self _) hh
      rw [HsmBase.onEventFrom_sub_unhandled onInit fuel ev m i p (by rw [hreq]; rfl) hh]
      have := ih (HsmBase.calls { m with sourceState := some (.sub i p) }
        (ev (.sub i p)).requests).hsm
        (fun n hn => hdecl n (by simp [HsmStateBase.chain, hn]))
      simp [Run.after, Callback.isHandler, HsmBase.calls_noHandlers, HsmStateBase.chain,
        handlerWalk, hh, this]

/-- The dispatch loop at a state whose handler accepts: the engine calls of the handler, then
the entry of the pending state and the settling loop. -/
theorem HsmBase.onEventFrom_accepting (onInit : HsmStateBase → List Request) (fuel : Nat)
    (ev : Event) (m : HsmBase) (s : HsmStateBase) (hh : (ev s).handled = true) :
    m.onEventFrom onInit fuel ev s
      = Run.after [.onEvent s]
          (({ m with sourceState := some s }.calls (ev s).requests).bind
            fun _ m1 => m1.afterHandled onInit fuel) := by
  cases s with
  | root i =>
    rw [HsmBase.onEventFrom]
    simp only [hh, if_true]
  | sub i p =>
    rw [HsmBase.onEventFrom]
    simp only [hh, if_true]

theorem HsmBase.rememberAll_wf (xs : List HsmStateBase) :
    ∀ m : HsmBase, HistoryWellFormed m.historySubstate →
      HistoryWellFormed (m.rememberAll xs).historySubstate := by
  induction xs with
  | nil => intro m h; exact h
  | cons y ys ih =>
    intro m h
    cases y with
    | root k => exact ih m h
    | sub k q => exact ih _ (h.remember_sub k q)

theorem HsmBase.rememberAll_mem (xs : List HsmStateBase) :
    ∀ (m : HsmBase) (a h : HsmStateBase), (m.rememberAll xs).historySubstate a = some h →
      h ∈ xs ∨ m.historySubstate a = some h := by
  induction xs with
  | nil => intro m a h hh; exact Or.inr hh
  | cons y ys ih =>
    intro m a h hh
    cases y with
    | root k =>
      rcases ih m a h hh with h1 | h1
      · exact Or.inl (List.mem_cons_of_mem _ h1)
      · exact Or.inr h1
    | sub k q =>
      rcases ih _ a h hh with h1 | h1
      · exact Or.inl (List.mem_cons_of_mem _ h1)
      · by_cases ha : a = q
        · subst ha
          simp only [HsmBase.remember, Function.update_same, Option.some.injEq] at h1
          subst h1
          exact Or.inl (List.mem_cons_self _ _)
        · simp only [HsmBase.remember, Function.update_noteq ha] at h1
          exact Or.inr h1

/-- The settling loop on a finite tree that holds the declared defaults and the recorded
history, with `onInit` callbacks that name direct sub states and well-formed history: with
more fuel than the height of the subtree of the current state it returns. -/
theorem HsmBase.initCurrentState_returns (onInit : HsmStateBase → List Request)
    (hvalid : NamesDirectChildren onInit) (tree : List HsmStateBase) (fuel : Nat)
    (m : HsmBase) (c : HsmStateBase) (hcur : m.currentState = some c)
    (hnext : m.nextState = none) (hwf : HistoryWellFormed m.historySubstate) (hc : c ∈ tree)
    (hhist : ∀ a h, m.historySubstate a = some h → h ∈ tree)
    (hdef : ∀ a ∈ tree, ∀ r ∈ onInit a, ∀ d,
      (r = .initialTransition d ∨ r = .initialHistoryTransition d) → d ∈ tree)
    (hfuel : subtreeHeight tree c < fuel) :
    (HsmBase.initCurrentState onInit fuel m).result = .ok () := by
  have hinit : ∀ n, ∀ r ∈ onInit n, r.isInitial = true := by
    intro n r hr
    obtain ⟨d, _, h | h⟩ := hvalid n r hr <;> subst h <;> rfl
  have hclosed : ∀ a ∈ tree, ∀ r ∈ onInit a, ∀ x,
      r.initialTarget (m.historySubstate a) = some x → x.superState = some a → x ∈ tree := by
    intro a ha r hr x hx _
    obtain ⟨d, _, h | h⟩ := hvalid a r hr
    · subst h
      simp only [Request.initialTarget, Option.some.injEq] at hx
      subst hx
      exact hdef a ha _ hr _ (Or.inl rfl)
    · subst h
      simp only [Request.initialTarget, Option.some.injEq] at hx
      cases hh : m.historySubstate a with
      | none =>
        rw [hh] at hx
        simp only [Option.getD_none] at hx
        subst hx
        exact hdef a ha _ hr _ (Or.inr rfl)
      | some h0 =>
        rw [hh] at hx
        simp only [Option.getD_some] at hx
        subst hx
        exact hhist a _ hh
  rcases (HsmBase.initCurrentState_bounded onInit hinit tree m.historySubstate hclosed fuel m c
    hcur hnext rfl hc).2 hfuel with h | h
  · exact h
  · exact absurd h (HsmBase.initCurrentState_no_assertion onInit hvalid fuel m c hcur hnext hwf)

/-- The dispatch in which the first accepting handler requests `transition(t)`, on a finite
tree that holds the active chain, the target, the declared defaults and the recorded history,
with `onInit` callbacks that name direct sub states, well-formed history, an entry path that
fits the buffer and more fuel than the height of the subtree of `t`: `onEvent` returns
`true`. -/
theorem HsmBase.onEvent_transition_returns (onInit : HsmStateBase → List Request)
    (hvalid : NamesDirectChildren onInit) (fuel : Nat) (ev : Event) (m : HsmBase)
    (c s t : HsmStateBase) (hcur : m.currentState = some c) (hs : s ∈ c.chain)
    (hbelow : ∀ n ∈ pathUp c s, ev n = ⟨[], false⟩)
    (hev : ev s = ⟨[.transition t], true⟩) (hts : t ≠ s) (htree : t.rootOf = s.rootOf)
    (hlen : (pathDown (lca s t) t).length < MAX_STATE_NESTING)
    (hwf : HistoryWellFormed m.historySubstate) (tree : List HsmStateBase)
    (hchain : ∀ n ∈ c.chain, n ∈ tree) (ht : t ∈ tree)
    (hhist : ∀ a h, m.historySubstate a = some h → h ∈ tree)
    (hdef : ∀ a ∈ tree, ∀ r ∈ onInit a, ∀ d,
      (r = .initialTransition d ∨ r = .initialHistoryTransition d) → d ∈ tree)
    (hfuel : subtreeHeight tree t < fuel) :
    (m.onEvent onInit fuel ev).result = .ok true := by
  have hl := lca_isLCA htree.symm
  have hexit := HsmBase.exitUpToLCA_eq { m with sourceState := some s } (c := c) (s := s)
    (t := t) (l := lca s t) hcur rfl hs hts hl
  have hrun : m.onEvent onInit fuel ev
      = Run.after ((pathUp c s).map .onEvent ++ [.onEvent s]
            ++ (pathUp c (lca s t)).map .onExit ++ (pathDown (lca s t) t).map .onEnter)
          ((HsmBase.initCurrentState onInit fuel
              { m.rememberAll (pathUp c (lca s t)) with
                currentState := some t, nextState := none, sourceState := some s }).bind
            fun _ m2 => Run.pure true m2) := by
    rw [HsmBase.onEvent_eq_onEventFrom onInit fuel ev m hcur,
      HsmBase.onEventFrom_walk onInit fuel ev m hs hbelow,
      HsmBase.onEventFrom_transition onInit fuel ev m s t _ _ (by simp [hcur]) hev hexit,
      HsmBase.enterAndInitNextState_eq onInit fuel _ (l := lca s t) (t := t) rfl rfl
        hl.2.1 hlen]
    simp only [Run.after_bind, Run.after_after, List.append_assoc,
      HsmBase.rememberAll_with_sourceState]
  have hret := HsmBase.initCurrentState_returns onInit hvalid tree fuel
    { m.rememberAll (pathUp c (lca s t)) with
      currentState := some t, nextState := none, sourceState := some s } t rfl rfl
    (HsmBase.rememberAll_wf _ m hwf) ht
    (fun a h hh => by
      rcases HsmBase.rememberAll_mem _ m a h hh with h1 | h1
      · exact hchain _ (pathUp_subset_chain h1)
      · exact hhist a h h1)
    hdef hfuel
  rw [hrun]
  simp only [Run.after, Run.bind, hret, Run.pure]

theorem hierarchyInit_names_direct_children : NamesDirectChildren hierarchyInit := by
  intro n r hr
  unfold hierarchyInit at hr
  split_ifs at hr with h1 h2 h3 h4
  · simp only [List.mem_singleton] at hr
    subst hr h1
    exact ⟨hierarchyS1, rfl, Or.inl rfl⟩
  · simp only [List.mem_singleton] at hr
    subst hr h2
    exact ⟨hierarchyS11, rfl, Or.inl rfl⟩
  · simp only [List.mem_singleton] at hr
    subst hr h3
    exact ⟨hierarchyS21, rfl, Or.inl rfl⟩
  · simp only [List.mem_singleton] at hr
    subst hr h4
    exact ⟨hierarchyS211, rfl, Or.inl rfl⟩
  · simp at hr

theorem hierarchyStates_hold_defaults :
    ∀ a ∈ hierarchyStates, ∀ r ∈ hierarchyInit a, ∀ d,
      (r = .initialTransition d ∨ r = .initialHistoryTransition d) → d ∈ hierarchyStates := by
  intro a _ r hr d hd
  unfold hierarchyInit at hr
  split_ifs at hr <;> simp only [List.mem_singleton, List.not_mem_nil] at hr <;> subst hr <;>
    rcases hd with hd | hd <;> simp only [Request.initialTransition.injEq, reduceCtorEq] at hd <;>
    subst hd <;> decide

/-- Event `C` of the hierarchy test in state `S11`, handled by `S1` with `transition(S2)`:
the conditions under which the dispatch is proved to return hold, and it returns `true`. -/
theorem hierarchy_test_transition_returns :
    (hierarchyStarted.onEvent hierarchyInit 3 hierarchyEventC).result = .ok true :=
  HsmBase.onEvent_transition_returns hierarchyInit hierarchyInit_names_direct_children 3
    hierarchyEventC hierarchyStarted hierarchyS11 hierarchyS1 hierarchyS2 (by decide)
    (by decide) (by decide) (by decide) (by decide) (by decide) (by decide)
    (by
      intro p h hh
      have e : hierarchyStarted.historySubstate = fun _ => none := rfl
      rw [e] at hh
      exact absurd hh (by simp))
    hierarchyStates (by decide) (by decide)
    (by
      intro a h hh
      have e : hierarchyStarted.historySubstate = fun _ => none := rfl
      rw [e] at hh
      exact absurd hh (by simp))
    hierarchyStates_hold_defaults (by decide)

/-- C2: for every started machine (current state `c`) and every event. Whatever the handlers
call: the handlers that `onEvent` invokes are those of `c`, of the super state of `c`, and so
on toward the root, in this order and each at most once, never beyond the first one that
returns `true`; when `onEvent` returns they are exactly the handlers up to and including the
first that returns `true`, and the value returned is `true` exactly when some handler on the
chain from `c` to the root returns `true`. When the handlers that decline make no engine
call, the walk is exactly that in every run; if no handler accepts, `onEvent` returns `false`
after the handlers of the whole chain; if the handler of `s` is the first to accept,
`onEvent` is the walk up to `s` followed by the engine calls of that handler and the entry of
the pending state, it does not return `false`, it returns `true` at once when that handler
requests nothing, and it returns `true` when that handler requests `transition(t)` to another
state `t` of a finite tree (holding the active chain, `t`, the declared defaults and the
recorded history) whose `onInit` callbacks name direct sub states, with well-formed history,
an entry path that fits the buffer of `enterNextState` and more fuel than the height of the
subtree of `t`. -/
theorem c2_handlers_walk_up_to_first_accepting (onInit : HsmStateBase → List Request)
    (fuel : Nat) (ev : Event) (m : HsmBase) (c : HsmStateBase)
    (hcur : m.currentState = some c) :
    ((m.onEvent onInit fuel ev).trace.filter Callback.isHandler
        <+: (handlerWalk ev c.chain).map .onEvent) ∧
    ((m.onEvent onInit fuel ev).trace.filter Callback.isHandler).Nodup ∧
    (∀ b, (m.onEvent onInit fuel ev).result = .ok b →
      (m.onEvent onInit fuel ev).trace.filter Callback.isHandler
          = (handlerWalk ev c.chain).map .onEvent ∧
        (b = true ↔ ∃ n ∈ c.chain, (ev n).handled = true)) ∧
    ((∀ n ∈ c.chain, (ev n).handled = false → (ev n).requests = []) →
      (m.onEvent onInit fuel ev).trace.filter Callback.isHandler
          = (handlerWalk ev c.chain).map .onEvent ∧
      ((∀ n ∈ c.chain, (ev n).handled = false) →
        m.onEvent onInit fuel ev
          = ⟨c.chain.map .onEvent, { m with sourceState := some c.rootOf }, .ok false⟩) ∧
      (∀ s ∈ c.chain, (ev s).handled = true → (∀ n ∈ pathUp c s, (ev n).handled = false) →
        m.onEvent onInit fuel ev
          = Run.after ((pathUp c s).map .onEvent ++ [.onEvent s])
              (({ m with sourceState := some s }.calls (ev s).requests).bind
                fun _ m1 => m1.afterHandled onInit fuel) ∧
        (m.onEvent onInit fuel ev).result ≠ .ok false ∧
        ((ev s).requests = [] → m.nextState = none →
          m.onEvent onInit fuel ev
            = ⟨(pathUp c s).map .onEvent ++ [.onEvent s], { m with sourceState := some s },
                .ok true⟩) ∧
        (∀ (t : HsmStateBase) (tree : List HsmStateBase),
          (ev s).requests = [.transition t] → t ≠ s → t.rootOf = s.rootOf →
          (pathDown (lca s t) t).length < MAX_STATE_NESTING →
          NamesDirectChildren onInit → HistoryWellFormed m.historySubstate →
          (∀ n ∈ c.chain, n ∈ tree) → t ∈ tree →
          (∀ a h, m.historySubstate a = some h → h ∈ tree) →
          (∀ a ∈ tree, ∀ r ∈ onInit a, ∀ d,
            (r = .initialTransition d ∨ r = .initialHistoryTransition d) → d ∈ tree) →
          subtreeHeight tree t < fuel →
          (m.onEvent onInit fuel ev).result = .ok true))) := by
  have hgen := HsmBase.onEventFrom_handlers onInit fuel ev m c
  have hnodup : ((handlerWalk ev c.chain).map Callback.onEvent).Nodup :=
    ((c.chain_nodup.sublist (handlerWalk_initial_part ev c.chain).sublist).map
      (fun a b h => by simpa using h))
  rw [HsmBase.onEvent_eq_onEventFrom onInit fuel ev m hcur]
  refine ⟨hgen.1, hnodup.sublist hgen.1.sublist, fun b hb => ⟨(hgen.2 b hb).1, ?_⟩,
    fun hdecl => ⟨HsmBase.onEventFrom_handlers_of_declining onInit fuel ev c m hdecl,
      fun hnone => ?_, fun s hs hh hbelow => ?_⟩⟩
  · rw [(hgen.2 b hb).2]
    simp
  · obtain ⟨i, hi⟩ := c.rootOf_eq_root
    have hall : ∀ n ∈ c.chain, ev n = ⟨[], false⟩ := fun n hn =>
      Reaction.eq_of_fields (hdecl n hn (hnone n hn)) (hnone n hn)
    rw [HsmBase.onEventFrom_walk onInit fuel ev m c.rootOf_mem_chain
        (fun n hn => hall n (pathUp_subset_chain hn)), c.chain_root_eq, hi,
      HsmBase.onEventFrom_root_pass onInit fuel ev m i (hi ▸ hall _ c.rootOf_mem_chain)]
    simp [Run.after]
  · have hb2 : ∀ n ∈ pathUp c s, ev n = ⟨[], false⟩ := fun n hn =>
      Reaction.eq_of_fields (hdecl n (pathUp_subset_chain hn) (hbelow n hn)) (hbelow n hn)
    have hrun : m.onEventFrom onInit fuel ev c
        = Run.after ((pathUp c s).map .onEvent ++ [.onEvent s])
            (({ m with sourceState := some s }.calls (ev s).requests).bind
              fun _ m1 => m1.afterHandled onInit fuel) := by
      rw [HsmBase.onEventFrom_walk onInit fuel ev m hs hb2,
        HsmBase.onEventFrom_accepting onInit fuel ev m s hh, Run.after_after]
    refine ⟨hrun, ?_, fun hreq hnext => ?_,
      fun t tree hreq hts htree hlen hvalid hwf hchain ht hhist hdef hfuel => ?_⟩
    · intro hfalse
      have := (hgen.2 false hfalse).2
      have hany : c.chain.any (fun n => (ev n).handled) = true :=
        List.any_eq_true.2 ⟨s, hs, hh⟩
      rw [hany] at this
      exact absurd this (by simp)
    · rw [HsmBase.onEventFrom_walk onInit fuel ev m hs hb2,
        HsmBase.onEventFrom_internal onInit fuel ev m s hnext
          (Reaction.eq_of_fields hreq hh)]
      rfl
    · have hret := HsmBase.onEvent_transition_returns onInit hvalid fuel ev m c s t hcur hs hb2
        (Reaction.eq_of_fields hreq hh) hts htree hlen hwf tree hchain ht hhist hdef hfuel
      rwa [HsmBase.onEvent_eq_onEventFrom onInit fuel ev m hcur] at hret

/-- C2, witness: event `C` of the hierarchy test in state `S11`: `S11` declines, `S1` accepts
with `transition(S2)`, the handler of `TOP` is not invoked and `onEvent` returns `true`. -/
theorem c2_handlers_walk_up_to_first_accepting_witness :
    (((hierarchyStarted.onEvent hierarchyInit 3 hierarchyEventC).trace.filter
          Callback.isHandler
        <+: (handlerWalk hierarchyEventC hierarchyS11.chain).map .onEvent) ∧
    ((hierarchyStarted.onEvent hierarchyInit 3 hierarchyEventC).trace.filter
      Callback.isHandler).Nodup ∧
    (∀ b, (hierarchyStarted.onEvent hierarchyInit 3 hierarchyEventC).result = .ok b →
      (hierarchyStarted.onEvent hierarchyInit 3 hierarchyEventC).trace.filter
            Callback.isHandler
          = (handlerWalk hierarchyEventC hierarchyS11.chain).map .onEvent ∧
        (b = true ↔ ∃ n ∈ hierarchyS11.chain, (hierarchyEventC n).handled = true)) ∧
    ((∀ n ∈ hierarchyS11.chain, (hierarchyEventC n).handled = false →
        (hierarchyEventC n).requests = []) →
      (hierarchyStarted.onEvent hierarchyInit 3 hierarchyEventC).trace.filter
            Callback.isHandler
          = (handlerWalk hierarchyEventC hierarchyS11.chain).map .onEvent ∧
      ((∀ n ∈ hierarchyS11.chain, (hierarchyEventC n).handled = false) →
        hierarchyStarted.onEvent hierarchyInit 3 hierarchyEventC
          = ⟨hierarchyS11.chain.map .onEvent,
              { hierarchyStarted with sourceState := some hierarchyS11.rootOf },
              .ok false⟩) ∧
      (∀ s ∈ hierarchyS11.chain, (hierarchyEventC s).handled = true →
        (∀ n ∈ pathUp hierarchyS11 s, (hierarchyEventC n).handled = false) →
        hierarchyStarted.onEvent hierarchyInit 3 hierarchyEventC
          = Run.after ((pathUp hierarchyS11 s).map .onEvent ++ [.onEvent s])
              (({ hierarchyStarted with sourceState := some s }.calls
                  (hierarchyEventC s).requests).bind
                fun _ m1 => m1.afterHandled hierarchyInit 3) ∧
        (hierarchyStarted.onEvent hierarchyInit 3 hierarchyEventC).result ≠ .ok false ∧
        ((hierarchyEventC s).requests = [] → hierarchyStarted.nextState = none →
          hierarchyStarted.onEvent hierarchyInit 3 hierarchyEventC
            = ⟨(pathUp hierarchyS11 s).map .onEvent ++ [.onEvent s],
                { hierarchyStarted with sourceState := some s }, .ok true⟩) ∧
        (∀ (t : HsmStateBase) (tree : List HsmStateBase),
          (hierarchyEventC s).requests = [.transition t] → t ≠ s → t.rootOf = s.rootOf →
          (pathDown (lca s t) t).length < MAX_STATE_NESTING →
          NamesDirectChildren hierarchyInit →
          HistoryWellFormed hierarchyStarted.historySubstate →
          (∀ n ∈ hierarchyS11.chain, n ∈ tree) → t ∈ tree →
          (∀ a h, hierarchyStarted.historySubstate a = some h → h ∈ tree) →
          (∀ a ∈ tree, ∀ r ∈ hierarchyInit a, ∀ d,
            (r = .initialTransition d ∨ r = .initialHistoryTransition d) → d ∈ tree) →
          subtreeHeight tree t < 3 →
          (hierarchyStarted.onEvent hierarchyInit 3 hierarchyEventC).result = .ok true)))) ∧
    (∀ n ∈ hierarchyS11.chain, (hierarchyEventC n).handled = false →
      (hierarchyEventC n).requests = []) ∧
    (hierarchyStarted.onEvent hierarchyInit 3 hierarchyEventC).result = .ok true ∧
    (hierarchyStarted.onEvent hierarchyInit 3 hierarchyEventC).trace.filter Callback.isHandler
      = [.onEvent hierarchyS11, .onEvent hierarchyS1] :=
  ⟨c2_handlers_walk_up_to_first_accepting hierarchyInit 3 hierarchyEventC hierarchyStarted
    hierarchyS11 (by decide), by decide, by decide, by decide⟩

/-- C15 (amended): for every started machine (current state `c`) and every event, `sourceState`
is not null after `onEvent`; when the dispatch returns, handled or not, `sourceState` points at
the state whose handler was tried last — the first state on the chain from `c` whose handler
returns `true`, or the root when none does. It is not cleared; `nextState` is null again when
the dispatch returns, provided nothing was pending before and the handlers call the engine
only when they return `true`. -/
theorem c15_source_points_at_last_visited_state (onInit : HsmStateBase → List Request)
    (fuel : Nat) (ev : Event) (m : HsmBase) (c : HsmStateBase)
    (hcur : m.currentState = some c) :
    (m.onEvent onInit fuel ev).hsm.sourceState ≠ none ∧
    (∀ b, (m.onEvent onInit fuel ev).result = .ok b →
      (m.onEvent onInit fuel ev).hsm.sourceState = (handlerWalk ev c.chain).getLast?) ∧
    (m.nextState = none → (∀ n, (ev n).requests = [] ∨ (ev n).handled = true) →
      ∀ b, (m.onEvent onInit fuel ev).result = .ok b →
        (m.onEvent onInit fuel ev).hsm.nextState = none) := by
  rw [HsmBase.onEvent_eq_onEventFrom onInit fuel ev m hcur]
  have h := HsmBase.onEventFrom_sourceState_after onInit fuel ev c m
  refine ⟨h.1, h.2, fun hnext hev b hb => ?_⟩
  rcases HsmBase.onEventFrom_settled onInit fuel ev hev c m b hnext hb with
    ⟨_, h2, _⟩ | ⟨d, _, hd2, _, _⟩
  · exact h2
  · exact hd2

/-- C15, witness: event `C` of the hierarchy test in state `S11`. -/
theorem c15_source_points_at_last_visited_state_witness :
    (hierarchyStarted.onEvent hierarchyInit 3 hierarchyEventC).hsm.sourceState ≠ none ∧
    (∀ b, (hierarchyStarted.onEvent hierarchyInit 3 hierarchyEventC).result = .ok b →
      (hierarchyStarted.onEvent hierarchyInit 3 hierarchyEventC).hsm.sourceState
        = (handlerWalk hierarchyEventC hierarchyS11.chain).getLast?) ∧
    (hierarchyStarted.nextState = none →
      (∀ n, (hierarchyEventC n).requests = [] ∨ (hierarchyEventC n).handled = true) →
      ∀ b, (hierarchyStarted.onEvent hierarchyInit 3 hierarchyEventC).result = .ok b →
        (hierarchyStarted.onEvent hierarchyInit 3 hierarchyEventC).hsm.nextState = none) :=
  c15_source_points_at_last_visited_state hierarchyInit 3 hierarchyEventC hierarchyStarted
    hierarchyS11 (by decide)

/-! ## A transition through the least common ancestor -/

/-- C1 (amended): in every tree, for a started machine with current state `c`, `onInit`
callbacks that only request initial descents, and an event whose first accepting handler sits
at `s` on the chain of `c` (the handlers below it call nothing and return `false`) and
requests `transition(t)` with `t ≠ s`, `t` in the tree of `s`, and at most six states on the
path from the least common ancestor down to `t` (one less than `MAX_STATE_NESTING`):
`lca s t` is the least common ancestor of `s` and `t`, and `onEvent` invokes the handlers from
`c` up to `s`, then `onExit` on exactly the states from `c` up to but excluding the least
common ancestor, deepest first, then `onEnter` on exactly the states from the least common
ancestor (excluded) down to `t`, shallowest first, and then runs the settling loop at `t`,
which begins with `onInit(t)` and invokes only `onInit` on `t` and states below it and
`onEnter` on states strictly below `t`. No other state receives `onExit` or `onEnter`. -/
theorem c1_transition_exits_and_enters_through_lca (onInit : HsmStateBase → List Request)
    (hinit : ∀ n, ∀ r ∈ onInit n, r.isInitial = true)
    (fuel : Nat) (ev : Event) (m : HsmBase) (c s t : HsmStateBase)
    (hcur : m.currentState = some c) (hs : s ∈ c.chain)
    (hbelow : ∀ n ∈ pathUp c s, ev n = ⟨[], false⟩)
    (hev : ev s = ⟨[.transition t], true⟩) (hts : t ≠ s) (htree : t.rootOf = s.rootOf)
    (hlen : (pathDown (lca s t) t).length < MAX_STATE_NESTING) :
    IsLCA (lca s t) s t ∧
    m.onEvent onInit (fuel + 1) ev
      = Run.after ((pathUp c s).map .onEvent ++ [.onEvent s]
            ++ (pathUp c (lca s t)).map .onExit ++ (pathDown (lca s t) t).map .onEnter)
          ((HsmBase.initCurrentState onInit (fuel + 1)
              { m.rememberAll (pathUp c (lca s t)) with
                currentState := some t, nextState := none, sourceState := some s }).bind
            fun _ m2 => Run.pure true m2) ∧
    (∃ rest, ((HsmBase.initCurrentState onInit (fuel + 1)
        { m.rememberAll (pathUp c (lca s t)) with
          currentState := some t, nextState := none, sourceState := some s }).bind
        fun _ m2 => Run.pure true m2).trace = .onInit t :: rest) ∧
    (∀ cb ∈ ((HsmBase.initCurrentState onInit (fuel + 1)
        { m.rememberAll (pathUp c (lca s t)) with
          currentState := some t, nextState := none, sourceState := some s }).bind
        fun _ m2 => Run.pure true m2).trace, cb.SettlesBelow t) ∧
    (∀ n, .onExit n ∈ (m.onEvent onInit (fuel + 1) ev).trace ↔ n ∈ pathUp c (lca s t)) ∧
    (∀ n, .onEnter n ∈ (m.onEvent onInit (fuel + 1) ev).trace →
      n ∈ pathDown (lca s t) t ∨ (t ∈ n.chain ∧ n ≠ t)) ∧
    (∀ n ∈ pathDown (lca s t) t, .onEnter n ∈ (m.onEvent onInit (fuel + 1) ev).trace) := by
  have hl := lca_isLCA htree.symm
  have hexit := HsmBase.exitUpToLCA_eq { m with sourceState := some s } (c := c) (s := s)
    (t := t) (l := lca s t) hcur rfl hs hts hl
  have hrun : m.onEvent onInit (fuel + 1) ev
      = Run.after ((pathUp c s).map .onEvent ++ [.onEvent s]
            ++ (pathUp c (lca s t)).map .onExit ++ (pathDown (lca s t) t).map .onEnter)
          ((HsmBase.initCurrentState onInit (fuel + 1)
              { m.rememberAll (pathUp c (lca s t)) with
                currentState := some t, nextState := none, sourceState := some s }).bind
            fun _ m2 => Run.pure true m2) := by
    rw [HsmBase.onEvent_eq_onEventFrom onInit (fuel + 1) ev m hcur,
      HsmBase.onEventFrom_walk onInit (fuel + 1) ev m hs hbelow,
      HsmBase.onEventFrom_transition onInit (fuel + 1) ev m s t _ _ (by simp [hcur]) hev hexit,
      HsmBase.enterAndInitNextState_eq onInit (fuel + 1) _ (l := lca s t) (t := t) rfl rfl
        hl.2.1 hlen]
    simp only [Run.after_bind, Run.after_after, List.append_assoc,
      HsmBase.rememberAll_with_sourceState]
  have hsettle : ∀ cb ∈ ((HsmBase.initCurrentState onInit (fuel + 1)
      { m.rememberAll (pathUp c (lca s t)) with
        currentState := some t, nextState := none, sourceState := some s }).bind
      fun _ m2 => Run.pure true m2).trace, cb.SettlesBelow t := by
    rw [Run.bind_pure_trace]
    exact HsmBase.initCurrentState_settlesBelow onInit hinit (fuel + 1) _ t rfl
  refine ⟨hl, hrun, HsmBase.initCurrentState_head onInit fuel _ _ rfl, hsettle, fun n => ?_,
    fun n hn => ?_, fun n hn => ?_⟩
  · rw [hrun]
    simp only [Run.after, List.mem_append, List.mem_map, List.mem_singleton, reduceCtorEq,
      and_false, exists_false, false_or, or_false, Callback.onExit.injEq, exists_eq_right]
    constructor
    · rintro (h | h)
      · exact h
      · exact absurd (hsettle _ h) (by simp [Callback.SettlesBelow])
    · exact fun h => Or.inl h
  · rw [hrun] at hn
    simp only [Run.after, List.mem_append, List.mem_map, List.mem_singleton, reduceCtorEq,
      and_false, exists_false, false_or, or_false, Callback.onEnter.injEq,
      exists_eq_right] at hn
    rcases hn with h | h
    · exact Or.inl h
    · exact Or.inr (hsettle _ h)
  · rw [hrun]
    simp only [Run.after, List.mem_append, List.mem_map, List.mem_singleton, reduceCtorEq,
      and_false, exists_false, false_or, or_false, Callback.onEnter.injEq, exists_eq_right]
    exact Or.inl hn

/-- C1, witness: event `C` of the hierarchy test in state `S11`, handled by `S1` with
`transition(S2)`. -/
theorem c1_transition_exits_and_enters_through_lca_witness :
    IsLCA (lca hierarchyS1 hierarchyS2) hierarchyS1 hierarchyS2 ∧
    hierarchyStarted.onEvent hierarchyInit (2 + 1) hierarchyEventC
      = Run.after ((pathUp hierarchyS11 hierarchyS1).map .onEvent ++ [.onEvent hierarchyS1]
            ++ (pathUp hierarchyS11 (lca hierarchyS1 hierarchyS2)).map .onExit
            ++ (pathDown (lca hierarchyS1 hierarchyS2) hierarchyS2).map .onEnter)
          ((HsmBase.initCurrentState hierarchyInit (2 + 1)
              { hierarchyStarted.rememberAll (pathUp hierarchyS11 (lca hierarchyS1 hierarchyS2))
                with currentState := some hierarchyS2, nextState := none,
                     sourceState := some hierarchyS1 }).bind
            fun _ m2 => Run.pure true m2) ∧
    (∃ rest, ((HsmBase.initCurrentState hierarchyInit (2 + 1)
        { hierarchyStarted.rememberAll (pathUp hierarchyS11 (lca hierarchyS1 hierarchyS2))
          with currentState := some hierarchyS2, nextState := none,
               sourceState := some hierarchyS1 }).bind
        fun _ m2 => Run.pure true m2).trace = .onInit hierarchyS2 :: rest) ∧
    (∀ cb ∈ ((HsmBase.initCurrentState hierarchyInit (2 + 1)
        { hierarchyStarted.rememberAll (pathUp hierarchyS11 (lca hierarchyS1 hierarchyS2))
          with currentState := some hierarchyS2, nextState := none,
               sourceState := some hierarchyS1 }).bind
        fun _ m2 => Run.pure true m2).trace, cb.SettlesBelow hierarchyS2) ∧
    (∀ n, .onExit n ∈ (hierarchyStarted.onEvent hierarchyInit (2 + 1) hierarchyEventC).trace
      ↔ n ∈ pathUp hierarchyS11 (lca hierarchyS1 hierarchyS2)) ∧
    (∀ n, .onEnter n ∈ (hierarchyStarted.onEvent hierarchyInit (2 + 1) hierarchyEventC).trace →
      n ∈ pathDown (lca hierarchyS1 hierarchyS2) hierarchyS2 ∨
        (hierarchyS2 ∈ n.chain ∧ n ≠ hierarchyS2)) ∧
    (∀ n ∈ pathDown (lca hierarchyS1 hierarchyS2) hierarchyS2,
      .onEnter n ∈ (hierarchyStarted.onEvent hierarchyInit (2 + 1) hierarchyEventC).trace) :=
  c1_transition_exits_and_enters_through_lca hierarchyInit
    (by
      intro n r hr
      unfold hierarchyInit at hr
      split_ifs at hr <;> simp at hr <;> subst hr <;> rfl)
    2 hierarchyEventC hierarchyStarted
    hierarchyS11 hierarchyS1 hierarchyS2 (by decide) (by decide) (by decide) (by decide)
    (by decide) (by decide) (by decide)

/-- C1, counterexample: in the tree with root `deepTop`, started at the leaf `deepLeaf` below
the root, the handler of `deepLeaf` requests `transition(deep12)`; the least common ancestor is
the root and the entry path has twelve states. The trace loop of `enterNextState` writes them
to the slots 1 to 12 of `entry_path`, which has the slots 0 to 6: the writes to the slots 7 to
12 are outside the array, and the dispatch does not complete as the claim says (in the model
it stops at the first write past the buffer). An entry path of seven states, as the one to
`deep7`, is written to the slots 1 to 7, the last of which is outside the array as well. -/
theorem c1_entry_path_of_twelve_states_leaves_the_buffer :
    (HsmBase.onStart deepInit 2 (HsmBase.new deepTop)).result = .ok () ∧
    (HsmBase.onStart deepInit 2 (HsmBase.new deepTop)).hsm.currentState = some deepLeaf ∧
    (HsmBase.onStart deepInit 2 (HsmBase.new deepTop)).hsm.nextState = none ∧
    deepEvent12 deepLeaf = ⟨[.transition deep12], true⟩ ∧ deep12 ≠ deepLeaf ∧
    deep12.rootOf = deepLeaf.rootOf ∧ lca deepLeaf deep12 = deepTop ∧
    MAX_STATE_NESTING = 7 ∧
    (pathDown deepTop deep12).length = 12 ∧
    (entryPathWrites (some deepTop) deep12 0).map Prod.fst
      = [1, 2, 3, 4, 5, 6, 7, 8, 9, 10, 11, 12] ∧
    ((HsmBase.onStart deepInit 2 (HsmBase.new deepTop)).hsm.onEvent deepInit 2
      deepEvent12).result = .error .bufferOverflow ∧
    (pathDown deepTop deep7).length = 7 ∧
    (entryPathWrites (some deepTop) deep7 0).map Prod.fst = [1, 2, 3, 4, 5, 6, 7] := by
  decide!

/-- C5, counterexample: in the hierarchy test machine at `S11` with nothing pending, the
handler of `S11` calls `transition(S2)` and returns `false`, and the handler of `S1`, the
first accepting one, returns `true` without calling the engine. `onEvent` returns `true`, but
the exit phase requested by the declined handler was carried out and its target is entered:
`S11` and `S1` receive `onExit`, `S2`, `S21`, `S211` receive `onEnter` and `onInit`, the current
state is `S211`, and `S11` was recorded as the history of `S1`. -/
theorem c5_declined_transition_is_carried_out :
    hierarchyStarted.currentState = some hierarchyS11 ∧
    hierarchyStarted.nextState = none ∧
    hierarchyEventDeclinedTransition hierarchyS11 = ⟨[.transition hierarchyS2], false⟩ ∧
    hierarchyEventDeclinedTransition hierarchyS1 = ⟨[], true⟩ ∧
    (hierarchyStarted.onEvent hierarchyInit 3 hierarchyEventDeclinedTransition).result
      = .ok true ∧
    (hierarchyStarted.onEvent hierarchyInit 3 hierarchyEventDeclinedTransition).trace
      = [.onEvent hierarchyS11, .onExit hierarchyS11, .onExit hierarchyS1,
          .onEvent hierarchyS1, .onEnter hierarchyS2, .onInit hierarchyS2,
          .onEnter hierarchyS21, .onInit hierarchyS21, .onEnter hierarchyS211,
          .onInit hierarchyS211] ∧
    (hierarchyStarted.onEvent hierarchyInit 3 hierarchyEventDeclinedTransition).hsm.currentState
      = some hierarchyS211 ∧
    hierarchyStarted.historySubstate hierarchyS1 = none ∧
    (hierarchyStarted.onEvent hierarchyInit 3
      hierarchyEventDeclinedTransition).hsm.historySubstate hierarchyS1 = some hierarchyS11 := by
  decide

/-- A handler that requests a transition and declines, with no handler accepting: the
dispatch returns `false`, but the exit phase was carried out (`S11` and `S1` exited, `S1`
recorded as the history of `TOP`), the current state is `TOP` and the target stays pending. -/
theorem declined_transition_example :
    (∀ n ∈ hierarchyS11.chain, (hierarchyEventDeclinedOnly n).handled = false) ∧
    (hierarchyStarted.onEvent hierarchyInit 3 hierarchyEventDeclinedOnly).result = .ok false ∧
    (hierarchyStarted.onEvent hierarchyInit 3 hierarchyEventDeclinedOnly).trace
      = [.onEvent hierarchyS11, .onExit hierarchyS11, .onExit hierarchyS1,
          .onEvent hierarchyS1, .onEvent hierarchyTop] ∧
    (hierarchyStarted.onEvent hierarchyInit 3 hierarchyEventDeclinedOnly).hsm.currentState
      = some hierarchyTop ∧
    (hierarchyStarted.onEvent hierarchyInit 3 hierarchyEventDeclinedOnly).hsm.nextState
      = some hierarchyS2 ∧
    (hierarchyStarted.onEvent hierarchyInit 3 hierarchyEventDeclinedOnly).hsm.historySubstate
      hierarchyTop = some hierarchyS1 := by
  decide

/-! ## The history of inactive states -/

theorem Run.keepsInactive_pure {α : Type} (x : α) (m : HsmBase) {c : HsmStateBase}
    (c1 : HsmStateBase)
    {hist : HsmStateBase → Option HsmStateBase} (hcur : m.currentState = some c1)
    (hc : c1 ∈ c.chain) (hh : ∀ q, q ∉ c.chain → m.historySubstate q = hist q) :
    (Run.pure x m).KeepsInactive c hist :=
  ⟨hh, fun _ _ => ⟨c1, hcur, hc⟩⟩

theorem Run.keepsInactive_fail {α : Type} (f : Fault) (m : HsmBase) {c : HsmStateBase}
    {hist : HsmStateBase → Option HsmStateBase}
    (hh : ∀ q, q ∉ c.chain → m.historySubstate q = hist q) :
    (Run.fail f m : Run α).KeepsInactive c hist :=
  ⟨hh, fun _ h => by simp [Run.fail] at h⟩

theorem Run.keepsInactive_after {α : Type} (cbs : List Callback) {r : Run α}
    {c : HsmStateBase} {hist : HsmStateBase → Option HsmStateBase}
    (h : r.KeepsInactive c hist) : (Run.after cbs r).KeepsInactive c hist :=
  h

theorem Run.KeepsInactive.bind_keeps {α β : Type} {r : Run α} {f : α → HsmBase → Run β}
    {c : HsmStateBase} {hist : HsmStateBase → Option HsmStateBase}
    (h : r.KeepsInactive c hist)
    (hf : ∀ x m1 c1, m1.currentState = some c1 → c1 ∈ c.chain →
      (∀ q, q ∉ c.chain → m1.historySubstate q = hist q) → (f x m1).KeepsInactive c hist) :
    (r.bind f).KeepsInactive c hist := by
  cases hres : r.result with
  | error e =>
    rw [Run.bind_of_error hres]
    exact ⟨h.1, fun _ hx => by simp at hx⟩
  | ok x =>
    rw [Run.bind_of_ok hres]
    obtain ⟨c1, hc1, hc1c⟩ := h.2 x hres
    exact Run.keepsInactive_after _ (hf x _ c1 hc1 hc1c h.1)

theorem HsmBase.exitUpToSource_keeps (state : HsmStateBase) :
    ∀ m : HsmBase,
      (∀ q, q ∉ state.chain → (m.exitUpToSource state).hsm.historySubstate q
        = m.historySubstate q) ∧
      ∀ s, (m.exitUpToSource state).result = .ok s → s ∈ state.chain := by
  induction state with
  | root i =>
    intro m
    unfold HsmBase.exitUpToSource
    split_ifs
    · exact ⟨fun _ _ => rfl, fun s hs => by
        simp only [Run.pure, Except.ok.injEq] at hs
        subst hs
        exact HsmStateBase.mem_chain_self _⟩
    · exact ⟨fun _ _ => rfl, fun s hs => by simp [Run.after, Run.fail] at hs⟩
  | sub i p ih =>
    intro m
    unfold HsmBase.exitUpToSource
    split_ifs
    · exact ⟨fun _ _ => rfl, fun s hs => by
        simp only [Run.pure, Except.ok.injEq] at hs
        subst hs
        exact HsmStateBase.mem_chain_self _⟩
    · obtain ⟨h1, h2⟩ := ih (m.remember p (.sub i p))
      refine ⟨fun q hq => ?_, fun s hs => ?_⟩
      · have hqp : q ∉ p.chain := fun h => hq (by simp [HsmStateBase.chain, h])
        have hne : q ≠ p := fun h => hqp (h ▸ HsmStateBase.mem_chain_self _)
        have := h1 q hqp
        simp only [Run.after] at this ⊢
        rw [this]
        simp [HsmBase.remember, Function.update, hne]
      · have := h2 s (by simpa [Run.after] using hs)
        simp [HsmStateBase.chain, this]

theorem HsmBase.exitLevels_keeps (n : Nat) :
    ∀ (m : HsmBase) (state : HsmStateBase),
      (∀ q, q ∉ state.chain → (m.exitLevels n state).hsm.historySubstate q
        = m.historySubstate q) ∧
      ∀ s, (m.exitLevels n state).result = .ok s → s ∈ state.chain := by
  induction n with
  | zero =>
    intro m state
    exact ⟨fun _ _ => rfl, fun s hs => by
      simp only [HsmBase.exitLevels, Run.pure, Except.ok.injEq] at hs
      subst hs
      exact HsmStateBase.mem_chain_self _⟩
  | succ k ih =>
    intro m state
    cases state with
    | root i =>
      exact ⟨fun _ _ => rfl, fun s hs => by
        simp [HsmBase.exitLevels, Run.after, Run.fail] at hs⟩
    | sub i p =>
      obtain ⟨h1, h2⟩ := ih (m.remember p (.sub i p)) p
      refine ⟨fun q hq => ?_, fun s hs => ?_⟩
      · have hqp : q ∉ p.chain := fun h => hq (by simp [HsmStateBase.chain, h])
        have hne : q ≠ p := fun h => hqp (h ▸ HsmStateBase.mem_chain_self _)
        have := h1 q hqp
        simp only [HsmBase.exitLevels, Run.after] at this ⊢
        rw [this]
        simp [HsmBase.remember, Function.update, hne]
      · have := h2 s (by simpa [HsmBase.exitLevels, Run.after] using hs)
        simp [HsmStateBase.chain, this]

theorem HsmBase.exitUpToLCA_keeps (m : HsmBase) (t : HsmStateBase) {c : HsmStateBase}
    (hcur : m.currentState = some c) :
    (m.exitUpToLCA t).KeepsInactive c m.historySubstate := by
  unfold HsmBase.exitUpToLCA
  rw [hcur]
  simp only
  obtain ⟨h1, h2⟩ := HsmBase.exitUpToSource_keeps c m
  cases hres : (m.exitUpToSource c).result with
  | error e =>
    rw [Run.bind_of_error hres]
    exact ⟨h1, fun _ hx => by simp at hx⟩
  | ok s =>
    rw [Run.bind_of_ok hres]
    have hs := h2 s hres
    obtain ⟨h3, h4⟩ := HsmBase.exitLevels_keeps
      ((m.exitUpToSource c).hsm.levelsToLCA t) (m.exitUpToSource c).hsm s
    have hkeep : ∀ q, q ∉ c.chain →
        ((m.exitUpToSource c).hsm.exitLevels
          ((m.exitUpToSource c).hsm.levelsToLCA t) s).hsm.historySubstate q
          = m.historySubstate q := fun q hq => by
      rw [h3 q (fun h => hq (HsmStateBase.mem_chain_trans h hs)), h1 q hq]
    refine Run.keepsInactive_after _ ?_
    cases hres2 : ((m.exitUpToSource c).hsm.exitLevels
        ((m.exitUpToSource c).hsm.levelsToLCA t) s).result with
    | error e =>
      rw [Run.bind_of_error hres2]
      exact ⟨hkeep, fun _ hx => by simp at hx⟩
    | ok l =>
      rw [Run.bind_of_ok hres2]
      refine Run.keepsInactive_after _ (Run.keepsInactive_pure _ _ l rfl
        (HsmStateBase.mem_chain_trans (h4 l hres2) hs) hkeep)

theorem HsmBase.call_keeps (m : HsmBase) (r : Request) {c : HsmStateBase}
    (hcur : m.currentState = some c) :
    (m.call r).KeepsInactive c m.historySubstate := by
  have hne : ¬ (m.currentState = none) := by simp [hcur]
  cases r with
  | transition t =>
    simp only [HsmBase.call, HsmBase.transition, if_neg hne]
    exact (HsmBase.exitUpToLCA_keeps m t hcur).bind_keeps
      (fun _ m1 c1 h1 hc hh => Run.keepsInactive_pure _ _ c1 h1 hc hh)
  | externalTransition t =>
    simp only [HsmBase.call, HsmBase.externalTransition, if_neg hne]
    refine (HsmBase.exitUpToLCA_keeps m t hcur).bind_keeps (fun _ m1 c1 h1 hc hh => ?_)
    rw [h1]
    simp only
    exact Run.keepsInactive_after _ (Run.keepsInactive_pure _ _ c1 rfl hc hh)
  | initialTransition s =>
    exact Run.keepsInactive_pure _ _ c hcur (HsmStateBase.mem_chain_self _)
      (fun _ _ => rfl)
  | initialHistoryTransition s =>
    simp only [HsmBase.call, HsmBase.initialHistoryTransition, hcur]
    cases m.historySubstate c <;>
      exact Run.keepsInactive_pure _ _ c hcur (HsmStateBase.mem_chain_self _)
        (fun _ _ => rfl)

theorem HsmBase.calls_keeps (rs : List Request) :
    ∀ (m : HsmBase) (c : HsmStateBase), m.currentState = some c →
      (m.calls rs).KeepsInactive c m.historySubstate := by
  induction rs with
  | nil =>
    intro m c hcur
    exact Run.keepsInactive_pure _ _ c hcur (HsmStateBase.mem_chain_self _)
      (fun _ _ => rfl)
  | cons r rs ih =>
    intro m c hcur
    rw [HsmBase.calls]
    refine (HsmBase.call_keeps m r hcur).bind_keeps (fun _ m1 c1 h1 hc hh => ?_)
    obtain ⟨h2, h3⟩ := ih m1 c1 h1
    refine ⟨fun q hq => ?_, fun x hx => ?_⟩
    · rw [h2 q (fun h => hq (HsmStateBase.mem_chain_trans h hc)), hh q hq]
    · obtain ⟨c2, hc2, hc2c⟩ := h3 x hx
      exact ⟨c2, hc2, HsmStateBase.mem_chain_trans hc2c hc⟩

/-- With `onInit` callbacks that only request initial descents, whatever the handlers do: a
dispatch keeps the recorded history of every state that is not active when it starts (not on
the chain of the current state). -/
theorem HsmBase.afterHandled_history (onInit : HsmStateBase → List Request)
    (hinit : ∀ n, ∀ r ∈ onInit n, r.isInitial = true) (fuel : Nat) (m : HsmBase) :
    (m.afterHandled onInit fuel).hsm.historySubstate = m.historySubstate := by
  unfold HsmBase.afterHandled
  split
  · exact (HsmBase.enterAndInitNextState_frame onInit hinit fuel m).1
  · rfl

theorem HsmBase.onEventFrom_keeps (onInit : HsmStateBase → List Request)
    (hinit : ∀ n, ∀ r ∈ onInit n, r.isInitial = true) (fuel : Nat) (ev : Event)
    (state : HsmStateBase) :
    ∀ (m : HsmBase) (c : HsmStateBase), m.currentState = some c →
      ∀ q, q ∉ c.chain →
        (m.onEventFrom onInit fuel ev state).hsm.historySubstate q = m.historySubstate q := by
  induction state with
  | root i =>
    intro m c hcur q hq
    obtain ⟨h1, h2⟩ := HsmBase.calls_keeps (ev (.root i)).requests
      { m with sourceState := some (.root i) } c hcur
    cases hres : (HsmBase.calls { m with sourceState := some (.root i) }
        (ev (.root i)).requests).result with
    | error e =>
      rw [HsmBase.onEventFrom_fault onInit fuel ev m _ e hres]
      exact h1 q hq
    | ok u =>
      cases hh : (ev (.root i)).handled with
      | true =>
        rw [HsmBase.onEventFrom_handled onInit fuel ev m _ hres hh]
        simp only [Run.after]
        rw [HsmBase.afterHandled_history onInit hinit fuel]
        exact h1 q hq
      | false =>
        rw [HsmBase.onEventFrom_root_unhandled onInit fuel ev m _ hres hh]
        exact h1 q hq
  | sub i p ih =>
    intro m c hcur q hq
    obtain ⟨h1, h2⟩ := HsmBase.calls_keeps (ev (.sub i p)).requests
      { m with sourceState := some (.sub i p) } c hcur
    cases hres : (HsmBase.calls { m with sourceState := some (.sub i p) }
        (ev (.sub i p)).requests).result with
    | error e =>
      rw [HsmBase.onEventFrom_fault onInit fuel ev m _ e hres]
      exact h1 q hq
    | ok u =>
      cases hh : (ev (.sub i p)).handled with
      | true =>
        rw [HsmBase.onEventFrom_handled onInit fuel ev m _ hres hh]
        simp only [Run.after]
        rw [HsmBase.afterHandled_history onInit hinit fuel]
        exact h1 q hq
      | false =>
        rw [HsmBase.onEventFrom_sub_unhandled onInit fuel ev m _ _ hres hh]
        obtain ⟨c1, hc1, hc1c⟩ := h2 u hres
        simp only [Run.after]
        rw [ih _ c1 hc1 q (fun h => hq (HsmStateBase.mem_chain_trans h hc1c))]
        exact h1 q hq

theorem HsmBase.onEvent_keeps (onInit : HsmStateBase → List Request)
    (hinit : ∀ n, ∀ r ∈ onInit n, r.isInitial = true) (fuel : Nat) (ev : Event) (m : HsmBase)
    {c : HsmStateBase} (hcur : m.currentState = some c) {q : HsmStateBase}
    (hq : q ∉ c.chain) :
    (m.onEvent onInit fuel ev).hsm.historySubstate q = m.historySubstate q := by
  rw [HsmBase.onEvent_eq_onEventFrom onInit fuel ev m hcur]
  exact HsmBase.onEventFrom_keeps onInit hinit fuel ev c m c hcur q hq

theorem Run.bind_pure_hsm {α β : Type} (r : Run α) (g : α → β) :
    (r.bind fun x m2 => Run.pure (g x) m2).hsm = r.hsm := by
  cases r with
  | mk tr h res => cases res <;> simp [Run.bind, Run.after, Run.pure]

theorem HsmBase.onEvents_cons_hsm (onInit : HsmStateBase → List Request) (fuel : Nat)
    (ev : Event) (evs : List Event) (m : HsmBase) {b : Bool}
    (h : (m.onEvent onInit fuel ev).result = .ok b) :
    (m.onEvents onInit fuel (ev :: evs)).hsm
      = ((m.onEvent onInit fuel ev).hsm.onEvents onInit fuel evs).hsm := by
  rw [HsmBase.onEvents, Run.bind_of_ok h]
  simp only [Run.after]
  exact Run.bind_pure_hsm _ _

/-- With `onInit` callbacks that only request initial descents, whatever the handlers do: a
sequence of dispatches, each of which starts while the state `P` is not active, keeps the
recorded history of `P` and of every state below `P`. -/
theorem HsmBase.onEvents_keeps (onInit : HsmStateBase → List Request)
    (hinit : ∀ n, ∀ r ∈ onInit n, r.isInitial = true) (fuel : Nat) (P : HsmStateBase)
    (evs : List Event) :
    ∀ m : HsmBase,
      (∀ k, k < evs.length → ∃ ck,
        (m.onEvents onInit fuel (evs.take k)).hsm.currentState = some ck ∧ P ∉ ck.chain) →
      ∀ q, P ∈ q.chain →
        (m.onEvents onInit fuel evs).hsm.historySubstate q = m.historySubstate q := by
  induction evs with
  | nil =>
    intro m _ q _
    rfl
  | cons ev evs ih =>
    intro m hidle q hq
    obtain ⟨c0, hc0, hP0⟩ := hidle 0 (by simp)
    have hc0 : m.currentState = some c0 := hc0
    have hq0 : q ∉ c0.chain := fun h => hP0 (HsmStateBase.mem_chain_trans hq h)
    have hstep := HsmBase.onEvent_keeps onInit hinit fuel ev m hc0 hq0
    cases hres : (m.onEvent onInit fuel ev).result with
    | error e =>
      rw [HsmBase.onEvents, Run.bind_of_error hres]
      exact hstep
    | ok b =>
      rw [HsmBase.onEvents_cons_hsm onInit fuel ev evs m hres,
        ih (m.onEvent onInit fuel ev).hsm (fun k hk => ?_) q hq, hstep]
      have := hidle (k + 1) (by simpa using hk)
      rwa [List.take_succ_cons, HsmBase.onEvents_cons_hsm onInit fuel ev _ m hres] at this

/-- C11 (amended): let `onInit(P)` call `initialHistoryTransition(d)` for a direct sub state
`d` of `P`, with `onInit` callbacks that only request initial descents. (1) When the settling
loop runs `onInit(P)` on a machine whose recorded history of `P`, if any, is a direct sub state
of `P`, it next enters `P.historySubstate` if it is set and `d` otherwise, and goes on settling
there. (2) If the sub state `X` of `P` is active when a dispatch exits `P` by a `transition`,
then `P.historySubstate` is `X` when that dispatch returns, and still after any sequence of
further dispatches each of which starts while `P` is not active, whatever their handlers do;
and a dispatch after these in which `P` is not active and the first accepting handler requests
`transition(P)`, with at most six states to enter down to `P`, exits up to the least common
ancestor, enters down to `P`, invokes `onInit(P)` and then enters `X`, whatever the declared
default `d` is, and goes on settling at `X`. -/
theorem c11_history_descent_restores_last_active_child (onInit : HsmStateBase → List Request)
    (fuel : Nat) (P d : HsmStateBase) (i : Nat)
    (hP : onInit P = [.initialHistoryTransition d]) (hd : d.superState = some P)
    (hinit : ∀ n, ∀ r ∈ onInit n, r.isInitial = true)
    (m0 : HsmBase) (hcur0 : m0.currentState = some P)
    (hwf : ∀ h, m0.historySubstate P = some h → h.superState = some P)
    (m : HsmBase) (ev1 : Event) (c1 s1 t1 l1 : HsmStateBase)
    (hcur1 : m.currentState = some c1) (hs1 : s1 ∈ c1.chain)
    (hbelow1 : ∀ n ∈ pathUp c1 s1, ev1 n = ⟨[], false⟩)
    (hev1 : ev1 s1 = ⟨[.transition t1], true⟩) (htree1 : t1.rootOf = s1.rootOf)
    (hstop1 : exitStop s1 t1 = some l1)
    (hactive : HsmStateBase.sub i P ∈ c1.chain) (hexited : P ∈ pathUp c1 l1)
    (evs : List Event)
    (hidle : ∀ k, k < evs.length → ∃ ck,
      ((m.onEvent onInit fuel ev1).hsm.onEvents onInit fuel (evs.take k)).hsm.currentState
        = some ck ∧ P ∉ ck.chain)
    (ev2 : Event) (c2 s2 : HsmStateBase)
    (hcur2 : ((m.onEvent onInit fuel ev1).hsm.onEvents onInit fuel evs).hsm.currentState
      = some c2) (hs2 : s2 ∈ c2.chain)
    (hbelow2 : ∀ n ∈ pathUp c2 s2, ev2 n = ⟨[], false⟩)
    (hev2 : ev2 s2 = ⟨[.transition P], true⟩) (htree2 : P.rootOf = s2.rootOf)
    (hinactive : P ∉ c2.chain)
    (hlen : (pathDown (lca s2 P) P).length < MAX_STATE_NESTING) :
    HsmBase.initCurrentState onInit (fuel + 1) m0
      = Run.after [.onInit P, .onEnter ((m0.historySubstate P).getD d)]
          (HsmBase.initCurrentState onInit fuel
            { m0 with currentState := some ((m0.historySubstate P).getD d),
                      nextState := none }) ∧
    (m.onEvent onInit fuel ev1).hsm.historySubstate P = some (.sub i P) ∧
    ((m.onEvent onInit fuel ev1).hsm.onEvents onInit fuel evs).hsm.historySubstate P
      = some (.sub i P) ∧
    ((m.onEvent onInit fuel ev1).hsm.onEvents onInit fuel evs).hsm.onEvent onInit (fuel + 1) ev2
      = Run.after ((pathUp c2 s2).map .onEvent ++ [.onEvent s2]
            ++ (pathUp c2 (lca s2 P)).map .onExit ++ (pathDown (lca s2 P) P).map .onEnter
            ++ [.onInit P, .onEnter (.sub i P)])
          ((HsmBase.initCurrentState onInit fuel
              { ((m.onEvent onInit fuel ev1).hsm.onEvents onInit fuel evs).hsm.rememberAll
                  (pathUp c2 (lca s2 P)) with
                currentState := some (.sub i P), nextState := none,
                sourceState := some s2 }).bind fun _ m2 => Run.pure true m2) := by
  have hl1 : l1 ∈ c1.chain :=
    HsmStateBase.mem_chain_trans (exitStop_mem_chain htree1 hstop1) hs1
  have hrec : (m.onEvent onInit fuel ev1).hsm.historySubstate P = some (.sub i P) :=
    HsmBase.onEvent_transition_history onInit fuel hinit ev1 m c1 s1 t1 l1 hcur1 hs1 hbelow1
      hev1 htree1 hstop1 (mem_pathUp_of_super_mem hl1 hactive hexited)
  have hkept : ((m.onEvent onInit fuel ev1).hsm.onEvents onInit fuel evs).hsm.historySubstate P
      = some (.sub i P) := by
    rw [HsmBase.onEvents_keeps onInit hinit fuel P evs _ hidle P P.mem_chain_self, hrec]
  exact ⟨HsmBase.initCurrentState_history onInit fuel m0 P d hcur0 hP hd hwf, hrec, hkept,
    HsmBase.onEvent_transition_into_history onInit fuel ev2 _ c2 s2 P d i hP hkept hcur2 hs2
      hbelow2 hev2 htree2 hinactive hlen⟩

/-- C11, witness: the history test. `ENABLED` has the default `A`. On a machine without
recorded history the settling loop at `ENABLED` enters `A`. With `B` active (after `On`, `B`),
`Off` exits `B` and `ENABLED`; the events `A` and `Off`, which no state handles in `DISABLED`,
follow; then `On`, handled in `DISABLED` by `transition(ENABLED)`, enters `ENABLED` and then
`B`. -/
theorem c11_history_descent_restores_last_active_child_witness :
    HsmBase.initCurrentState historyInit (2 + 1)
        { historyStarted with currentState := some historyEnabled }
      = Run.after [.onInit historyEnabled,
            .onEnter ((HsmBase.historySubstate
              { historyStarted with currentState := some historyEnabled }
              historyEnabled).getD historyA)]
          (HsmBase.initCurrentState historyInit 2
            { { historyStarted with currentState := some historyEnabled } with
              currentState := some ((HsmBase.historySubstate
                { historyStarted with currentState := some historyEnabled }
                historyEnabled).getD historyA),
              nextState := none }) ∧
    (historyInB.onEvent historyInit 2 historyEventOff).hsm.historySubstate historyEnabled
      = some (.sub 22 historyEnabled) ∧
    ((historyInB.onEvent historyInit 2 historyEventOff).hsm.onEvents historyInit 2
        [historyEventA, historyEventOff]).hsm.historySubstate historyEnabled
      = some (.sub 22 historyEnabled) ∧
    ((historyInB.onEvent historyInit 2 historyEventOff).hsm.onEvents historyInit 2
        [historyEventA, historyEventOff]).hsm.onEvent historyInit (2 + 1) historyEventOn
      = Run.after ((pathUp historyDisabled historyDisabled).map .onEvent
            ++ [.onEvent historyDisabled]
            ++ (pathUp historyDisabled (lca historyDisabled historyEnabled)).map .onExit
            ++ (pathDown (lca historyDisabled historyEnabled) historyEnabled).map .onEnter
            ++ [.onInit historyEnabled, .onEnter (.sub 22 historyEnabled)])
          ((HsmBase.initCurrentState historyInit 2
              { ((historyInB.onEvent historyInit 2 historyEventOff).hsm.onEvents historyInit 2
                    [historyEventA, historyEventOff]).hsm.rememberAll
                  (pathUp historyDisabled (lca historyDisabled historyEnabled)) with
                currentState := some (.sub 22 historyEnabled), nextState := none,
                sourceState := some historyDisabled }).bind fun _ m2 => Run.pure true m2) :=
  c11_history_descent_restores_last_active_child historyInit 2 historyEnabled historyA 22
    (by decide) (by decide)
    (by
      intro n r hr
      unfold historyInit at hr
      split_ifs at hr <;> simp at hr <;> subst hr <;> rfl)
    { historyStarted with currentState := some historyEnabled } rfl (by decide)
    historyInB historyEventOff historyB historyEnabled historyDisabled historyTop
    (by decide) (by decide) (by decide) (by decide) (by decide) (by decide) (by decide)
    (by decide)
    [historyEventA, historyEventOff]
    (by
      intro k hk
      have hk2 : k = 0 ∨ k = 1 := by
        simp only [List.length_cons, List.length_nil] at hk
        omega
      rcases hk2 with rfl | rfl
      · exact ⟨historyDisabled, by decide, by decide⟩
      · exact ⟨historyDisabled, by decide, by decide⟩)
    historyEventOn historyDisabled historyDisabled
    (by decide) (by decide) (by decide) (by decide) (by decide) (by decide) (by decide)

/-- C11, counterexample: in the tree with root `deepTop`, `deep12`, twelve levels below the
root, has the sub states `deepActive` and `deepDefault`, and `onInit(deep12)` calls
`initialHistoryTransition(deepDefault)`; every `onInit` requests initial descents only. After
`onStart` (settled in `deepDefault`), a transition to `deepActive` and a transition to
`deepLeaf`, which exits `deep12` while `deepActive` is active, `deepActive` is the recorded
history of `deep12`. The handler of `deepLeaf` then requests `transition(deep12)`: the entry
path from the root has twelve states, the trace loop of `enterNextState` writes the slots 1 to
12 of `entry_path`, which has the slots 0 to 6, and the dispatch does not complete (in the
model it stops at the first write past the buffer) instead of entering `deep12` and then
`deepActive`. -/
theorem c11_history_of_deep_state_is_not_entered :
    deepChainInit deep12 = [.initialHistoryTransition deepDefault] ∧
    deepDefault.superState = some deep12 ∧ deepActive.superState = some deep12 ∧
    deepActive ≠ deepDefault ∧
    (∀ n r, r ∈ deepChainInit n → r.isInitial = true) ∧
    (HsmBase.startAndDispatch deepChainInit 20 [deepEventToActive]
      (HsmBase.new deepTop)).hsm.currentState = some deepActive ∧
    (HsmBase.startAndDispatch deepChainInit 20 [deepEventToActive, deepEventOut]
      (HsmBase.new deepTop)).result = .ok [true, true] ∧
    (HsmBase.startAndDispatch deepChainInit 20 [deepEventToActive, deepEventOut]
      (HsmBase.new deepTop)).hsm.currentState = some deepLeaf ∧
    (HsmBase.startAndDispatch deepChainInit 20 [deepEventToActive, deepEventOut]
      (HsmBase.new deepTop)).hsm.nextState = none ∧
    (HsmBase.startAndDispatch deepChainInit 20 [deepEventToActive, deepEventOut]
      (HsmBase.new deepTop)).hsm.historySubstate deep12 = some deepActive ∧
    deepEvent12 deepLeaf = ⟨[.transition deep12], true⟩ ∧
    lca deepLeaf deep12 = deepTop ∧ MAX_STATE_NESTING = 7 ∧
    (pathDown deepTop deep12).length = 12 ∧
    (entryPathWrites (some deepTop) deep12 0).map Prod.fst
      = [1, 2, 3, 4, 5, 6, 7, 8, 9, 10, 11, 12] ∧
    ((HsmBase.startAndDispatch deepChainInit 20 [deepEventToActive, deepEventOut]
      (HsmBase.new deepTop)).hsm.onEvent deepChainInit 20 deepEvent12).result
      = .error .bufferOverflow := by
  refine ⟨by decide!, by decide, by decide, by decide, ?_, by decide!, by decide!, by decide!,
    by decide!, by decide!, by decide, by decide!, by decide, by decide!, by decide!,
    by decide!⟩
  intro n r hr
  unfold deepChainInit at hr
  split at hr
  · simp only [List.mem_singleton] at hr
    subst hr
    rfl
  · simp at hr

/-! ## Entry paths longer than the buffer, below an ancestor -/

/-- C28, counterexample: in the tree with root `deepTop`, started at the leaf `deepLeaf`, the
handler of `deepLeaf` declines without a call and the handler of the root `deepTop`, a proper
ancestor of the target, requests `transition(deep12)`. The path from `deepTop` (excluded) to
`deep12` has twelve states: the trace loop of `enterNextState` writes the slots 1 to 12 of
`entry_path`, which has the slots 0 to 6, and the dispatch does not complete (in the model it
stops at the first write past the buffer) instead of entering the path and invoking
`onInit(deep12)`. -/
theorem c28_descent_of_twelve_states_leaves_the_buffer :
    (HsmBase.onStart deepInit 2 (HsmBase.new deepTop)).result = .ok () ∧
    (HsmBase.onStart deepInit 2 (HsmBase.new deepTop)).hsm.currentState = some deepLeaf ∧
    (HsmBase.onStart deepInit 2 (HsmBase.new deepTop)).hsm.nextState = none ∧
    deepTop ∈ deepLeaf.chain ∧ deepEventTop12 deepLeaf = ⟨[], false⟩ ∧
    deepEventTop12 deepTop = ⟨[.transition deep12], true⟩ ∧
    deepTop ∈ deep12.chain ∧ deepTop ≠ deep12 ∧
    (∀ n, deepInit n ≠ [] → deepInit n = [.initialTransition deepLeaf]) ∧
    MAX_STATE_NESTING = 7 ∧
    (pathDown deepTop deep12).length = 12 ∧
    (entryPathWrites (some deepTop) deep12 0).map Prod.fst
      = [1, 2, 3, 4, 5, 6, 7, 8, 9, 10, 11, 12] ∧
    ((HsmBase.onStart deepInit 2 (HsmBase.new deepTop)).hsm.onEvent deepInit 2
      deepEventTop12).result = .error .bufferOverflow := by
  refine ⟨by decide, by decide, by decide, by decide, by decide, by decide, by decide,
    by decide, ?_, by decide, by decide, by decide!, by decide!⟩
  intro n hn
  unfold deepInit at hn ⊢
  split_ifs at hn ⊢
  · rfl
  · exact absurd rfl hn

/-! ## Deep history through further dispatches -/

/-- The records of deep history are kept: with `onInit` callbacks that only request initial
descents, after any sequence of dispatches each of which starts while `P` is not active, every
state from `P` down to the super state of `c` has the `historySubstate` it had before,
whatever the handlers do. -/
theorem HsmBase.onEvents_keeps_deep_history (onInit : HsmStateBase → List Request)
    (hinit : ∀ n, ∀ r ∈ onInit n, r.isInitial = true) (fuel : Nat) (P c : HsmStateBase)
    (hPc : P ∈ c.chain) (evs : List Event) (m : HsmBase)
    (hidle : ∀ k, k < evs.length → ∃ ck,
      (m.onEvents onInit fuel (evs.take k)).hsm.currentState = some ck ∧ P ∉ ck.chain) :
    ∀ i q, HsmStateBase.sub i q ∈ pathUp c P →
      (m.onEvents onInit fuel evs).hsm.historySubstate q = m.historySubstate q := by
  intro i q hq
  exact HsmBase.onEvents_keeps onInit hinit fuel P evs m hidle q
    (mem_chain_sub_of_ne (mem_chain_of_mem_pathUp hPc hq) (mem_pathUp_ne hq))

/-- C29, counterexample: in the tree with root `deepTop` every state from `deepTop` down to
`deep12` requests its descent through `initialHistoryTransition`. After `onStart` and a
transition to `deepActive`, the leaf `deepActive` is current; the transition to `deepLeaf`
exits the whole chain and records each state from `deepActive` up as the history of its super
state. The handler of `deepLeaf` then requests `transition(deep12)`, a composite exited
before: the entry path from the root has twelve states, the trace loop of `enterNextState`
writes the slots 1 to 12 of `entry_path`, which has the slots 0 to 6, and the dispatch does
not complete (in the model it stops at the first write past the buffer) instead of settling
on `deepActive`. -/
theorem c29_deep_history_below_deep_state_is_not_restored :
    (∀ s ∈ deep12.chain, ∃ d ∈ deepDefault.chain,
      deepChainInit s = [.initialHistoryTransition d]) ∧
    deepChainInit deepActive = [] ∧ deepChainInit deepDefault = [] ∧
    deepChainInit deepLeaf = [] ∧
    (HsmBase.startAndDispatch deepChainInit 20 [deepEventToActive]
      (HsmBase.new deepTop)).result = .ok [true] ∧
    (HsmBase.startAndDispatch deepChainInit 20 [deepEventToActive]
      (HsmBase.new deepTop)).hsm.currentState = some deepActive ∧
    (HsmBase.startAndDispatch deepChainInit 20 [deepEventToActive, deepEventOut]
      (HsmBase.new deepTop)).result = .ok [true, true] ∧
    (HsmBase.startAndDispatch deepChainInit 20 [deepEventToActive, deepEventOut]
      (HsmBase.new deepTop)).hsm.currentState = some deepLeaf ∧
    (∀ n ∈ deepActive.chain, ∀ p, n.superState = some p →
      (HsmBase.startAndDispatch deepChainInit 20 [deepEventToActive, deepEventOut]
        (HsmBase.new deepTop)).hsm.historySubstate p = some n) ∧
    deepEvent12 deepLeaf = ⟨[.transition deep12], true⟩ ∧
    MAX_STATE_NESTING = 7 ∧ (pathDown (lca deepLeaf deep12) deep12).length = 12 ∧
    (entryPathWrites (some (lca deepLeaf deep12)) deep12 0).map Prod.fst
      = [1, 2, 3, 4, 5, 6, 7, 8, 9, 10, 11, 12] ∧
    ((HsmBase.startAndDispatch deepChainInit 20 [deepEventToActive, deepEventOut]
      (HsmBase.new deepTop)).hsm.onEvent deepChainInit 20 deepEvent12).result
      = .error .bufferOverflow := by
  decide!

end hsp
